import Mathlib

/-!
# ass_tools: timestamp codec, field locator, document model and rewrite of the events

A shallow embedding of `include/ass.hpp` (namespace `ass`) and of the functions `split`
(`src/ass_split.cpp`) and `transform` (`src/ass_time.cpp`).

* `std::string` is a list of characters (`Str`); positions and sizes are natural numbers,
  and `std::string::npos` is the constant `npos = 2 ^ 64 - 1`.
* A function that throws returns `Except Error _`; the constructor says which exception.
* `std::unordered_map` / `std::unordered_set` are association lists / lists, searched
  with `find`.  C++ leaves the iteration order of `std::unordered_set` unspecified; the
  model visits the sections of a document in the order in which they were inserted, and
  the properties of `split` and `transform` are stated for every order or on documents
  for which the order does not matter.
* An object modified through a reference is returned: `ASSFile` methods return the new
  value of `*this`, and `split` and `transform` return their output documents.
* A `std::ifstream` is the list of the characters not yet read, with its `good()` flag;
  `operator<<` returns the characters written and the exception thrown, if any.  A
  character stands for a byte, and `char` is signed, as on x86-64: the byte `0xFF` is the
  character `'\xff'` and has the value `-1`.
* The helpers of `util/string.h` (`StringSplit`, `StringTrim`, `StringPrintf`,
  `StringStartsWith`, `StringEndsWith`, `StringGetAfter`) are declared outside the
  embedded sources and are modelled from the specification.
* `double` is IEEE-754 binary64 with round to nearest, ties to even: a finite value is
  kept exactly as `n / 2 ^ d`, and `std::stod` and the product round the exact result.
-/

namespace ass

/-- C++ `std::string`: a sequence of characters. -/
abbrev Str := List Char

/-- Exceptions thrown by the embedded functions.  `undefined_conversion` is not an
exception: it marks the point where the C++ program converts a `double` that does not fit
the target integer type, which the language leaves undefined; the model stops there
instead of inventing a value.  `undefined_overflow` marks in the same way a sum of
signed 32-bit integers that does not fit the type. -/
inductive Error where
  | io_error (message : String)
  | invalid_argument
  | out_of_range
  | runtime_error (message : String)
  | undefined_conversion
  | undefined_overflow
  deriving DecidableEq, Repr

/-- Results of throwing functions can be compared. -/
instance instDecidableEqExcept {ε α : Type} [DecidableEq ε] [DecidableEq α] :
    DecidableEq (Except ε α)
  | .ok a, .ok b => if h : a = b then isTrue (by rw [h]) else isFalse (fun h2 => h (by cases h2; rfl))
  | .error a, .error b =>
    if h : a = b then isTrue (by rw [h]) else isFalse (fun h2 => h (by cases h2; rfl))
  | .ok _, .error _ => isFalse (fun h => by cases h)
  | .error _, .ok _ => isFalse (fun h => by cases h)

/-- `std::string::npos` for a 64-bit `size_type`. -/
def npos : Nat := 2 ^ 64 - 1

/-- `ass::FIELD_DELIMITER`. -/
def FIELD_DELIMITER : Str := [',']

/-! ## `util/string.h` -/

/-- C `isspace` in the C locale: the whitespace that `std::stoul` and `std::stod` skip,
taken here also as the whitespace that `StringTrim` removes. -/
def isspace (c : Char) : Bool :=
  c = ' ' || c = '\t' || c = '\n' || c = '\x0b' || c = '\x0c' || c = '\r'

/-- Modelled from the spec: `StringTrim` of `util/string.h`, which is not among the
embedded sources ("trims each token", "whitespace-trimmed"): leading and trailing
whitespace is removed. -/
def StringTrim (s : Str) : Str :=
  ((s.dropWhile isspace).reverse.dropWhile isspace).reverse

/-- Modelled from the spec: `StringSplit` of `util/string.h`, which is not among the
embedded sources ("splits on the field delimiter", "splits on `:` into exactly 3
parts").  Every caller passes a one-character
delimiter; the text is cut at every character that occurs in `delim`, no token is merged
or dropped, so a text with `k` delimiters has `k + 1` tokens. -/
def StringSplit : Str → Str → List Str
  | [], _ => [[]]
  | c :: cs, delim =>
    if c ∈ delim then [] :: StringSplit cs delim
    else
      match StringSplit cs delim with
      | [] => [[c]]
      | t :: ts => (c :: t) :: ts

/-- Decimal digits of an unsigned number, as `printf("%u")` writes them. -/
def decimal (n : Nat) : Str := Nat.toDigits 10 n

/-- Modelled from the spec: the conversion `%0<width>u` of `StringPrintf`
(`util/string.h`, not among the embedded sources; "2-digit zero-padded", "minimum 1
digit"): the decimal digits, zero-padded on the left to at least `width` characters. -/
def printf_u (width n : Nat) : Str :=
  List.replicate (width - (decimal n).length) '0' ++ decimal n

/-- `StringPrintf("%01u:%02u:%02u.%02u", h, min, sec, cs)`. -/
def StringPrintf_time (h min sec cs : Nat) : Str :=
  printf_u 1 h ++ [':'] ++ printf_u 2 min ++ [':'] ++ printf_u 2 sec ++ ['.'] ++ printf_u 2 cs

/-! ## `std::string::find` -/

/-- Whether `p` is an initial segment of `s`. -/
def startsWith : Str → Str → Bool
  | _, [] => true
  | [], _ :: _ => false
  | c :: cs, d :: ds => c == d && startsWith cs ds

/-- Search of `delim` in the suffix `s` of a string, `k` being the position of the first
character of `s` in the whole string. -/
def findFrom (delim : Str) : Str → Nat → Nat
  | [], k => if delim = [] then k else npos
  | c :: cs, k => if startsWith (c :: cs) delim then k else findFrom delim cs (k + 1)

/-- `str.find(delim, pos)`: the first position `>= pos` where `delim` occurs, or `npos`. -/
def find (str delim : Str) (pos : Nat) : Nat :=
  if pos ≤ str.length then findFrom delim (str.drop pos) pos else npos

/-- `str.substr(pos, count)`; throws `std::out_of_range` when `pos > size()`. -/
def substr (str : Str) (pos : Nat) (count : Nat := npos) : Except Error Str :=
  if pos > str.length then .error .out_of_range else .ok ((str.drop pos).take count)

/-! ## Field locator -/

/-- The scan of `get_field_index` over the tokens, `i` being the index of the head. -/
def get_field_index_loop (name : Str) : List Str → Nat → Option Nat
  | [], _ => none
  | t :: ts, i => if StringTrim t = name then some i else get_field_index_loop name ts (i + 1)

/-- `ass::get_field_index`: `some index` when it returns true, `none` when false. -/
def get_field_index (format name : Str) (delim : Str := FIELD_DELIMITER) : Option Nat :=
  get_field_index_loop name (StringSplit format delim) 0

/-- The `for` loop of `get_field`, with `n` iterations left: `(false, start)` when it
returns false inside the loop, `(true, start)` when it runs to its end.  Inside the loop
`*end` is a position of the string, so `*end + 1` does not wrap.  The counter `i` is a
32-bit `unsigned`: the loop runs `index` times, as here, for every `index < 2 ^ 32`,
which the properties of `get_field` assume. -/
def get_field_loop (str delim : Str) : Nat → Nat → Bool × Nat
  | 0, start => (true, start)
  | n + 1, start =>
    let e := find str delim start
    if e = npos then (false, start) else get_field_loop str delim n (e + 1)

/-- `ass::get_field`: the returned flag, `*start` and `*end`. -/
def get_field (str : Str) (index : Nat) (delim : Str := FIELD_DELIMITER) : Bool × Nat × Nat :=
  match get_field_loop str delim index 0 with
  | (false, start) => (false, start, npos)
  | (true, start) => (decide (start < str.length), start, find str delim start)

/-- The first loop of `compute_permutation`: fills the map `m2` from the tokens of
`format2`; `index` is the index of the head token. -/
def compute_permutation_map : List Str → Nat → List (Str × Nat) → Except Error (List (Str × Nat))
  | [], _, m2 => .ok m2
  | t :: ts, index, m2 =>
    let str := StringTrim t
    if (m2.find? (fun kv => kv.1 = str)).isSome then
      .error (.io_error "duplicated format field")
    else compute_permutation_map ts (index + 1) (m2 ++ [(str, index)])

/-- The second loop of `compute_permutation`: `s1` is the set of names seen, the result
is the list of the entries `permutation[index]` written from the head token on. -/
def compute_permutation_fill (m2 : List (Str × Nat)) : List Str → List Str → Except Error (List Nat)
  | [], _ => .ok []
  | t :: ts, s1 =>
    let str := StringTrim t
    if str ∈ s1 then .error (.io_error "duplicated format field")
    else
      match m2.find? (fun kv => kv.1 = str) with
      | none => .error (.io_error "incompatible line formats")
      | some it =>
        match compute_permutation_fill m2 ts (str :: s1) with
        | .error e => .error e
        | .ok rest => .ok (it.2 :: rest)

/-- `ass::compute_permutation`. -/
def compute_permutation (format1 format2 : Str) (delim : Str := FIELD_DELIMITER) :
    Except Error (List Nat) :=
  match compute_permutation_map (StringSplit format2 delim) 0 [] with
  | .error e => .error e
  | .ok m2 => compute_permutation_fill m2 (StringSplit format1 delim) []

/-- The loop of `apply_permutation` over the entries of `permutation` still to visit;
`w` is the output built so far.  Returns the flag and the final `w`. -/
def apply_permutation_loop (v : List Str) : List Nat → List Str → Bool × List Str
  | [], w => (true, w)
  | new_index :: rest, w =>
    if h : new_index < v.length then apply_permutation_loop v rest (w ++ [v.get ⟨new_index, h⟩])
    else (false, w)

/-- `ass::apply_permutation`: the returned flag and the contents of `w`. -/
def apply_permutation (v : List Str) (permutation : List Nat) : Bool × List Str :=
  if v.length ≠ permutation.length then (false, [])
  else apply_permutation_loop v permutation []

/-! ## Timestamp codec: formatting -/

/-- `ass::format_time`. -/
def format_time (timestamp : Nat) : Except Error Str :=
  if timestamp ≥ 3600000 then .error (.io_error "invalid timestamp value")
  else
    let remaining := timestamp
    let h := remaining / 360000
    let remaining := remaining - h * 360000
    let min := remaining / 6000
    let remaining := remaining - min * 6000
    let sec := remaining / 100
    let remaining := remaining - sec * 100
    .ok (StringPrintf_time h min sec remaining)

/-! ## `std::stoul` -/

/-- Value of a digit character in bases up to 16 (`0` for any other character). -/
def digitValue (c : Char) : Nat :=
  if '0' ≤ c ∧ c ≤ '9' then c.toNat - 48
  else if 'a' ≤ c ∧ c ≤ 'f' then c.toNat - 87
  else if 'A' ≤ c ∧ c ≤ 'F' then c.toNat - 55
  else 0

/-- C `isdigit`. -/
def isdigit (c : Char) : Bool := decide ('0' ≤ c ∧ c ≤ '9')

/-- C `isxdigit`. -/
def isxdigit (c : Char) : Bool :=
  isdigit c || decide ('a' ≤ c ∧ c ≤ 'f') || decide ('A' ≤ c ∧ c ≤ 'F')

/-- The number written by a sequence of digits in the given base. -/
def digitsValue (base : Nat) (ds : Str) : Nat :=
  ds.foldl (fun acc c => base * acc + digitValue c) 0

/-- An optional sign in front of a number: whether it is `-`, and the rest. -/
def takeSign : Str → Bool × Str
  | '-' :: rest => (true, rest)
  | '+' :: rest => (false, rest)
  | s => (false, s)

/-- `std::stoul(str)` (base 10, `unsigned long` of 64 bits): leading whitespace is
skipped, an optional sign and the longest run of digits are read and what follows is
ignored; `std::invalid_argument` when there is no digit, `std::out_of_range` when the
number exceeds `ULONG_MAX`; a `-` negates the value modulo `2 ^ 64`. -/
def stoul (str : Str) : Except Error Nat :=
  let (neg, rest) := takeSign (str.dropWhile isspace)
  let ds := rest.takeWhile isdigit
  if ds = [] then .error .invalid_argument
  else
    let value := digitsValue 10 ds
    if value > 2 ^ 64 - 1 then .error .out_of_range
    else .ok (if neg then (2 ^ 64 - value) % 2 ^ 64 else value)

/-! ## `double` arithmetic (IEEE-754 binary64, round to nearest, ties to even) -/

/-- A value of type `double`: a finite value `(-1)^neg * n / 2^d`, an infinity or a NaN. -/
inductive Double where
  | finite (neg : Bool) (n d : Nat)
  | inf (neg : Bool)
  | nan
  deriving DecidableEq, Repr

/-- Quotient `p / q` rounded to the nearest integer, ties to the even one. -/
def roundHalfEven (p q : Nat) : Nat :=
  let f := p / q
  let r := p % q
  if 2 * r < q then f
  else if q < 2 * r then f + 1
  else if f % 2 = 0 then f else f + 1

/-- The least exponent `k >= j` with `n < 2 ^ (2 ^ k)`, searched upwards from `j` with
the given fuel. -/
def log2Up (n : Nat) : Nat → Nat → Nat
  | 0, j => j
  | fuel + 1, j => if n < 2 ^ (2 ^ j) then j else log2Up n fuel (j + 1)

/-- Binary search for `floor (log2 n)` in the range `[lo, lo + 2 ^ i)`. -/
def log2Down (n : Nat) : Nat → Nat → Nat
  | 0, lo => lo
  | i + 1, lo => if 2 ^ (lo + 2 ^ i) ≤ n then log2Down n i (lo + 2 ^ i) else log2Down n i lo

/-- The integer `floor (log2 n)` for positive `n` (`0` for `n = 0`). -/
def log2 (n : Nat) : Nat := log2Down n (log2Up n n 0) 0

/-- The integer `floor (log2 (p / q))` for positive `p` and `q`. -/
def ilog2 (p q : Nat) : Int :=
  let t : Int := (log2 p : Int) - (log2 q : Int)
  if (if 0 ≤ t then q * 2 ^ t.toNat ≤ p else q ≤ p * 2 ^ (-t).toNat) then t else t - 1

/-- Outcome of rounding a non-negative rational to binary64: the magnitude `n / 2^d`,
whether the value overflows the finite range, and whether the result is an inexact
subnormal (the case in which `strtod` reports `ERANGE` for underflow). -/
structure Rounded where
  n : Nat
  d : Nat
  overflow : Bool
  underflow : Bool
  deriving DecidableEq, Repr

/-- The binary64 value nearest to `p / q` (`q` positive): 53 significant bits, spacing
never below `2 ^ (-1074)`, ties to even. -/
def round64 (p q : Nat) : Rounded :=
  if p = 0 then ⟨0, 0, false, false⟩
  else
    let e := ilog2 p q
    let s : Int := min (52 - e) 1074
    if 0 ≤ s then
      let m := roundHalfEven (p * 2 ^ s.toNat) q
      ⟨m, s.toNat, false, decide (e < -1022) && decide (m * q ≠ p * 2 ^ s.toNat)⟩
    else
      let k := (-s).toNat
      let m := roundHalfEven p (q * 2 ^ k)
      ⟨m * 2 ^ k, 0, decide (2 ^ 1024 ≤ m * 2 ^ k), false⟩

/-- The comparison `x >= 60.` -/
def Double.ge60 : Double → Bool
  | .finite neg n d => !neg && decide (60 * 2 ^ d ≤ n)
  | .inf neg => !neg
  | .nan => false

/-- The product `x * 100.` -/
def Double.mul100 : Double → Double
  | .finite neg n d =>
    let r := round64 (100 * n) (2 ^ d)
    if r.overflow then .inf neg else .finite neg r.n r.d
  | .inf neg => .inf neg
  | .nan => .nan

/-- The conversion `static_cast<ass::time_t>(x)` to a 32-bit unsigned integer: the
fractional part is discarded; the conversion is undefined when the truncated value is
not a value of the target type. -/
def Double.toTime : Double → Except Error Nat
  | .finite neg n d =>
    let t := n / 2 ^ d
    if t = 0 then .ok 0
    else if neg || decide (2 ^ 32 ≤ t) then .error .undefined_conversion
    else .ok t
  | .inf _ => .error .undefined_conversion
  | .nan => .error .undefined_conversion

/-! ## `std::stod` -/

/-- Whether `s` starts with the lower-case word `w`, ignoring the case of `s`. -/
def startsWithNoCase : Str → Str → Bool
  | _, [] => true
  | [], _ :: _ => false
  | c :: cs, d :: ds => c.toLower == d && startsWithNoCase cs ds

/-- The exponent part of a number: after the marker characters `lo` / `up`, an
optional sign and at least one decimal digit; `0` when there is no well-formed exponent
part. -/
def takeExponent (lo up : Char) : Str → Int
  | [] => 0
  | c :: rest =>
    if c = lo ∨ c = up then
      let (neg, r) := takeSign rest
      let ds := r.takeWhile isdigit
      if ds = [] then 0
      else if neg then -(digitsValue 10 ds : Int) else (digitsValue 10 ds : Int)
    else 0

/-- The value `(-1)^neg * p / q` as a `double`, with the `ERANGE` cases of `strtod`
thrown as `std::out_of_range` by `std::stod`. -/
def toDouble (neg : Bool) (p q : Nat) : Except Error Double :=
  let r := round64 p q
  if r.overflow || r.underflow then .error .out_of_range else .ok (.finite neg r.n r.d)

/-- The mantissa `digits [. digits]` written in `base` at the head of `s`, if it has
at least one digit: the digits before the point, those after it, and the rest. -/
def takeMantissa (isDigit : Char → Bool) (s : Str) : Option (Str × Str × Str) :=
  let ip := s.takeWhile isDigit
  let r := s.dropWhile isDigit
  match r with
  | '.' :: r2 =>
    let fp := r2.takeWhile isDigit
    if ip = [] ∧ fp = [] then none else some (ip, fp, r2.dropWhile isDigit)
  | _ => if ip = [] then none else some (ip, [], r)

/-- The hexadecimal mantissa after a `0x` / `0X` prefix, if the text has one. -/
def takeHexMantissa : Str → Option (Str × Str × Str)
  | '0' :: x :: r => if x = 'x' ∨ x = 'X' then takeMantissa isxdigit r else none
  | _ => none

/-- `std::stod(str)` (C locale, `strtod`): leading whitespace is skipped, then an
optional sign and the longest of: a decimal number with optional fraction and exponent,
a hexadecimal number `0x...` with optional binary exponent, `inf` / `infinity`, `nan`;
what follows is ignored.  `std::invalid_argument` when none is found,
`std::out_of_range` when `strtod` reports `ERANGE`.  The value is rounded correctly. -/
def stod (str : Str) : Except Error Double :=
  let (neg, s) := takeSign (str.dropWhile isspace)
  match takeHexMantissa s with
  | some (ip, fp, rest) =>
    let m := digitsValue 16 (ip ++ fp)
    let e : Int := takeExponent 'p' 'P' rest - 4 * (fp.length : Int)
    if 0 ≤ e then toDouble neg (m * 2 ^ e.toNat) 1 else toDouble neg m (2 ^ (-e).toNat)
  | none =>
    match takeMantissa isdigit s with
    | some (ip, fp, rest) =>
      let m := digitsValue 10 (ip ++ fp)
      let e : Int := takeExponent 'e' 'E' rest - (fp.length : Int)
      if 0 ≤ e then toDouble neg (m * 10 ^ e.toNat) 1 else toDouble neg m (10 ^ (-e).toNat)
    | none =>
      if startsWithNoCase s ['i', 'n', 'f'] then .ok (.inf neg)
      else if startsWithNoCase s ['n', 'a', 'n'] then .ok .nan
      else .error .invalid_argument

/-! ## Timestamp codec: parsing -/

/-- `ass::parse_time`.  `ass::time_t` is `std::uint32_t` and `unsigned long` has 64
bits: the products and sums are taken modulo `2 ^ 64` and `2 ^ 32` as in the source. -/
def parse_time (time_str : Str) : Except Error Nat :=
  let timestamp := 0
  let v := StringSplit time_str [':']
  match v with
  | [v0, v1, v2] =>
    if v0.length ≠ 1 then .error (.io_error "invalid timestamp format")
    else
      match stoul v0 with
      | .error e => .error e
      | .ok parsed_ul =>
        let timestamp := (timestamp + parsed_ul * 360000 % 2 ^ 64 % 2 ^ 32) % 2 ^ 32
        if v1.length ≠ 2 then .error (.io_error "invalid timestamp format")
        else
          match stoul v1 with
          | .error e => .error e
          | .ok parsed_ul =>
            if parsed_ul ≥ 60 then .error (.io_error "invalid timestamp format")
            else
              let timestamp := (timestamp + parsed_ul * 6000 % 2 ^ 64 % 2 ^ 32) % 2 ^ 32
              match stod v2 with
              | .error e => .error e
              | .ok parsed_d =>
                if parsed_d.ge60 then .error (.io_error "invalid timestamp format")
                else
                  match (parsed_d.mul100).toTime with
                  | .error e => .error e
                  | .ok cs => .ok ((timestamp + cs) % 2 ^ 32)
  | _ => .error (.io_error "invalid timestamp format")

/-! ## Constants of `ass.hpp` -/

/-- `ass::BOM`, the three bytes of the UTF-8 byte order mark. -/
def BOM : Str := ['\xef', '\xbb', '\xbf']

/-- `ass::SCRIPT_INFO`. -/
def SCRIPT_INFO : Str := "[Script Info]".toList

/-- `ass::STYLES`. -/
def STYLES : Str := "[V4+ Styles]".toList

/-- `ass::FONTS`. -/
def FONTS : Str := "[Fonts]".toList

/-- `ass::GRAPHICS`. -/
def GRAPHICS : Str := "[Graphics]".toList

/-- `ass::EVENTS`. -/
def EVENTS : Str := "[Events]".toList

/-- `ass::COMMAND_EVENT`. -/
def COMMAND_EVENT : Str := "Command".toList

/-- `ass::SOUND_EVENT`. -/
def SOUND_EVENT : Str := "Sound".toList

/-- `ass::FONT_LINE`. -/
def FONT_LINE : Str := "fontname".toList

/-- `ass::FILE_LINE`. -/
def FILE_LINE : Str := "filename".toList

/-- `ass::LINE_SEPARATOR`. -/
def LINE_SEPARATOR : Str := ['\n']

/-- `ass::SECTIONS`, the recognised section headers. -/
def SECTIONS : List Str := [SCRIPT_INFO, STYLES, FONTS, GRAPHICS, EVENTS]

/-- `ass::MULTILINE_FIELDS`. -/
def MULTILINE_FIELDS : List Str := [FONT_LINE, FILE_LINE]

/-! ## Containers of the document -/

/-- `std::unordered_set<std::string>::insert`: a set is a list that holds each element
once; the model keeps the elements in the order of insertion. -/
def set_insert (s : List Str) (x : Str) : List Str := if x ∈ s then s else s ++ [x]

/-- `std::unordered_set<std::string>::erase`. -/
def set_erase (s : List Str) (x : Str) : List Str := s.filter (fun y => y ≠ x)

/-- The record lists of a document, `std::unordered_map` from section name to
`std::list<std::pair<std::string, std::string>>`. -/
abbrev SectionsMap := List (Str × List (Str × Str))

/-- `std::unordered_map::at`; throws `std::out_of_range` when the key is missing. -/
def map_at (m : SectionsMap) (key : Str) : Except Error (List (Str × Str)) :=
  match m.find? (fun e => e.1 = key) with
  | some e => .ok e.2
  | none => .error .out_of_range

/-- The statement `m[key].push_back(value)`: `operator[]` creates an empty list for a
missing key. -/
def map_push_back : SectionsMap → Str → Str × Str → SectionsMap
  | [], key, value => [(key, [value])]
  | (k, l) :: rest, key, value =>
    if k = key then (k, l ++ [value]) :: rest else (k, l) :: map_push_back rest key value

/-- Assignment through the reference returned by `m.at(key)`. -/
def map_assign : SectionsMap → Str → List (Str × Str) → SectionsMap
  | [], _, _ => []
  | (k, l) :: rest, key, value =>
    if k = key then (k, value) :: rest else (k, l) :: map_assign rest key value

/-- `std::unordered_map::erase`. -/
def map_erase (m : SectionsMap) (key : Str) : SectionsMap := m.filter (fun e => e.1 ≠ key)

/-! ## `class ASSFile` -/

/-- The data members of `ass::ASSFile`. -/
structure ASSFile where
  has_bom_ : Bool
  line_break_ : Str
  script_comment_ : Str
  sections_ : List Str
  sections_map_ : SectionsMap
  deriving DecidableEq, Repr

/-- The constructor `ASSFile(bool has_bom = true)`. -/
def ASSFile.new (has_bom : Bool := true) : ASSFile := ⟨has_bom, LINE_SEPARATOR, [], [], []⟩

/-- `ASSFile::Section`: `sections_map_.at(section)`. -/
def ASSFile.Section (this : ASSFile) (section_ : Str) : Except Error (List (Str × Str)) :=
  map_at this.sections_map_ section_

/-- `ASSFile::HasSection`: `.at` is evaluated, and may throw, only when the name is in
`sections_`. -/
def ASSFile.HasSection (this : ASSFile) (section_ : Str) : Except Error Bool :=
  if section_ ∈ this.sections_ then
    match map_at this.sections_map_ section_ with
    | .error e => .error e
    | .ok l => .ok (!l.isEmpty)
  else .ok false

/-- `ASSFile::add_line`. -/
def ASSFile.add_line (this : ASSFile) (section_ type data : Str) : ASSFile :=
  { this with
    sections_ := set_insert this.sections_ section_
    sections_map_ := map_push_back this.sections_map_ section_ (type, data) }

/-- `ASSFile::clear`; the BOM flag and the line break are kept. -/
def ASSFile.clear (this : ASSFile) : ASSFile :=
  { this with script_comment_ := [], sections_ := [], sections_map_ := [] }

/-- `ASSFile::insert`. -/
def ASSFile.insert (this : ASSFile) (section_ : Str) (data : List (Str × Str)) : ASSFile :=
  data.foldl (fun file entry => file.add_line section_ entry.1 entry.2)
    { this with sections_ := set_insert this.sections_ section_ }

/-- `ASSFile::remove_section`. -/
def ASSFile.remove_section (this : ASSFile) (section_ : Str) : ASSFile :=
  { this with
    sections_ := set_erase this.sections_ section_
    sections_map_ := map_erase this.sections_map_ section_ }

/-- `ASSFile::remove_line`; the iterator `it` is given by the position of the record it
points to, which the caller must choose inside the list (erasing at another iterator is
undefined in C++; the model then leaves the list as it is). -/
def ASSFile.remove_line (this : ASSFile) (section_ : Str) (it : Nat) : Except Error ASSFile :=
  match map_at this.sections_map_ section_ with
  | .error e => .error e
  | .ok data_list =>
    let data_list := data_list.eraseIdx it
    let this := { this with sections_map_ := map_assign this.sections_map_ section_ data_list }
    if data_list.isEmpty then .ok (this.remove_section section_) else .ok this

/-! ## Reading lines -/

/-- The state of a `std::ifstream` that the embedded functions observe: whether the file
is open, whether `good()` holds, and the characters not yet read. -/
structure ifstream where
  is_open : Bool
  good : Bool
  rest : Str
  deriving DecidableEq, Repr

/-- An open stream positioned at the beginning of a file with the given content. -/
def ifstream.of (content : Str) : ifstream := ⟨true, true, content⟩

/-- The `while` loop of `ass::getline`, on the characters not yet read: the returned
flag, `output`, the characters left and `good()`.  `input.get()` at the end of the file
returns `eof()` and sets `eofbit` and `failbit`.  The value of `input.get()` is stored in
`ch`, a `char`, before it is compared with `eof()`, which is `-1`: `char` is signed, as on
x86-64, so the byte `0xFF` (`'\xff'` here) compares equal to `eof()` as well, and the loop
takes it for the end of the file: the line ends before that byte, the byte is consumed, and
the stream stays good, for no flag was set. -/
def getline_loop (delim : Str) : Str → Str → Str → Nat → Bool × Str × Str × Bool
  | [], output, buffer, idx =>
    if idx < delim.length then (!(output ++ buffer).isEmpty, output ++ buffer, [], false)
    else (true, output, [], true)
  | ch :: rest, output, buffer, idx =>
    if idx < delim.length then
      if ch = '\xff' then (!(output ++ buffer).isEmpty, output ++ buffer, rest, true)
      else if delim.get? idx = some ch then
        getline_loop delim rest output (buffer ++ [ch]) (idx + 1)
      else
        let output := if !buffer.isEmpty then output ++ buffer else output
        getline_loop delim rest (output ++ [ch]) [] idx
    else (true, output, ch :: rest, true)

/-- `ass::getline`: the returned flag, `output` and the stream after the call. -/
def getline (input : ifstream) (delim : Str := LINE_SEPARATOR) : Bool × Str × ifstream :=
  if !input.good then (false, [], input)
  else if delim.isEmpty then (false, [], input)
  else
    match getline_loop delim input.rest [] [] 0 with
    | (flag, output, rest, good) => (flag, output, { input with good := good, rest := rest })

/-- Modelled from the spec: `StringStartsWith` of `util/string.h`, which is not among
the embedded sources ("starts with `[`"). -/
def StringStartsWith (str pre : Str) : Bool := startsWith str pre

/-- Modelled from the spec: `StringEndsWith` of `util/string.h`, which is not among the
embedded sources ("ends with `]`"). -/
def StringEndsWith (str suf : Str) : Bool := startsWith str.reverse suf.reverse

/-- Modelled from the spec: `StringGetAfter` of `util/string.h`, which is not among the
embedded sources ("detect and strip a UTF-8 BOM if present"); `load` calls it on a line
that starts with `key`, and the result is the line without this leading `key`. -/
def StringGetAfter (str key : Str) : Str := str.drop key.length

/-- `ass::defines_section`. -/
def defines_section (input : Str) : Bool :=
  let input_ := StringTrim input
  StringStartsWith input_ ['['] && StringEndsWith input_ [']']

/-- C `islower` in the C locale. -/
def islower (c : Char) : Bool := decide ('a' ≤ c ∧ c ≤ 'z')

/-- The local variables of `ASSFile::load` that live across the iterations of its loop,
together with the document under construction. -/
structure LoadState where
  file : ASSFile
  skip_section : Bool
  current_type : Str
  current_data : Str
  current_section : Str
  deriving DecidableEq, Repr

/-- The body of the `while` loop of `ASSFile::load` for one line.  `line.front()` of an
empty line is the terminating null character, which is not `;`. -/
def load_line (line : Str) (s : LoadState) : Except Error LoadState :=
  if line.head? = some ';' then .ok s
  else
    match StringTrim line with
    | [] => .ok s
    | front :: trimmed_tail =>
      let trimmed_line := front :: trimmed_tail
      if defines_section trimmed_line then
        let s :=
          if !s.current_type.isEmpty then
            { s with
              file := s.file.add_line s.current_section s.current_type s.current_data
              current_type := []
              current_data := [] }
          else s
        let skip_section := !(SECTIONS.contains trimmed_line)
        .ok { s with
              skip_section := skip_section
              current_section := if !skip_section then trimmed_line else s.current_section }
      else if !s.skip_section && !s.current_type.isEmpty then
        let s :=
          if !islower front then
            { s with current_data := s.current_data ++ (s.file.line_break_ ++ trimmed_line) }
          else s
        if islower front || decide (trimmed_line.length < 80) then
          .ok { s with
                file := s.file.add_line s.current_section s.current_type s.current_data
                current_type := []
                current_data := [] }
        else .ok s
      else if !s.skip_section && s.current_type.isEmpty then
        let delim_pos := find line [':'] 0
        if delim_pos = npos then .error (.io_error "line type delimiter not found")
        else
          match substr line 0 delim_pos, substr line (delim_pos + 1) with
          | .ok type, .ok data =>
            let type := StringTrim type
            if MULTILINE_FIELDS.contains type then
              .ok { s with current_type := type, current_data := data }
            else .ok { s with file := s.file.add_line s.current_section type data }
          | .error e, _ => .error e
          | _, .error e => .error e
      else .ok s

/-- The `while` loop of `ASSFile::load`, with a bound on the number of iterations; every
successful `getline` reads at least one character, so the loop started with more fuel
than characters left ends by a failing `getline`. -/
def load_loop : Nat → ifstream → LoadState → Except Error LoadState
  | 0, _, s => .ok s
  | fuel + 1, input, s =>
    match getline input s.file.line_break_ with
    | (false, _, _) => .ok s
    | (true, line, input) =>
      match load_line line s with
      | .error e => .error e
      | .ok s => load_loop fuel input s

/-- `ASSFile::load`.  `line.back()` of an empty line is taken as not `\r`. -/
def ASSFile.load (this : ASSFile) (input : ifstream) : Except Error ASSFile :=
  let this := this.clear
  if !input.is_open then .error (.io_error "can't open input file")
  else
    match getline input LINE_SEPARATOR with
    | (false, _, _) => .error (.io_error "can't read input file")
    | (true, line, input) =>
      let has_bom := StringStartsWith line BOM
      let line := if has_bom then StringGetAfter line BOM else line
      let this := { this with has_bom_ := has_bom }
      let this :=
        if line.getLast? = some '\r' then { this with line_break_ := ['\r', '\n'] } else this
      let line := StringTrim line
      if line ≠ SCRIPT_INFO then .error (.io_error "input file isn't a valid V4 Script")
      else
        let current_section := SCRIPT_INFO
        let this := { this with sections_ := set_insert this.sections_ current_section }
        match load_loop (input.rest.length + 1) input ⟨this, false, [], [], current_section⟩ with
        | .error e => .error e
        | .ok s =>
          if !s.current_type.isEmpty then
            .ok (s.file.add_line s.current_section s.current_type s.current_data)
          else .ok s.file

/-! ## Writing a document -/

/-- The loop of `operator<<` over the canonical sections: the characters written to the
stream and the exception that ended the output, if any. -/
def operator_lshift_loop (rhs : ASSFile) : List Str → Str → Str × Option Error
  | [], lhs => (lhs, none)
  | section_ :: rest, lhs =>
    match rhs.HasSection section_ with
    | .error e => (lhs, some e)
    | .ok false => operator_lshift_loop rhs rest lhs
    | .ok true =>
      let line_break := rhs.line_break_
      let lhs := if section_ ≠ SCRIPT_INFO then lhs ++ line_break else lhs
      let lhs := lhs ++ section_
      let lhs :=
        if section_ = SCRIPT_INFO ∧ ¬ rhs.script_comment_.isEmpty then
          lhs ++ line_break ++ rhs.script_comment_
        else lhs
      match rhs.Section section_ with
      | .error e => (lhs, some e)
      | .ok entries =>
        let lhs := entries.foldl (fun lhs entry => lhs ++ line_break ++ entry.1 ++ [':'] ++ entry.2) lhs
        operator_lshift_loop rhs rest (lhs ++ line_break)

/-- `operator<<(std::ostream&, const ASSFile&)`: the characters written to the stream
and the exception thrown, if any. -/
def operator_lshift (rhs : ASSFile) : Str × Option Error :=
  let lhs := if rhs.has_bom_ then BOM else []
  match rhs.HasSection SCRIPT_INFO with
  | .error e => (lhs, some e)
  | .ok false => (lhs, some (.io_error "missing 'ScriptInfo' section"))
  | .ok true => operator_lshift_loop rhs [SCRIPT_INFO, STYLES, FONTS, GRAPHICS, EVENTS] lhs

/-! ## The rewrite of the events (`ass_split.cpp`, `ass_time.cpp`) -/

/-- Subtraction of `std::size_t` values, modulo `2 ^ 64`. -/
def size_sub (a b : Nat) : Nat := (a + 2 ^ 64 - b % 2 ^ 64) % 2 ^ 64

/-- The block of the event loop that locates one timestamp field and reads it, written
twice (for `Start` and for `End`) in `split` and in `transform`: `*_begin`, `*_end`,
`*_ts` and `*_defined`.  `undefined_ts` is the initial value of `*_ts` and `message` the
text of the exception thrown when the field is not found. -/
def locate_time (line_data : Str) (idx undefined_ts : Nat) (message : String) :
    Except Error (Nat × Nat × Nat × Bool) :=
  match get_field line_data idx with
  | (true, field_begin, field_end) =>
    if field_begin < field_end then
      match substr line_data field_begin (field_end - field_begin) with
      | .error e => .error e
      | .ok text =>
        match parse_time text with
        | .error e => .error e
        | .ok ts => .ok (field_begin, field_end, ts, true)
    else .ok (field_begin, field_end, undefined_ts, false)
  | (false, _, _) => .error (.io_error message)

/-- The text written to `event_data_stream`, the same statement in `split` and in
`transform`. -/
def event_data (line_data : Str) (start_begin start_end end_begin end_end : Nat)
    (start_str end_str : Str) : Except Error Str :=
  if start_begin < end_begin then
    match substr line_data 0 start_begin,
      substr line_data start_end (size_sub end_begin start_end), substr line_data end_end with
    | .ok a, .ok b, .ok c => .ok (a ++ start_str ++ b ++ end_str ++ c)
    | .error e, _, _ => .error e
    | _, .error e, _ => .error e
    | _, _, .error e => .error e
  else if end_begin < start_begin then
    match substr line_data 0 end_begin,
      substr line_data end_end (size_sub start_begin end_end), substr line_data start_end with
    | .ok a, .ok b, .ok c => .ok (a ++ end_str ++ b ++ start_str ++ c)
    | .error e, _, _ => .error e
    | _, .error e, _ => .error e
    | _, _, .error e => .error e
  else .error (.io_error "unexpected error")

/-- The `time_t` values and flags of one event after the comparison with the cut time
in `split`: `add1`, `add2`, `start_ts`, `end_ts` and `end_defined`. -/
def split_times (t start_ts end_ts : Nat) (start_defined end_defined : Bool) :
    Bool × Bool × Nat × Nat × Bool :=
  if !start_defined then (true, true, start_ts, end_ts, false)
  else if start_ts ≥ t then
    (false, true, start_ts - t, if end_defined && decide (end_ts ≥ t) then end_ts - t else 0,
      end_defined)
  else (true, false, start_ts, end_ts, end_defined)

/-- One iteration of the event loop of `split`: `add1`, `add2` and the text of
`event_data_stream`. -/
def split_event (t start_idx end_idx : Nat) (line_type line_data : Str) :
    Except Error (Bool × Bool × Str) :=
  match locate_time line_data start_idx (2 ^ 32 - 1) "'Start' field cannot be retrieved" with
  | .error e => .error e
  | .ok (start_begin, start_end, start_ts, start_defined) =>
    match locate_time line_data end_idx (2 ^ 32 - 1) "'End' field cannot be retrieved" with
    | .error e => .error e
    | .ok (end_begin, end_end, end_ts, end_defined) =>
      let end_defined :=
        if line_type = COMMAND_EVENT ∨ line_type = SOUND_EVENT then false else end_defined
      match split_times t start_ts end_ts start_defined end_defined with
      | (add1, add2, start_ts, end_ts, end_defined) =>
        match (if start_defined then format_time start_ts else .ok []) with
        | .error e => .error e
        | .ok start_str =>
          match (if end_defined then format_time end_ts else .ok []) with
          | .error e => .error e
          | .ok end_str =>
            match event_data line_data start_begin start_end end_begin end_end start_str end_str with
            | .error e => .error e
            | .ok data => .ok (add1, add2, data)

/-- The event loop of `split` over the records after the format line. -/
def split_loop (t start_idx end_idx : Nat) :
    List (Str × Str) → ASSFile → ASSFile → Except Error (ASSFile × ASSFile)
  | [], first, second => .ok (first, second)
  | (line_type, line_data) :: rest, first, second =>
    match split_event t start_idx end_idx line_type line_data with
    | .error e => .error e
    | .ok (add1, add2, data) =>
      let first := if add1 then first.add_line EVENTS line_type data else first
      let second := if add2 then second.add_line EVENTS line_type data else second
      split_loop t start_idx end_idx rest first second

/-- The checks of the format line, the same in `split` and in `transform`: `start_idx`
and `end_idx`. -/
def format_indices (format : Str) : Except Error (Nat × Nat) :=
  match get_field_index format "Text".toList with
  | none => .error (.io_error "'Text' field must appear in last place")
  | some text_idx =>
    if text_idx ≠ (StringSplit format FIELD_DELIMITER).length - 1 then
      .error (.io_error "'Text' field must appear in last place")
    else
      match get_field_index format "Start".toList with
      | none => .error (.io_error "'Start' field not found in format definition string")
      | some start_idx =>
        match get_field_index format "End".toList with
        | none => .error (.io_error "'End' field not found in format definition string")
        | some end_idx => .ok (start_idx, end_idx)

/-- The branch of `split` for the `[Events]` section. -/
def split_events (ass : ASSFile) (t : Nat) (first second : ASSFile) :
    Except Error (ASSFile × ASSFile) :=
  match ass.Section EVENTS with
  | .error e => .error e
  | .ok [] => .ok (first, second)
  | .ok (format_line :: lines) =>
    let first := first.add_line EVENTS format_line.1 format_line.2
    let second := second.add_line EVENTS format_line.1 format_line.2
    if format_line.1 ≠ "Format".toList then
      .error (.io_error "format line must appear first in events")
    else
      match format_indices format_line.2 with
      | .error e => .error e
      | .ok (start_idx, end_idx) => split_loop t start_idx end_idx lines first second

/-- The loop of `split` over `ass.Sections()`, in the order in which the model keeps the
set. -/
def split_sections (ass : ASSFile) (t : Nat) :
    List Str → ASSFile → ASSFile → Except Error (ASSFile × ASSFile)
  | [], first, second => .ok (first, second)
  | section_ :: rest, first, second =>
    if section_ = EVENTS then
      match split_events ass t first second with
      | .error e => .error e
      | .ok (first, second) => split_sections ass t rest first second
    else
      match ass.Section section_ with
      | .error e => .error e
      | .ok data =>
        split_sections ass t rest (first.insert section_ data) (second.insert section_ data)

/-- The function `split` of `ass_split.cpp`: the values of `first` and `second` when it
returns; the arguments `first` and `second` are the objects passed by reference. -/
def split (ass : ASSFile) (t : Nat) (first second : ASSFile) : Except Error (ASSFile × ASSFile) :=
  let first := first.clear
  let second := second.clear
  let first := { first with has_bom_ := ass.has_bom_ }
  let second := { second with has_bom_ := ass.has_bom_ }
  let first := { first with script_comment_ := ass.script_comment_ }
  let second := { second with script_comment_ := ass.script_comment_ }
  split_sections ass t ass.sections_ first second

/-- Conversion of a `time_t` value (32 bits, unsigned) to `time_signed_t` (32 bits,
two's complement). -/
def to_signed (ts : Nat) : Int := if ts < 2 ^ 31 then (ts : Int) else (ts : Int) - 2 ^ 32

/-- The product of the `double` conversion of a 32-bit integer, which is exact, with a
`double`. -/
def Double.mulInt (scale : Double) (x : Int) : Double :=
  match scale with
  | .finite neg n d =>
    let r := round64 (x.natAbs * n) (2 ^ d)
    if r.overflow then .inf (xor (decide (x < 0)) neg)
    else .finite (xor (decide (x < 0)) neg) r.n r.d
  | .inf neg => if x = 0 then .nan else .inf (xor (decide (x < 0)) neg)
  | .nan => .nan

/-- The conversion of a `double` to `time_signed_t`: the fractional part is discarded;
the conversion is undefined when the truncated value is not a value of the target type. -/
def Double.toSigned : Double → Except Error Int
  | .finite neg n d =>
    let t := n / 2 ^ d
    if neg then (if t ≤ 2 ^ 31 then .ok (-(t : Int)) else .error .undefined_conversion)
    else if t < 2 ^ 31 then .ok (t : Int) else .error .undefined_conversion
  | .inf _ => .error .undefined_conversion
  | .nan => .error .undefined_conversion

/-- The statements `ts *= scale; ts += offset;` on a `time_signed_t`: the product is
computed in `double` and converted back; a sum outside the 32-bit range is a signed
overflow, which C++ leaves undefined. -/
def scale_offset (ts : Int) (scale : Double) (offset : Int) : Except Error Int :=
  match (scale.mulInt ts).toSigned with
  | .error e => .error e
  | .ok product =>
    if -(2 ^ 31) ≤ product + offset ∧ product + offset < 2 ^ 31 then .ok (product + offset)
    else .error .undefined_overflow

/-- The `time_signed_t` values and the flag of one event after the affine map in
`transform`: `start_ts`, `end_ts` and `end_defined`. -/
def transform_times (offset : Int) (scale : Double) (start_ts end_ts : Int)
    (start_defined end_defined : Bool) : Except Error (Int × Int × Bool) :=
  if !start_defined then .ok (start_ts, end_ts, false)
  else
    match scale_offset start_ts scale offset with
    | .error e => .error e
    | .ok start_ts =>
      if end_defined then
        match scale_offset end_ts scale offset with
        | .error e => .error e
        | .ok end_ts => .ok (start_ts, end_ts, end_defined)
      else .ok (start_ts, 0, end_defined)

/-- One iteration of the event loop of `transform`: the text of `event_data_stream`. -/
def transform_event (offset : Int) (scale : Double) (start_idx end_idx : Nat)
    (line_type line_data : Str) : Except Error Str :=
  match locate_time line_data start_idx (2 ^ 31 - 1) "'Start' field cannot be retrieved" with
  | .error e => .error e
  | .ok (start_begin, start_end, start_ts, start_defined) =>
    match locate_time line_data end_idx (2 ^ 31 - 1) "'End' field cannot be retrieved" with
    | .error e => .error e
    | .ok (end_begin, end_end, end_ts, end_defined) =>
      let end_defined :=
        if line_type = COMMAND_EVENT ∨ line_type = SOUND_EVENT then false else end_defined
      match transform_times offset scale (to_signed start_ts) (to_signed end_ts)
          start_defined end_defined with
      | .error e => .error e
      | .ok (start_ts, end_ts, end_defined) =>
        if start_ts < 0 ∨ end_ts < 0 then
          .error (.runtime_error "Transformation yields negative timestamps!")
        else
          match (if start_defined then format_time start_ts.toNat else .ok []) with
          | .error e => .error e
          | .ok start_str =>
            match (if end_defined then format_time end_ts.toNat else .ok []) with
            | .error e => .error e
            | .ok end_str =>
              event_data line_data start_begin start_end end_begin end_end start_str end_str

/-- The event loop of `transform` over the records after the format line. -/
def transform_loop (offset : Int) (scale : Double) (start_idx end_idx : Nat) :
    List (Str × Str) → ASSFile → Except Error ASSFile
  | [], ass_out => .ok ass_out
  | (line_type, line_data) :: rest, ass_out =>
    match transform_event offset scale start_idx end_idx line_type line_data with
    | .error e => .error e
    | .ok data =>
      transform_loop offset scale start_idx end_idx rest (ass_out.add_line EVENTS line_type data)

/-- The branch of `transform` for the `[Events]` section. -/
def transform_events (ass_in : ASSFile) (offset : Int) (scale : Double) (ass_out : ASSFile) :
    Except Error ASSFile :=
  match ass_in.Section EVENTS with
  | .error e => .error e
  | .ok [] => .ok ass_out
  | .ok (format_line :: lines) =>
    if format_line.1 ≠ "Format".toList then
      .error (.io_error "format line must appear first in events")
    else
      let ass_out := ass_out.add_line EVENTS format_line.1 format_line.2
      match format_indices format_line.2 with
      | .error e => .error e
      | .ok (start_idx, end_idx) => transform_loop offset scale start_idx end_idx lines ass_out

/-- The loop of `transform` over `ass_in.Sections()`, in the order in which the model
keeps the set. -/
def transform_sections (ass_in : ASSFile) (offset : Int) (scale : Double) :
    List Str → ASSFile → Except Error ASSFile
  | [], ass_out => .ok ass_out
  | section_ :: rest, ass_out =>
    if section_ = EVENTS then
      match transform_events ass_in offset scale ass_out with
      | .error e => .error e
      | .ok ass_out => transform_sections ass_in offset scale rest ass_out
    else
      match ass_in.Section section_ with
      | .error e => .error e
      | .ok data => transform_sections ass_in offset scale rest (ass_out.insert section_ data)

/-- The function `transform` of `ass_time.cpp`: the value of `ass_out` when it returns;
`offset` is a `time_signed_t`, a 32-bit integer. -/
def transform (ass_in : ASSFile) (offset : Int) (scale : Double) (ass_out : ASSFile) :
    Except Error ASSFile :=
  let ass_out := ass_out.clear
  let ass_out := { ass_out with has_bom_ := ass_in.has_bom_ }
  let ass_out := { ass_out with script_comment_ := ass_in.script_comment_ }
  transform_sections ass_in offset scale ass_in.sections_ ass_out

/-! ## Definitions used to state the properties -/

/-- The character of a decimal digit. -/
def digitChar (d : Nat) : Char := Char.ofNat (48 + d)

/-- The trimmed field names of a format declaration, in order. -/
def fieldNames (format : Str) : List Str :=
  (StringSplit format FIELD_DELIMITER).map StringTrim

/-- Follows the spec's words, `round(seconds*100)`: the number of centiseconds nearest
to the decimal number `n / 10 ^ f` of seconds (halves rounded up). -/
def roundCentis (n f : Nat) : Nat := (2 * (100 * n) + 10 ^ f) / (2 * 10 ^ f)

/-- The rational value `n / 2 ^ d` of a rounded magnitude. -/
def Rounded.value (r : Rounded) : ℚ := (r.n : ℚ) / 2 ^ r.d

/-- The list that `m[key]` refers to: empty when the key is missing. -/
def map_get (m : SectionsMap) (key : Str) : List (Str × Str) :=
  match map_at m key with
  | .ok l => l
  | .error _ => []

/-- The record that `split` adds to its first output (`second_ = false`) or to its second
output (`second_ = true`) for one event, if it adds one. -/
def split_output (t start_idx end_idx : Nat) (second_ : Bool) (r : Str × Str) :
    Option (Str × Str) :=
  match split_event t start_idx end_idx r.1 r.2 with
  | .ok (add1, add2, data) => if (if second_ then add2 else add1) then some (r.1, data) else none
  | .error _ => none

/-- The records that `split` adds to an output for one listed section. -/
def split_records (ass : ASSFile) (t : Nat) (second_ : Bool) (section_ : Str) :
    List (Str × Str) :=
  if section_ = EVENTS then
    match ass.Section EVENTS with
    | .ok (format_line :: lines) =>
      match format_indices format_line.2 with
      | .ok (start_idx, end_idx) =>
        format_line :: lines.filterMap (split_output t start_idx end_idx second_)
      | .error _ => []
    | _ => []
  else map_get ass.sections_map_ section_

/-- Two documents with the same BOM flag, line break and header comment. -/
def sameHeader (a b : ASSFile) : Prop :=
  a.has_bom_ = b.has_bom_ ∧ a.line_break_ = b.line_break_ ∧ a.script_comment_ = b.script_comment_

/-- The records that `transform` adds to its output for one listed section. -/
def transform_records (ass_in : ASSFile) (offset : Int) (scale : Double) (section_ : Str) :
    List (Str × Str) :=
  if section_ = EVENTS then
    match ass_in.Section EVENTS with
    | .ok (format_line :: lines) =>
      match format_indices format_line.2 with
      | .ok (start_idx, end_idx) =>
        format_line :: lines.filterMap (fun r =>
          match transform_event offset scale start_idx end_idx r.1 r.2 with
          | .ok data => some (r.1, data)
          | .error _ => none)
      | .error _ => []
    | _ => []
  else map_get ass_in.sections_map_ section_

/-- The value of a timestamp field of an event when the field is defined: `get_field`
finds it, its span is not empty and `parse_time` reads the text of the span. -/
def field_time (data : Str) (idx : Nat) : Option Nat :=
  match get_field data idx with
  | (true, field_begin, field_end) =>
    if field_begin < field_end then
      match parse_time ((data.drop field_begin).take (field_end - field_begin)) with
      | .ok ts => some ts
      | .error _ => none
    else none
  | (false, _, _) => none

/-- The format line of the example document `two_events`. -/
def two_events_format : Str × Str := ("Format".toList, "Start,End,Text".toList)

/-- The events of the example document `two_events`, starting at 5 s and at 12 s. -/
def two_events_lines : List (Str × Str) :=
  [("Dialogue".toList, "0:00:05.00,0:00:15.00,Hi".toList),
   ("Dialogue".toList, "0:00:12.00,0:00:15.00,Yo".toList)]

/-- An example document with two dialogue events. -/
def two_events : ASSFile :=
  ⟨false, LINE_SEPARATOR, [], [SCRIPT_INFO, EVENTS],
    [(SCRIPT_INFO, [("Title".toList, " x".toList)]),
     (EVENTS, two_events_format :: two_events_lines)]⟩

/-- The first output of the split of `two_events` at 10 s. -/
def two_events_first : ASSFile :=
  ⟨false, LINE_SEPARATOR, [], [SCRIPT_INFO, EVENTS],
    [(SCRIPT_INFO, [("Title".toList, " x".toList)]),
     (EVENTS, [two_events_format, ("Dialogue".toList, "0:00:05.00,0:00:15.00,Hi".toList)])]⟩

/-- The second output of the split of `two_events` at 10 s. -/
def two_events_second : ASSFile :=
  ⟨false, LINE_SEPARATOR, [], [SCRIPT_INFO, EVENTS],
    [(SCRIPT_INFO, [("Title".toList, " x".toList)]),
     (EVENTS, [two_events_format, ("Dialogue".toList, "0:00:02.00,0:00:05.00,Yo".toList)])]⟩

/-- An example document whose format line does not declare `End`. -/
def no_end_field : ASSFile :=
  ⟨false, LINE_SEPARATOR, [], [SCRIPT_INFO, EVENTS],
    [(SCRIPT_INFO, [("Title".toList, " x".toList)]),
     (EVENTS, [("Format".toList, "Start,Text".toList),
               ("Dialogue".toList, "0:00:05.00,Hi".toList)])]⟩

/-- An example document with one dialogue event that starts at 0.03 s. -/
def early_event : ASSFile :=
  ⟨false, LINE_SEPARATOR, [], [SCRIPT_INFO, EVENTS],
    [(SCRIPT_INFO, [("Title".toList, " x".toList)]),
     (EVENTS, [("Format".toList, "Start,End,Text".toList),
               ("Dialogue".toList, "0:00:00.03,0:00:09.00,Hi".toList)])]⟩

/-- An example document with one dialogue event that starts and ends at 0.01 s. -/
def first_centisecond : ASSFile :=
  ⟨false, LINE_SEPARATOR, [], [SCRIPT_INFO, EVENTS],
    [(SCRIPT_INFO, [("Title".toList, " x".toList)]),
     (EVENTS, [("Format".toList, "Start,End,Text".toList),
               ("Dialogue".toList, "0:00:00.01,0:00:00.01,Hi".toList)])]⟩

/-- The rational value of a finite `double` (`0` for an infinity or a NaN). -/
def Double.toRat : Double → ℚ
  | .finite neg n d => (if neg then -1 else 1) * ((n : ℚ) / 2 ^ d)
  | .inf _ => 0
  | .nan => 0

/-- Follows the spec's words: the records of a section of a document, none when the
section is not listed or has no record list. -/
def recordsOf (d : ASSFile) (section_ : Str) : List (Str × Str) :=
  if section_ ∈ d.sections_ then
    match d.sections_map_.find? (fun e => e.1 = section_) with
    | some e => e.2
    | none => []
  else []

/-- Follows the spec's words: the text of a present section, that is a line break before
the header unless the section is Script Info, the header, for Script Info a line break
and the header comment when this is not empty, a line break and `type:data` for every
record, and one more line break. -/
def sectionText (line_break comment section_ : Str) (records : List (Str × Str)) : Str :=
  (if section_ = SCRIPT_INFO then [] else line_break) ++ section_ ++
    (if section_ = SCRIPT_INFO ∧ comment ≠ [] then line_break ++ comment else []) ++
    (records.map (fun r => line_break ++ r.1 ++ [':'] ++ r.2)).flatten ++ line_break

/-- Follows the spec's words: the serialized text of a document, the BOM when the flag is
set and then the text of every present section among the five canonical ones, in their
fixed order. -/
def documentText (d : ASSFile) : Str :=
  (if d.has_bom_ then BOM else []) ++
    ([SCRIPT_INFO, STYLES, FONTS, GRAPHICS, EVENTS].map (fun section_ =>
      if recordsOf d section_ = [] then []
      else sectionText d.line_break_ d.script_comment_ section_ (recordsOf d section_))).flatten

/-- Follows the spec's words: the data with the bytes of the span `[b1, e1)` replaced by `t1`
and the bytes of the later span `[b2, e2)` replaced by `t2`; the bytes before the first
span, between the two spans and after the second span are kept. -/
def replace_two (data : Str) (b1 e1 b2 e2 : Nat) (t1 t2 : Str) : Str :=
  data.take b1 ++ t1 ++ (data.drop e1).take (b2 - e1) ++ t2 ++ data.drop e2

/-- The document that `load` returns for a file that holds only the line `[Script Info]`. -/
def header_only : ASSFile := ⟨false, LINE_SEPARATOR, [], [SCRIPT_INFO], []⟩

/-- A document with a `[Script Info]` record and an `[Events]` record, to which `insert`
has added `[V4+ Styles]` with an empty list of records. -/
def styles_without_records : ASSFile :=
  (((ASSFile.new false).add_line SCRIPT_INFO "Title".toList " x".toList).insert STYLES []).add_line
    EVENTS "Format".toList " Start,End,Text".toList

/-- The document that `load` returns for the example file with three `fontname` lines. -/
def three_fonts : ASSFile :=
  ⟨false, LINE_SEPARATOR, [], [SCRIPT_INFO, FONTS],
    [(SCRIPT_INFO, [("Title".toList, " x".toList)]),
     (FONTS, [(FONT_LINE, " a.ttf".toList), (FONT_LINE, " c.ttf".toList)])]⟩

/-- The document that `load` returns for the scenario file, whose event line has a blank
after its colon. -/
def scenario_blank : ASSFile :=
  ⟨false, LINE_SEPARATOR, [], [SCRIPT_INFO, EVENTS],
    [(SCRIPT_INFO, [("Title".toList, " x".toList)]),
     (EVENTS, [("Format".toList, " Start,End,Text".toList),
               ("Dialogue".toList, " 0:00:05.00,0:00:15.00,Hi".toList)])]⟩

/-- The document that `load` returns for the scenario file without the blank after the
colon of the event line. -/
def scenario_doc : ASSFile :=
  ⟨false, LINE_SEPARATOR, [], [SCRIPT_INFO, EVENTS],
    [(SCRIPT_INFO, [("Title".toList, " x".toList)]),
     (EVENTS, [("Format".toList, " Start,End,Text".toList),
               ("Dialogue".toList, "0:00:05.00,0:00:15.00,Hi".toList)])]⟩

/-- The document that `load` returns for the scenario file written with `\r\n` line
breaks. -/
def scenario_crlf : ASSFile := { scenario_doc with line_break_ := ['\r', '\n'] }

/-- The lines that the successive calls of `getline` in the loop of `load` return, with
the same bound on their number as `load_loop`. -/
def read_lines (delim : Str) : Nat → ifstream → List Str
  | 0, _ => []
  | fuel + 1, input =>
    match getline input delim with
    | (false, _, _) => []
    | (true, line, input) => line :: read_lines delim fuel input

/-- The body of the loop of `load` applied in turn to the lines of a list. -/
def load_lines : List Str → LoadState → Except Error LoadState
  | [], s => .ok s
  | line :: rest, s =>
    match load_line line s with
    | .error e => .error e
    | .ok s => load_lines rest s

/-- The text of a field of an event: the characters of the span that `get_field`
returns, when it finds the field. -/
def field_text (data : Str) (idx : Nat) : Option Str :=
  match get_field data idx with
  | (true, field_begin, field_end) => some ((data.drop field_begin).take (field_end - field_begin))
  | (false, _, _) => none

/-- The sections and the current section of a state of `load` are canonical. -/
def LoadState.canonical (s : LoadState) : Prop :=
  s.current_section ∈ SECTIONS ∧ (∀ key ∈ s.file.sections_, key ∈ SECTIONS) ∧
    ∀ e ∈ s.file.sections_map_, e.1 ∈ SECTIONS

/-- Whether a state of `load` is canonical can be computed. -/
instance instDecidableCanonical (s : LoadState) : Decidable s.canonical := by
  unfold LoadState.canonical
  exact inferInstance

/-- The state of the loop of `load` before the first line that follows `[Script Info]`,
for a file without BOM whose lines end with `\n`. -/
def load_start : LoadState :=
  ⟨⟨false, LINE_SEPARATOR, [], [SCRIPT_INFO], []⟩, false, [], [], SCRIPT_INFO⟩

/-- The state of the loop of `load` after the lines `Title: x`, `[Fonts]` and
`fontname: a.ttf`: the field `fontname` is in progress. -/
def font_in_progress : LoadState :=
  ⟨⟨false, LINE_SEPARATOR, [], [SCRIPT_INFO], [(SCRIPT_INFO, [("Title".toList, " x".toList)])]⟩,
    false, FONT_LINE, " a.ttf".toList, FONTS⟩

/-- An example file with a section that `load` does not recognise, met while the field
`fontname` is in progress; one line of the section has no `:`. -/
def skipped_section_file : Str :=
  ("[Script Info]\nTitle: x\n[Fonts]\nfontname: a.ttf\n[Aegisub Project Garbage]\n" ++
    "no delimiter here\nActive Line: 3\n[Events]\nFormat: Start,End,Text\n").toList

/-- The document that `load` returns for `skipped_section_file`. -/
def skipped_section_doc : ASSFile :=
  ⟨false, LINE_SEPARATOR, [], [SCRIPT_INFO, FONTS, EVENTS],
    [(SCRIPT_INFO, [("Title".toList, " x".toList)]),
     (FONTS, [(FONT_LINE, " a.ttf".toList)]),
     (EVENTS, [("Format".toList, " Start,End,Text".toList)])]⟩

/-- An example file that ends while the field `fontname` is in progress, after a
continuation line of 80 characters. -/
def unfinished_font_file : Str :=
  "[Script Info]\nTitle: x\n[Fonts]\nfontname: a.ttf\n".toList ++ List.replicate 80 'M'

/-- The document that `load` returns for `unfinished_font_file`. -/
def unfinished_font_doc : ASSFile :=
  ⟨false, LINE_SEPARATOR, [], [SCRIPT_INFO, FONTS],
    [(SCRIPT_INFO, [("Title".toList, " x".toList)]),
     (FONTS, [(FONT_LINE, " a.ttf\n".toList ++ List.replicate 80 'M')])]⟩

/-- The events of the example document `shift_events`: an event without `End`, a `Sound`
event with a text in `End`, an event without `Start`, and an event with both. -/
def shift_events_lines : List (Str × Str) :=
  [("Dialogue".toList, "0:00:01.00,,Hi".toList),
   ("Sound".toList, "0:00:01.00,0:00:02.00,Hi".toList),
   ("Dialogue".toList, ",0:00:02.00,Hi".toList),
   ("Dialogue".toList, "0:00:01.00,0:00:02.00,Hi".toList)]

/-- An example document for the affine shift. -/
def shift_events : ASSFile :=
  ⟨false, LINE_SEPARATOR, [], [SCRIPT_INFO, EVENTS],
    [(SCRIPT_INFO, [("Title".toList, " x".toList)]),
     (EVENTS, two_events_format :: shift_events_lines)]⟩

/-- The events that `transform` writes for `shift_events` with `offset = 200` and
`scale = 2`. -/
def shifted_events_lines : List (Str × Str) :=
  [("Dialogue".toList, "0:00:04.00,,Hi".toList),
   ("Sound".toList, "0:00:04.00,,Hi".toList),
   ("Dialogue".toList, ",,Hi".toList),
   ("Dialogue".toList, "0:00:04.00,0:00:06.00,Hi".toList)]

/-- The output of `transform` for `shift_events` with `offset = 200` and `scale = 2`. -/
def shifted_events : ASSFile :=
  ⟨false, LINE_SEPARATOR, [], [SCRIPT_INFO, EVENTS],
    [(SCRIPT_INFO, [("Title".toList, " x".toList)]),
     (EVENTS, two_events_format :: shifted_events_lines)]⟩

/-! ## Lemmas: formatting -/

theorem printf_u_one : ∀ n, n < 10 → printf_u 1 n = [digitChar n] := by decide

set_option maxRecDepth 10000 in
theorem printf_u_two : ∀ n, n < 100 → printf_u 2 n = [digitChar (n / 10), digitChar (n % 10)] := by
  decide

theorem format_time_ok (c : Nat) (h : c < 3600000) :
    format_time c = .ok [digitChar (c / 360000), ':',
        digitChar (c % 360000 / 6000 / 10), digitChar (c % 360000 / 6000 % 10), ':',
        digitChar (c % 6000 / 100 / 10), digitChar (c % 6000 / 100 % 10), '.',
        digitChar (c % 100 / 10), digitChar (c % 100 % 10)] := by
  have h1 : c - c / 360000 * 360000 = c % 360000 := by omega
  have h2 : c % 360000 - c % 360000 / 6000 * 6000 = c % 6000 := by omega
  have h3 : c % 6000 - c % 6000 / 100 * 100 = c % 100 := by omega
  unfold format_time
  rw [if_neg (by omega)]
  simp only [h1, h2, h3, StringPrintf_time]
  rw [printf_u_one _ (by omega), printf_u_two _ (by omega), printf_u_two _ (by omega),
    printf_u_two _ (by omega)]
  rfl

/-! ## Lemmas: searching and splitting on the field delimiter -/

theorem startsWith_comma (c : Char) (cs : Str) : startsWith (c :: cs) [','] = (c == ',') := by
  cases cs <;> simp [startsWith]

theorem findFrom_none (s : Str) (k : Nat) (h : ',' ∉ s) : findFrom [','] s k = npos := by
  induction s generalizing k with
  | nil => simp [findFrom]
  | cons c cs ih =>
    have hc : c ≠ ',' := fun e => h (by simp [e])
    have hcs : ',' ∉ cs := fun e => h (by simp [e])
    rw [findFrom, startsWith_comma]
    simp [hc, ih _ hcs]

theorem findFrom_some (u w : Str) (k : Nat) (h : ',' ∉ u) :
    findFrom [','] (u ++ ',' :: w) k = k + u.length := by
  induction u generalizing k with
  | nil => simp [findFrom, startsWith_comma]
  | cons c cs ih =>
    have hc : c ≠ ',' := fun e => h (by simp [e])
    have hcs : ',' ∉ cs := fun e => h (by simp [e])
    rw [List.cons_append, findFrom, startsWith_comma]
    simp [hc, ih _ hcs]
    omega

theorem find_append (a r : Str) : find (a ++ r) [','] a.length = findFrom [','] r a.length := by
  simp [find]

/-- Every text either has no delimiter or splits at its first delimiter. -/
theorem first_comma (s : Str) : ',' ∉ s ∨ ∃ u w, s = u ++ ',' :: w ∧ ',' ∉ u := by
  induction s with
  | nil => simp
  | cons c cs ih =>
    by_cases hc : c = ','
    · exact Or.inr ⟨[], cs, by simp [hc], by simp⟩
    · rcases ih with h | ⟨u, w, h1, h2⟩
      · exact Or.inl (by simp [hc, h]; exact fun e => hc e.symm)
      · exact Or.inr ⟨c :: u, w, by simp [h1], by simp [h2]; exact fun e => hc e.symm⟩

theorem StringSplit_none (u : Str) (h : ',' ∉ u) : StringSplit u [','] = [u] := by
  induction u with
  | nil => rfl
  | cons c cs ih =>
    have hc : c ≠ ',' := fun e => h (by simp [e])
    have hcs : ',' ∉ cs := fun e => h (by simp [e])
    simp [StringSplit, hc, ih hcs]

theorem StringSplit_some (u w : Str) (h : ',' ∉ u) :
    StringSplit (u ++ ',' :: w) [','] = u :: StringSplit w [','] := by
  induction u with
  | nil => simp [StringSplit]
  | cons c cs ih =>
    have hc : c ≠ ',' := fun e => h (by simp [e])
    have hcs : ',' ∉ cs := fun e => h (by simp [e])
    simp [StringSplit, hc, ih hcs]

/-- What the loop of `get_field` has done when it stops. -/
theorem get_field_loop_spec (n : Nat) (pre s : Str) (hlen : (pre ++ s).length < npos) :
    (∃ st, get_field_loop (pre ++ s) [','] n pre.length = (false, st) ∧ s.count ',' < n) ∨
    (∃ mid rest toks, s = mid ++ rest ∧
      get_field_loop (pre ++ s) [','] n pre.length = (true, pre.length + mid.length) ∧
      mid.count ',' = n ∧ (n = 0 → mid = []) ∧ (n ≠ 0 → mid.getLast? = some ',') ∧
      toks.length = n ∧ ∀ t, StringSplit (mid ++ t) [','] = toks ++ StringSplit t [',']) := by
  induction n generalizing pre s with
  | zero =>
    exact Or.inr ⟨[], s, [], by simp, by simp [get_field_loop], by simp, by simp, by simp, by simp,
      by simp⟩
  | succ n ih =>
    rcases first_comma s with h | ⟨u, w, hs, hu⟩
    · refine Or.inl ⟨pre.length, ?_, ?_⟩
      · simp [get_field_loop, find_append, findFrom_none s _ h]
      · rw [List.count_eq_zero_of_not_mem h]; omega
    · subst hs
      have hlen2 : ((pre ++ u ++ [',']) ++ w).length < npos := by
        simpa [Nat.add_assoc] using hlen
      have hfind : find (pre ++ (u ++ ',' :: w)) [','] pre.length = pre.length + u.length := by
        rw [find_append, findFrom_some _ _ _ hu]
      have hne : pre.length + u.length ≠ npos := by
        simp at hlen; omega
      have hstep : get_field_loop (pre ++ (u ++ ',' :: w)) [','] (n + 1) pre.length
          = get_field_loop ((pre ++ u ++ [',']) ++ w) [','] n (pre ++ u ++ [',']).length := by
        rw [get_field_loop]
        simp only [hfind, hne, if_false]
        simp [Nat.add_assoc]
      have hcu : u.count ',' = 0 := List.count_eq_zero_of_not_mem hu
      rcases ih (pre ++ u ++ [',']) w hlen2 with ⟨st, h1, h2⟩ | ⟨mid, rest, toks, h1, h2, h3, h4, h5, h6, h7⟩
      · refine Or.inl ⟨st, by rw [hstep, h1], ?_⟩
        simp [List.count_append, hcu]; omega
      · refine Or.inr ⟨u ++ ',' :: mid, rest, u :: toks, by simp [h1], ?_, ?_, by simp, ?_, by simp [h6], ?_⟩
        · rw [hstep, h2]; simp; omega
        · simp [List.count_append, hcu, h3]
        · intro _
          by_cases hn : n = 0
          · simp [h4 hn]
          · have := h5 hn
            cases mid with
            | nil => simp at this
            | cons m ms => simp [List.getLast?_cons_cons] at this ⊢; simpa [List.getLast?_append] using this
        · intro t
          rw [List.append_assoc, List.cons_append, StringSplit_some _ _ hu, h7]
          simp


/-- The result of `get_field` on the `,` delimiter, read off the line. -/
theorem get_field_cases (line : Str) (index : Nat) (hlen : line.length < npos) :
    ((get_field line index).1 = false ∧ line.count ',' < index) ∨
    (∃ mid rest toks, line = mid ++ rest ∧
      get_field line index
        = (decide (mid.length < line.length), mid.length, findFrom [','] rest mid.length) ∧
      mid.count ',' = index ∧ (index = 0 → mid = []) ∧ (index ≠ 0 → mid.getLast? = some ',') ∧
      toks.length = index ∧ ∀ t, StringSplit (mid ++ t) [','] = toks ++ StringSplit t [',']) := by
  have h := get_field_loop_spec index [] line (by simpa using hlen)
  simp only [List.nil_append, List.length_nil, Nat.zero_add] at h
  rcases h with ⟨st, h1, h2⟩ | ⟨mid, rest, toks, h1, h2, h3, h4, h5, h6, h7⟩
  · exact Or.inl ⟨by simp [get_field, FIELD_DELIMITER, h1], h2⟩
  · refine Or.inr ⟨mid, rest, toks, h1, ?_, h3, h4, h5, h6, h7⟩
    subst h1
    simp only [get_field, FIELD_DELIMITER, h2]
    rw [find_append]

theorem getLast?_append_ne (a b : Str) (hb : b ≠ []) : (a ++ b).getLast? = b.getLast? := by
  cases b with
  | nil => exact absurd rfl hb
  | cons x xs =>
    rw [List.getLast?_append]
    cases h : (x :: xs).getLast? with
    | none => simp at h
    | some v => rfl

theorem mem_of_getLast? (b : Str) (c : Char) (h : b.getLast? = some c) : c ∈ b := by
  exact List.mem_of_getLast?_eq_some h

/-- C6 (as amended): on a line shorter than `npos` and for an index in the range of the
loop counter, `get_field` with the `,` delimiter reports "not found" exactly when `index`
exceeds the number of `,` in the line or the requested field is the last one and has no
character at all (the line is empty or ends with `,`); a found field has `start >= end`
exactly when a `,` stands at `start`. -/
theorem get_field_not_found_iff (line : Str) (index : Nat) (hlen : line.length < npos)
    (_hidx : index < 2 ^ 32) :
    ((get_field line index).1 = false ↔
      (line.count ',' < index ∨
        (index = line.count ',' ∧ (line = [] ∨ line.getLast? = some ',')))) ∧
    ((get_field line index).1 = true →
      ((get_field line index).2.2 ≤ (get_field line index).2.1 ↔
        line.get? (get_field line index).2.1 = some ',')) := by
  rcases get_field_cases line index hlen with ⟨h1, h2⟩ | ⟨mid, rest, toks, h1, h2, h3, h4, h5, -, -⟩
  · exact ⟨by simp [h1, h2], by simp [h1]⟩
  · subst h1
    rw [h2]
    simp only [List.count_append, h3, List.length_append]
    constructor
    · constructor
      · intro hf
        have hr : rest = [] := by
          cases rest with
          | nil => rfl
          | cons r rs => simp at hf
        subst hr
        refine Or.inr ⟨by simp, ?_⟩
        by_cases h0 : index = 0
        · exact Or.inl (by simp [h4 h0])
        · exact Or.inr (by simpa using h5 h0)
      · rintro (h | ⟨h, hl⟩)
        · omega
        · have hc : rest.count ',' = 0 := by omega
          have hnot : ',' ∉ rest := List.count_eq_zero.mp hc
          cases rest with
          | nil => simp
          | cons r rs =>
            exfalso
            rcases hl with hl | hl
            · simp at hl
            · rw [getLast?_append_ne _ _ (by simp)] at hl
              exact hnot (mem_of_getLast? _ _ hl)
    · intro hfound
      simp only [decide_eq_true_eq] at hfound
      rcases first_comma rest with h | ⟨u, w, hs, hu⟩
      · rw [findFrom_none _ _ h]
        have hlt : mid.length < npos := by simp at hlen; omega
        constructor
        · intro hle; omega
        · intro hg
          exfalso
          rw [List.get?_eq_getElem?, List.getElem?_append_right (Nat.le_refl _)] at hg
          simp at hg
          cases rest with
          | nil => simp at hg
          | cons r rs => simp at hg; exact h (by simp [hg])
      · subst hs
        rw [findFrom_some _ _ _ hu]
        rw [List.get?_eq_getElem?, List.getElem?_append_right (Nat.le_refl _)]
        simp only [Nat.sub_self]
        cases u with
        | nil => simp
        | cons c cs =>
          have hc : c ≠ ',' := fun e => hu (by simp [e])
          simp [hc]

/-- C7 (as amended): when `get_field` with the `,` delimiter succeeds with `(start, end)`
on a line shorter than `npos`, for an index in the range of the loop counter: `start` is `0` for `index = 0` and otherwise one past the
`index`-th `,` (a `,` stands at `start - 1` and exactly `index - 1` of them precede it);
`start` is a position of the line; `end` is the position of the first `,` at or after
`start`, or the sentinel `npos` (not the length of the line) when the field is the last
one; `start <= end`, and no `,` lies in the bytes from `start` up to `end`. -/
theorem get_field_span (line : Str) (index start stop : Nat) (hlen : line.length < npos)
    (_hidx : index < 2 ^ 32) (h : get_field line index = (true, start, stop)) :
    (index = 0 → start = 0) ∧
    (index ≠ 0 → 1 ≤ start ∧ line.get? (start - 1) = some ',' ∧
      (line.take (start - 1)).count ',' = index - 1) ∧
    start < line.length ∧ start ≤ stop ∧
    ((stop < line.length ∧ line.get? stop = some ',') ∨
      (stop = npos ∧ index = line.count ',')) ∧
    ',' ∉ (line.drop start).take (stop - start) := by
  rcases get_field_cases line index hlen with ⟨h1, -⟩ | ⟨mid, rest, toks, h1, h2, h3, h4, h5, -, -⟩
  · rw [h] at h1; simp at h1
  · subst h1
    rw [h2] at h
    simp only [Prod.mk.injEq, decide_eq_true_eq] at h
    obtain ⟨hlt, hst, hstop⟩ := h
    subst hst
    refine ⟨fun h0 => by simp [h4 h0], ?_, hlt, ?_⟩
    · intro h0
      have hl := h5 h0
      obtain ⟨m, hm⟩ : ∃ m, mid = m ++ [','] := by
        rcases List.eq_nil_or_concat mid with hnil | ⟨m, c, hmc⟩
        · simp [hnil] at hl
        · refine ⟨m, ?_⟩
          rw [hmc] at hl
          simp at hl
          rw [hmc, hl]; simp
      subst hm
      refine ⟨by simp, ?_, ?_⟩
      · simp [List.get?_eq_getElem?]
        rw [List.getElem_append_right (Nat.le_refl _)]; simp
      · simp at h3 ⊢
        omega
    · rcases first_comma rest with hn | ⟨u, w, hs, hu⟩
      · rw [findFrom_none _ _ hn] at hstop
        subst hstop
        have hlt2 : (mid ++ rest).length < npos := hlen
        refine ⟨by omega, Or.inr ⟨rfl, ?_⟩, ?_⟩
        · simp [List.count_append, h3, List.count_eq_zero_of_not_mem hn]
        · simp only [List.drop_left]
          intro hmem
          exact hn (List.mem_of_mem_take hmem)
      · subst hs
        rw [findFrom_some _ _ _ hu] at hstop
        subst hstop
        refine ⟨by omega, Or.inl ⟨by simp, ?_⟩, ?_⟩
        · rw [List.get?_eq_getElem?, List.getElem?_append_right (by omega)]
          simp
          rw [List.getElem_append_right (Nat.le_refl _)]; simp
        · simp only [List.drop_left, Nat.add_sub_cancel_left, List.take_left]
          exact hu

theorem get_field_index_loop_some (name : Str) (l : List Str) (k i : Nat)
    (h : get_field_index_loop name l k = some i) :
    ∃ j tok, i = k + j ∧ l.get? j = some tok ∧ StringTrim tok = name := by
  induction l generalizing k with
  | nil => simp [get_field_index_loop] at h
  | cons t ts ih =>
    rw [get_field_index_loop] at h
    by_cases ht : StringTrim t = name
    · simp [ht] at h
      exact ⟨0, t, by omega, by simp, ht⟩
    · simp [ht] at h
      obtain ⟨j, tok, h1, h2, h3⟩ := ih _ h
      exact ⟨j + 1, tok, by omega, by simpa using h2, h3⟩

theorem StringSplit_ne_nil (w delim : Str) : StringSplit w delim ≠ [] := by
  cases w with
  | nil => simp [StringSplit]
  | cons c cs =>
    simp only [StringSplit]
    split
    · simp
    · split <;> simp

/-- The first token of the split of a text, and whether the text is empty. -/
theorem StringSplit_head (rest : Str) :
    ∃ u ts, StringSplit rest [','] = u :: ts ∧ (ts = [] ∧ u = [] ↔ rest = []) ∧
      findFrom [','] rest 0 = (if ts = [] then npos else u.length) ∧
      (ts = [] → u = rest) ∧ (ts ≠ [] → ∃ w, rest = u ++ ',' :: w) ∧ ',' ∉ u := by
  rcases first_comma rest with hn | ⟨u, w, hs, hu⟩
  · refine ⟨rest, [], StringSplit_none _ hn, by simp, by simp [findFrom_none _ _ hn], by simp,
      by simp, hn⟩
  · subst hs
    have hne : StringSplit w [','] ≠ [] := StringSplit_ne_nil _ _
    refine ⟨u, StringSplit w [','], StringSplit_some _ _ hu, by simp [hne], ?_, ?_, ?_, hu⟩
    · simp [hne, findFrom_some _ _ _ hu]
    · intro hnil
      exact absurd hnil hne
    · intro _; exact ⟨w, rfl⟩

/-- C8 (as amended): for a Format declaration `f` shorter than `npos` and a name `n`
that `get_field_index` locates at an index `i` below `2 ^ 32`, `get_field` reports "not found" exactly
when the `i`-th field is the last field of `f` and has no character at all; whenever it
succeeds with `(start, end)`, the text `f.substr(start, end - start)`, trimmed, is `n`. -/
theorem get_field_of_get_field_index (f n : Str) (i : Nat) (hlen : f.length < npos)
    (_hidx : i < 2 ^ 32) (h : get_field_index f n = some i) :
    ((get_field f i).1 = false ↔
      ((StringSplit f [',']).get? i = some [] ∧ i + 1 = (StringSplit f [',']).length)) ∧
    ((get_field f i).1 = true →
      ∃ sub, substr f (get_field f i).2.1 ((get_field f i).2.2 - (get_field f i).2.1) = .ok sub ∧
        StringTrim sub = n) := by
  obtain ⟨j, tok, hj, htok, htrim⟩ := get_field_index_loop_some n _ 0 i h
  simp only [FIELD_DELIMITER, Nat.zero_add] at hj htok
  subst hj
  rcases get_field_cases f i hlen with ⟨-, h2⟩ | ⟨mid, rest, toks, h1, h2, -, -, -, h6, h7⟩
  · -- more tokens than delimiters: impossible
    exfalso
    rcases get_field_loop_spec (f.count ',') [] f (by simpa using hlen) with
      ⟨st, -, hc⟩ | ⟨mid, rest, toks, h1, -, h3, -, -, h6, h7⟩
    · simp at hc
    · subst h1
      have hr : rest.count ',' = 0 := by simp [List.count_append] at h3; exact h3
      have hsplit := h7 rest
      rw [StringSplit_none rest (List.count_eq_zero.mp hr)] at hsplit
      rw [hsplit] at htok
      have : i < (toks ++ [rest]).length := by
        rcases Nat.lt_or_ge i (toks ++ [rest]).length with hlt | hge
        · exact hlt
        · rw [List.get?_eq_getElem?, List.getElem?_eq_none hge] at htok
          simp at htok
      simp [h6] at this
      simp [List.count_append, hr] at h2 h3
      omega
  · subst h1
    obtain ⟨u, ts, hu1, hu2, hu3, hu4, hu5, hu6⟩ := StringSplit_head rest
    have hsplit := h7 rest
    rw [hu1] at hsplit
    rw [hsplit, List.get?_eq_getElem?, List.getElem?_append_right (by omega)] at htok
    simp [h6] at htok
    subst htok
    rw [h2, hsplit]
    simp only [List.length_append, List.length_cons, h6]
    constructor
    · rw [List.get?_eq_getElem?, List.getElem?_append_right (by omega)]
      simp only [h6, Nat.sub_self, decide_eq_false_iff_not]
      constructor
      · intro hf
        have hr : rest = [] := by
          cases rest with
          | nil => rfl
          | cons r rs => simp at hf
        have := hu2.mpr hr
        simp [this.1, this.2]
      · rintro ⟨ha, hb⟩
        simp at ha
        have hts : ts = [] := by
          cases ts with
          | nil => rfl
          | cons t tt => simp at hb
        have := hu2.mp ⟨hts, ha⟩
        simp [this]
    · intro hfound
      simp only [decide_eq_true_eq] at hfound
      refine ⟨u, ?_, htrim⟩
      have hpos : ¬ (mid.length > (mid ++ rest).length) := by simp
      simp only [substr, hpos, if_false, List.drop_left]
      by_cases hts : ts = []
      · have hr := hu4 hts
        subst hr
        have hfn : findFrom [','] u mid.length = npos := findFrom_none _ _ hu6
        rw [hfn]
        rw [List.take_of_length_le]
        simp at hlen; omega
      · obtain ⟨w, hw⟩ := hu5 hts
        rw [hw, findFrom_some _ _ _ hu6]
        simp

theorem find?_key_isSome (m2 : List (Str × Nat)) (str : Str) :
    (m2.find? (fun kv => decide (kv.1 = str))).isSome = true ↔ str ∈ m2.map Prod.fst := by
  rw [List.find?_isSome]
  simp

theorem compute_permutation_map_ok (ts : List Str) (index : Nat) (m2 : List (Str × Nat))
    (h : (m2.map Prod.fst ++ ts.map StringTrim).Nodup) :
    compute_permutation_map ts index m2
      = .ok (m2 ++ (ts.map StringTrim).zip (List.range' index (ts.map StringTrim).length)) := by
  induction ts generalizing index m2 with
  | nil => simp [compute_permutation_map]
  | cons t ts ih =>
    have hnot : StringTrim t ∉ m2.map Prod.fst := by
      intro hmem
      rw [List.nodup_append] at h
      exact h.2.2 hmem (by simp)
    have hsome : ¬ (m2.find? (fun kv => decide (kv.1 = StringTrim t))).isSome = true := by
      rw [find?_key_isSome]; exact hnot
    rw [compute_permutation_map]
    simp only [hsome, if_false]
    rw [ih]
    · simp [List.range'_succ]
    · simpa [List.append_assoc] using h

theorem compute_permutation_map_err (ts : List Str) (index : Nat) (m2 : List (Str × Nat))
    (hm : (m2.map Prod.fst).Nodup) (h : ¬ (m2.map Prod.fst ++ ts.map StringTrim).Nodup) :
    compute_permutation_map ts index m2 = .error (.io_error "duplicated format field") := by
  induction ts generalizing index m2 with
  | nil => simp at h; exact absurd hm h
  | cons t ts ih =>
    rw [compute_permutation_map]
    by_cases hmem : StringTrim t ∈ m2.map Prod.fst
    · have hsome := (find?_key_isSome m2 (StringTrim t)).mpr hmem
      simp only [hsome, if_true]
    · have hsome : ¬ (m2.find? (fun kv => decide (kv.1 = StringTrim t))).isSome = true := by
        rw [find?_key_isSome]; exact hmem
      simp only [hsome, if_false]
      apply ih
      · simp only [List.map_append, List.map_cons, List.map_nil]
        rw [List.nodup_append]
        refine ⟨hm, by simp, ?_⟩
        intro a ha hb
        simp at hb
        subst hb
        exact hmem ha
      · simpa [List.append_assoc] using h

theorem compute_permutation_fill_ok (m2 : List (Str × Nat)) (ts s1 : List Str) (p : List Nat)
    (h : compute_permutation_fill m2 ts s1 = .ok p) :
    (ts.map StringTrim).Nodup ∧ (∀ n ∈ ts.map StringTrim, n ∉ s1) ∧
    List.Forall₂ (fun t j => (StringTrim t, j) ∈ m2) ts p := by
  induction ts generalizing s1 p with
  | nil =>
    simp [compute_permutation_fill] at h
    subst h
    simp
  | cons t ts ih =>
    rw [compute_permutation_fill] at h
    by_cases hs : StringTrim t ∈ s1
    · simp [hs] at h
    · simp only [hs, if_false] at h
      cases hf : m2.find? (fun kv => decide (kv.1 = StringTrim t)) with
      | none => simp [hf] at h
      | some it =>
        simp only [hf] at h
        cases hr : compute_permutation_fill m2 ts (StringTrim t :: s1) with
        | error e => simp [hr] at h
        | ok rest =>
          simp only [hr, Except.ok.injEq] at h
          subst h
          obtain ⟨h1, h2, h3⟩ := ih _ _ hr
          have hit : it ∈ m2 := List.mem_of_find?_eq_some hf
          have hkey : it.1 = StringTrim t := by
            have := List.find?_some hf
            simpa using this
          refine ⟨?_, ?_, ?_⟩
          · simp only [List.map_cons, List.nodup_cons]
            refine ⟨fun hmem => ?_, h1⟩
            exact h2 _ hmem (by simp)
          · intro n hn
            simp only [List.map_cons, List.mem_cons] at hn
            rcases hn with rfl | hn
            · exact hs
            · intro hmem; exact h2 _ hn (by simp [hmem])
          · refine List.Forall₂.cons ?_ h3
            rw [← hkey]
            exact hit

theorem compute_permutation_fill_err (m2 : List (Str × Nat)) (ts s1 : List Str) (e : Error)
    (h : compute_permutation_fill m2 ts s1 = .error e) :
    ¬ (ts.map StringTrim).Nodup ∨ (∃ n ∈ ts.map StringTrim, n ∈ s1) ∨
      ∃ n ∈ ts.map StringTrim, n ∉ m2.map Prod.fst := by
  induction ts generalizing s1 e with
  | nil => simp [compute_permutation_fill] at h
  | cons t ts ih =>
    rw [compute_permutation_fill] at h
    by_cases hs : StringTrim t ∈ s1
    · exact Or.inr (Or.inl ⟨_, by simp, hs⟩)
    · simp only [hs, if_false] at h
      cases hf : m2.find? (fun kv => decide (kv.1 = StringTrim t)) with
      | none =>
        refine Or.inr (Or.inr ⟨StringTrim t, by simp, ?_⟩)
        intro hmem
        have := (find?_key_isSome m2 (StringTrim t)).mpr hmem
        simp [hf] at this
      | some it =>
        simp only [hf] at h
        cases hr : compute_permutation_fill m2 ts (StringTrim t :: s1) with
        | ok rest => simp [hr] at h
        | error e2 =>
          rcases ih _ _ hr with h1 | ⟨n, hn, hmem⟩ | ⟨n, hn, hnot⟩
          · exact Or.inl (by simp only [List.map_cons, List.nodup_cons]; tauto)
          · simp only [List.mem_cons] at hmem
            rcases hmem with rfl | hmem
            · exact Or.inl (by simp only [List.map_cons, List.nodup_cons]; tauto)
            · exact Or.inr (Or.inl ⟨n, by simp [hn], hmem⟩)
          · exact Or.inr (Or.inr ⟨n, by simp [hn], hnot⟩)

theorem mem_zip_range_from (l : List Str) (k : Nat) (a : Str) (j : Nat)
    (h : (a, j) ∈ l.zip (List.range' k l.length)) : k ≤ j ∧ l.get? (j - k) = some a := by
  induction l generalizing k with
  | nil => simp at h
  | cons x xs ih =>
    simp only [List.length_cons, List.range'_succ, List.zip_cons_cons, List.mem_cons,
      Prod.mk.injEq] at h
    rcases h with ⟨rfl, rfl⟩ | h
    · simp
    · obtain ⟨h1, h2⟩ := ih _ h
      refine ⟨by omega, ?_⟩
      have : j - k = (j - (k + 1)) + 1 := by omega
      rw [this]
      simpa using h2

theorem map_fst_zip_range_from (l : List Str) (k : Nat) :
    (l.zip (List.range' k l.length)).map Prod.fst = l := by
  induction l generalizing k with
  | nil => simp
  | cons x xs ih => simp [List.range'_succ, ih]

theorem compute_permutation_ok (A B : Str) (p : List Nat)
    (h : compute_permutation A B = .ok p) :
    (fieldNames A).Nodup ∧ (fieldNames B).Nodup ∧ (∀ n ∈ fieldNames A, n ∈ fieldNames B) ∧
    List.Forall₂ (fun a j => (fieldNames B).get? j = some a) (fieldNames A) p := by
  unfold compute_permutation at h
  by_cases hB : (fieldNames B).Nodup
  · have hmap := compute_permutation_map_ok (StringSplit B FIELD_DELIMITER) 0 []
      (by simpa [fieldNames] using hB)
    rw [hmap] at h
    simp only [List.nil_append] at h
    obtain ⟨h1, -, h3⟩ := compute_permutation_fill_ok _ _ _ _ h
    have h4 : List.Forall₂ (fun a j => (fieldNames B).get? j = some a) (fieldNames A) p := by
      unfold fieldNames
      rw [List.forall₂_map_left_iff]
      refine h3.imp ?_
      intro t j hmem
      have := mem_zip_range_from _ 0 _ _ hmem
      simpa using this.2
    refine ⟨h1, hB, ?_, h4⟩
    intro n hn
    obtain ⟨i, hi, rfl⟩ := List.getElem_of_mem hn
    have hlen := h4.length_eq
    have := List.Forall₂.get h4 hi (by omega)
    simp only [List.get_eq_getElem] at this
    exact List.get?_mem this
  · have hmap := compute_permutation_map_err (StringSplit B FIELD_DELIMITER) 0 [] (by simp)
      (by simpa [fieldNames] using hB)
    rw [hmap] at h
    simp at h

theorem compute_permutation_error (A B : Str) (e : Error)
    (h : compute_permutation A B = .error e) :
    ¬ (fieldNames A).Nodup ∨ ¬ (fieldNames B).Nodup ∨ ∃ n ∈ fieldNames A, n ∉ fieldNames B := by
  unfold compute_permutation at h
  by_cases hB : (fieldNames B).Nodup
  · have hmap := compute_permutation_map_ok (StringSplit B FIELD_DELIMITER) 0 []
      (by simpa [fieldNames] using hB)
    rw [hmap] at h
    simp only [List.nil_append] at h
    rcases compute_permutation_fill_err _ _ _ _ h with h1 | ⟨n, -, hn⟩ | ⟨n, hn, hnot⟩
    · exact Or.inl h1
    · simp at hn
    · refine Or.inr (Or.inr ⟨n, hn, ?_⟩)
      rw [map_fst_zip_range_from] at hnot
      exact hnot
  · exact Or.inr (Or.inl hB)

/-- C9: `compute_permutation(A, B)` throws exactly when the trimmed names of `A` or of
`B` contain a duplicate or some name of `A` is missing from `B`; otherwise it returns a
list `p` with one entry per field of `A`, `p[i]` being a position of `B` that holds the
`i`-th name of `A`, and `p` has no repeated entry. -/
theorem compute_permutation_spec (A B : Str) :
    ((∃ e, compute_permutation A B = .error e) ↔
      (¬ (fieldNames A).Nodup ∨ ¬ (fieldNames B).Nodup ∨
        ∃ n ∈ fieldNames A, n ∉ fieldNames B)) ∧
    (∀ p, compute_permutation A B = .ok p →
      p.length = (fieldNames A).length ∧
      (∀ i, i < (fieldNames A).length →
        ∃ j, p.get? i = some j ∧ j < (fieldNames B).length ∧
          (fieldNames B).get? j = (fieldNames A).get? i) ∧
      p.Nodup) := by
  constructor
  · constructor
    · rintro ⟨e, he⟩
      exact compute_permutation_error A B e he
    · intro hbad
      cases hr : compute_permutation A B with
      | error e => exact ⟨e, rfl⟩
      | ok p =>
        obtain ⟨h1, h2, h3, -⟩ := compute_permutation_ok A B p hr
        rcases hbad with h | h | ⟨n, hn, hnot⟩
        · exact absurd h1 h
        · exact absurd h2 h
        · exact absurd (h3 n hn) hnot
  · intro p hp
    obtain ⟨h1, h2, h3, h4⟩ := compute_permutation_ok A B p hp
    have hlen := h4.length_eq
    have hidx : ∀ i, i < (fieldNames A).length →
        ∃ j, p.get? i = some j ∧ j < (fieldNames B).length ∧
          (fieldNames B).get? j = (fieldNames A).get? i := by
      intro i hi
      have hip : i < p.length := by omega
      have := List.Forall₂.get h4 hi hip
      simp only [List.get_eq_getElem] at this
      refine ⟨p[i], by simp [List.get?_eq_getElem?, hip], ?_, ?_⟩
      · by_contra hge
        rw [List.get?_eq_getElem?, List.getElem?_eq_none (by omega)] at this
        simp at this
      · rw [this]; simp [List.get?_eq_getElem?, hi]
    refine ⟨hlen.symm, hidx, ?_⟩
    rw [List.nodup_iff_injective_get]
    intro a b hab
    obtain ⟨ja, h1a, -, h3a⟩ := hidx a.1 (by have := a.2; omega)
    obtain ⟨jb, h1b, -, h3b⟩ := hidx b.1 (by have := b.2; omega)
    have ha : p.get a = ja := by
      rw [List.get?_eq_getElem?, List.getElem?_eq_getElem a.2] at h1a
      simpa using h1a
    have hb : p.get b = jb := by
      rw [List.get?_eq_getElem?, List.getElem?_eq_getElem b.2] at h1b
      simpa using h1b
    have hj : ja = jb := by rw [← ha, ← hb, hab]
    subst hj
    have heq : (fieldNames A).get? a.1 = (fieldNames A).get? b.1 := by rw [← h3a, ← h3b]
    have hlt_a : a.1 < (fieldNames A).length := by have := a.2; omega
    have hlt_b : b.1 < (fieldNames A).length := by have := b.2; omega
    rw [List.get?_eq_getElem?, List.get?_eq_getElem?, List.getElem?_eq_getElem hlt_a,
      List.getElem?_eq_getElem hlt_b] at heq
    simp only [Option.some.injEq] at heq
    have := (List.Nodup.getElem_inj_iff h1).mp heq
    exact Fin.ext this
theorem apply_permutation_loop_ok (v : List Str) (perm : List Nat) (w : List Str)
    (h : ∀ j ∈ perm, j < v.length) :
    apply_permutation_loop v perm w = (true, w ++ perm.map (fun j => v.getD j [])) := by
  induction perm generalizing w with
  | nil => simp [apply_permutation_loop]
  | cons j rest ih =>
    have hj : j < v.length := h j (by simp)
    rw [apply_permutation_loop]
    simp only [hj, dite_true]
    rw [ih _ (fun k hk => h k (by simp [hk]))]
    simp [List.getD_eq_getElem?_getD, List.getElem?_eq_getElem hj]

theorem apply_permutation_ok (v : List Str) (perm : List Nat) (hlen : v.length = perm.length)
    (h : ∀ j ∈ perm, j < v.length) :
    apply_permutation v perm = (true, perm.map (fun j => v.getD j [])) := by
  unfold apply_permutation
  simp [hlen]
  rw [apply_permutation_loop_ok v perm [] h]
  simp

/-- Entries of a permutation computed between two declarations index the second one. -/
theorem forall₂_get (names other : List Str) (p : List Nat)
    (h : List.Forall₂ (fun a j => other.get? j = some a) names p) (i : Nat)
    (hi : i < names.length) :
    ∃ j, p.get? i = some j ∧ j < other.length ∧ other.get? j = names.get? i := by
  have hlen := h.length_eq
  have hip : i < p.length := by omega
  have := List.Forall₂.get h hi hip
  simp only [List.get_eq_getElem] at this
  refine ⟨p[i], by simp [List.get?_eq_getElem?, hip], ?_, ?_⟩
  · by_contra hge
    rw [List.get?_eq_getElem?, List.getElem?_eq_none (by omega)] at this
    simp at this
  · rw [this]; simp [List.get?_eq_getElem?, hi]

theorem nodup_get?_inj (l : List Str) (hl : l.Nodup) (i j : Nat) (a : Str)
    (hi : l.get? i = some a) (hj : l.get? j = some a) : i = j := by
  rw [List.get?_eq_getElem?] at hi hj
  obtain ⟨hi1, hi2⟩ := List.getElem?_eq_some_iff.mp hi
  obtain ⟨hj1, hj2⟩ := List.getElem?_eq_some_iff.mp hj
  exact (List.Nodup.getElem_inj_iff hl).mp (hi2.trans hj2.symm)

/-- C10: for declarations `A` and `B` without duplicate names and with the same set of
names, and a value list `v` with one entry per field of `A`: both permutations are
computed, both applications succeed, and applying the permutation from `A` to `B` and
then the one from `B` to `A` gives `v` back. -/
theorem apply_permutation_inverse (A B : Str) (v : List Str)
    (hA : (fieldNames A).Nodup) (hB : (fieldNames B).Nodup)
    (hset : ∀ n, n ∈ fieldNames A ↔ n ∈ fieldNames B)
    (hv : v.length = (fieldNames A).length) :
    ∃ p q w, compute_permutation A B = .ok p ∧ compute_permutation B A = .ok q ∧
      apply_permutation v p = (true, w) ∧ apply_permutation w q = (true, v) := by
  have hAB : (fieldNames A).length = (fieldNames B).length := by
    apply Nat.le_antisymm
    · exact (List.subperm_of_subset hA (fun n hn => (hset n).mp hn)).length_le
    · exact (List.subperm_of_subset hB (fun n hn => (hset n).mpr hn)).length_le
  obtain ⟨p, hp⟩ : ∃ p, compute_permutation A B = .ok p := by
    cases hr : compute_permutation A B with
    | ok p => exact ⟨p, rfl⟩
    | error e =>
      rcases compute_permutation_error A B e hr with h | h | ⟨n, hn, hnot⟩
      · exact absurd hA h
      · exact absurd hB h
      · exact absurd ((hset n).mp hn) hnot
  obtain ⟨q, hq⟩ : ∃ q, compute_permutation B A = .ok q := by
    cases hr : compute_permutation B A with
    | ok q => exact ⟨q, rfl⟩
    | error e =>
      rcases compute_permutation_error B A e hr with h | h | ⟨n, hn, hnot⟩
      · exact absurd hB h
      · exact absurd hA h
      · exact absurd ((hset n).mpr hn) hnot
  obtain ⟨-, -, -, hFp⟩ := compute_permutation_ok A B p hp
  obtain ⟨-, -, -, hFq⟩ := compute_permutation_ok B A q hq
  have hpl := hFp.length_eq
  have hql := hFq.length_eq
  have hp_lt : ∀ j ∈ p, j < v.length := by
    intro j hj
    obtain ⟨i, hi, rfl⟩ := List.getElem_of_mem hj
    obtain ⟨j2, h1, h2, -⟩ := forall₂_get _ _ _ hFp i (by omega)
    rw [List.get?_eq_getElem?, List.getElem?_eq_getElem hi] at h1
    simp only [Option.some.injEq] at h1
    omega
  have hq_lt : ∀ j ∈ q, j < (p.map (fun j => v.getD j [])).length := by
    intro j hj
    obtain ⟨i, hi, rfl⟩ := List.getElem_of_mem hj
    obtain ⟨j2, h1, h2, -⟩ := forall₂_get _ _ _ hFq i (by omega)
    rw [List.get?_eq_getElem?, List.getElem?_eq_getElem hi] at h1
    simp only [Option.some.injEq] at h1
    simp only [List.length_map]
    omega
  refine ⟨p, q, p.map (fun j => v.getD j []), hp, hq,
    apply_permutation_ok v p (by omega) hp_lt, ?_⟩
  rw [apply_permutation_ok _ q (by simp; omega) hq_lt]
  congr 1
  apply List.ext_getElem?
  intro n
  rcases Nat.lt_or_ge n v.length with hn | hn
  · obtain ⟨i, hq1, hq2, hq3⟩ := forall₂_get _ _ _ hFq n (by omega)
    obtain ⟨j, hp1, hp2, hp3⟩ := forall₂_get _ _ _ hFp i hq2
    have hnB : n < (fieldNames B).length := by omega
    have hjn : j = n := by
      rw [hq3] at hp3
      exact nodup_get?_inj _ hB j n ((fieldNames B)[n]) (by
        rw [hp3]; simp [List.get?_eq_getElem?, List.getElem?_eq_getElem hnB]) (by
        simp [List.get?_eq_getElem?, List.getElem?_eq_getElem hnB])
    subst hjn
    rw [List.get?_eq_getElem?] at hq1 hp1
    simp only [List.getElem?_map, hq1, Option.map_some', List.getD_eq_getElem?_getD, hp1,
      Option.getD_some]
    rw [List.getElem?_eq_getElem hn]
    simp
  · rw [List.getElem?_eq_none (by simp; omega), List.getElem?_eq_none hn]
/-! ## Lemmas: parsing a timestamp -/

theorem isdigit_not_isspace (c : Char) (h : isdigit c = true) : isspace c = false := by
  cases hs : isspace c with
  | false => rfl
  | true =>
    exfalso
    simp only [isspace, Bool.or_eq_true, decide_eq_true_eq] at hs
    rcases hs with ((((rfl | rfl) | rfl) | rfl) | rfl) | rfl <;> simp [isdigit] at h

theorem isdigit_not_sign (c : Char) (h : isdigit c = true) : c ≠ '-' ∧ c ≠ '+' := by
  constructor <;> rintro rfl <;> simp [isdigit] at h

theorem takeSign_of_not_sign (c : Char) (cs : Str) (h1 : c ≠ '-') (h2 : c ≠ '+') :
    takeSign (c :: cs) = (false, c :: cs) := by
  unfold takeSign
  split
  · rename_i heq; simp at heq; exact absurd heq.1 h1
  · rename_i heq; simp at heq; exact absurd heq.1 h2
  · rfl

/-- `std::stoul` on a one-character text: it succeeds exactly on a digit. -/
theorem stoul_single (c : Char) :
    (∃ v, stoul [c] = .ok v) ↔ isdigit c = true := by
  constructor
  · rintro ⟨v, hv⟩
    unfold stoul at hv
    by_cases hs : isspace c = true
    · simp [List.dropWhile, hs, takeSign] at hv
    · simp only [List.dropWhile, hs] at hv
      by_cases hm : c = '-'
      · subst hm; simp [takeSign, List.takeWhile] at hv
      · by_cases hp : c = '+'
        · subst hp; simp [takeSign, List.takeWhile] at hv
        · rw [takeSign_of_not_sign c [] hm hp] at hv
          by_cases hd : isdigit c = true
          · exact hd
          · simp [List.takeWhile, hd] at hv
  · intro hd
    have hs := isdigit_not_isspace c hd
    obtain ⟨hm, hp⟩ := isdigit_not_sign c hd
    unfold stoul
    simp only [List.dropWhile, hs]
    rw [takeSign_of_not_sign c [] hm hp]
    simp only [List.takeWhile, hd]
    have hval : digitsValue 10 [c] ≤ 9 := by
      simp only [digitsValue, List.foldl, digitValue]
      simp only [isdigit, decide_eq_true_eq] at hd
      simp only [hd, and_self, if_true]
      have : c.toNat ≤ 57 := hd.2
      omega
    have hle : ¬ digitsValue 10 [c] > 2 ^ 64 - 1 := by omega
    simp only [hle, if_false]
    exact ⟨_, rfl⟩
theorem toDouble_ne_undefined (neg : Bool) (p q : Nat) :
    toDouble neg p q ≠ .error .undefined_conversion := by
  unfold toDouble
  intro h
  dsimp only at h
  split at h <;> simp at h

theorem stoul_ne_undefined (v : Str) : stoul v ≠ .error .undefined_conversion := by
  unfold stoul
  intro h
  dsimp only at h
  repeat' split at h
  all_goals simp at h

theorem stod_ne_undefined (v : Str) : stod v ≠ .error .undefined_conversion := by
  unfold stod
  intro h
  dsimp only at h
  repeat' split at h
  all_goals first | exact toDouble_ne_undefined _ _ _ h | simp at h

/-- The body of `parse_time` once the text is split in three. -/
theorem parse_time_of_split (s v0 v1 v2 : Str) (h : StringSplit s [':'] = [v0, v1, v2]) :
    parse_time s =
      if v0.length ≠ 1 then .error (.io_error "invalid timestamp format")
      else
        match stoul v0 with
        | .error e => .error e
        | .ok hours =>
          if v1.length ≠ 2 then .error (.io_error "invalid timestamp format")
          else
            match stoul v1 with
            | .error e => .error e
            | .ok minutes =>
              if minutes ≥ 60 then .error (.io_error "invalid timestamp format")
              else
                match stod v2 with
                | .error e => .error e
                | .ok parsed_d =>
                  if parsed_d.ge60 then .error (.io_error "invalid timestamp format")
                  else
                    match (parsed_d.mul100).toTime with
                    | .error e => .error e
                    | .ok cs =>
                      .ok ((((0 + hours * 360000 % 2 ^ 64 % 2 ^ 32) % 2 ^ 32
                        + minutes * 6000 % 2 ^ 64 % 2 ^ 32) % 2 ^ 32 + cs) % 2 ^ 32) := by
  unfold parse_time
  simp only [h]

/-- `parse_time` throws when the text does not split in exactly three parts. -/
theorem parse_time_of_not_split (s : Str) (h : ∀ v0 v1 v2, StringSplit s [':'] ≠ [v0, v1, v2]) :
    parse_time s = .error (.io_error "invalid timestamp format") := by
  unfold parse_time
  dsimp only
  split
  · rename_i v0 v1 v2 heq
    exact absurd heq (h v0 v1 v2)
  · rfl
/-- The results of `parse_time`.  It returns a value exactly on the texts that split on
`:` into three parts of which the first is one ASCII digit, the second has two characters
from which `std::stoul` reads a number below 60, and the third starts with a number that
`std::stod` reads, not `>= 60.`, whose product with `100.` the conversion to `time_t` is
defined on.  The model has the marker `undefined_conversion` exactly on the texts that pass
these checks and on which C++ leaves that conversion undefined. -/
theorem parse_time_cases (s : Str) :
    ((∃ v, parse_time s = .ok v) ↔
      ∃ h m sec mm x cs, StringSplit s [':'] = [[h], m, sec] ∧ isdigit h = true ∧
        m.length = 2 ∧ stoul m = .ok mm ∧ mm < 60 ∧
        stod sec = .ok x ∧ x.ge60 = false ∧ x.mul100.toTime = .ok cs) ∧
    (parse_time s = .error .undefined_conversion ↔
      ∃ h m sec mm x, StringSplit s [':'] = [[h], m, sec] ∧ isdigit h = true ∧
        m.length = 2 ∧ stoul m = .ok mm ∧ mm < 60 ∧
        stod sec = .ok x ∧ x.ge60 = false ∧
        x.mul100.toTime = .error .undefined_conversion) := by
  by_cases hsp : ∃ v0 v1 v2, StringSplit s [':'] = [v0, v1, v2]
  · obtain ⟨v0, v1, v2, hsplit⟩ := hsp
    rw [parse_time_of_split s v0 v1 v2 hsplit, hsplit]
    rcases v0 with _ | ⟨h, _ | ⟨h2, t⟩⟩
    · simp
    · simp only [List.length_singleton, ne_eq, not_true_eq_false, if_false]
      cases h1 : stoul [h] with
      | error e =>
        have hnd : ¬ isdigit h = true := fun hd => by
          obtain ⟨v, hv⟩ := (stoul_single h).mpr hd
          rw [h1] at hv; cases hv
        have hne : e ≠ .undefined_conversion := fun he => stoul_ne_undefined [h] (he ▸ h1)
        simp [hnd, hne]
      | ok hours =>
        have hd : isdigit h = true := (stoul_single h).mp ⟨hours, h1⟩
        by_cases hl : v1.length = 2
        · simp only [hl, ne_eq, not_true_eq_false, if_false]
          cases h2 : stoul v1 with
          | error e =>
            have hne : e ≠ .undefined_conversion := fun he => stoul_ne_undefined v1 (he ▸ h2)
            simp [h2, hne]
          | ok mm =>
            by_cases hmm : mm ≥ 60
            · simp [h2, hmm]
            · simp only [hmm, if_false]
              cases h3 : stod v2 with
              | error e =>
                have hne : e ≠ .undefined_conversion := fun he => stod_ne_undefined v2 (he ▸ h3)
                simp [h3, hne]
              | ok x =>
                cases h4 : x.ge60 with
                | true => simp [h3, h4]
                | false =>
                  simp only [h4, Bool.false_eq_true, if_false]
                  cases h5 : x.mul100.toTime with
                  | error e =>
                    simp only [reduceCtorEq, exists_false, Except.error.injEq, false_iff]
                    constructor
                    · rintro ⟨_, _, _, _, _, _, heq, _, _, hst, _, hsd, _, ht⟩
                      simp only [List.cons.injEq, and_true] at heq
                      obtain ⟨-, rfl, rfl⟩ := heq
                      rw [h3] at hsd; cases hsd
                      rw [h5] at ht; cases ht
                    · constructor
                      · rintro rfl
                        exact ⟨h, v1, v2, mm, x, rfl, hd, hl, h2, by omega, h3, h4, h5⟩
                      · rintro ⟨_, _, _, _, _, heq, _, _, hst, _, hsd, _, ht⟩
                        simp only [List.cons.injEq, and_true] at heq
                        obtain ⟨-, rfl, rfl⟩ := heq
                        rw [h3] at hsd; cases hsd
                        rw [h5] at ht; cases ht
                        rfl
                  | ok cs =>
                    simp only [Except.ok.injEq, exists_eq', true_iff, reduceCtorEq, false_iff]
                    constructor
                    · exact ⟨h, v1, v2, mm, x, cs, rfl, hd, hl, h2, by omega, h3, h4, h5⟩
                    · rintro ⟨_, _, _, _, _, heq, _, _, hst, _, hsd, _, ht⟩
                      simp only [List.cons.injEq, and_true] at heq
                      obtain ⟨-, rfl, rfl⟩ := heq
                      rw [h3] at hsd; cases hsd
                      rw [h5] at ht; cases ht
        · simp only [ne_eq, hl, not_false_eq_true, if_true]
          simp
          constructor
          · intro _ hlen
            exact absurd hlen hl
          · intro _ hlen
            exact absurd hlen hl
    · simp
  · have hne : ∀ v0 v1 v2, StringSplit s [':'] ≠ [v0, v1, v2] :=
      fun v0 v1 v2 heq => hsp ⟨v0, v1, v2, heq⟩
    rw [parse_time_of_not_split s hne]
    simp only [reduceCtorEq, exists_false, false_iff, not_exists, not_and, Except.error.injEq]
    constructor
    · intro h m sec _ _ _ heq
      exact absurd heq (hne _ _ _)
    · intro h m sec _ _ heq
      exact absurd heq (hne _ _ _)
/-! ## Lemmas: binary64 rounding and the seconds of a timestamp -/

/-- Rounding a quotient to the nearest integer errs by at most one half. -/
theorem roundHalfEven_close (P q : Nat) (hq : 0 < q) :
    |(roundHalfEven P q : ℚ) - (P : ℚ) / q| ≤ 1 / 2 := by
  have hq' : (0 : ℚ) < q := by exact_mod_cast hq
  have hP : (P : ℚ) = q * (P / q : ℕ) + (P % q : ℕ) := by
    exact_mod_cast (Nat.div_add_mod P q).symm
  have hr : (P % q : ℕ) < q := Nat.mod_lt _ hq
  have hr' : ((P % q : ℕ) : ℚ) < q := by exact_mod_cast hr
  have hr0 : (0 : ℚ) ≤ ((P % q : ℕ) : ℚ) := by positivity
  have key : ∀ m : ℚ, |m * q - P| ≤ q / 2 → |m - (P : ℚ) / q| ≤ 1 / 2 := by
    intro m hm
    have : m - (P : ℚ) / q = (m * q - P) / q := by field_simp
    rw [this, abs_div, abs_of_pos hq', div_le_iff₀ hq']
    linarith
  apply key
  unfold roundHalfEven
  dsimp only
  split
  · rename_i h1
    have h1' : (2 : ℚ) * ((P % q : ℕ) : ℚ) < q := by exact_mod_cast h1
    rw [abs_le]
    constructor <;> nlinarith
  · split
    · rename_i h1 h2
      have h2' : (q : ℚ) < 2 * ((P % q : ℕ) : ℚ) := by exact_mod_cast h2
      push_cast
      rw [abs_le]
      constructor <;> nlinarith
    · rename_i h1 h2
      have h3 : 2 * (P % q) = q := by omega
      have h3' : (2 : ℚ) * ((P % q : ℕ) : ℚ) = q := by exact_mod_cast h3
      split
      · rw [abs_le]
        constructor <;> nlinarith
      · push_cast
        rw [abs_le]
        constructor <;> nlinarith

theorem log2Down_spec (n : Nat) (i lo : Nat) (h1 : 2 ^ lo ≤ n) (h2 : n < 2 ^ (lo + 2 ^ i)) :
    2 ^ log2Down n i lo ≤ n ∧ n < 2 ^ (log2Down n i lo + 1) := by
  induction i generalizing lo with
  | zero => simpa [log2Down] using ⟨h1, h2⟩
  | succ i ih =>
    rw [log2Down]
    split
    · rename_i h
      apply ih _ h
      have : lo + 2 ^ i + 2 ^ i = lo + 2 ^ (i + 1) := by rw [pow_succ]; omega
      rw [this]; exact h2
    · rename_i h
      exact ih _ h1 (by omega)

theorem log2Up_spec (n : Nat) (fuel j : Nat) (h : n < 2 ^ (2 ^ (j + fuel))) :
    n < 2 ^ (2 ^ log2Up n fuel j) := by
  induction fuel generalizing j with
  | zero => simpa [log2Up] using h
  | succ fuel ih =>
    rw [log2Up]
    split
    · assumption
    · apply ih
      have : j + 1 + fuel = j + (fuel + 1) := by omega
      rw [this]; exact h

/-- The model's `log2` is the integer binary logarithm. -/
theorem log2_spec (n : Nat) (hn : 1 ≤ n) : 2 ^ log2 n ≤ n ∧ n < 2 ^ (log2 n + 1) := by
  unfold log2
  apply log2Down_spec
  · simpa using hn
  · rw [Nat.zero_add]
    apply log2Up_spec
    rw [Nat.zero_add]
    calc n < 2 ^ n := Nat.lt_two_pow n
      _ ≤ 2 ^ (2 ^ n) := Nat.pow_le_pow_right (by decide) (Nat.lt_two_pow n).le

/-- The exponent chosen by `ilog2` is not above the binary logarithm of `p / q`. -/
theorem ilog2_le (p q : Nat) (hp : 0 < p) (hq : 0 < q) :
    (2 : ℚ) ^ ilog2 p q ≤ (p : ℚ) / q := by
  have hp' : (0 : ℚ) < p := by exact_mod_cast hp
  have hq' : (0 : ℚ) < q := by exact_mod_cast hq
  obtain ⟨hp1, -⟩ := log2_spec p hp
  obtain ⟨-, hq2⟩ := log2_spec q hq
  have hp1' : (2 : ℚ) ^ log2 p ≤ p := by exact_mod_cast hp1
  have hq2' : (q : ℚ) ≤ 2 ^ (log2 q + 1) := by exact_mod_cast hq2.le
  have hlow : (2 : ℚ) ^ ((log2 p : Int) - (log2 q : Int) - 1) ≤ (p : ℚ) / q := by
    have e1 : (log2 p : Int) - (log2 q : Int) - 1
        = (log2 p : Int) - ((log2 q + 1 : ℕ) : Int) := by
      push_cast; ring
    rw [e1, zpow_sub₀ (by norm_num), zpow_natCast, zpow_natCast]
    exact div_le_div₀ hp'.le hp1' hq' hq2'
  unfold ilog2
  dsimp only
  by_cases ht : (0 : Int) ≤ (log2 p : Int) - (log2 q : Int)
  · simp only [if_pos ht]
    obtain ⟨T, hT⟩ := Int.eq_ofNat_of_zero_le ht
    rw [hT] at hlow ⊢
    simp only [Int.toNat_ofNat]
    by_cases hc : q * 2 ^ T ≤ p
    · simp only [if_pos hc]
      rw [zpow_natCast, le_div_iff₀ hq']
      have h2 : ((q * 2 ^ T : ℕ) : ℚ) ≤ p := by exact_mod_cast hc
      push_cast at h2
      linarith
    · simp only [if_neg hc]
      exact hlow
  · simp only [if_neg ht]
    have hneg : (0 : Int) ≤ -((log2 p : Int) - (log2 q : Int)) := by omega
    obtain ⟨K, hK⟩ := Int.eq_ofNat_of_zero_le hneg
    rw [hK]
    simp only [Int.toNat_ofNat]
    by_cases hc : q ≤ p * 2 ^ K
    · simp only [if_pos hc]
      have ht2 : (log2 p : Int) - (log2 q : Int) = -(K : Int) := by omega
      rw [ht2, zpow_neg, zpow_natCast]
      have h2 : ((q : ℕ) : ℚ) ≤ ((p * 2 ^ K : ℕ) : ℚ) := by exact_mod_cast hc
      push_cast at h2
      rw [inv_eq_one_div, div_le_div_iff₀ (by positivity) hq']
      linarith
    · simp only [if_neg hc]
      exact hlow


theorem round64_zero (q : Nat) : round64 0 q = ⟨0, 0, false, false⟩ := by
  simp [round64]

/-- The result of `round64` when the scaling exponent is not negative. -/
theorem round64_fine (p q S : Nat) (hp : 0 < p)
    (hs : min (52 - ilog2 p q) 1074 = (S : Int)) :
    (round64 p q).n = roundHalfEven (p * 2 ^ S) q ∧ (round64 p q).d = S ∧
      (round64 p q).overflow = false := by
  unfold round64
  have hp0 : p ≠ 0 := by omega
  simp only [hp0, if_false, hs]
  simp

/-- The result of `round64` when the scaling exponent is negative. -/
theorem round64_coarse (p q K : Nat) (hp : 0 < p) (hK : 0 < K)
    (hs : min (52 - ilog2 p q) 1074 = -(K : Int)) :
    (round64 p q).n = roundHalfEven p (q * 2 ^ K) * 2 ^ K ∧ (round64 p q).d = 0 := by
  unfold round64
  have hp0 : p ≠ 0 := by omega
  have hneg : ¬ (0 : Int) ≤ -(K : Int) := by omega
  simp only [hp0, if_false, hs, hneg]
  simp

/-- Error of `round64` when the scaling exponent `S` is not negative. -/
theorem round64_fine_close (p q S : Nat) (hp : 0 < p) (hq : 0 < q)
    (hs : min (52 - ilog2 p q) 1074 = (S : Int)) :
    |(round64 p q).value - (p : ℚ) / q| ≤ 1 / 2 ^ (S + 1) := by
  have hq' : (0 : ℚ) < q := by exact_mod_cast hq
  obtain ⟨h1, h2, -⟩ := round64_fine p q S hp hs
  have hclose := roundHalfEven_close (p * 2 ^ S) q hq
  have h2S : (0 : ℚ) < 2 ^ S := by positivity
  have hval : (round64 p q).value - (p : ℚ) / q
      = ((roundHalfEven (p * 2 ^ S) q : ℚ) - ((p * 2 ^ S : ℕ) : ℚ) / q) / 2 ^ S := by
    simp only [Rounded.value, h1, h2]
    push_cast
    field_simp
    ring
  rw [hval, abs_div, abs_of_pos h2S]
  calc |(roundHalfEven (p * 2 ^ S) q : ℚ) - ((p * 2 ^ S : ℕ) : ℚ) / q| / 2 ^ S
      ≤ (1 / 2) / 2 ^ S := div_le_div_of_nonneg_right hclose h2S.le
    _ = 1 / 2 ^ (S + 1) := by rw [pow_succ]; field_simp; ring

/-- Error of `round64` on a quotient below `2 ^ k`. -/
theorem round64_close (p q k : Nat) (hq : 0 < q) (hk : k ≤ 53)
    (hlt : (p : ℚ) / q < 2 ^ k) :
    |(round64 p q).value - (p : ℚ) / q| ≤ 1 / 2 ^ (54 - k) ∧
      (round64 p q).overflow = false := by
  have hq' : (0 : ℚ) < q := by exact_mod_cast hq
  rcases Nat.eq_zero_or_pos p with hp | hp
  · subst hp
    simp [round64_zero, Rounded.value]
  · have he := ilog2_le p q hp hq
    have hek : ilog2 p q < (k : Int) := by
      have h1 : (2 : ℚ) ^ ilog2 p q < (2 : ℚ) ^ (k : Int) := by
        rw [zpow_natCast]; exact lt_of_le_of_lt he hlt
      exact (zpow_lt_zpow_iff_right₀ (by norm_num : (1 : ℚ) < 2)).mp h1
    have hs0 : (0 : Int) ≤ min (52 - ilog2 p q) 1074 := by
      rw [le_min_iff]; constructor <;> omega
    obtain ⟨S, hS⟩ := Int.eq_ofNat_of_zero_le hs0
    have hSk : 54 - k ≤ S + 1 := by
      have : (53 : Int) - k ≤ min (52 - ilog2 p q) 1074 := by
        rw [le_min_iff]; constructor <;> omega
      omega
    refine ⟨?_, (round64_fine p q S hp hS).2.2⟩
    calc |(round64 p q).value - (p : ℚ) / q| ≤ 1 / 2 ^ (S + 1) :=
          round64_fine_close p q S hp hq hS
      _ ≤ 1 / 2 ^ (54 - k) := by
          apply one_div_le_one_div_of_le (by positivity)
          exact pow_le_pow_right₀ (by norm_num) hSk

/-- A quotient that `round64` rounds below 60 is below 64. -/
theorem lt_of_round64_lt (p q : Nat) (hq : 0 < q) (hlt : (round64 p q).value < 60) :
    (p : ℚ) / q < 64 := by
  have hq' : (0 : ℚ) < q := by exact_mod_cast hq
  by_contra hge
  rw [not_lt] at hge
  have hp : 0 < p := by
    rcases Nat.eq_zero_or_pos p with hp | hp
    · subst hp; simp at hge; linarith
    · exact hp
  have he := ilog2_le p q hp hq
  by_cases hs0 : (0 : Int) ≤ min (52 - ilog2 p q) 1074
  · obtain ⟨S, hS⟩ := Int.eq_ofNat_of_zero_le hs0
    have h2S : (2 : ℚ) ^ 1 ≤ 2 ^ (S + 1) := pow_le_pow_right₀ (by norm_num) (by omega)
    have habs : |(round64 p q).value - (p : ℚ) / q| ≤ 1 / 2 := by
      calc |(round64 p q).value - (p : ℚ) / q| ≤ 1 / 2 ^ (S + 1) :=
            round64_fine_close p q S hp hq hS
        _ ≤ 1 / 2 ^ 1 := one_div_le_one_div_of_le (by positivity) h2S
        _ = 1 / 2 := by norm_num
    have := (abs_le.mp habs).1
    linarith
  · have hneg : min (52 - ilog2 p q) 1074 < 0 := by omega
    have he52 : 52 - ilog2 p q < 0 := by
      rcases min_choice (52 - ilog2 p q) 1074 with h | h
      · rw [h] at hneg; exact hneg
      · rw [h] at hneg; omega
    have hmin : min (52 - ilog2 p q) 1074 = 52 - ilog2 p q := min_eq_left (by omega)
    obtain ⟨K, hK⟩ := Int.eq_ofNat_of_zero_le (show (0 : Int) ≤ ilog2 p q - 52 by omega)
    have hKpos : 0 < K := by omega
    obtain ⟨h1, h2⟩ := round64_coarse p q K hp hKpos (by rw [hmin]; omega)
    have hq2 : 0 < q * 2 ^ K := by positivity
    have hclose := roundHalfEven_close p (q * 2 ^ K) hq2
    have h2K : (2 : ℚ) ≤ 2 ^ K := by
      calc (2 : ℚ) = 2 ^ 1 := by norm_num
        _ ≤ 2 ^ K := pow_le_pow_right₀ (by norm_num) hKpos
    have hbig : (2 : ℚ) ^ 52 * 2 ^ K ≤ (p : ℚ) / q := by
      have : ilog2 p q = ((52 + K : ℕ) : Int) := by push_cast; omega
      rw [this, zpow_natCast, pow_add] at he
      exact he
    have hval : (round64 p q).value = (roundHalfEven p (q * 2 ^ K) : ℚ) * 2 ^ K := by
      simp only [Rounded.value, h1, h2]
      push_cast
      simp
    have hm : (p : ℚ) / (q * 2 ^ K) - 1 / 2 ≤ (roundHalfEven p (q * 2 ^ K) : ℚ) := by
      have := (abs_le.mp hclose).1
      push_cast at this
      linarith
    have hpq : (p : ℚ) / (q * 2 ^ K) * 2 ^ K = (p : ℚ) / q := by
      field_simp
      ring
    have : (p : ℚ) / q - 2 ^ K / 2 ≤ (round64 p q).value := by
      rw [hval]
      have h3 := mul_le_mul_of_nonneg_right hm (by positivity : (0 : ℚ) ≤ 2 ^ K)
      rw [sub_mul, hpq] at h3
      linarith
    nlinarith

/-- The centiseconds computed from a seconds value `p / q` that the code accepts: the
product with 100 truncated, up to the rounding errors of the two double operations. -/
theorem seconds_centis_bound (p q T : Nat) (x : Double) (hq : 0 < q)
    (hx : toDouble false p q = .ok x) (h60 : x.ge60 = false)
    (hT : x.mul100.toTime = .ok T) :
    T ≤ 6000 ∧ (T : ℚ) ≤ 100 * ((p : ℚ) / q) + 1 / 2 ^ 40 ∧
      100 * ((p : ℚ) / q) < T + 1 + 1 / 2 ^ 40 := by
  unfold toDouble at hx
  dsimp only at hx
  split at hx
  · cases hx
  · simp only [Except.ok.injEq] at hx
    subst hx
    -- the parsed value is below 60
    have hX : (round64 p q).value < 60 := by
      simp only [Double.ge60, Bool.not_false, Bool.true_and, decide_eq_false_iff_not,
        not_le] at h60
      have h60' : (((round64 p q).n : ℕ) : ℚ) < ((60 * 2 ^ (round64 p q).d : ℕ) : ℚ) := by
        exact_mod_cast h60
      push_cast at h60'
      rw [Rounded.value, div_lt_iff₀ (by positivity)]
      exact h60'
    have hS := lt_of_round64_lt p q hq hX
    obtain ⟨hXc, -⟩ := round64_close p q 6 hq (by norm_num) (by norm_num; exact hS)
    -- the product
    have hq2 : 0 < 2 ^ (round64 p q).d := by positivity
    have hprod : (((100 * (round64 p q).n : ℕ) : ℚ)) / ((2 ^ (round64 p q).d : ℕ) : ℚ)
        = 100 * (round64 p q).value := by
      simp only [Rounded.value]
      push_cast
      ring
    obtain ⟨hYc, hov⟩ := round64_close (100 * (round64 p q).n) (2 ^ (round64 p q).d) 13 hq2
      (by norm_num) (by rw [hprod]; norm_num; linarith)
    rw [hprod] at hYc
    simp only [Double.mul100, hov, Bool.false_eq_true, if_false] at hT
    -- the truncation
    have hTdiv : T = (round64 (100 * (round64 p q).n) (2 ^ (round64 p q).d)).n /
        2 ^ (round64 (100 * (round64 p q).n) (2 ^ (round64 p q).d)).d := by
      simp only [Double.toTime] at hT
      split at hT
      · rename_i h0
        simp only [Except.ok.injEq] at hT
        omega
      · split at hT
        · cases hT
        · simp only [Except.ok.injEq] at hT
          exact hT.symm
    generalize round64 (100 * (round64 p q).n) (2 ^ (round64 p q).d) = y at hYc hTdiv
    have h2d : 0 < 2 ^ y.d := by positivity
    have h2d' : (0 : ℚ) < 2 ^ y.d := by positivity
    have hlo : T * 2 ^ y.d ≤ y.n := by rw [hTdiv]; exact Nat.div_mul_le_self _ _
    have hhi : y.n < (T + 1) * 2 ^ y.d := by
      rw [hTdiv]
      exact Nat.lt_mul_of_div_lt (Nat.lt_succ_self _) h2d
    have hlo' : (T : ℚ) ≤ y.value := by
      rw [Rounded.value, le_div_iff₀ h2d']
      exact_mod_cast hlo
    have hhi' : y.value < (T : ℚ) + 1 := by
      rw [Rounded.value, div_lt_iff₀ h2d']
      exact_mod_cast hhi
    have hX1 := abs_le.mp hXc
    have hY1 := abs_le.mp hYc
    norm_num at hX1 hY1
    have hT6 : (T : ℚ) < 6001 := by linarith [hX1.1, hX1.2, hY1.1, hY1.2]
    refine ⟨?_, ?_, ?_⟩
    · have : T < 6001 := by exact_mod_cast hT6
      omega
    · norm_num
      linarith [hX1.1, hX1.2, hY1.1, hY1.2]
    · norm_num
      linarith [hX1.1, hX1.2, hY1.1, hY1.2]

theorem isdigit_not_x (c : Char) (h : isdigit c = true) : c ≠ 'x' ∧ c ≠ 'X' ∧ c ≠ ':' ∧ c ≠ '.' := by
  refine ⟨?_, ?_, ?_, ?_⟩ <;> rintro rfl <;> simp [isdigit] at h

theorem isdigit_toLower (c : Char) (h : isdigit c = true) : c.toLower = c := by
  simp only [isdigit, decide_eq_true_eq] at h
  have h5 : c.toNat ≤ 57 := h.2
  simp only [Char.toLower]
  rw [if_neg]
  intro hcontra
  have h6 : 65 ≤ c.toNat := hcontra.1
  omega

/-- A digit or a point is no whitespace, sign, `x`, `i` or `n`. -/
theorem plain_char (c : Char) (h : isdigit c = true ∨ c = '.') :
    isspace c = false ∧ c ≠ '-' ∧ c ≠ '+' ∧ c ≠ 'x' ∧ c ≠ 'X' ∧
      c.toLower ≠ 'i' ∧ c.toLower ≠ 'n' ∧ c ≠ ':' := by
  rcases h with hd | rfl
  · obtain ⟨h1, h2⟩ := isdigit_not_sign c hd
    obtain ⟨h3, h4, h5, -⟩ := isdigit_not_x c hd
    refine ⟨isdigit_not_isspace c hd, h1, h2, h3, h4, ?_, ?_, h5⟩
    · rw [isdigit_toLower c hd]; rintro rfl; simp [isdigit] at hd
    · rw [isdigit_toLower c hd]; rintro rfl; simp [isdigit] at hd
  · decide

/-- On a text made of digits and points `std::stod` reads a decimal number at once:
there is no whitespace, sign, hexadecimal prefix, `inf` or `nan` to consider. -/
theorem stod_plain (S : Str) (hS : ∀ c ∈ S, isdigit c = true ∨ c = '.') :
    stod S =
      match takeMantissa isdigit S with
      | some (ip, fp, rest) =>
        if 0 ≤ takeExponent 'e' 'E' rest - (fp.length : Int) then
          toDouble false (digitsValue 10 (ip ++ fp) *
            10 ^ (takeExponent 'e' 'E' rest - (fp.length : Int)).toNat) 1
        else
          toDouble false (digitsValue 10 (ip ++ fp))
            (10 ^ (-(takeExponent 'e' 'E' rest - (fp.length : Int))).toNat)
      | none => .error .invalid_argument := by
  unfold stod
  cases S with
  | nil => simp [takeSign, takeMantissa, takeHexMantissa, startsWithNoCase]
  | cons c r =>
    obtain ⟨h1, h2, h3, h4, h5, h6, h7, -⟩ := plain_char c (hS c (by simp))
    have hdrop : List.dropWhile isspace (c :: r) = c :: r := by simp [List.dropWhile, h1]
    rw [hdrop, takeSign_of_not_sign c r h2 h3]
    dsimp only
    have hhex : takeHexMantissa (c :: r) = none := by
      unfold takeHexMantissa
      split
      · rename_i x r2 heq
        simp only [List.cons.injEq] at heq
        obtain ⟨-, rfl⟩ := heq
        obtain ⟨-, -, -, hx1, hx2, -, -⟩ := plain_char x (hS x (by simp))
        simp [hx1, hx2]
      · rfl
    rw [hhex]
    dsimp only
    have hinf : startsWithNoCase (c :: r) ['i', 'n', 'f'] = false := by
      simp [startsWithNoCase, h6]
    have hnan : startsWithNoCase (c :: r) ['n', 'a', 'n'] = false := by
      simp [startsWithNoCase, h7]
    cases hm : takeMantissa isdigit (c :: r) with
    | none => simp [hinf, hnan]
    | some t =>
      obtain ⟨ip, fp, rest⟩ := t
      rfl

theorem takeWhile_all (p : Char → Bool) (l : Str) (h : ∀ c ∈ l, p c = true) :
    l.takeWhile p = l ∧ l.dropWhile p = [] := by
  induction l with
  | nil => simp
  | cons c cs ih =>
    have hc := h c (by simp)
    obtain ⟨h1, h2⟩ := ih (fun d hd => h d (by simp [hd]))
    simp [List.takeWhile, List.dropWhile, hc, h1, h2]

theorem takeWhile_stop (p : Char → Bool) (l r : Str) (d : Char) (h : ∀ c ∈ l, p c = true)
    (hd : p d = false) :
    (l ++ d :: r).takeWhile p = l ∧ (l ++ d :: r).dropWhile p = d :: r := by
  induction l with
  | nil => simp [List.takeWhile, List.dropWhile, hd]
  | cons c cs ih =>
    have hc := h c (by simp)
    obtain ⟨h1, h2⟩ := ih (fun e he => h e (by simp [he]))
    simp [List.takeWhile, List.dropWhile, hc, h1, h2]

/-- The mantissa of a decimal text `ip.fp` or `ip`. -/
theorem takeMantissa_decimal (ip fp S : Str)
    (hip : ∀ c ∈ ip, isdigit c = true) (hfp : ∀ c ∈ fp, isdigit c = true)
    (hS : S = ip ++ '.' :: fp ∨ (S = ip ∧ fp = [])) :
    takeMantissa isdigit S = if ip = [] ∧ fp = [] then none else some (ip, fp, []) := by
  unfold takeMantissa
  rcases hS with rfl | ⟨rfl, rfl⟩
  · obtain ⟨h1, h2⟩ := takeWhile_stop isdigit ip fp '.' hip (by decide)
    obtain ⟨h3, h4⟩ := takeWhile_all isdigit fp hfp
    simp only [h1, h2, h3, h4]
  · obtain ⟨h1, h2⟩ := takeWhile_all isdigit S hip
    simp only [h1, h2, and_true]

/-- What `std::stod` returns on a decimal text `ip.fp` or `ip`: the double nearest to
the number it writes. -/
theorem stod_decimal (ip fp S : Str) (x : Double)
    (hip : ∀ c ∈ ip, isdigit c = true) (hfp : ∀ c ∈ fp, isdigit c = true)
    (hS : S = ip ++ '.' :: fp ∨ (S = ip ∧ fp = [])) (hx : stod S = .ok x) :
    ∃ p q : Nat, 0 < q ∧ (p : ℚ) / q = (digitsValue 10 (ip ++ fp) : ℚ) / 10 ^ fp.length ∧
      toDouble false p q = .ok x := by
  have hall : ∀ c ∈ S, isdigit c = true ∨ c = '.' := by
    intro c hc
    rcases hS with rfl | ⟨rfl, rfl⟩
    · simp only [List.mem_append, List.mem_cons] at hc
      rcases hc with h | rfl | h
      · exact Or.inl (hip c h)
      · exact Or.inr rfl
      · exact Or.inl (hfp c h)
    · exact Or.inl (hip c hc)
  rw [stod_plain S hall, takeMantissa_decimal ip fp S hip hfp hS] at hx
  by_cases hnone : ip = [] ∧ fp = []
  · simp [hnone] at hx
  · simp only [hnone, if_false, takeExponent, zero_sub] at hx
    by_cases hf : fp.length = 0
    · simp only [hf, Nat.cast_zero, neg_zero, le_refl, if_true, Int.toNat_zero, pow_zero,
        mul_one] at hx
      exact ⟨digitsValue 10 (ip ++ fp), 1, by norm_num, by simp [hf], hx⟩
    · have hneg : ¬ (0 : Int) ≤ -(fp.length : Int) := by omega
      simp only [hneg, if_false, neg_neg, Int.toNat_ofNat] at hx
      exact ⟨digitsValue 10 (ip ++ fp), 10 ^ fp.length, by positivity, by push_cast; rfl, hx⟩

theorem StringSplit_no_delim (d : Char) (u : Str) (h : d ∉ u) : StringSplit u [d] = [u] := by
  induction u with
  | nil => rfl
  | cons c cs ih =>
    have hc : c ≠ d := fun e => h (by simp [e])
    have hcs : d ∉ cs := fun e => h (by simp [e])
    simp [StringSplit, hc, ih hcs]

theorem digitValue_le (c : Char) (h : isdigit c = true) : digitValue c ≤ 9 := by
  simp only [isdigit, decide_eq_true_eq] at h
  simp only [digitValue, h, and_self, if_true]
  have : c.toNat ≤ 57 := h.2
  omega

/-- `std::stoul` on a text of one or two digits returns the number they write. -/
theorem stoul_digits (ds : Str) (hds : ∀ c ∈ ds, isdigit c = true) (hne : ds ≠ [])
    (hsmall : digitsValue 10 ds ≤ 2 ^ 64 - 1) : stoul ds = .ok (digitsValue 10 ds) := by
  cases ds with
  | nil => exact absurd rfl hne
  | cons c cs =>
    have hc := hds c (by simp)
    have hs := isdigit_not_isspace c hc
    obtain ⟨hm, hp⟩ := isdigit_not_sign c hc
    unfold stoul
    have hdrop : List.dropWhile isspace (c :: cs) = c :: cs := by simp [List.dropWhile, hs]
    rw [hdrop, takeSign_of_not_sign c cs hm hp]
    dsimp only
    rw [(takeWhile_all isdigit (c :: cs) hds).1]
    have hle : ¬ digitsValue 10 (c :: cs) > 2 ^ 64 - 1 := by omega
    simp only [hle, if_false]
    simp

/-- C4 (as amended): for a text `H:MM:S` that `parse_time` accepts, with `H` one digit,
`MM` two digits and `S` a decimal number written as digits with an optional fractional
part of any length, the result is `H*360000 + MM*6000 + T`, where `T` is the seconds
contribution truncated toward zero, not rounded to the nearest centisecond:
`T <= S*100 + 2^-40` and `S*100 < T + 1 + 2^-40`, the margin `2^-40` covering the
rounding of the two double operations (`std::stod` and the product with `100.`). -/
theorem parse_time_seconds_truncated (h m1 m2 : Char) (ip fp S : Str) (v : Nat)
    (hh : isdigit h = true) (hm1 : isdigit m1 = true) (hm2 : isdigit m2 = true)
    (hip : ∀ c ∈ ip, isdigit c = true) (hfp : ∀ c ∈ fp, isdigit c = true)
    (hS : S = ip ++ '.' :: fp ∨ (S = ip ∧ fp = []))
    (hacc : parse_time (h :: ':' :: m1 :: m2 :: ':' :: S) = .ok v) :
    ∃ T : Nat, v = digitValue h * 360000 + (10 * digitValue m1 + digitValue m2) * 6000 + T ∧
      (T : ℚ) ≤ 100 * ((digitsValue 10 (ip ++ fp) : ℚ) / 10 ^ fp.length) + 1 / 2 ^ 40 ∧
      100 * ((digitsValue 10 (ip ++ fp) : ℚ) / 10 ^ fp.length) < T + 1 + 1 / 2 ^ 40 := by
  obtain ⟨-, -, hhc, -⟩ := isdigit_not_x h hh
  obtain ⟨-, -, hm1c, -⟩ := isdigit_not_x m1 hm1
  obtain ⟨-, -, hm2c, -⟩ := isdigit_not_x m2 hm2
  have hSc : ':' ∉ S := by
    intro hmem
    rcases hS with rfl | ⟨rfl, rfl⟩
    · simp only [List.mem_append, List.mem_cons] at hmem
      rcases hmem with hm | hm | hm
      · exact (isdigit_not_x _ (hip _ hm)).2.2.1 rfl
      · exact absurd hm (by decide)
      · exact (isdigit_not_x _ (hfp _ hm)).2.2.1 rfl
    · exact (isdigit_not_x _ (hip _ hmem)).2.2.1 rfl
  have hsplit : StringSplit (h :: ':' :: m1 :: m2 :: ':' :: S) [':'] = [[h], [m1, m2], S] := by
    simp [StringSplit, hhc, hm1c, hm2c, StringSplit_no_delim ':' S hSc]
  have hH := digitValue_le h hh
  have hM1 := digitValue_le m1 hm1
  have hM2 := digitValue_le m2 hm2
  have hsh : stoul [h] = .ok (digitValue h) := by
    have := stoul_digits [h] (by simpa using hh) (by simp) (by
      simp only [digitsValue, List.foldl]; omega)
    simpa [digitsValue] using this
  have hsm : stoul [m1, m2] = .ok (10 * digitValue m1 + digitValue m2) := by
    have := stoul_digits [m1, m2] (by simp [hm1, hm2]) (by simp) (by
      simp only [digitsValue, List.foldl]; omega)
    simpa [digitsValue] using this
  rw [parse_time_of_split _ _ _ _ hsplit] at hacc
  simp only [List.length_singleton, ne_eq, not_true_eq_false, if_false, hsh, hsm,
    List.length_cons, List.length_nil] at hacc
  split at hacc
  · cases hacc
  · rename_i hlt
    cases hx : stod S with
    | error e => rw [hx] at hacc; cases hacc
    | ok x =>
      rw [hx] at hacc
      dsimp only at hacc
      cases h60 : x.ge60 with
      | true => simp [h60] at hacc
      | false =>
        simp only [h60, Bool.false_eq_true, if_false] at hacc
        cases hT : x.mul100.toTime with
        | error e => rw [hT] at hacc; cases hacc
        | ok T =>
          rw [hT] at hacc
          simp only [Except.ok.injEq] at hacc
          obtain ⟨p, q, hq, hpq, hd⟩ := stod_decimal ip fp S x hip hfp hS hx
          obtain ⟨hT6, hlo, hhi⟩ := seconds_centis_bound p q T x hq hd h60 hT
          rw [hpq] at hlo hhi
          refine ⟨T, ?_, hlo, hhi⟩
          omega

/-! ## Lemmas: the round trip of the timestamp codec -/

/-- The exponent chosen by `ilog2` is above the binary logarithm of `p / q` less one. -/
theorem lt_ilog2 (p q : Nat) (hp : 0 < p) (hq : 0 < q) :
    (p : ℚ) / q < (2 : ℚ) ^ (ilog2 p q + 1) := by
  have hp' : (0 : ℚ) < p := by exact_mod_cast hp
  have hq' : (0 : ℚ) < q := by exact_mod_cast hq
  obtain ⟨-, hp2⟩ := log2_spec p hp
  obtain ⟨hq1, -⟩ := log2_spec q hq
  have hp2' : (p : ℚ) < 2 ^ (log2 p + 1) := by exact_mod_cast hp2
  have hq1' : (2 : ℚ) ^ log2 q ≤ q := by exact_mod_cast hq1
  have hup : (p : ℚ) / q < (2 : ℚ) ^ ((log2 p : Int) - (log2 q : Int) + 1) := by
    have e1 : (log2 p : Int) - (log2 q : Int) + 1
        = ((log2 p + 1 : ℕ) : Int) - ((log2 q : ℕ) : Int) := by
      push_cast; ring
    rw [e1, zpow_sub₀ (by norm_num), zpow_natCast, zpow_natCast]
    calc (p : ℚ) / q < 2 ^ (log2 p + 1) / q := div_lt_div_of_pos_right hp2' hq'
      _ ≤ 2 ^ (log2 p + 1) / 2 ^ log2 q :=
        div_le_div_of_nonneg_left (by positivity) (by positivity) hq1'
  unfold ilog2
  dsimp only
  by_cases ht : (0 : Int) ≤ (log2 p : Int) - (log2 q : Int)
  · simp only [if_pos ht]
    obtain ⟨T, hT⟩ := Int.eq_ofNat_of_zero_le ht
    rw [hT] at hup ⊢
    simp only [Int.toNat_ofNat]
    by_cases hc : q * 2 ^ T ≤ p
    · simp only [if_pos hc]
      exact hup
    · simp only [if_neg hc, sub_add_cancel]
      rw [zpow_natCast, div_lt_iff₀ hq']
      have h2 : ((p : ℕ) : ℚ) < ((q * 2 ^ T : ℕ) : ℚ) := by exact_mod_cast not_le.mp hc
      push_cast at h2
      linarith
  · simp only [if_neg ht]
    have hneg : (0 : Int) ≤ -((log2 p : Int) - (log2 q : Int)) := by omega
    obtain ⟨K, hK⟩ := Int.eq_ofNat_of_zero_le hneg
    rw [hK]
    simp only [Int.toNat_ofNat]
    by_cases hc : q ≤ p * 2 ^ K
    · simp only [if_pos hc]
      exact hup
    · simp only [if_neg hc, sub_add_cancel]
      have ht2 : (log2 p : Int) - (log2 q : Int) = -(K : Int) := by omega
      rw [ht2, zpow_neg, zpow_natCast]
      have h2 : ((p * 2 ^ K : ℕ) : ℚ) < ((q : ℕ) : ℚ) := by exact_mod_cast not_le.mp hc
      push_cast at h2
      rw [inv_eq_one_div, div_lt_div_iff₀ hq' (by positivity)]
      linarith

/-- No underflow is reported for a value that is zero or at least one hundredth. -/
theorem round64_no_underflow (p q : Nat) (hq : 0 < q) (h : p = 0 ∨ (1 : ℚ) / 100 ≤ (p : ℚ) / q) :
    (round64 p q).underflow = false := by
  rcases Nat.eq_zero_or_pos p with hp | hp
  · subst hp; simp [round64_zero]
  · have hlow : (1 : ℚ) / 100 ≤ (p : ℚ) / q := by
      rcases h with h | h
      · omega
      · exact h
    have hup := lt_ilog2 p q hp hq
    have he : -8 < ilog2 p q + 1 := by
      have h1 : (2 : ℚ) ^ (-8 : Int) < (2 : ℚ) ^ (ilog2 p q + 1) := by
        have h8 : (2 : ℚ) ^ (-8 : Int) < 1 / 100 := by norm_num [zpow_neg]
        exact lt_trans h8 (lt_of_le_of_lt hlow hup)
      exact (zpow_lt_zpow_iff_right₀ (by norm_num : (1 : ℚ) < 2)).mp h1
    unfold round64
    have hp0 : p ≠ 0 := by omega
    simp only [hp0, if_false]
    have hfalse : ¬ ilog2 p q < -1022 := by omega
    split
    · simp [hfalse]
    · rfl

/-- The seconds `k / 100` written by `format_time` are accepted by `parse_time` and come
back as `k` or `k - 1` centiseconds. -/
theorem seconds_roundtrip (k : Nat) (hk : k < 6000) :
    ∃ x T, toDouble false k 100 = .ok x ∧ x.ge60 = false ∧
      x.mul100.toTime = .ok T ∧ (T = k ∨ T + 1 = k) := by
  have hq : 0 < 100 := by norm_num
  have hk' : (k : ℚ) ≤ 5999 := by
    have : k ≤ 5999 := by omega
    exact_mod_cast this
  have hk0 : (0 : ℚ) ≤ k := by positivity
  have hratio : ((k : ℕ) : ℚ) / ((100 : ℕ) : ℚ) = (k : ℚ) / 100 := by norm_num
  obtain ⟨hXc, hov⟩ := round64_close k 100 6 hq (by norm_num) (by
    rw [hratio]; norm_num; linarith)
  rw [hratio] at hXc
  have hun := round64_no_underflow k 100 hq (by
    rcases Nat.eq_zero_or_pos k with h0 | h0
    · exact Or.inl h0
    · right
      rw [hratio]
      have : (1 : ℚ) ≤ k := by exact_mod_cast h0
      linarith)
  have hx : toDouble false k 100
      = .ok (.finite false (round64 k 100).n (round64 k 100).d) := by
    unfold toDouble
    simp [hov, hun]
  have hX1 := abs_le.mp hXc
  norm_num at hX1
  have h2d : (0 : ℚ) < 2 ^ (round64 k 100).d := by positivity
  have hXlt : (round64 k 100).value < 60 := by linarith [hX1.2]
  have h60 : (Double.finite false (round64 k 100).n (round64 k 100).d).ge60 = false := by
    simp only [Double.ge60, Bool.not_false, Bool.true_and, decide_eq_false_iff_not, not_le]
    rw [Rounded.value, div_lt_iff₀ h2d] at hXlt
    have : (((round64 k 100).n : ℕ) : ℚ) < ((60 * 2 ^ (round64 k 100).d : ℕ) : ℚ) := by
      push_cast; exact hXlt
    exact_mod_cast this
  -- the product
  have hq2 : 0 < 2 ^ (round64 k 100).d := by positivity
  have hprod : (((100 * (round64 k 100).n : ℕ) : ℚ)) / ((2 ^ (round64 k 100).d : ℕ) : ℚ)
      = 100 * (round64 k 100).value := by
    simp only [Rounded.value]
    push_cast
    ring
  obtain ⟨hYc, hov2⟩ := round64_close (100 * (round64 k 100).n)
    (2 ^ (round64 k 100).d) 13 hq2 (by norm_num) (by rw [hprod]; norm_num; linarith)
  rw [hprod] at hYc
  have hY1 := abs_le.mp hYc
  norm_num at hY1
  have hmul : (Double.finite false (round64 k 100).n (round64 k 100).d).mul100
      = .finite false (round64 (100 * (round64 k 100).n) (2 ^ (round64 k 100).d)).n
          (round64 (100 * (round64 k 100).n) (2 ^ (round64 k 100).d)).d := by
    simp [Double.mul100, hov2]
  generalize hy : round64 (100 * (round64 k 100).n) (2 ^ (round64 k 100).d) = y
    at hYc hY1 hmul
  have h2y : 0 < 2 ^ y.d := by positivity
  have h2y' : (0 : ℚ) < 2 ^ y.d := by positivity
  have hlo : y.n / 2 ^ y.d * 2 ^ y.d ≤ y.n := Nat.div_mul_le_self _ _
  have hlo' : ((y.n / 2 ^ y.d : ℕ) : ℚ) ≤ y.value := by
    rw [Rounded.value, le_div_iff₀ h2y']
    exact_mod_cast hlo
  have hT6 : y.n / 2 ^ y.d < 6001 := by
    have : ((y.n / 2 ^ y.d : ℕ) : ℚ) < 6001 := by linarith [hX1.2, hY1.2]
    exact_mod_cast this
  have hT : (Double.finite false y.n y.d).toTime = .ok (y.n / 2 ^ y.d) := by
    simp only [Double.toTime]
    split
    · rename_i h0; rw [h0]
    · have hlt : y.n / 2 ^ y.d < 4294967296 := by omega
      simp [hlt]
  refine ⟨_, y.n / 2 ^ y.d, hx, h60, by rw [hmul]; exact hT, ?_⟩
  obtain ⟨-, hb1, hb2⟩ := seconds_centis_bound k 100 (y.n / 2 ^ y.d) _ hq hx h60
    (by rw [hmul]; exact hT)
  rw [hratio] at hb1 hb2
  have h1 : ((y.n / 2 ^ y.d : ℕ) : ℚ) < k + 1 := by
    norm_num at hb1
    linarith
  have h2 : (k : ℚ) < ((y.n / 2 ^ y.d : ℕ) : ℚ) + 2 := by
    norm_num at hb2
    linarith
  have h1' : y.n / 2 ^ y.d < k + 1 := by exact_mod_cast h1
  have h2' : k < y.n / 2 ^ y.d + 2 := by exact_mod_cast h2
  omega

theorem digitChar_digit : ∀ d, d < 10 →
    isdigit (digitChar d) = true ∧ digitValue (digitChar d) = d := by
  decide

/-- `std::stod` on a decimal text with a fractional part. -/
theorem stod_decimal_frac (ip fp : Str)
    (hip : ∀ c ∈ ip, isdigit c = true) (hfp : ∀ c ∈ fp, isdigit c = true) (hne : fp ≠ []) :
    stod (ip ++ '.' :: fp) = toDouble false (digitsValue 10 (ip ++ fp)) (10 ^ fp.length) := by
  have hall : ∀ c ∈ ip ++ '.' :: fp, isdigit c = true ∨ c = '.' := by
    intro c hc
    simp only [List.mem_append, List.mem_cons] at hc
    rcases hc with h | rfl | h
    · exact Or.inl (hip c h)
    · exact Or.inr rfl
    · exact Or.inl (hfp c h)
  rw [stod_plain _ hall, takeMantissa_decimal ip fp _ hip hfp (Or.inl rfl)]
  have hnone : ¬ (ip = [] ∧ fp = []) := fun h => hne h.2
  have hlen : fp.length ≠ 0 := fun h => hne (List.length_eq_zero.mp h)
  have hneg : ¬ (0 : Int) ≤ -(fp.length : Int) := by omega
  simp only [hnone, if_false, takeExponent, zero_sub, hneg, neg_neg, Int.toNat_ofNat]

/-- `parse_time` on a text `h:mm:S` with digits `h`, `m`, `m` once the seconds part is
known to be accepted. -/
theorem parse_time_of_digits (h m1 m2 : Char) (S : Str) (x : Double) (T : Nat)
    (hh : isdigit h = true) (hm1 : isdigit m1 = true) (hm2 : isdigit m2 = true)
    (hS : ':' ∉ S) (hmm : 10 * digitValue m1 + digitValue m2 < 60)
    (hx : stod S = .ok x) (h60 : x.ge60 = false) (hT : x.mul100.toTime = .ok T)
    (hT6 : T ≤ 6000) :
    parse_time (h :: ':' :: m1 :: m2 :: ':' :: S)
      = .ok (digitValue h * 360000 + (10 * digitValue m1 + digitValue m2) * 6000 + T) := by
  obtain ⟨-, -, hhc, -⟩ := isdigit_not_x h hh
  obtain ⟨-, -, hm1c, -⟩ := isdigit_not_x m1 hm1
  obtain ⟨-, -, hm2c, -⟩ := isdigit_not_x m2 hm2
  have hsplit : StringSplit (h :: ':' :: m1 :: m2 :: ':' :: S) [':'] = [[h], [m1, m2], S] := by
    simp [StringSplit, hhc, hm1c, hm2c, StringSplit_no_delim ':' S hS]
  have hH := digitValue_le h hh
  have hM1 := digitValue_le m1 hm1
  have hM2 := digitValue_le m2 hm2
  have hsh : stoul [h] = .ok (digitValue h) := by
    have := stoul_digits [h] (by simpa using hh) (by simp) (by
      simp only [digitsValue, List.foldl]; omega)
    simpa [digitsValue] using this
  have hsm : stoul [m1, m2] = .ok (10 * digitValue m1 + digitValue m2) := by
    have := stoul_digits [m1, m2] (by simp [hm1, hm2]) (by simp) (by
      simp only [digitsValue, List.foldl]; omega)
    simpa [digitsValue] using this
  rw [parse_time_of_split _ _ _ _ hsplit]
  have hnot : ¬ 10 * digitValue m1 + digitValue m2 ≥ 60 := by omega
  simp only [List.length_singleton, ne_eq, not_true_eq_false, if_false, hsh, hsm,
    List.length_cons, List.length_nil, hnot, hx, h60, Bool.false_eq_true, hT,
    Except.ok.injEq]
  omega


/-- A digit character is the character of its value. -/
theorem digitChar_digitValue (c : Char) (h : isdigit c = true) : digitChar (digitValue c) = c := by
  simp only [isdigit, decide_eq_true_eq] at h
  have h1 : 48 ≤ c.toNat := h.1
  have h2 : c.toNat ≤ 57 := h.2
  simp only [digitValue, h, and_self, if_true, digitChar]
  have : 48 + (c.toNat - 48) = c.toNat := by omega
  rw [this]
  exact Char.ofNat_toNat c

/-! ## Lemmas: the exceptions of `parse_time` and the defined conversions -/

/-- The exceptions of `std::stoul`. -/
theorem stoul_error (v : Str) (e : Error) (h : stoul v = .error e) :
    e = .invalid_argument ∨ e = .out_of_range := by
  unfold stoul at h
  dsimp only at h
  repeat' split at h
  all_goals first
    | (cases h; done)
    | (simp only [Except.error.injEq] at h; subst h; simp)

/-- The exception of the rounding to `double` in `std::stod`. -/
theorem toDouble_error (neg : Bool) (p q : Nat) (e : Error) (h : toDouble neg p q = .error e) :
    e = .out_of_range := by
  unfold toDouble at h
  dsimp only at h
  split at h
  · simp only [Except.error.injEq] at h; exact h.symm
  · cases h

/-- The exceptions of `std::stod`. -/
theorem stod_error (v : Str) (e : Error) (h : stod v = .error e) :
    e = .invalid_argument ∨ e = .out_of_range := by
  unfold stod at h
  dsimp only at h
  repeat' split at h
  all_goals first
    | exact Or.inr (toDouble_error _ _ _ _ h)
    | (cases h; done)
    | (simp only [Except.error.injEq] at h; subst h; simp)

/-- The conversion to `time_t` has a value or is undefined; it throws nothing. -/
theorem toTime_error (x : Double) (e : Error) (h : x.toTime = .error e) :
    e = .undefined_conversion := by
  cases x with
  | inf neg => simp [Double.toTime] at h; exact h.symm
  | nan => simp [Double.toTime] at h; exact h.symm
  | finite neg n d =>
    simp only [Double.toTime] at h
    repeat' split at h
    all_goals first
      | (cases h; done)
      | (simp only [Except.error.injEq] at h; exact h.symm)

/-- The conversion to centiseconds of a seconds value that is finite, not negative and
below 60 is defined. -/
theorem toTime_defined (n d : Nat) (h60 : (Double.finite false n d).ge60 = false) :
    ∃ cs, (Double.finite false n d).mul100.toTime = .ok cs := by
  simp only [Double.ge60, Bool.not_false, Bool.true_and, decide_eq_false_iff_not, not_le] at h60
  have hpow : (0 : ℚ) < 2 ^ d := by positivity
  have hlt : ((100 * n : Nat) : ℚ) / ((2 ^ d : Nat) : ℚ) < 2 ^ 13 := by
    rw [div_lt_iff₀ (by positivity)]
    have : (n : ℚ) < 60 * 2 ^ d := by exact_mod_cast h60
    push_cast
    nlinarith
  obtain ⟨hclose, hov⟩ := round64_close (100 * n) (2 ^ d) 13 (by positivity) (by norm_num) hlt
  have hval : (round64 (100 * n) (2 ^ d)).value < 6001 := by
    have h1 := (abs_le.mp hclose).2
    have h2 : ((100 * n : Nat) : ℚ) / ((2 ^ d : Nat) : ℚ) < 6000 := by
      rw [div_lt_iff₀ (by positivity)]
      have : (n : ℚ) < 60 * 2 ^ d := by exact_mod_cast h60
      push_cast
      nlinarith
    have h3 : (1 : ℚ) / 2 ^ (54 - 13) ≤ 1 := by
      rw [div_le_one (by positivity)]
      exact one_le_pow₀ (by norm_num)
    linarith
  have hfloor : (((round64 (100 * n) (2 ^ d)).n / 2 ^ (round64 (100 * n) (2 ^ d)).d : Nat) : ℚ)
      ≤ (round64 (100 * n) (2 ^ d)).value := by
    simp only [Rounded.value]
    have := @Nat.cast_div_le ℚ _ (round64 (100 * n) (2 ^ d)).n (2 ^ (round64 (100 * n) (2 ^ d)).d)
    simpa using this
  have hTle : ((round64 (100 * n) (2 ^ d)).n / 2 ^ (round64 (100 * n) (2 ^ d)).d : Nat) ≤ 6000 := by
    have : (((round64 (100 * n) (2 ^ d)).n / 2 ^ (round64 (100 * n) (2 ^ d)).d : Nat) : ℚ) < 6001 :=
      lt_of_le_of_lt hfloor hval
    have h2 : ((round64 (100 * n) (2 ^ d)).n / 2 ^ (round64 (100 * n) (2 ^ d)).d : Nat) < 6001 := by
      exact_mod_cast this
    omega
  simp only [Double.mul100, hov, Bool.false_eq_true, if_false, Double.toTime, Bool.false_or]
  split
  · exact ⟨_, rfl⟩
  · have hnot : ¬ (2 ^ 32 ≤ (round64 (100 * n) (2 ^ d)).n / 2 ^ (round64 (100 * n) (2 ^ d)).d) := by
      omega
    simp only [decide_eq_true_eq, hnot, if_false]
    exact ⟨_, rfl⟩

/-- The exceptions of `parse_time`, and the marker of the undefined conversion. -/
theorem parse_time_error (s : Str) (e : Error) (h : parse_time s = .error e) :
    e = .io_error "invalid timestamp format" ∨ e = .invalid_argument ∨ e = .out_of_range ∨
      e = .undefined_conversion := by
  unfold parse_time at h
  dsimp only at h
  repeat' split at h
  all_goals first
    | (cases h; done)
    | (rename_i hx
       simp only [Except.error.injEq] at h
       subst h
       first
         | (have h1 := stoul_error _ _ hx; rcases h1 with h1 | h1 <;> simp [h1])
         | (have h1 := stod_error _ _ hx; rcases h1 with h1 | h1 <;> simp [h1])
         | (have h1 := toTime_error _ _ hx; simp [h1]))
    | (simp only [Except.error.injEq] at h; subst h; simp)

/-! ## The timestamp codec on concrete inputs and the remaining properties -/

/-- C1 (the code departs from it): for every `c < 3600000`, `format_time(c)` succeeds
and `parse_time` accepts the text, but it returns `c` or `c - 1`, not always `c`:
`format_time(29)` is `0:00:00.29`, which `parse_time` reads back as 28, because the
double nearest to 0.29, multiplied by 100, is below 29 and the conversion truncates. -/
theorem parse_time_format_time_off_by_one :
    (∀ c, c < 3600000 →
      ∃ s v, format_time c = .ok s ∧ parse_time s = .ok v ∧ (v = c ∨ v + 1 = c)) ∧
    format_time 29 = .ok "0:00:00.29".toList ∧
    parse_time "0:00:00.29".toList = .ok 28 := by
  refine ⟨?_, by decide, by decide⟩
  intro c hc
  obtain ⟨x, T, hx, h60, hT, hTk⟩ := seconds_roundtrip (c % 6000) (Nat.mod_lt _ (by norm_num))
  obtain ⟨hdH, hvH⟩ := digitChar_digit (c / 360000) (by omega)
  obtain ⟨hdM1, hvM1⟩ := digitChar_digit (c % 360000 / 6000 / 10) (by omega)
  obtain ⟨hdM2, hvM2⟩ := digitChar_digit (c % 360000 / 6000 % 10) (by omega)
  obtain ⟨hdS1, hvS1⟩ := digitChar_digit (c % 6000 / 100 / 10) (by omega)
  obtain ⟨hdS2, hvS2⟩ := digitChar_digit (c % 6000 / 100 % 10) (by omega)
  obtain ⟨hdC1, hvC1⟩ := digitChar_digit (c % 100 / 10) (by omega)
  obtain ⟨hdC2, hvC2⟩ := digitChar_digit (c % 100 % 10) (by omega)
  have hip : ∀ d ∈ [digitChar (c % 6000 / 100 / 10), digitChar (c % 6000 / 100 % 10)],
      isdigit d = true := by
    intro d hd
    simp only [List.mem_cons, List.mem_singleton, List.not_mem_nil, or_false] at hd
    rcases hd with rfl | rfl
    · exact hdS1
    · exact hdS2
  have hfp : ∀ d ∈ [digitChar (c % 100 / 10), digitChar (c % 100 % 10)],
      isdigit d = true := by
    intro d hd
    simp only [List.mem_cons, List.mem_singleton, List.not_mem_nil, or_false] at hd
    rcases hd with rfl | rfl
    · exact hdC1
    · exact hdC2
  have hstod := stod_decimal_frac _ _ hip hfp (by simp)
  have hN : digitsValue 10 ([digitChar (c % 6000 / 100 / 10), digitChar (c % 6000 / 100 % 10)]
      ++ [digitChar (c % 100 / 10), digitChar (c % 100 % 10)]) = c % 6000 := by
    simp only [digitsValue, List.cons_append, List.nil_append, List.foldl, hvS1, hvS2, hvC1, hvC2]
    omega
  rw [hN] at hstod
  have hlen : (10 : ℕ) ^ [digitChar (c % 100 / 10), digitChar (c % 100 % 10)].length = 100 := by
    simp
  rw [hlen, hx] at hstod
  have hcolon : ':' ∉ [digitChar (c % 6000 / 100 / 10), digitChar (c % 6000 / 100 % 10)] ++
      '.' :: [digitChar (c % 100 / 10), digitChar (c % 100 % 10)] := by
    intro hmem
    rcases List.mem_append.mp hmem with hm | hm
    · exact (isdigit_not_x _ (hip _ hm)).2.2.1 rfl
    · rcases List.mem_cons.mp hm with hm | hm
      · exact absurd hm (by decide)
      · exact (isdigit_not_x _ (hfp _ hm)).2.2.1 rfl
  have hT6 : T ≤ 6000 := by omega
  have hparse := parse_time_of_digits _ _ _ _ x T hdH hdM1 hdM2 hcolon
    (by rw [hvM1, hvM2]; omega) hstod h60 hT hT6
  rw [hvH, hvM1, hvM2] at hparse
  refine ⟨_, _, format_time_ok c hc, hparse, ?_⟩
  omega

/-- C2 (the code departs from it): `parse_time` accepts every canonical text
`h:mm:ss.cc` (digits, `mm < 60`, `ss < 60`), but it returns the number of centiseconds
the text denotes or one less, and `format_time` gives the text back only in the first
case: `0:00:00.29` is parsed as 28 centiseconds, which `format_time` writes as
`0:00:00.28`. -/
theorem format_time_parse_time_off_by_one :
    (∀ h m1 m2 s1 s2 c1 c2 : Char,
      isdigit h = true → isdigit m1 = true → isdigit m2 = true → isdigit s1 = true →
      isdigit s2 = true → isdigit c1 = true → isdigit c2 = true →
      10 * digitValue m1 + digitValue m2 < 60 → 10 * digitValue s1 + digitValue s2 < 60 →
      ∃ v, parse_time [h, ':', m1, m2, ':', s1, s2, '.', c1, c2] = .ok v ∧
        (v = digitValue h * 360000 + (10 * digitValue m1 + digitValue m2) * 6000 +
            (10 * digitValue s1 + digitValue s2) * 100 + (10 * digitValue c1 + digitValue c2) ∨
          v + 1 = digitValue h * 360000 + (10 * digitValue m1 + digitValue m2) * 6000 +
            (10 * digitValue s1 + digitValue s2) * 100 + (10 * digitValue c1 + digitValue c2)) ∧
        (v = digitValue h * 360000 + (10 * digitValue m1 + digitValue m2) * 6000 +
            (10 * digitValue s1 + digitValue s2) * 100 + (10 * digitValue c1 + digitValue c2) →
          format_time v = .ok [h, ':', m1, m2, ':', s1, s2, '.', c1, c2])) ∧
    parse_time "0:00:00.29".toList = .ok 28 ∧
    format_time 28 = .ok "0:00:00.28".toList ∧
    "0:00:00.28".toList ≠ "0:00:00.29".toList := by
  refine ⟨?_, by decide, by decide, by decide⟩
  intro h m1 m2 s1 s2 c1 c2 hh hm1 hm2 hs1 hs2 hc1 hc2 hmm hss
  have hH := digitValue_le h hh
  have hM1 := digitValue_le m1 hm1
  have hM2 := digitValue_le m2 hm2
  have hS1 := digitValue_le s1 hs1
  have hS2 := digitValue_le s2 hs2
  have hC1 := digitValue_le c1 hc1
  have hC2 := digitValue_le c2 hc2
  have hk : (10 * digitValue s1 + digitValue s2) * 100 + (10 * digitValue c1 + digitValue c2)
      < 6000 := by omega
  obtain ⟨x, T, hx, h60, hT, hTk⟩ := seconds_roundtrip _ hk
  have hip : ∀ d ∈ [s1, s2], isdigit d = true := by
    intro d hd
    simp only [List.mem_cons, List.mem_singleton, List.not_mem_nil, or_false] at hd
    rcases hd with rfl | rfl
    · exact hs1
    · exact hs2
  have hfp : ∀ d ∈ [c1, c2], isdigit d = true := by
    intro d hd
    simp only [List.mem_cons, List.mem_singleton, List.not_mem_nil, or_false] at hd
    rcases hd with rfl | rfl
    · exact hc1
    · exact hc2
  have hstod := stod_decimal_frac _ _ hip hfp (by simp)
  have hN : digitsValue 10 ([s1, s2] ++ [c1, c2])
      = (10 * digitValue s1 + digitValue s2) * 100 + (10 * digitValue c1 + digitValue c2) := by
    simp only [digitsValue, List.cons_append, List.nil_append, List.foldl]
    omega
  have hlen : (10 : ℕ) ^ [c1, c2].length = 100 := by simp
  rw [hN, hlen, hx] at hstod
  have hcolon : ':' ∉ [s1, s2] ++ '.' :: [c1, c2] := by
    intro hmem
    rcases List.mem_append.mp hmem with hm | hm
    · exact (isdigit_not_x _ (hip _ hm)).2.2.1 rfl
    · rcases List.mem_cons.mp hm with hm | hm
      · exact absurd hm (by decide)
      · exact (isdigit_not_x _ (hfp _ hm)).2.2.1 rfl
  have hT6 : T ≤ 6000 := by omega
  have hparse := parse_time_of_digits h m1 m2 _ x T hh hm1 hm2 hcolon hmm hstod h60 hT hT6
  refine ⟨_, hparse, by omega, ?_⟩
  intro hv
  have hTeq : T = (10 * digitValue s1 + digitValue s2) * 100
      + (10 * digitValue c1 + digitValue c2) := by omega
  rw [hTeq]
  generalize hc : digitValue h * 360000 + (10 * digitValue m1 + digitValue m2) * 6000 +
    ((10 * digitValue s1 + digitValue s2) * 100 + (10 * digitValue c1 + digitValue c2)) = c
  rw [format_time_ok c (by omega)]
  have e1 : c / 360000 = digitValue h := by omega
  have e2 : c % 360000 / 6000 / 10 = digitValue m1 := by omega
  have e3 : c % 360000 / 6000 % 10 = digitValue m2 := by omega
  have e4 : c % 6000 / 100 / 10 = digitValue s1 := by omega
  have e5 : c % 6000 / 100 % 10 = digitValue s2 := by omega
  have e6 : c % 100 / 10 = digitValue c1 := by omega
  have e7 : c % 100 % 10 = digitValue c2 := by omega
  rw [e1, e2, e3, e4, e5, e6, e7, digitChar_digitValue h hh, digitChar_digitValue m1 hm1,
    digitChar_digitValue m2 hm2, digitChar_digitValue s1 hs1, digitChar_digitValue s2 hs2,
    digitChar_digitValue c1 hc1, digitChar_digitValue c2 hc2]

/-- C3: `format_time(c)` throws exactly when `c >= 3600000`; below that it returns the
ten characters `h:mm:ss.cc` with `h = c / 360000` (one digit), `mm = c % 360000 / 6000`,
`ss = c % 6000 / 100` and `cc = c % 100`, each of the last three written as two decimal
digits, and `mm < 60`, `ss < 60`, `cc < 100`. -/
theorem format_time_spec (c : Nat) :
    ((∃ e, format_time c = .error e) ↔ 3600000 ≤ c) ∧
    (c < 3600000 →
      format_time c = .ok [digitChar (c / 360000), ':',
        digitChar (c % 360000 / 6000 / 10), digitChar (c % 360000 / 6000 % 10), ':',
        digitChar (c % 6000 / 100 / 10), digitChar (c % 6000 / 100 % 10), '.',
        digitChar (c % 100 / 10), digitChar (c % 100 % 10)] ∧
      c / 360000 < 10 ∧ c % 360000 / 6000 < 60 ∧ c % 6000 / 100 < 60 ∧ c % 100 < 100) := by
  constructor
  · constructor
    · rintro ⟨e, he⟩
      by_contra hlt
      rw [format_time_ok c (by omega)] at he
      cases he
    · intro hge
      exact ⟨.io_error "invalid timestamp value", by simp [format_time, hge]⟩
  · intro hlt
    exact ⟨format_time_ok c hlt, by omega, by omega, by omega, by omega⟩

/-- C3 at `c = 372345`, which is written `1:02:03.45`. -/
theorem format_time_spec_witness :
    372345 < 3600000 ∧ format_time 372345 = .ok "1:02:03.45".toList :=
  ⟨by decide, ((format_time_spec 372345).2 (by decide)).1.trans (by decide)⟩

/-- C4 (as stated, refuted): `0:00:05.009` is parsed as 500 centiseconds, while
`5.009 * 100` rounded to the nearest centisecond is 501. -/
theorem parse_time_not_rounded :
    parse_time "0:00:05.009".toList = .ok 500 ∧ roundCentis 5009 3 = 501 := by
  decide

/-- C4 (as amended) on the text `0:00:05.009`, parsed as 500. -/
theorem parse_time_seconds_truncated_witness :
    parse_time "0:00:05.009".toList = .ok 500 ∧
    ∃ T : Nat, 500 = digitValue '0' * 360000 + (10 * digitValue '0' + digitValue '0') * 6000 + T ∧
      (T : ℚ) ≤ 100 * ((digitsValue 10 ("05".toList ++ "009".toList) : ℚ)
        / 10 ^ "009".toList.length) + 1 / 2 ^ 40 ∧
      100 * ((digitsValue 10 ("05".toList ++ "009".toList) : ℚ) / 10 ^ "009".toList.length)
        < T + 1 + 1 / 2 ^ 40 :=
  ⟨by decide,
    parse_time_seconds_truncated '0' '0' '0' "05".toList "009".toList "05.009".toList 500
      (by decide) (by decide) (by decide) (by decide) (by decide) (Or.inl (by decide))
      (by decide)⟩

/-- C5 (as stated, refuted): `0:5x:00.00`, whose minutes part is not two digits, and
`0:00:5`, whose seconds part does not start with two digits, are both accepted. -/
theorem parse_time_accepts_loose_digits :
    parse_time "0:5x:00.00".toList = .ok 30000 ∧ parse_time "0:00:5".toList = .ok 500 := by
  decide

/-- C5 (as amended): `parse_time` throws on every text that fails one of the checks that
the code makes: the text splits on `:` into three parts, the first is one ASCII digit, the
second has two characters from which `std::stoul` reads a number below 60, and the third
starts with a number that `std::stod` reads and that is not `>= 60.`; what it throws is
`io_error`, `std::invalid_argument` or `std::out_of_range`, and a text on which the model
has an exception fails one of these checks.  It returns a value only on texts that pass
these checks, and it does so on every one of them whose seconds are finite and not
negative.  The digit counts of the minutes and seconds parts are not checked beyond this.
The code has no check for seconds that are negative or not a number: on the texts that
pass the checks and whose product `parsed_d * 100.` has no value of `time_t` after
truncation, C++ leaves the conversion undefined.  The model has the marker
`undefined_conversion` on exactly these texts (the last part); the marker is neither a
value nor an exception, and nothing is stated of what the program does there. -/
theorem parse_time_accepts_iff (s : Str) :
    ((∃ e, parse_time s = .error e ∧ e ≠ .undefined_conversion) ↔
      ¬ ∃ h m sec mm x, StringSplit s [':'] = [[h], m, sec] ∧ isdigit h = true ∧
        m.length = 2 ∧ stoul m = .ok mm ∧ mm < 60 ∧ stod sec = .ok x ∧ x.ge60 = false) ∧
    (∀ e, parse_time s = .error e → e ≠ .undefined_conversion →
      e = .io_error "invalid timestamp format" ∨ e = .invalid_argument ∨ e = .out_of_range) ∧
    ((∃ v, parse_time s = .ok v) ↔
      ∃ h m sec mm x cs, StringSplit s [':'] = [[h], m, sec] ∧ isdigit h = true ∧
        m.length = 2 ∧ stoul m = .ok mm ∧ mm < 60 ∧
        stod sec = .ok x ∧ x.ge60 = false ∧ x.mul100.toTime = .ok cs) ∧
    (∀ h m sec mm n d, StringSplit s [':'] = [[h], m, sec] → isdigit h = true →
      m.length = 2 → stoul m = .ok mm → mm < 60 → stod sec = .ok (.finite false n d) →
      (Double.finite false n d).ge60 = false → ∃ v, parse_time s = .ok v) ∧
    (parse_time s = .error .undefined_conversion ↔
      ∃ h m sec mm x, StringSplit s [':'] = [[h], m, sec] ∧ isdigit h = true ∧
        m.length = 2 ∧ stoul m = .ok mm ∧ mm < 60 ∧
        stod sec = .ok x ∧ x.ge60 = false ∧
        x.mul100.toTime = .error .undefined_conversion) := by
  obtain ⟨hok, hun⟩ := parse_time_cases s
  refine ⟨⟨?_, ?_⟩, ?_, hok, ?_, hun⟩
  · rintro ⟨e, he, hne⟩ ⟨h, m, sec, mm, x, h1, h2, h3, h4, h5, h6, h7⟩
    cases h8 : x.mul100.toTime with
    | ok cs =>
      obtain ⟨v, hv⟩ := hok.mpr ⟨h, m, sec, mm, x, cs, h1, h2, h3, h4, h5, h6, h7, h8⟩
      rw [hv] at he; cases he
    | error e2 =>
      have h9 := toTime_error _ _ h8
      subst h9
      have := hun.mpr ⟨h, m, sec, mm, x, h1, h2, h3, h4, h5, h6, h7, h8⟩
      rw [this] at he
      cases he
      exact hne rfl
  · intro hA
    cases hp : parse_time s with
    | ok v =>
      obtain ⟨h, m, sec, mm, x, cs, h1, h2, h3, h4, h5, h6, h7, _⟩ := hok.mp ⟨v, hp⟩
      exact absurd ⟨h, m, sec, mm, x, h1, h2, h3, h4, h5, h6, h7⟩ hA
    | error e =>
      refine ⟨e, rfl, ?_⟩
      rintro rfl
      obtain ⟨h, m, sec, mm, x, h1, h2, h3, h4, h5, h6, h7, _⟩ := hun.mp hp
      exact absurd ⟨h, m, sec, mm, x, h1, h2, h3, h4, h5, h6, h7⟩ hA
  · intro e he hne
    rcases parse_time_error s e he with h | h | h | h
    · exact Or.inl h
    · exact Or.inr (Or.inl h)
    · exact Or.inr (Or.inr h)
    · exact absurd h hne
  · intro h m sec mm n d h1 h2 h3 h4 h5 h6 h7
    obtain ⟨cs, hcs⟩ := toTime_defined n d h7
    exact hok.mpr ⟨h, m, sec, mm, _, cs, h1, h2, h3, h4, h5, h6, h7, hcs⟩

/-- C5 (as amended) on the texts `0:00:05.00`, which passes the checks with seconds that
are not negative and is accepted, and `0:60:00.00`, `0:00` and `a:00:00`, which throw and
so fail one of the checks. -/
theorem parse_time_accepts_iff_witness :
    (∃ v, parse_time "0:00:05.00".toList = .ok v) ∧
    (∀ e, parse_time "a:00:00".toList = .error e → e ≠ .undefined_conversion →
      e = .io_error "invalid timestamp format" ∨ e = .invalid_argument ∨ e = .out_of_range) ∧
    (parse_time "0:60:00.00".toList = .error (.io_error "invalid timestamp format") ∧
      ¬ ∃ h m sec mm x, StringSplit "0:60:00.00".toList [':'] = [[h], m, sec] ∧
        isdigit h = true ∧ m.length = 2 ∧ stoul m = .ok mm ∧ mm < 60 ∧ stod sec = .ok x ∧
        x.ge60 = false) :=
  ⟨(parse_time_accepts_iff "0:00:05.00".toList).2.2.2.1 '0' "00".toList "05.00".toList 0
      5629499534213120 50 (by decide) (by decide) (by decide) (by decide) (by decide)
      (by decide) (by decide),
    (parse_time_accepts_iff "a:00:00".toList).2.1,
    by decide,
    (parse_time_accepts_iff "0:60:00.00".toList).1.mp
      ⟨.io_error "invalid timestamp format", by decide, by decide⟩⟩

/-- C6 (as stated, refuted): field 0 of the empty line and the empty last field of
`a,` are reported as not found although the index does not exceed the number of `,`. -/
theorem get_field_empty_last_not_found :
    get_field [] 0 = (false, 0, npos) ∧ ([] : Str).count ',' = 0 ∧
    get_field "a,".toList 1 = (false, 2, npos) ∧ "a,".toList.count ',' = 1 := by
  decide

/-- C6 (as amended) on the line `a,,`: field 2, the empty last field, is not found. -/
theorem get_field_not_found_iff_witness :
    "a,,".toList.length < npos ∧ 2 < 2 ^ 32 ∧ (get_field "a,,".toList 2).1 = false :=
  ⟨by decide, by decide,
    (get_field_not_found_iff "a,,".toList 2 (by decide) (by decide)).1.mpr
      (Or.inr ⟨by decide, Or.inr (by decide)⟩)⟩

/-- C7 (as stated, refuted): for the last field of `a` the reported end is `npos`,
which is neither the length of the line nor at most that length. -/
theorem get_field_last_end_is_npos :
    get_field "a".toList 0 = (true, 0, npos) ∧ "a".toList.length = 1 ∧
    "a".toList.length < npos := by
  decide

/-- C7 (as amended) on the line `ab,cd,e`: field 1 spans `[3, 5)` and holds no `,`. -/
theorem get_field_span_witness :
    "ab,cd,e".toList.length < npos ∧ 1 < 2 ^ 32 ∧
    get_field "ab,cd,e".toList 1 = (true, 3, 5) ∧
    ',' ∉ ("ab,cd,e".toList.drop 3).take (5 - 3) :=
  ⟨by decide, by decide, by decide,
    (get_field_span "ab,cd,e".toList 1 3 5 (by decide) (by decide) (by decide)).2.2.2.2.2⟩

/-- C8 (as stated, refuted): in the declaration `a,` the empty name is located at
index 1, but `get_field` does not find field 1. -/
theorem get_field_index_empty_last :
    get_field_index "a,".toList [] = some 1 ∧ (get_field "a,".toList 1).1 = false := by
  decide

/-- C8 (as amended) on the declaration `Start, End,Text` and the name `End`. -/
theorem get_field_of_get_field_index_witness :
    "Start, End,Text".toList.length < npos ∧ 1 < 2 ^ 32 ∧
    get_field_index "Start, End,Text".toList "End".toList = some 1 ∧
    ∃ sub, substr "Start, End,Text".toList (get_field "Start, End,Text".toList 1).2.1
        ((get_field "Start, End,Text".toList 1).2.2 - (get_field "Start, End,Text".toList 1).2.1)
        = .ok sub ∧ StringTrim sub = "End".toList :=
  ⟨by decide, by decide, by decide,
    (get_field_of_get_field_index "Start, End,Text".toList "End".toList 1 (by decide)
      (by decide) (by decide)).2 (by decide)⟩

/-- C10 on the declarations `a,b,c` and `c, a ,b` and the values `1`, `2`, `3`. -/
theorem apply_permutation_inverse_witness :
    (fieldNames "a,b,c".toList).Nodup ∧ (fieldNames "c, a ,b".toList).Nodup ∧
    ∃ p q w, compute_permutation "a,b,c".toList "c, a ,b".toList = .ok p ∧
      compute_permutation "c, a ,b".toList "a,b,c".toList = .ok q ∧
      apply_permutation ["1".toList, "2".toList, "3".toList] p = (true, w) ∧
      apply_permutation w q = (true, ["1".toList, "2".toList, "3".toList]) :=
  ⟨by decide, by decide,
    apply_permutation_inverse "a,b,c".toList "c, a ,b".toList
      ["1".toList, "2".toList, "3".toList] (by decide) (by decide)
      (by
        have hA : fieldNames "a,b,c".toList = [['a'], ['b'], ['c']] := by decide
        have hB : fieldNames "c, a ,b".toList = [['c'], ['a'], ['b']] := by decide
        intro n
        rw [hA, hB]
        simp only [List.mem_cons, List.mem_singleton, List.not_mem_nil, or_false]
        tauto)
      (by decide)⟩

/-! ## Lemmas: the containers of a document -/

theorem map_at_nil (key : Str) : map_at [] key = .error .out_of_range := rfl

theorem map_at_cons (k : Str) (l : List (Str × Str)) (rest : SectionsMap) (key : Str) :
    map_at ((k, l) :: rest) key = if k = key then .ok l else map_at rest key := by
  by_cases h : k = key <;> simp [map_at, List.find?, h]

theorem map_at_push_back (m : SectionsMap) (key key2 : Str) (value : Str × Str) :
    map_at (map_push_back m key value) key2
      = if key2 = key then .ok (map_get m key ++ [value]) else map_at m key2 := by
  induction m with
  | nil =>
    by_cases h : key2 = key
    · subst h; simp [map_push_back, map_at_cons, map_get, map_at_nil]
    · have h2 : ¬ key = key2 := fun e => h e.symm
      simp [map_push_back, map_at_cons, map_at_nil, h, h2]
  | cons e rest ih =>
    obtain ⟨k, l⟩ := e
    by_cases hk : k = key
    · subst hk
      by_cases h : key2 = k
      · subst h; simp [map_push_back, map_at_cons, map_get]
      · have h2 : ¬ k = key2 := fun e => h e.symm
        simp [map_push_back, map_at_cons, h, h2]
    · by_cases h : key2 = key
      · subst h
        simp only [map_push_back, if_neg hk, map_at_cons, ih, if_true, map_get]
      · simp only [map_push_back, if_neg hk, map_at_cons, ih, if_neg h]

theorem Section_add_line (d : ASSFile) (section_ type data key : Str) :
    (d.add_line section_ type data).Section key
      = if key = section_ then .ok (map_get d.sections_map_ section_ ++ [(type, data)])
        else d.Section key := by
  simp only [ASSFile.add_line, ASSFile.Section, map_at_push_back]

theorem Section_add_line_ne (d : ASSFile) (section_ type data key : Str) (h : key ≠ section_) :
    (d.add_line section_ type data).Section key = d.Section key := by
  rw [Section_add_line, if_neg h]

theorem map_get_of_at (m : SectionsMap) (key : Str) (l : List (Str × Str))
    (h : map_at m key = .ok l) : map_get m key = l := by
  simp [map_get, h]

theorem map_get_of_error (m : SectionsMap) (key : Str) (e : Error)
    (h : map_at m key = .error e) : map_get m key = [] := by
  simp [map_get, h]

theorem Section_insert_ne (d : ASSFile) (section_ key : Str) (data : List (Str × Str))
    (h : key ≠ section_) : (d.insert section_ data).Section key = d.Section key := by
  unfold ASSFile.insert
  have : ∀ (f : ASSFile), (data.foldl (fun file entry => file.add_line section_ entry.1 entry.2) f).Section key
      = f.Section key := by
    induction data with
    | nil => intro f; rfl
    | cons e es ih => intro f; rw [List.foldl_cons, ih, Section_add_line_ne _ _ _ _ _ h]
  rw [this]
  rfl

/-! ## Lemmas: the checks of the format line -/

theorem get_field_index_loop_none (name : Str) (l : List Str) (k : Nat)
    (h : name ∉ l.map StringTrim) : get_field_index_loop name l k = none := by
  induction l generalizing k with
  | nil => rfl
  | cons t ts ih =>
    simp only [List.map_cons, List.mem_cons, not_or] at h
    rw [get_field_index_loop, if_neg (fun e => h.1 e.symm)]
    exact ih _ h.2

theorem get_field_index_none (format name : Str) (h : name ∉ fieldNames format) :
    get_field_index format name = none :=
  get_field_index_loop_none name _ 0 h

theorem get_field_index_last (format name : Str) (i : Nat)
    (h : get_field_index format name = some i)
    (hi : i = (StringSplit format FIELD_DELIMITER).length - 1) :
    (fieldNames format).getLast? = some name := by
  obtain ⟨j, tok, h1, h2, h3⟩ := get_field_index_loop_some name _ 0 i h
  have hj : j = (StringSplit format FIELD_DELIMITER).length - 1 := by omega
  rw [List.getLast?_eq_getElem?]
  simp only [fieldNames, List.length_map, List.getElem?_map]
  rw [List.get?_eq_getElem?] at h2
  rw [← hj, h2]
  simp [h3]

/-- The checks of the format line fail with a format error when `Text` is not the last
field or `Start` or `End` is missing. -/
theorem format_indices_error (format : Str)
    (h : (fieldNames format).getLast? ≠ some "Text".toList ∨ "Start".toList ∉ fieldNames format ∨
      "End".toList ∉ fieldNames format) :
    ∃ msg, format_indices format = .error (.io_error msg) := by
  unfold format_indices
  cases ht : get_field_index format "Text".toList with
  | none => exact ⟨_, rfl⟩
  | some text_idx =>
    dsimp only
    by_cases hl : text_idx ≠ (StringSplit format FIELD_DELIMITER).length - 1
    · rw [if_pos hl]; exact ⟨_, rfl⟩
    · rw [if_neg hl]
      rw [not_not] at hl
      have hlast := get_field_index_last format _ _ ht hl
      rcases h with h | h | h
      · exact absurd hlast h
      · rw [get_field_index_none _ _ h]; exact ⟨_, rfl⟩
      · rw [get_field_index_none _ _ h]
        cases get_field_index format "Start".toList <;> exact ⟨_, rfl⟩

theorem split_events_error (ass first second : ASSFile) (t : Nat) (format_line : Str × Str)
    (lines : List (Str × Str)) (hev : ass.Section EVENTS = .ok (format_line :: lines))
    (h : format_line.1 ≠ "Format".toList ∨
      (fieldNames format_line.2).getLast? ≠ some "Text".toList ∨
      "Start".toList ∉ fieldNames format_line.2 ∨ "End".toList ∉ fieldNames format_line.2) :
    ∃ msg, split_events ass t first second = .error (.io_error msg) := by
  unfold split_events
  rw [hev]
  dsimp only
  by_cases hf : format_line.1 ≠ "Format".toList
  · rw [if_pos hf]; exact ⟨_, rfl⟩
  · rw [if_neg hf]
    obtain ⟨msg, hmsg⟩ := format_indices_error format_line.2 (h.resolve_left hf)
    rw [hmsg]; exact ⟨_, rfl⟩

theorem transform_events_error (ass_in ass_out : ASSFile) (offset : Int) (scale : Double)
    (format_line : Str × Str)
    (lines : List (Str × Str)) (hev : ass_in.Section EVENTS = .ok (format_line :: lines))
    (h : format_line.1 ≠ "Format".toList ∨
      (fieldNames format_line.2).getLast? ≠ some "Text".toList ∨
      "Start".toList ∉ fieldNames format_line.2 ∨ "End".toList ∉ fieldNames format_line.2) :
    ∃ msg, transform_events ass_in offset scale ass_out = .error (.io_error msg) := by
  unfold transform_events
  rw [hev]
  dsimp only
  by_cases hf : format_line.1 ≠ "Format".toList
  · rw [if_pos hf]; exact ⟨_, rfl⟩
  · rw [if_neg hf]
    obtain ⟨msg, hmsg⟩ := format_indices_error format_line.2 (h.resolve_left hf)
    rw [hmsg]; exact ⟨_, rfl⟩

/-- A failure of the `[Events]` branch is a failure of `split` when `[Events]` is listed. -/
theorem split_sections_error (ass : ASSFile) (t : Nat)
    (h : ∀ first second, ∃ e, split_events ass t first second = .error e)
    (secs : List Str) (hmem : EVENTS ∈ secs) (first second : ASSFile) :
    ∃ e, split_sections ass t secs first second = .error e := by
  induction secs generalizing first second with
  | nil => simp at hmem
  | cons s rest ih =>
    unfold split_sections
    by_cases hs : s = EVENTS
    · rw [if_pos hs]
      obtain ⟨e, he⟩ := h first second
      rw [he]; exact ⟨_, rfl⟩
    · rw [if_neg hs]
      have hmem2 : EVENTS ∈ rest := by
        rcases List.mem_cons.mp hmem with h1 | h1
        · exact absurd h1.symm hs
        · exact h1
      cases ass.Section s with
      | error e => exact ⟨_, rfl⟩
      | ok data => exact ih hmem2 _ _

theorem transform_sections_error (ass_in : ASSFile) (offset : Int) (scale : Double)
    (h : ∀ ass_out, ∃ e, transform_events ass_in offset scale ass_out = .error e)
    (secs : List Str) (hmem : EVENTS ∈ secs) (ass_out : ASSFile) :
    ∃ e, transform_sections ass_in offset scale secs ass_out = .error e := by
  induction secs generalizing ass_out with
  | nil => simp at hmem
  | cons s rest ih =>
    unfold transform_sections
    by_cases hs : s = EVENTS
    · rw [if_pos hs]
      obtain ⟨e, he⟩ := h ass_out
      rw [he]; exact ⟨_, rfl⟩
    · rw [if_neg hs]
      have hmem2 : EVENTS ∈ rest := by
        rcases List.mem_cons.mp hmem with h1 | h1
        · exact absurd h1.symm hs
        · exact h1
      cases ass_in.Section s with
      | error e => exact ⟨_, rfl⟩
      | ok data => exact ih hmem2 _

theorem sameHeader_refl (a : ASSFile) : sameHeader a a := ⟨rfl, rfl, rfl⟩

theorem sameHeader_trans {a b c : ASSFile} (h1 : sameHeader a b) (h2 : sameHeader b c) :
    sameHeader a c :=
  ⟨h1.1.trans h2.1, h1.2.1.trans h2.2.1, h1.2.2.trans h2.2.2⟩

theorem sameHeader_add_line (d : ASSFile) (section_ type data : Str) :
    sameHeader (d.add_line section_ type data) d := ⟨rfl, rfl, rfl⟩

theorem map_get_add_line (d : ASSFile) (section_ type data key : Str) :
    map_get (d.add_line section_ type data).sections_map_ key
      = map_get d.sections_map_ key ++ (if section_ = key then [(type, data)] else []) := by
  have h := Section_add_line d section_ type data key
  simp only [ASSFile.Section] at h
  by_cases hk : key = section_
  · subst hk
    rw [if_pos rfl] at h
    simp [map_get, h]
  · rw [if_neg hk] at h
    have hk2 : ¬ section_ = key := fun e => hk e.symm
    simp [map_get, h, hk2]

theorem insert_foldl (section_ key : Str) (data : List (Str × Str)) (f : ASSFile) :
    sameHeader (data.foldl (fun file entry => file.add_line section_ entry.1 entry.2) f) f ∧
    map_get (data.foldl (fun file entry => file.add_line section_ entry.1 entry.2) f).sections_map_ key
      = map_get f.sections_map_ key ++ (if section_ = key then data else []) := by
  induction data generalizing f with
  | nil => simp [sameHeader_refl]
  | cons e es ih =>
    rw [List.foldl_cons]
    refine ⟨sameHeader_trans (ih _).1 (sameHeader_add_line _ _ _ _), ?_⟩
    rw [(ih _).2, map_get_add_line]
    by_cases hk : section_ = key <;> simp [hk]

theorem sameHeader_insert (d : ASSFile) (section_ : Str) (data : List (Str × Str)) :
    sameHeader (d.insert section_ data) d := by
  unfold ASSFile.insert
  exact sameHeader_trans (insert_foldl section_ section_ data _).1 ⟨rfl, rfl, rfl⟩

theorem map_get_insert (d : ASSFile) (section_ key : Str) (data : List (Str × Str)) :
    map_get (d.insert section_ data).sections_map_ key
      = map_get d.sections_map_ key ++ (if section_ = key then data else []) := by
  unfold ASSFile.insert
  rw [(insert_foldl section_ key data _).2]

/-- The event loop of `split` appends to the `[Events]` lists of the two outputs the
records of the events, in order, and changes nothing else. -/
theorem split_loop_spec (t start_idx end_idx : Nat) (lines : List (Str × Str))
    (first second a b : ASSFile)
    (h : split_loop t start_idx end_idx lines first second = .ok (a, b)) :
    sameHeader a first ∧ sameHeader b second ∧
    ∀ key, map_get a.sections_map_ key = map_get first.sections_map_ key ++
        (if EVENTS = key then lines.filterMap (split_output t start_idx end_idx false) else []) ∧
      map_get b.sections_map_ key = map_get second.sections_map_ key ++
        (if EVENTS = key then lines.filterMap (split_output t start_idx end_idx true) else []) := by
  induction lines generalizing first second with
  | nil =>
    simp only [split_loop, Except.ok.injEq, Prod.mk.injEq] at h
    obtain ⟨h1, h2⟩ := h
    subst h1 h2
    simp [sameHeader_refl]
  | cons r rest ih =>
    obtain ⟨line_type, line_data⟩ := r
    unfold split_loop at h
    cases hev : split_event t start_idx end_idx line_type line_data with
    | error e => rw [hev] at h; cases h
    | ok res =>
      obtain ⟨add1, add2, data⟩ := res
      rw [hev] at h
      dsimp only at h
      obtain ⟨ha, hb, hk⟩ := ih _ _ h
      refine ⟨?_, ?_, ?_⟩
      · cases add1
        · simpa using ha
        · exact sameHeader_trans ha (sameHeader_add_line _ _ _ _)
      · cases add2
        · simpa using hb
        · exact sameHeader_trans hb (sameHeader_add_line _ _ _ _)
      · intro key
        obtain ⟨hk1, hk2⟩ := hk key
        rw [hk1, hk2]
        by_cases hkey : EVENTS = key
        · cases add1 <;> cases add2 <;>
            simp [split_output, hev, hkey, map_get_add_line, List.filterMap_cons]
        · cases add1 <;> cases add2 <;> simp [hkey, map_get_add_line]

/-- What a successful run of the `[Events]` branch of `split` has done. -/
theorem split_events_ok (ass : ASSFile) (t : Nat) (first second a b : ASSFile)
    (h : split_events ass t first second = .ok (a, b)) :
    (ass.Section EVENTS = .ok [] ∧ a = first ∧ b = second) ∨
    ∃ format_line lines start_idx end_idx, ass.Section EVENTS = .ok (format_line :: lines) ∧
      format_line.1 = "Format".toList ∧
      format_indices format_line.2 = .ok (start_idx, end_idx) ∧
      split_loop t start_idx end_idx lines (first.add_line EVENTS format_line.1 format_line.2)
        (second.add_line EVENTS format_line.1 format_line.2) = .ok (a, b) := by
  unfold split_events at h
  cases hev : ass.Section EVENTS with
  | error e => rw [hev] at h; cases h
  | ok l =>
    rw [hev] at h
    cases l with
    | nil =>
      simp only [Except.ok.injEq, Prod.mk.injEq] at h
      exact Or.inl ⟨rfl, h.1.symm, h.2.symm⟩
    | cons format_line lines =>
      dsimp only at h
      by_cases hf : format_line.1 ≠ "Format".toList
      · rw [if_pos hf] at h; cases h
      · rw [if_neg hf] at h
        rw [not_not] at hf
        cases hi : format_indices format_line.2 with
        | error e => rw [hi] at h; cases h
        | ok idx =>
          obtain ⟨start_idx, end_idx⟩ := idx
          rw [hi] at h
          exact Or.inr ⟨format_line, lines, start_idx, end_idx, rfl, hf, hi, h⟩

theorem split_events_spec (ass : ASSFile) (t : Nat) (first second a b : ASSFile)
    (h : split_events ass t first second = .ok (a, b)) :
    sameHeader a first ∧ sameHeader b second ∧
    ∀ key, map_get a.sections_map_ key = map_get first.sections_map_ key ++
        (if EVENTS = key then split_records ass t false EVENTS else []) ∧
      map_get b.sections_map_ key = map_get second.sections_map_ key ++
        (if EVENTS = key then split_records ass t true EVENTS else []) := by
  rcases split_events_ok ass t first second a b h with ⟨hev, ha, hb⟩ | ⟨fl, lines, si, ei, hev, _, hi, hl⟩
  · subst ha hb
    refine ⟨sameHeader_refl _, sameHeader_refl _, fun key => ?_⟩
    simp [split_records, hev]
  · obtain ⟨ha, hb, hk⟩ := split_loop_spec t si ei lines _ _ a b hl
    refine ⟨sameHeader_trans ha (sameHeader_add_line _ _ _ _),
      sameHeader_trans hb (sameHeader_add_line _ _ _ _), fun key => ?_⟩
    obtain ⟨hk1, hk2⟩ := hk key
    rw [hk1, hk2]
    by_cases hkey : EVENTS = key
    · subst hkey
      simp [split_records, hev, hi, map_get_add_line]
    · simp [hkey, map_get_add_line]

/-- What a successful run of the loop of `split` over the listed sections has done: every
listed section has added its records to the two outputs, and nothing else has changed. -/
theorem split_sections_spec (ass : ASSFile) (t : Nat) (secs : List Str)
    (first second a b : ASSFile)
    (h : split_sections ass t secs first second = .ok (a, b)) :
    sameHeader a first ∧ sameHeader b second ∧
    ∀ key, map_get a.sections_map_ key = map_get first.sections_map_ key ++
        ((secs.filter (fun s => s = key)).map (split_records ass t false)).flatten ∧
      map_get b.sections_map_ key = map_get second.sections_map_ key ++
        ((secs.filter (fun s => s = key)).map (split_records ass t true)).flatten := by
  induction secs generalizing first second with
  | nil =>
    simp only [split_sections, Except.ok.injEq, Prod.mk.injEq] at h
    obtain ⟨h1, h2⟩ := h
    subst h1 h2
    simp [sameHeader_refl]
  | cons s rest ih =>
    unfold split_sections at h
    by_cases hs : s = EVENTS
    · rw [if_pos hs] at h
      cases hev : split_events ass t first second with
      | error e => rw [hev] at h; cases h
      | ok res =>
        obtain ⟨f1, s1⟩ := res
        rw [hev] at h
        dsimp only at h
        obtain ⟨ha, hb, hk⟩ := ih _ _ h
        obtain ⟨ha1, hb1, hk1⟩ := split_events_spec ass t first second f1 s1 hev
        refine ⟨sameHeader_trans ha ha1, sameHeader_trans hb hb1, fun key => ?_⟩
        rw [(hk key).1, (hk key).2, (hk1 key).1, (hk1 key).2]
        subst hs
        by_cases hkey : EVENTS = key
        · simp [List.filter_cons, hkey, List.append_assoc]
        · simp [List.filter_cons, hkey]
    · rw [if_neg hs] at h
      cases hsec : ass.Section s with
      | error e => rw [hsec] at h; cases h
      | ok data =>
        rw [hsec] at h
        dsimp only at h
        obtain ⟨ha, hb, hk⟩ := ih _ _ h
        refine ⟨sameHeader_trans ha (sameHeader_insert _ _ _),
          sameHeader_trans hb (sameHeader_insert _ _ _), fun key => ?_⟩
        rw [(hk key).1, (hk key).2, map_get_insert, map_get_insert]
        have hdata : map_get ass.sections_map_ s = data := map_get_of_at _ _ _ hsec
        by_cases hkey : s = key
        · subst hkey
          simp [List.filter_cons, split_records, hs, hdata, List.append_assoc]
        · simp [List.filter_cons, hkey]

theorem filter_eq_of_nodup (secs : List Str) (key : Str) (hn : secs.Nodup) :
    secs.filter (fun s => s = key) = if key ∈ secs then [key] else [] := by
  induction secs with
  | nil => simp
  | cons s rest ih =>
    rw [List.nodup_cons] at hn
    rw [List.filter_cons, ih hn.2]
    by_cases hs : s = key
    · subst hs
      simp [hn.1]
    · have hs2 : ¬ key = s := fun e => hs e.symm
      simp [hs, hs2]

/-- The outputs of a successful `split`: the BOM flag and the header comment of the
input, the line break of the objects passed in, and for every listed section the records
that the section contributes. -/
theorem split_spec (ass : ASSFile) (t : Nat) (first second a b : ASSFile)
    (hn : ass.sections_.Nodup) (h : split ass t first second = .ok (a, b)) :
    (a.has_bom_ = ass.has_bom_ ∧ a.line_break_ = first.line_break_ ∧
      a.script_comment_ = ass.script_comment_) ∧
    (b.has_bom_ = ass.has_bom_ ∧ b.line_break_ = second.line_break_ ∧
      b.script_comment_ = ass.script_comment_) ∧
    ∀ key, map_get a.sections_map_ key
        = (if key ∈ ass.sections_ then split_records ass t false key else []) ∧
      map_get b.sections_map_ key
        = (if key ∈ ass.sections_ then split_records ass t true key else []) := by
  unfold split at h
  obtain ⟨ha, hb, hk⟩ := split_sections_spec ass t ass.sections_ _ _ a b h
  refine ⟨ha, hb, fun key => ?_⟩
  rw [(hk key).1, (hk key).2, filter_eq_of_nodup _ _ hn]
  by_cases hkey : key ∈ ass.sections_
  · simp [hkey, ASSFile.clear, map_get, map_at_nil]
  · simp [hkey, ASSFile.clear, map_get, map_at_nil]

/-- The event loop of `transform` appends to the `[Events]` list of the output the
records of the events, in order, and changes nothing else; every event has been
rewritten without an exception. -/
theorem transform_loop_spec (offset : Int) (scale : Double) (start_idx end_idx : Nat)
    (lines : List (Str × Str)) (ass_out a : ASSFile)
    (h : transform_loop offset scale start_idx end_idx lines ass_out = .ok a) :
    sameHeader a ass_out ∧
    (∀ r ∈ lines, ∃ data, transform_event offset scale start_idx end_idx r.1 r.2 = .ok data) ∧
    ∀ key, map_get a.sections_map_ key = map_get ass_out.sections_map_ key ++
        (if EVENTS = key then lines.filterMap (fun r =>
          match transform_event offset scale start_idx end_idx r.1 r.2 with
          | .ok data => some (r.1, data)
          | .error _ => none) else []) := by
  induction lines generalizing ass_out with
  | nil =>
    simp only [transform_loop, Except.ok.injEq] at h
    subst h
    simp [sameHeader_refl]
  | cons r rest ih =>
    obtain ⟨line_type, line_data⟩ := r
    unfold transform_loop at h
    cases hev : transform_event offset scale start_idx end_idx line_type line_data with
    | error e => rw [hev] at h; cases h
    | ok data =>
      rw [hev] at h
      dsimp only at h
      obtain ⟨ha, hall, hk⟩ := ih _ h
      refine ⟨sameHeader_trans ha (sameHeader_add_line _ _ _ _), ?_, fun key => ?_⟩
      · intro r hr
        rcases List.mem_cons.mp hr with h1 | h1
        · subst h1; exact ⟨data, hev⟩
        · exact hall r h1
      · rw [hk key]
        by_cases hkey : EVENTS = key
        · simp [hev, hkey, map_get_add_line, List.filterMap_cons]
        · simp [hkey, map_get_add_line]

/-- What a successful run of the `[Events]` branch of `transform` has done. -/
theorem transform_events_ok (ass_in : ASSFile) (offset : Int) (scale : Double)
    (ass_out a : ASSFile) (h : transform_events ass_in offset scale ass_out = .ok a) :
    (ass_in.Section EVENTS = .ok [] ∧ a = ass_out) ∨
    ∃ format_line lines start_idx end_idx, ass_in.Section EVENTS = .ok (format_line :: lines) ∧
      format_line.1 = "Format".toList ∧
      format_indices format_line.2 = .ok (start_idx, end_idx) ∧
      transform_loop offset scale start_idx end_idx lines
        (ass_out.add_line EVENTS format_line.1 format_line.2) = .ok a := by
  unfold transform_events at h
  cases hev : ass_in.Section EVENTS with
  | error e => rw [hev] at h; cases h
  | ok l =>
    rw [hev] at h
    cases l with
    | nil =>
      simp only [Except.ok.injEq] at h
      exact Or.inl ⟨rfl, h.symm⟩
    | cons format_line lines =>
      dsimp only at h
      by_cases hf : format_line.1 ≠ "Format".toList
      · rw [if_pos hf] at h; cases h
      · rw [if_neg hf] at h
        rw [not_not] at hf
        cases hi : format_indices format_line.2 with
        | error e => rw [hi] at h; cases h
        | ok idx =>
          obtain ⟨start_idx, end_idx⟩ := idx
          rw [hi] at h
          exact Or.inr ⟨format_line, lines, start_idx, end_idx, rfl, hf, hi, h⟩

theorem transform_events_spec (ass_in : ASSFile) (offset : Int) (scale : Double)
    (ass_out a : ASSFile) (h : transform_events ass_in offset scale ass_out = .ok a) :
    sameHeader a ass_out ∧
    ∀ key, map_get a.sections_map_ key = map_get ass_out.sections_map_ key ++
        (if EVENTS = key then transform_records ass_in offset scale EVENTS else []) := by
  rcases transform_events_ok ass_in offset scale ass_out a h with
    ⟨hev, ha⟩ | ⟨fl, lines, si, ei, hev, _, hi, hl⟩
  · subst ha
    refine ⟨sameHeader_refl _, fun key => ?_⟩
    simp [transform_records, hev]
  · obtain ⟨ha, _, hk⟩ := transform_loop_spec offset scale si ei lines _ a hl
    refine ⟨sameHeader_trans ha (sameHeader_add_line _ _ _ _), fun key => ?_⟩
    rw [hk key]
    by_cases hkey : EVENTS = key
    · subst hkey
      simp [transform_records, hev, hi, map_get_add_line]
    · simp [hkey, map_get_add_line]

/-- What a successful run of the loop of `transform` over the listed sections has done. -/
theorem transform_sections_spec (ass_in : ASSFile) (offset : Int) (scale : Double)
    (secs : List Str) (ass_out a : ASSFile)
    (h : transform_sections ass_in offset scale secs ass_out = .ok a) :
    sameHeader a ass_out ∧
    ∀ key, map_get a.sections_map_ key = map_get ass_out.sections_map_ key ++
        ((secs.filter (fun s => s = key)).map (transform_records ass_in offset scale)).flatten := by
  induction secs generalizing ass_out with
  | nil =>
    simp only [transform_sections, Except.ok.injEq] at h
    subst h
    simp [sameHeader_refl]
  | cons s rest ih =>
    unfold transform_sections at h
    by_cases hs : s = EVENTS
    · rw [if_pos hs] at h
      cases hev : transform_events ass_in offset scale ass_out with
      | error e => rw [hev] at h; cases h
      | ok f1 =>
        rw [hev] at h
        dsimp only at h
        obtain ⟨ha, hk⟩ := ih _ h
        obtain ⟨ha1, hk1⟩ := transform_events_spec ass_in offset scale ass_out f1 hev
        refine ⟨sameHeader_trans ha ha1, fun key => ?_⟩
        rw [hk key, hk1 key]
        subst hs
        by_cases hkey : EVENTS = key
        · simp [List.filter_cons, hkey, List.append_assoc]
        · simp [List.filter_cons, hkey]
    · rw [if_neg hs] at h
      cases hsec : ass_in.Section s with
      | error e => rw [hsec] at h; cases h
      | ok data =>
        rw [hsec] at h
        dsimp only at h
        obtain ⟨ha, hk⟩ := ih _ h
        refine ⟨sameHeader_trans ha (sameHeader_insert _ _ _), fun key => ?_⟩
        rw [hk key, map_get_insert]
        have hdata : map_get ass_in.sections_map_ s = data := map_get_of_at _ _ _ hsec
        by_cases hkey : s = key
        · subst hkey
          simp [List.filter_cons, transform_records, hs, hdata, List.append_assoc]
        · simp [List.filter_cons, hkey]

/-- The output of a successful `transform`. -/
theorem transform_spec (ass_in : ASSFile) (offset : Int) (scale : Double) (ass_out a : ASSFile)
    (hn : ass_in.sections_.Nodup) (h : transform ass_in offset scale ass_out = .ok a) :
    (a.has_bom_ = ass_in.has_bom_ ∧ a.line_break_ = ass_out.line_break_ ∧
      a.script_comment_ = ass_in.script_comment_) ∧
    ∀ key, map_get a.sections_map_ key
        = (if key ∈ ass_in.sections_ then transform_records ass_in offset scale key else []) := by
  unfold transform at h
  obtain ⟨ha, hk⟩ := transform_sections_spec ass_in offset scale ass_in.sections_ _ a h
  refine ⟨ha, fun key => ?_⟩
  rw [hk key, filter_eq_of_nodup _ _ hn]
  by_cases hkey : key ∈ ass_in.sections_
  · simp [hkey, ASSFile.clear, map_get, map_at_nil]
  · simp [hkey, ASSFile.clear, map_get, map_at_nil]

theorem get_field_true_lt (data : Str) (idx b e : Nat) (h : get_field data idx = (true, b, e)) :
    b < data.length := by
  simp only [get_field, FIELD_DELIMITER] at h
  split at h
  · simp at h
  · simp only [Prod.mk.injEq, decide_eq_true_eq] at h
    obtain ⟨h1, h2, _⟩ := h
    omega

/-- The block that locates and reads a timestamp field, in terms of `get_field` and
`parse_time`. -/
theorem locate_time_eq (data : Str) (idx u : Nat) (msg : String) :
    locate_time data idx u msg =
      match get_field data idx with
      | (true, b, e) =>
        if b < e then
          match parse_time ((data.drop b).take (e - b)) with
          | .ok ts => .ok (b, e, ts, true)
          | .error err => .error err
        else .ok (b, e, u, false)
      | (false, _, _) => .error (.io_error msg) := by
  unfold locate_time
  rcases hg : get_field data idx with ⟨flag, b, e⟩
  cases flag with
  | false => rfl
  | true =>
    have hlt := get_field_true_lt data idx b e hg
    dsimp only
    by_cases hbe : b < e
    · simp only [if_pos hbe, substr, if_neg (show ¬ b > data.length by omega)]
      cases parse_time ((data.drop b).take (e - b)) <;> rfl
    · simp only [if_neg hbe]

theorem field_time_some (data : Str) (idx v : Nat) (h : field_time data idx = some v) :
    ∃ b e, get_field data idx = (true, b, e) ∧ b < e ∧
      parse_time ((data.drop b).take (e - b)) = .ok v := by
  unfold field_time at h
  rcases hg : get_field data idx with ⟨flag, b, e⟩
  rw [hg] at h
  cases flag with
  | false => simp at h
  | true =>
    try dsimp only at h
    by_cases hbe : b < e
    · rw [if_pos hbe] at h
      cases hp : parse_time ((data.drop b).take (e - b)) with
      | error err => rw [hp] at h; simp at h
      | ok ts =>
        rw [hp] at h
        simp only [Option.some.injEq] at h
        subst h
        exact ⟨b, e, rfl, hbe, hp⟩
    · rw [if_neg hbe] at h; simp at h

theorem map_at_of_map_get (m : SectionsMap) (key : Str) (x : Str × Str) (l : List (Str × Str))
    (h : map_get m key = x :: l) : map_at m key = .ok (x :: l) := by
  unfold map_get at h
  cases hm : map_at m key with
  | error e => rw [hm] at h; simp at h
  | ok l2 => rw [hm] at h; simp only at h; rw [h]

theorem format_indices_ok (format : Str) (start_idx end_idx : Nat)
    (h : format_indices format = .ok (start_idx, end_idx)) :
    get_field_index format "Start".toList = some start_idx ∧
      get_field_index format "End".toList = some end_idx := by
  unfold format_indices at h
  cases ht : get_field_index format "Text".toList with
  | none => rw [ht] at h; cases h
  | some text_idx =>
    rw [ht] at h
    dsimp only at h
    split at h
    · cases h
    · cases hs : get_field_index format "Start".toList with
      | none => rw [hs] at h; cases h
      | some si =>
        rw [hs] at h
        dsimp only at h
        cases he : get_field_index format "End".toList with
        | none => rw [he] at h; cases h
        | some ei =>
          rw [he] at h
          simp only [Except.ok.injEq, Prod.mk.injEq] at h
          rw [h.1, h.2]
          exact ⟨rfl, rfl⟩

/-- A successful event loop of `split` has rewritten every event without an exception. -/
theorem split_loop_all_ok (t start_idx end_idx : Nat) (lines : List (Str × Str))
    (first second a b : ASSFile)
    (h : split_loop t start_idx end_idx lines first second = .ok (a, b)) :
    ∀ r ∈ lines, ∃ add1 add2 data,
      split_event t start_idx end_idx r.1 r.2 = .ok (add1, add2, data) := by
  induction lines generalizing first second with
  | nil => intro r hr; simp at hr
  | cons r0 rest ih =>
    obtain ⟨line_type, line_data⟩ := r0
    unfold split_loop at h
    cases hev : split_event t start_idx end_idx line_type line_data with
    | error e => rw [hev] at h; cases h
    | ok res =>
      obtain ⟨add1, add2, data⟩ := res
      rw [hev] at h
      dsimp only at h
      intro r hr
      rcases List.mem_cons.mp hr with h1 | h1
      · subst h1; exact ⟨add1, add2, data, hev⟩
      · exact ih _ _ h r h1

/-- A successful `split` of a document that lists `[Events]` has run the `[Events]`
branch without an exception. -/
theorem split_sections_events (ass : ASSFile) (t : Nat) (secs : List Str)
    (first second a b : ASSFile) (hmem : EVENTS ∈ secs)
    (h : split_sections ass t secs first second = .ok (a, b)) :
    ∃ f s f2 s2, split_events ass t f s = .ok (f2, s2) := by
  induction secs generalizing first second with
  | nil => simp at hmem
  | cons s0 rest ih =>
    unfold split_sections at h
    by_cases hs : s0 = EVENTS
    · rw [if_pos hs] at h
      cases hev : split_events ass t first second with
      | error e => rw [hev] at h; cases h
      | ok res => exact ⟨first, second, res.1, res.2, hev⟩
    · rw [if_neg hs] at h
      have hmem2 : EVENTS ∈ rest := by
        rcases List.mem_cons.mp hmem with h1 | h1
        · exact absurd h1.symm hs
        · exact h1
      cases hsec : ass.Section s0 with
      | error e => rw [hsec] at h; cases h
      | ok data =>
        rw [hsec] at h
        exact ih _ _ hmem2 h

/-- The format line and the events of a document that `split` has accepted. -/
theorem split_ok_format (ass : ASSFile) (t : Nat) (first second a b : ASSFile)
    (format_line : Str × Str) (lines : List (Str × Str))
    (hmem : EVENTS ∈ ass.sections_) (hev : ass.Section EVENTS = .ok (format_line :: lines))
    (h : split ass t first second = .ok (a, b)) :
    format_line.1 = "Format".toList ∧
    ∃ start_idx end_idx, format_indices format_line.2 = .ok (start_idx, end_idx) ∧
      ∀ r ∈ lines, ∃ add1 add2 data,
        split_event t start_idx end_idx r.1 r.2 = .ok (add1, add2, data) := by
  unfold split at h
  obtain ⟨f, s, f2, s2, he⟩ := split_sections_events ass t _ _ _ a b hmem h
  rcases split_events_ok ass t f s f2 s2 he with ⟨h0, _, _⟩ | ⟨fl, ls, si, ei, h1, h2, h3, h4⟩
  · rw [hev] at h0; cases h0
  · rw [hev] at h1
    simp only [Except.ok.injEq, List.cons.injEq] at h1
    obtain ⟨h5, h6⟩ := h1
    subst h5 h6
    exact ⟨h2, si, ei, h3, split_loop_all_ok t si ei _ _ _ f2 s2 h4⟩

theorem filter_mem_cons (secs : List Str) (key : Str) (hmem : key ∈ secs) :
    ∃ rest, secs.filter (fun s => s = key) = key :: rest := by
  induction secs with
  | nil => simp at hmem
  | cons s rest ih =>
    by_cases hs : s = key
    · subst hs
      exact ⟨rest.filter (fun x => x = s), by simp [List.filter_cons]⟩
    · have hmem2 : key ∈ rest := by
        rcases List.mem_cons.mp hmem with h1 | h1
        · exact absurd h1.symm hs
        · exact h1
      obtain ⟨r, hr⟩ := ih hmem2
      exact ⟨r, by simp [List.filter_cons, hs, hr]⟩

theorem Section_ok_of_ne (d : ASSFile) (key : Str) (h : d.Section key ≠ .error .out_of_range) :
    ∃ l, d.Section key = .ok l := by
  unfold ASSFile.Section map_at at h ⊢
  split
  · exact ⟨_, rfl⟩
  · rename_i hn
    rw [hn] at h
    exact absurd rfl h

/-- With a record list for every listed section, the first failure of `split` is the
failure of the `[Events]` branch. -/
theorem split_sections_io_error (ass : ASSFile) (t : Nat)
    (h : ∀ first second, ∃ msg, split_events ass t first second = .error (.io_error msg))
    (secs : List Str) (hmem : EVENTS ∈ secs) (hwf : ∀ s ∈ secs, ass.Section s ≠ .error .out_of_range)
    (first second : ASSFile) :
    ∃ msg, split_sections ass t secs first second = .error (.io_error msg) := by
  induction secs generalizing first second with
  | nil => simp at hmem
  | cons s rest ih =>
    unfold split_sections
    by_cases hs : s = EVENTS
    · rw [if_pos hs]
      obtain ⟨e, he⟩ := h first second
      rw [he]; exact ⟨_, rfl⟩
    · rw [if_neg hs]
      have hmem2 : EVENTS ∈ rest := by
        rcases List.mem_cons.mp hmem with h1 | h1
        · exact absurd h1.symm hs
        · exact h1
      obtain ⟨l, hl⟩ := Section_ok_of_ne _ _ (hwf s (by simp))
      rw [hl]
      exact ih hmem2 (fun x hx => hwf x (List.mem_cons_of_mem _ hx)) _ _

theorem transform_sections_io_error (ass_in : ASSFile) (offset : Int) (scale : Double)
    (h : ∀ ass_out, ∃ msg, transform_events ass_in offset scale ass_out = .error (.io_error msg))
    (secs : List Str) (hmem : EVENTS ∈ secs) (hwf : ∀ s ∈ secs, ass_in.Section s ≠ .error .out_of_range)
    (ass_out : ASSFile) :
    ∃ msg, transform_sections ass_in offset scale secs ass_out = .error (.io_error msg) := by
  induction secs generalizing ass_out with
  | nil => simp at hmem
  | cons s rest ih =>
    unfold transform_sections
    by_cases hs : s = EVENTS
    · rw [if_pos hs]
      obtain ⟨e, he⟩ := h ass_out
      rw [he]; exact ⟨_, rfl⟩
    · rw [if_neg hs]
      have hmem2 : EVENTS ∈ rest := by
        rcases List.mem_cons.mp hmem with h1 | h1
        · exact absurd h1.symm hs
        · exact h1
      obtain ⟨l, hl⟩ := Section_ok_of_ne _ _ (hwf s (by simp))
      rw [hl]
      exact ih hmem2 (fun x hx => hwf x (List.mem_cons_of_mem _ hx)) _

/-- A successful `transform` of a document that lists `[Events]` has run the `[Events]`
branch without an exception. -/
theorem transform_sections_events (ass_in : ASSFile) (offset : Int) (scale : Double)
    (secs : List Str) (ass_out a : ASSFile) (hmem : EVENTS ∈ secs)
    (h : transform_sections ass_in offset scale secs ass_out = .ok a) :
    ∃ f f2, transform_events ass_in offset scale f = .ok f2 := by
  induction secs generalizing ass_out with
  | nil => simp at hmem
  | cons s0 rest ih =>
    unfold transform_sections at h
    by_cases hs : s0 = EVENTS
    · rw [if_pos hs] at h
      cases hev : transform_events ass_in offset scale ass_out with
      | error e => rw [hev] at h; cases h
      | ok res => exact ⟨ass_out, res, hev⟩
    · rw [if_neg hs] at h
      have hmem2 : EVENTS ∈ rest := by
        rcases List.mem_cons.mp hmem with h1 | h1
        · exact absurd h1.symm hs
        · exact h1
      cases hsec : ass_in.Section s0 with
      | error e => rw [hsec] at h; cases h
      | ok data =>
        rw [hsec] at h
        exact ih _ hmem2 h

/-- The format line and the events of a document that `transform` has accepted. -/
theorem transform_ok_format (ass_in : ASSFile) (offset : Int) (scale : Double)
    (ass_out a : ASSFile) (format_line : Str × Str) (lines : List (Str × Str))
    (hmem : EVENTS ∈ ass_in.sections_)
    (hev : ass_in.Section EVENTS = .ok (format_line :: lines))
    (h : transform ass_in offset scale ass_out = .ok a) :
    format_line.1 = "Format".toList ∧
    ∃ start_idx end_idx, format_indices format_line.2 = .ok (start_idx, end_idx) ∧
      ∀ r ∈ lines, ∃ data,
        transform_event offset scale start_idx end_idx r.1 r.2 = .ok data := by
  unfold transform at h
  obtain ⟨f, f2, he⟩ := transform_sections_events ass_in offset scale _ _ a hmem h
  rcases transform_events_ok ass_in offset scale f f2 he with ⟨h0, _⟩ | ⟨fl, ls, si, ei, h1, h2, h3, h4⟩
  · rw [hev] at h0; cases h0
  · rw [hev] at h1
    simp only [Except.ok.injEq, List.cons.injEq] at h1
    obtain ⟨h5, h6⟩ := h1
    subst h5 h6
    exact ⟨h2, si, ei, h3, (transform_loop_spec offset scale si ei _ _ f2 h4).2.1⟩

/-- The format line is the first `[Events]` record of the outputs of `split`. -/
theorem split_format_first (ass : ASSFile) (t : Nat) (first second a b : ASSFile)
    (format_line : Str × Str) (lines : List (Str × Str))
    (hmem : EVENTS ∈ ass.sections_) (hev : ass.Section EVENTS = .ok (format_line :: lines))
    (h : split ass t first second = .ok (a, b)) :
    ∃ l1 l2, a.Section EVENTS = .ok (format_line :: l1) ∧
      b.Section EVENTS = .ok (format_line :: l2) := by
  obtain ⟨_, si, ei, hi, _⟩ := split_ok_format ass t first second a b format_line lines hmem hev h
  unfold split at h
  obtain ⟨_, _, hk⟩ := split_sections_spec ass t _ _ _ a b h
  obtain ⟨rest, hrest⟩ := filter_mem_cons _ _ hmem
  have h1 := (hk EVENTS).1
  have h2 := (hk EVENTS).2
  rw [hrest] at h1 h2
  simp only [List.map_cons, List.flatten_cons, split_records, if_true, hev, hi, ASSFile.clear,
    map_get, map_at_nil, List.nil_append, List.cons_append] at h1 h2
  exact ⟨_, _, map_at_of_map_get _ _ _ _ h1, map_at_of_map_get _ _ _ _ h2⟩

/-- The format line is the first `[Events]` record of the output of `transform`. -/
theorem transform_format_first (ass_in : ASSFile) (offset : Int) (scale : Double)
    (ass_out a : ASSFile) (format_line : Str × Str) (lines : List (Str × Str))
    (hmem : EVENTS ∈ ass_in.sections_)
    (hev : ass_in.Section EVENTS = .ok (format_line :: lines))
    (h : transform ass_in offset scale ass_out = .ok a) :
    ∃ l, a.Section EVENTS = .ok (format_line :: l) := by
  obtain ⟨_, si, ei, hi, _⟩ :=
    transform_ok_format ass_in offset scale ass_out a format_line lines hmem hev h
  unfold transform at h
  obtain ⟨_, hk⟩ := transform_sections_spec ass_in offset scale _ _ a h
  obtain ⟨rest, hrest⟩ := filter_mem_cons _ _ hmem
  have h1 := hk EVENTS
  rw [hrest] at h1
  simp only [List.map_cons, List.flatten_cons, transform_records, if_true, hev, hi,
    ASSFile.clear, map_get, map_at_nil, List.nil_append, List.cons_append] at h1
  exact ⟨_, map_at_of_map_get _ _ _ _ h1⟩

/-! ## Lemmas: the range and the exceptions of `parse_time` -/

theorem stoul_single_le (c : Char) (v : Nat) (h : stoul [c] = .ok v) : v ≤ 9 := by
  have hd := (stoul_single c).mp ⟨v, h⟩
  have hs := isdigit_not_isspace c hd
  obtain ⟨hm, hp⟩ := isdigit_not_sign c hd
  unfold stoul at h
  simp only [List.dropWhile, hs] at h
  rw [takeSign_of_not_sign c [] hm hp] at h
  simp only [List.takeWhile, hd] at h
  have hval : digitsValue 10 [c] ≤ 9 := by
    have := digitValue_le c hd
    simp only [digitsValue, List.foldl]
    omega
  have hle : ¬ digitsValue 10 [c] > 2 ^ 64 - 1 := by omega
  simp only [hle, if_false] at h
  simp at h
  omega

/-- The centiseconds of a seconds value below 60 are at most 6000. -/
theorem mul100_toTime_le (x : Double) (T : Nat) (h60 : x.ge60 = false)
    (hT : x.mul100.toTime = .ok T) : T ≤ 6000 := by
  cases x with
  | inf neg => simp [Double.mul100, Double.toTime] at hT
  | nan => simp [Double.mul100, Double.toTime] at hT
  | finite neg n d =>
    cases neg with
    | true =>
      simp only [Double.mul100] at hT
      split at hT
      · simp [Double.toTime] at hT
      · simp only [Double.toTime, Bool.true_or, if_true] at hT
        split at hT
        · simp only [Except.ok.injEq] at hT; omega
        · cases hT
    | false =>
      simp only [Double.ge60, Bool.not_false, Bool.true_and, decide_eq_false_iff_not, not_le] at h60
      have hpow : (0 : ℚ) < 2 ^ d := by positivity
      have hlt : ((100 * n : Nat) : ℚ) / ((2 ^ d : Nat) : ℚ) < 2 ^ 13 := by
        rw [div_lt_iff₀ (by positivity)]
        have : (n : ℚ) < 60 * 2 ^ d := by exact_mod_cast h60
        push_cast
        nlinarith
      obtain ⟨hclose, hov⟩ := round64_close (100 * n) (2 ^ d) 13 (by positivity) (by norm_num) hlt
      simp only [Double.mul100, hov] at hT
      simp only [Double.toTime, Bool.false_or, Bool.false_eq_true, if_false] at hT
      have hval : (round64 (100 * n) (2 ^ d)).value < 6001 := by
        have h1 := (abs_le.mp hclose).2
        have h2 : ((100 * n : Nat) : ℚ) / ((2 ^ d : Nat) : ℚ) < 6000 := by
          rw [div_lt_iff₀ (by positivity)]
          have : (n : ℚ) < 60 * 2 ^ d := by exact_mod_cast h60
          push_cast
          nlinarith
        have h3 : (1 : ℚ) / 2 ^ (54 - 13) ≤ 1 := by
          rw [div_le_one (by positivity)]
          exact one_le_pow₀ (by norm_num)
        linarith
      have hfloor : (((round64 (100 * n) (2 ^ d)).n / 2 ^ (round64 (100 * n) (2 ^ d)).d : Nat) : ℚ)
          ≤ (round64 (100 * n) (2 ^ d)).value := by
        simp only [Rounded.value]
        have := @Nat.cast_div_le ℚ _ (round64 (100 * n) (2 ^ d)).n (2 ^ (round64 (100 * n) (2 ^ d)).d)
        simpa using this
      have hTle : ((round64 (100 * n) (2 ^ d)).n / 2 ^ (round64 (100 * n) (2 ^ d)).d : Nat) ≤ 6000 := by
        have : (((round64 (100 * n) (2 ^ d)).n / 2 ^ (round64 (100 * n) (2 ^ d)).d : Nat) : ℚ) < 6001 :=
          lt_of_le_of_lt hfloor hval
        have h2 : ((round64 (100 * n) (2 ^ d)).n / 2 ^ (round64 (100 * n) (2 ^ d)).d : Nat) < 6001 := by
          exact_mod_cast this
        omega
      split at hT
      · simp only [Except.ok.injEq] at hT; omega
      · split at hT
        · cases hT
        · simp only [Except.ok.injEq] at hT
          omega

/-- A timestamp read by `parse_time` is a value of `time_signed_t`. -/
theorem parse_time_lt (s : Str) (n : Nat) (h : parse_time s = .ok n) : n < 2 ^ 31 := by
  unfold parse_time at h
  dsimp only at h
  split at h
  · rename_i v0 v1 v2 hsplit
    split at h
    · cases h
    · rename_i hlen0
      split at h
      · cases h
      · rename_i hours hh
        split at h
        · cases h
        · split at h
          · cases h
          · rename_i minutes hm
            split at h
            · cases h
            · rename_i hm60
              split at h
              · cases h
              · rename_i x hx
                split at h
                · cases h
                · rename_i h60
                  split at h
                  · cases h
                  · rename_i cs hcs
                    simp only [Except.ok.injEq] at h
                    have hcs6 : cs ≤ 6000 :=
                      mul100_toTime_le x cs (by simpa using h60) hcs
                    have hh9 : hours ≤ 9 := by
                      have hl : v0.length = 1 := by simpa using hlen0
                      match v0, hl with
                      | [c], _ => exact stoul_single_le c hours hh
                    have hm59 : minutes < 60 := by omega
                    have hsum : hours * 360000 + minutes * 6000 + cs < 2 ^ 31 := by omega
                    have hn : n ≤ hours * 360000 + minutes * 6000 + cs := by
                      rw [← h]
                      simp only [Nat.zero_add]
                      refine le_trans (Nat.mod_le _ _) (Nat.add_le_add_right ?_ _)
                      refine le_trans (Nat.mod_le _ _) (Nat.add_le_add ?_ ?_)
                      · exact le_trans (Nat.mod_le _ _) (le_trans (Nat.mod_le _ _) (Nat.mod_le _ _))
                      · exact le_trans (Nat.mod_le _ _) (Nat.mod_le _ _)
                    omega
  · cases h

theorem toDouble_ne_runtime (neg : Bool) (p q : Nat) (m : String) :
    toDouble neg p q ≠ .error (.runtime_error m) := by
  unfold toDouble
  intro h
  dsimp only at h
  split at h <;> simp at h

theorem stoul_ne_runtime (v : Str) (m : String) : stoul v ≠ .error (.runtime_error m) := by
  unfold stoul
  intro h
  dsimp only at h
  repeat' split at h
  all_goals simp at h

theorem stod_ne_runtime (v : Str) (m : String) : stod v ≠ .error (.runtime_error m) := by
  unfold stod
  intro h
  dsimp only at h
  repeat' split at h
  all_goals first | exact toDouble_ne_runtime _ _ _ _ h | simp at h

theorem toTime_ne_runtime (x : Double) (m : String) : x.toTime ≠ .error (.runtime_error m) := by
  intro h
  cases x with
  | inf neg => simp [Double.toTime] at h
  | nan => simp [Double.toTime] at h
  | finite neg n d =>
    simp only [Double.toTime] at h
    repeat' split at h
    all_goals simp at h

/-- `parse_time` does not throw `std::runtime_error`. -/
theorem parse_time_ne_runtime (s : Str) (m : String) :
    parse_time s ≠ .error (.runtime_error m) := by
  intro h
  unfold parse_time at h
  dsimp only at h
  split at h
  · split at h
    · simp at h
    · split at h
      · rename_i e he
        simp only [Except.error.injEq] at h
        subst h
        exact stoul_ne_runtime _ _ he
      · split at h
        · simp at h
        · split at h
          · rename_i e he
            simp only [Except.error.injEq] at h
            subst h
            exact stoul_ne_runtime _ _ he
          · split at h
            · simp at h
            · split at h
              · rename_i e he
                simp only [Except.error.injEq] at h
                subst h
                exact stod_ne_runtime _ _ he
              · split at h
                · simp at h
                · split at h
                  · rename_i e he
                    simp only [Except.error.injEq] at h
                    subst h
                    exact toTime_ne_runtime _ _ he
                  · cases h
  · simp at h

theorem format_time_ne_runtime (n : Nat) (m : String) :
    format_time n ≠ .error (.runtime_error m) := by
  unfold format_time
  intro h
  split at h <;> simp at h

theorem substr_error (str : Str) (pos count : Nat) (e : Error)
    (h : substr str pos count = .error e) : e = .out_of_range := by
  unfold substr at h
  split at h
  · simp only [Except.error.injEq] at h; exact h.symm
  · cases h

theorem event_data_error (line_data : Str) (sb se eb ee : Nat) (s1 s2 : Str) (e : Error)
    (h : event_data line_data sb se eb ee s1 s2 = .error e) :
    e = .out_of_range ∨ e = .io_error "unexpected error" := by
  unfold event_data at h
  split at h
  · rcases h1 : substr line_data 0 sb with e1 | a <;>
    rcases h2 : substr line_data se (size_sub eb se) with e2 | b <;>
    rcases h3 : substr line_data ee with e3 | c <;>
    rw [h1, h2, h3] at h <;> simp at h
    all_goals
      subst h
      first
        | exact Or.inl (substr_error _ _ _ _ h1)
        | exact Or.inl (substr_error _ _ _ _ h2)
        | exact Or.inl (substr_error _ _ _ _ h3)
  · split at h
    · rcases h1 : substr line_data 0 eb with e1 | a <;>
      rcases h2 : substr line_data ee (size_sub sb ee) with e2 | b <;>
      rcases h3 : substr line_data se with e3 | c <;>
      rw [h1, h2, h3] at h <;> simp at h
      all_goals
        subst h
        first
          | exact Or.inl (substr_error _ _ _ _ h1)
          | exact Or.inl (substr_error _ _ _ _ h2)
          | exact Or.inl (substr_error _ _ _ _ h3)
    · simp only [Except.error.injEq] at h
      exact Or.inr h.symm

theorem event_data_ne_runtime (line_data : Str) (sb se eb ee : Nat) (s1 s2 : Str) (m : String) :
    event_data line_data sb se eb ee s1 s2 ≠ .error (.runtime_error m) := by
  intro h
  rcases event_data_error _ _ _ _ _ _ _ _ h with h1 | h1 <;> cases h1

theorem locate_time_ne_runtime (data : Str) (idx u : Nat) (msg m : String) :
    locate_time data idx u msg ≠ .error (.runtime_error m) := by
  rw [locate_time_eq]
  intro h
  split at h
  · split at h
    · split at h
      · cases h
      · rename_i e he
        simp only [Except.error.injEq] at h
        subst h
        exact parse_time_ne_runtime _ _ he
    · cases h
  · simp at h

theorem scale_offset_ne_runtime (ts : Int) (scale : Double) (offset : Int) (m : String) :
    scale_offset ts scale offset ≠ .error (.runtime_error m) := by
  intro h
  unfold scale_offset at h
  split at h
  · rename_i e he
    simp only [Except.error.injEq] at h
    subst h
    cases hx : scale.mulInt ts with
    | inf neg => rw [hx] at he; simp [Double.toSigned] at he
    | nan => rw [hx] at he; simp [Double.toSigned] at he
    | finite neg n d =>
      rw [hx] at he
      simp only [Double.toSigned] at he
      repeat' split at he
      all_goals simp at he
  · split at h <;> simp at h

/-! ## Lemmas: one event in `transform` -/

theorem locate_time_of_field_time (data : Str) (idx u v : Nat) (msg : String)
    (h : field_time data idx = some v) :
    ∃ b e, get_field data idx = (true, b, e) ∧ locate_time data idx u msg = .ok (b, e, v, true) := by
  obtain ⟨b, e, hg, hbe, hp⟩ := field_time_some _ _ _ h
  refine ⟨b, e, hg, ?_⟩
  rw [locate_time_eq, hg]
  simp only [if_pos hbe, hp]

theorem locate_time_ok_cases (data : Str) (idx u : Nat) (msg : String) (b e ts : Nat)
    (span : Bool) (h : locate_time data idx u msg = .ok (b, e, ts, span)) :
    get_field data idx = (true, b, e) ∧
      field_time data idx = (if span then some ts else none) ∧ (span = false → ts = u) := by
  rw [locate_time_eq] at h
  rcases hge : get_field data idx with ⟨flag, b2, e2⟩
  rw [hge] at h
  cases flag with
  | false => simp at h
  | true =>
    dsimp only at h
    by_cases hbe : b2 < e2
    · rw [if_pos hbe] at h
      cases hpe : parse_time ((data.drop b2).take (e2 - b2)) with
      | error err => rw [hpe] at h; simp at h
      | ok v =>
        rw [hpe] at h
        simp only [Except.ok.injEq, Prod.mk.injEq] at h
        obtain ⟨h1, h2, h3, h4⟩ := h
        subst h1 h2 h3 h4
        simp [field_time, hge, hbe, hpe]
    · rw [if_neg hbe] at h
      simp only [Except.ok.injEq, Prod.mk.injEq] at h
      obtain ⟨h1, h2, h3, h4⟩ := h
      subst h1 h2 h3 h4
      simp [field_time, hge, hbe]

theorem to_signed_nonneg (n : Nat) (h : n < 2 ^ 31) : 0 ≤ to_signed n := by
  unfold to_signed
  rw [if_pos h]
  exact Int.ofNat_nonneg n

theorem field_time_lt (data : Str) (idx v : Nat) (h : field_time data idx = some v) :
    v < 2 ^ 31 := by
  obtain ⟨b, e, _, _, hp⟩ := field_time_some _ _ _ h
  exact parse_time_lt _ _ hp

/-- One iteration of the event loop of `transform` once the two fields are located, for
an event whose `Start` is defined. -/
theorem transform_event_located (offset : Int) (scale : Double) (start_idx end_idx : Nat)
    (line_type line_data : Str) (sb se start eb ee end_ts : Nat) (end_span : Bool)
    (hs : locate_time line_data start_idx (2 ^ 31 - 1) "'Start' field cannot be retrieved"
      = .ok (sb, se, start, true))
    (he : locate_time line_data end_idx (2 ^ 31 - 1) "'End' field cannot be retrieved"
      = .ok (eb, ee, end_ts, end_span)) :
    transform_event offset scale start_idx end_idx line_type line_data =
      match scale_offset (to_signed start) scale offset with
      | .error e => .error e
      | .ok start_ts =>
        match (if (if line_type = COMMAND_EVENT ∨ line_type = SOUND_EVENT then false
            else end_span) = true then scale_offset (to_signed end_ts) scale offset
          else .ok 0) with
        | .error e => .error e
        | .ok end_ts =>
          if start_ts < 0 ∨ end_ts < 0 then
            .error (.runtime_error "Transformation yields negative timestamps!")
          else
            match format_time start_ts.toNat with
            | .error e => .error e
            | .ok start_str =>
              match (if (if line_type = COMMAND_EVENT ∨ line_type = SOUND_EVENT then false
                  else end_span) = true then format_time end_ts.toNat else .ok []) with
              | .error e => .error e
              | .ok end_str => event_data line_data sb se eb ee start_str end_str := by
  unfold transform_event
  rw [hs, he]
  dsimp only
  cases hed : (if line_type = COMMAND_EVENT ∨ line_type = SOUND_EVENT then false else end_span)
  · simp only [transform_times, Bool.not_true, Bool.false_eq_true, if_false, if_true]
    cases scale_offset (to_signed start) scale offset with
    | error e => rfl
    | ok v => rfl
  · simp only [transform_times, Bool.not_true, Bool.false_eq_true, if_false, if_true]
    cases scale_offset (to_signed start) scale offset with
    | error e => rfl
    | ok v =>
      dsimp only
      cases scale_offset (to_signed end_ts) scale offset with
      | error e => rfl
      | ok v2 => rfl

/-- An event whose computed `Start`, or computed `End` when `End` is defined, is negative
makes the iteration throw. -/
theorem transform_event_negative (offset : Int) (scale : Double) (start_idx end_idx : Nat)
    (line_type line_data : Str) (start : Nat)
    (hstart : field_time line_data start_idx = some start)
    (hneg : (∃ v, scale_offset (to_signed start) scale offset = .ok v ∧ v < 0) ∨
      (¬ (line_type = COMMAND_EVENT ∨ line_type = SOUND_EVENT) ∧
        ∃ end_ v, field_time line_data end_idx = some end_ ∧
          scale_offset (to_signed end_) scale offset = .ok v ∧ v < 0)) :
    ∃ e, transform_event offset scale start_idx end_idx line_type line_data = .error e := by
  obtain ⟨sb, se, _, hs⟩ := locate_time_of_field_time line_data start_idx (2 ^ 31 - 1) start
    "'Start' field cannot be retrieved" hstart
  cases he : locate_time line_data end_idx (2 ^ 31 - 1) "'End' field cannot be retrieved" with
  | error e =>
    unfold transform_event
    rw [hs, he]
    exact ⟨_, rfl⟩
  | ok res =>
    obtain ⟨eb, ee, end_ts, end_span⟩ := res
    obtain ⟨_, hft, _⟩ := locate_time_ok_cases _ _ _ _ _ _ _ _ he
    rw [transform_event_located offset scale start_idx end_idx line_type line_data sb se start
      eb ee end_ts end_span hs he]
    cases hso : scale_offset (to_signed start) scale offset with
    | error e => exact ⟨_, rfl⟩
    | ok v =>
      dsimp only
      rcases hneg with ⟨v1, hv1, hlt⟩ | ⟨hty, end_, v2, hfe, hv2, hlt⟩
      · rw [hso] at hv1
        simp only [Except.ok.injEq] at hv1
        subst hv1
        cases (if (if line_type = COMMAND_EVENT ∨ line_type = SOUND_EVENT then false
            else end_span) = true then scale_offset (to_signed end_ts) scale offset
          else .ok 0) with
        | error e => exact ⟨_, rfl⟩
        | ok w =>
          dsimp only
          rw [if_pos (Or.inl hlt)]
          exact ⟨_, rfl⟩
      · rw [hfe] at hft
        cases end_span with
        | false => simp at hft
        | true =>
          simp only [if_true, Option.some.injEq] at hft
          subst hft
          simp only [if_neg hty, if_true, hv2]
          rw [if_pos (Or.inr hlt)]
          exact ⟨_, rfl⟩

/-- The iteration throws `std::runtime_error` only for an event whose `Start` is defined
and whose computed `Start`, or computed `End` when `End` is defined, is negative. -/
theorem transform_event_runtime (offset : Int) (scale : Double) (start_idx end_idx : Nat)
    (line_type line_data : Str) (m : String)
    (h : transform_event offset scale start_idx end_idx line_type line_data
      = .error (.runtime_error m)) :
    ∃ start, field_time line_data start_idx = some start ∧
      ((∃ v, scale_offset (to_signed start) scale offset = .ok v ∧ v < 0) ∨
      (¬ (line_type = COMMAND_EVENT ∨ line_type = SOUND_EVENT) ∧
        ∃ end_ v, field_time line_data end_idx = some end_ ∧
          scale_offset (to_signed end_) scale offset = .ok v ∧ v < 0)) := by
  cases hs : locate_time line_data start_idx (2 ^ 31 - 1) "'Start' field cannot be retrieved" with
  | error e =>
    unfold transform_event at h
    rw [hs] at h
    simp only [Except.error.injEq] at h
    subst h
    exact absurd hs (locate_time_ne_runtime _ _ _ _ _)
  | ok res1 =>
    obtain ⟨sb, se, s0, sd⟩ := res1
    cases he : locate_time line_data end_idx (2 ^ 31 - 1) "'End' field cannot be retrieved" with
    | error e =>
      unfold transform_event at h
      rw [hs, he] at h
      simp only [Except.error.injEq] at h
      subst h
      exact absurd he (locate_time_ne_runtime _ _ _ _ _)
    | ok res2 =>
      obtain ⟨eb, ee, e0, es⟩ := res2
      obtain ⟨_, hfs, hsu⟩ := locate_time_ok_cases _ _ _ _ _ _ _ _ hs
      obtain ⟨_, hfe, heu⟩ := locate_time_ok_cases _ _ _ _ _ _ _ _ he
      cases sd with
      | false =>
        exfalso
        have hs0 : s0 = 2 ^ 31 - 1 := hsu rfl
        have he0 : e0 < 2 ^ 31 := by
          cases es with
          | false => rw [heu rfl]; norm_num
          | true => exact field_time_lt _ _ _ (by rw [hfe]; rfl)
        have h1 : ¬ (to_signed s0 < 0 ∨ to_signed e0 < 0) := by
          have a1 := to_signed_nonneg s0 (by rw [hs0]; norm_num)
          have a2 := to_signed_nonneg e0 he0
          omega
        unfold transform_event at h
        rw [hs, he] at h
        simp only [transform_times, Bool.not_false, if_true, if_neg h1, Bool.false_eq_true,
          if_false] at h
        exact event_data_ne_runtime _ _ _ _ _ _ _ _ h
      | true =>
        simp only [if_true] at hfs
        refine ⟨s0, hfs, ?_⟩
        rw [transform_event_located offset scale start_idx end_idx line_type line_data sb se s0
          eb ee e0 es hs he] at h
        cases hso : scale_offset (to_signed s0) scale offset with
        | error e =>
          rw [hso] at h
          simp only [Except.error.injEq] at h
          subst h
          exact absurd hso (scale_offset_ne_runtime _ _ _ _)
        | ok v =>
          rw [hso] at h
          dsimp only at h
          by_cases hv : v < 0
          · exact Or.inl ⟨v, rfl, hv⟩
          · right
            by_cases hty : line_type = COMMAND_EVENT ∨ line_type = SOUND_EVENT
            · exfalso
              simp only [if_pos hty, Bool.false_eq_true, if_false, hv, false_or,
                show ¬ ((0 : Int) < 0) by omega] at h
              split at h
              · rename_i e hfe2
                simp only [Except.error.injEq] at h
                subst h
                exact format_time_ne_runtime _ _ hfe2
              · exact event_data_ne_runtime _ _ _ _ _ _ _ _ h
            · refine ⟨hty, ?_⟩
              simp only [if_neg hty] at h
              cases es with
              | false =>
                exfalso
                simp only [Bool.false_eq_true, if_false, hv, false_or,
                  show ¬ ((0 : Int) < 0) by omega] at h
                split at h
                · rename_i e hfe2
                  simp only [Except.error.injEq] at h
                  subst h
                  exact format_time_ne_runtime _ _ hfe2
                · exact event_data_ne_runtime _ _ _ _ _ _ _ _ h
              | true =>
                simp only [if_true] at hfe h
                refine ⟨e0, ?_⟩
                cases hso2 : scale_offset (to_signed e0) scale offset with
                | error e =>
                  rw [hso2] at h
                  simp only [Except.error.injEq] at h
                  subst h
                  exact absurd hso2 (scale_offset_ne_runtime _ _ _ _)
                | ok v2 =>
                  rw [hso2] at h
                  dsimp only at h
                  by_cases hv2 : v2 < 0
                  · exact ⟨v2, hfe, rfl, hv2⟩
                  · exfalso
                    simp only [hv, hv2, or_self, if_false] at h
                    split at h
                    · rename_i e hfe2
                      simp only [Except.error.injEq] at h
                      subst h
                      exact format_time_ne_runtime _ _ hfe2
                    · split at h
                      · rename_i e hfe2
                        simp only [Except.error.injEq] at h
                        subst h
                        exact format_time_ne_runtime _ _ hfe2
                      · exact event_data_ne_runtime _ _ _ _ _ _ _ _ h

/-! ## Lemmas: the sign check of `transform` -/

theorem transform_loop_error (offset : Int) (scale : Double) (start_idx end_idx : Nat)
    (lines : List (Str × Str)) (r : Str × Str) (hr : r ∈ lines)
    (h : ∃ e, transform_event offset scale start_idx end_idx r.1 r.2 = .error e)
    (ass_out : ASSFile) :
    ∃ e, transform_loop offset scale start_idx end_idx lines ass_out = .error e := by
  induction lines generalizing ass_out with
  | nil => simp at hr
  | cons r0 rest ih =>
    obtain ⟨line_type, line_data⟩ := r0
    unfold transform_loop
    cases hev : transform_event offset scale start_idx end_idx line_type line_data with
    | error e => exact ⟨_, rfl⟩
    | ok data =>
      dsimp only
      rcases List.mem_cons.mp hr with h1 | h1
      · subst h1
        obtain ⟨e, he⟩ := h
        rw [hev] at he
        cases he
      · exact ih h1 _

theorem transform_loop_runtime (offset : Int) (scale : Double) (start_idx end_idx : Nat)
    (lines : List (Str × Str)) (ass_out : ASSFile) (m : String)
    (h : transform_loop offset scale start_idx end_idx lines ass_out = .error (.runtime_error m)) :
    ∃ r ∈ lines, transform_event offset scale start_idx end_idx r.1 r.2
      = .error (.runtime_error m) := by
  induction lines generalizing ass_out with
  | nil => simp [transform_loop] at h
  | cons r0 rest ih =>
    obtain ⟨line_type, line_data⟩ := r0
    unfold transform_loop at h
    cases hev : transform_event offset scale start_idx end_idx line_type line_data with
    | error e =>
      rw [hev] at h
      simp only [Except.error.injEq] at h
      subst h
      exact ⟨(line_type, line_data), by simp, hev⟩
    | ok data =>
      rw [hev] at h
      obtain ⟨r, hr, hre⟩ := ih _ h
      exact ⟨r, List.mem_cons_of_mem _ hr, hre⟩

theorem format_indices_ne_runtime (format : Str) (m : String) :
    format_indices format ≠ .error (.runtime_error m) := by
  intro h
  unfold format_indices at h
  repeat' split at h
  all_goals simp at h

theorem Section_ne_runtime (d : ASSFile) (key : Str) (m : String) :
    d.Section key ≠ .error (.runtime_error m) := by
  unfold ASSFile.Section map_at
  split <;> simp

theorem transform_events_runtime (ass_in : ASSFile) (offset : Int) (scale : Double)
    (ass_out : ASSFile) (format_line : Str × Str) (lines : List (Str × Str)) (m : String)
    (hev : ass_in.Section EVENTS = .ok (format_line :: lines))
    (h : transform_events ass_in offset scale ass_out = .error (.runtime_error m)) :
    ∃ start_idx end_idx, format_indices format_line.2 = .ok (start_idx, end_idx) ∧
      ∃ r ∈ lines, transform_event offset scale start_idx end_idx r.1 r.2
        = .error (.runtime_error m) := by
  unfold transform_events at h
  rw [hev] at h
  dsimp only at h
  split at h
  · simp at h
  · cases hi : format_indices format_line.2 with
    | error e =>
      rw [hi] at h
      simp only [Except.error.injEq] at h
      subst h
      exact absurd hi (format_indices_ne_runtime _ _)
    | ok idx =>
      obtain ⟨si, ei⟩ := idx
      rw [hi] at h
      exact ⟨si, ei, rfl, transform_loop_runtime offset scale si ei lines _ m h⟩

theorem transform_sections_runtime (ass_in : ASSFile) (offset : Int) (scale : Double)
    (secs : List Str) (ass_out : ASSFile) (m : String)
    (h : transform_sections ass_in offset scale secs ass_out = .error (.runtime_error m)) :
    ∃ f, transform_events ass_in offset scale f = .error (.runtime_error m) := by
  induction secs generalizing ass_out with
  | nil => simp [transform_sections] at h
  | cons s rest ih =>
    unfold transform_sections at h
    by_cases hs : s = EVENTS
    · rw [if_pos hs] at h
      cases hev : transform_events ass_in offset scale ass_out with
      | error e =>
        rw [hev] at h
        simp only [Except.error.injEq] at h
        subst h
        exact ⟨ass_out, hev⟩
      | ok f1 =>
        rw [hev] at h
        exact ih _ h
    · rw [if_neg hs] at h
      cases hsec : ass_in.Section s with
      | error e =>
        rw [hsec] at h
        simp only [Except.error.injEq] at h
        subst h
        exact absurd hsec (Section_ne_runtime _ _ _)
      | ok data =>
        rw [hsec] at h
        exact ih _ h

theorem transform_events_fail (ass_in : ASSFile) (offset : Int) (scale : Double)
    (format_line : Str × Str) (lines : List (Str × Str)) (start_idx end_idx : Nat)
    (hev : ass_in.Section EVENTS = .ok (format_line :: lines))
    (hs : get_field_index format_line.2 "Start".toList = some start_idx)
    (he : get_field_index format_line.2 "End".toList = some end_idx)
    (r : Str × Str) (hr : r ∈ lines)
    (h : ∃ e, transform_event offset scale start_idx end_idx r.1 r.2 = .error e)
    (ass_out : ASSFile) :
    ∃ e, transform_events ass_in offset scale ass_out = .error e := by
  unfold transform_events
  rw [hev]
  dsimp only
  split
  · exact ⟨_, rfl⟩
  · cases hi : format_indices format_line.2 with
    | error e => exact ⟨_, rfl⟩
    | ok idx =>
      obtain ⟨si, ei⟩ := idx
      obtain ⟨h1, h2⟩ := format_indices_ok _ _ _ hi
      rw [hs] at h1
      rw [he] at h2
      simp only [Option.some.injEq] at h1 h2
      subst h1 h2
      exact transform_loop_error offset scale start_idx end_idx lines r hr h _

theorem map_at_eq (m : SectionsMap) (key : Str) :
    map_at m key = match m.find? (fun e => e.1 = key) with
      | some e => .ok e.2
      | none => .error .out_of_range := rfl

theorem foldl_entries (line_break : Str) (entries : List (Str × Str)) (lhs : Str) :
    entries.foldl (fun lhs entry => lhs ++ line_break ++ entry.1 ++ [':'] ++ entry.2) lhs
      = lhs ++ (entries.map (fun r => line_break ++ r.1 ++ [':'] ++ r.2)).flatten := by
  induction entries generalizing lhs with
  | nil => simp
  | cons e es ih =>
    simp only [List.foldl_cons, List.map_cons, List.flatten_cons, ih]
    simp [List.append_assoc]

theorem recordsOf_of_Section (d : ASSFile) (section_ : Str) (l : List (Str × Str))
    (hm : section_ ∈ d.sections_) (hl : d.Section section_ = .ok l) :
    recordsOf d section_ = l := by
  simp only [ASSFile.Section, map_at] at hl
  simp only [recordsOf, hm, if_true]
  cases hf : List.find? (fun e => decide (e.1 = section_)) d.sections_map_ with
  | none => rw [hf] at hl; cases hl
  | some e =>
    rw [hf] at hl
    simp only [Except.ok.injEq] at hl
    exact hl

/-- One step of the loop of `operator<<` on a section whose look-up does not throw. -/
theorem operator_lshift_loop_step (rhs : ASSFile) (section_ : Str) (rest : List Str) (lhs : Str)
    (h : section_ ∈ rhs.sections_ → ∃ l, rhs.Section section_ = .ok l) :
    operator_lshift_loop rhs (section_ :: rest) lhs
      = operator_lshift_loop rhs rest (lhs ++
          (if recordsOf rhs section_ = [] then []
            else sectionText rhs.line_break_ rhs.script_comment_ section_ (recordsOf rhs section_))) := by
  by_cases hm : section_ ∈ rhs.sections_
  · obtain ⟨l, hl⟩ := h hm
    have hrec : recordsOf rhs section_ = l := recordsOf_of_Section rhs section_ l hm hl
    cases l with
    | nil =>
      have hhas : rhs.HasSection section_ = .ok false := by
        simp only [ASSFile.Section] at hl
        simp [ASSFile.HasSection, hm, hl]
      simp [operator_lshift_loop, hhas, hrec]
    | cons r rs =>
      have hhas : rhs.HasSection section_ = .ok true := by
        simp only [ASSFile.Section] at hl
        simp [ASSFile.HasSection, hm, hl]
      simp only [operator_lshift_loop, hhas, hl, hrec, foldl_entries]
      by_cases hs : section_ = SCRIPT_INFO
      · by_cases hc : rhs.script_comment_ = []
        · simp [sectionText, hs, hc]
        · simp [sectionText, hs, hc]
      · simp [sectionText, hs]
  · have hhas : rhs.HasSection section_ = .ok false := by simp [ASSFile.HasSection, hm]
    have hrec : recordsOf rhs section_ = [] := by simp [recordsOf, hm]
    simp [operator_lshift_loop, hhas, hrec]

theorem operator_lshift_loop_nil (rhs : ASSFile) (lhs : Str) :
    operator_lshift_loop rhs [] lhs = (lhs, none) := rfl

theorem operator_lshift_ok (d : ASSFile) (hinfo : recordsOf d SCRIPT_INFO ≠ [])
    (hat : ∀ s ∈ [STYLES, FONTS, GRAPHICS, EVENTS], s ∈ d.sections_ → ∃ l, d.Section s = .ok l) :
    operator_lshift d = (documentText d, none) := by
  have hmem : SCRIPT_INFO ∈ d.sections_ := by
    by_contra hm
    exact hinfo (by simp [recordsOf, hm])
  have hsec : ∃ l, d.Section SCRIPT_INFO = .ok l := by
    simp only [recordsOf, hmem, if_true] at hinfo
    simp only [ASSFile.Section, map_at_eq]
    split
    · exact ⟨_, rfl⟩
    · rename_i hn
      simp [hn] at hinfo
  have hhas : d.HasSection SCRIPT_INFO = .ok true := by
    obtain ⟨l, hl⟩ := hsec
    have hrec : recordsOf d SCRIPT_INFO = l := recordsOf_of_Section d SCRIPT_INFO l hmem hl
    simp only [ASSFile.Section] at hl
    have : l ≠ [] := hrec ▸ hinfo
    cases l with
    | nil => exact absurd rfl this
    | cons r rs => simp [ASSFile.HasSection, hmem, hl]
  simp only [operator_lshift, hhas]
  rw [operator_lshift_loop_step d SCRIPT_INFO _ _ (fun _ => hsec),
    operator_lshift_loop_step d STYLES _ _ (hat STYLES (by simp)),
    operator_lshift_loop_step d FONTS _ _ (hat FONTS (by simp)),
    operator_lshift_loop_step d GRAPHICS _ _ (hat GRAPHICS (by simp)),
    operator_lshift_loop_step d EVENTS _ _ (hat EVENTS (by simp)),
    operator_lshift_loop_nil]
  simp [documentText, List.append_assoc]

/-! ## Lemmas: the exceptions of `operator<<` -/

theorem map_at_error (m : SectionsMap) (key : Str) (e : Error) (h : map_at m key = .error e) :
    e = .out_of_range := by
  unfold map_at at h
  split at h
  · cases h
  · simp only [Except.error.injEq] at h; exact h.symm

theorem HasSection_error (d : ASSFile) (key : Str) (e : Error)
    (h : d.HasSection key = .error e) : e = .out_of_range := by
  unfold ASSFile.HasSection at h
  split at h
  · split at h
    · rename_i e2 he2
      simp only [Except.error.injEq] at h
      subst h
      exact map_at_error _ _ _ he2
    · cases h
  · cases h

/-- The loop of `operator<<` throws nothing but `std::out_of_range`. -/
theorem operator_lshift_loop_error (rhs : ASSFile) (secs : List Str) (lhs : Str) (e : Error)
    (h : (operator_lshift_loop rhs secs lhs).2 = some e) : e = .out_of_range := by
  induction secs generalizing lhs with
  | nil => simp [operator_lshift_loop] at h
  | cons s rest ih =>
    unfold operator_lshift_loop at h
    cases hh : rhs.HasSection s with
    | error e2 =>
      rw [hh] at h
      simp only [Option.some.injEq] at h
      subst h
      exact HasSection_error _ _ _ hh
    | ok b =>
      rw [hh] at h
      cases b with
      | false => exact ih _ h
      | true =>
        dsimp only at h
        cases hs : rhs.Section s with
        | error e2 =>
          rw [hs] at h
          simp only [Option.some.injEq] at h
          subst h
          exact map_at_error _ _ _ hs
        | ok entries =>
          rw [hs] at h
          exact ih _ h

theorem HasSection_eq (d : ASSFile) (key : Str)
    (h : key ∈ d.sections_ → d.Section key ≠ .error .out_of_range) :
    d.HasSection key = .ok (decide (recordsOf d key ≠ [])) := by
  by_cases hm : key ∈ d.sections_
  · obtain ⟨l, hl⟩ := Section_ok_of_ne d key (h hm)
    have hrec := recordsOf_of_Section d key l hm hl
    simp only [ASSFile.Section] at hl
    cases l with
    | nil => simp [ASSFile.HasSection, hm, hl, hrec]
    | cons r rs => simp [ASSFile.HasSection, hm, hl, hrec]
  · simp [ASSFile.HasSection, hm, recordsOf]

/-- Serialization throws the format error exactly for a document without `[Script Info]`
records, when the look-up of `[Script Info]` itself does not throw. -/
theorem operator_lshift_missing_iff (d : ASSFile)
    (h : SCRIPT_INFO ∈ d.sections_ → d.Section SCRIPT_INFO ≠ .error .out_of_range) :
    (operator_lshift d).2 = some (.io_error "missing 'ScriptInfo' section")
      ↔ recordsOf d SCRIPT_INFO = [] := by
  unfold operator_lshift
  rw [HasSection_eq d SCRIPT_INFO h]
  by_cases hr : recordsOf d SCRIPT_INFO = []
  · simp [hr]
  · simp only [hr, ne_eq, not_false_eq_true, decide_True, iff_false]
    intro hc
    have := operator_lshift_loop_error _ _ _ _ hc
    cases this

/-! ## Lemmas: reading lines -/

theorem getline_loop_le (delim : Str) (rest output buffer : Str) (idx : Nat) :
    (getline_loop delim rest output buffer idx).2.2.1.length ≤ rest.length := by
  induction rest generalizing output buffer idx with
  | nil =>
    unfold getline_loop
    split <;> simp
  | cons ch cs ih =>
    unfold getline_loop
    split
    · split
      · simp
      · split
        · exact le_trans (ih _ _ _) (by simp)
        · exact le_trans (ih _ _ _) (by simp)
    · simp

theorem getline_loop_lt (delim : Str) (ch : Char) (cs output buffer : Str) (idx : Nat)
    (h : idx < delim.length) :
    (getline_loop delim (ch :: cs) output buffer idx).2.2.1.length < (ch :: cs).length := by
  unfold getline_loop
  rw [if_pos h]
  split
  · simp
  · split
    · exact Nat.lt_succ_of_le (getline_loop_le _ _ _ _ _)
    · exact Nat.lt_succ_of_le (getline_loop_le _ _ _ _ _)

/-- A successful `getline` has read at least one character. -/
theorem getline_rest_lt (input : ifstream) (delim line : Str) (input2 : ifstream)
    (h : getline input delim = (true, line, input2)) :
    input2.rest.length < input.rest.length := by
  unfold getline at h
  split at h
  · simp at h
  · split at h
    · simp at h
    · rename_i hgood hdelim
      have hd : 0 < delim.length := by
        cases delim with
        | nil => simp at hdelim
        | cons c cs => simp
      cases hrest : input.rest with
      | nil =>
        rw [hrest] at h
        simp [getline_loop, hd] at h
      | cons ch cs =>
        rw [hrest] at h
        have hlt := getline_loop_lt delim ch cs [] [] 0 hd
        rcases hres : getline_loop delim (ch :: cs) [] [] 0 with ⟨flag, o, r, g⟩
        rw [hres] at h hlt
        simp only [Prod.mk.injEq] at h
        obtain ⟨_, _, h3⟩ := h
        subst h3
        exact hlt

/-- The loop of `load` does not depend on the fuel once there is more fuel than
characters left: the loop ends by a failing `getline`, never by the bound. -/
theorem load_loop_fuel (fuel : Nat) (input : ifstream) (s : LoadState)
    (h : input.rest.length < fuel) :
    load_loop (fuel + 1) input s = load_loop fuel input s := by
  induction fuel generalizing input s with
  | zero => omega
  | succ n ih =>
    rw [load_loop]
    conv_rhs => rw [load_loop]
    rcases hg : getline input s.file.line_break_ with ⟨flag, line, input2⟩
    cases flag with
    | false => rfl
    | true =>
      dsimp only
      cases load_line line s with
      | error e => rfl
      | ok s2 =>
        dsimp only
        have hlt := getline_rest_lt input _ line input2 hg
        exact ih input2 s2 (by omega)

/-! ## Lemmas: the spans of two fields -/

/-- A field that `get_field` finds and that is followed by a delimiter, read off the
line. -/
theorem get_field_delimited (line : Str) (index : Nat) (hlen : line.length < npos)
    (hflag : (get_field line index).1 = true) (hend : (get_field line index).2.2 ≠ npos) :
    ∃ mid u w, line = mid ++ (u ++ ',' :: w) ∧
      get_field line index = (true, mid.length, mid.length + u.length) ∧
      ',' ∉ u ∧ mid.count ',' = index := by
  rcases get_field_cases line index hlen with ⟨h1, _⟩ | ⟨mid, rest, toks, h1, h2, h3, _, _, _, _⟩
  · rw [h1] at hflag; cases hflag
  · rw [h2] at hflag hend
    simp only [decide_eq_true_eq] at hflag
    rcases first_comma rest with hn | ⟨u, w, hr, hu⟩
    · rw [findFrom_none rest _ hn] at hend
      exact absurd rfl hend
    · subst hr
      refine ⟨mid, u, w, h1, ?_, hu, h3⟩
      rw [h2, findFrom_some u w _ hu]
      simp [hflag]

theorem count_le_of_prefix (a b : Str) (h : a <+: b) : a.count ',' ≤ b.count ',' :=
  h.sublist.count_le ','

/-- The spans of two fields that `get_field` finds: the field with the smaller index is
followed by a delimiter, and the second field starts after that delimiter. -/
theorem get_field_two (line : Str) (i j : Nat) (hlen : line.length < npos) (hij : i < j)
    (hi : (get_field line i).1 = true) (hj : (get_field line j).1 = true) :
    ∃ mid u x rest, line = mid ++ (u ++ ',' :: (x ++ rest)) ∧ ',' ∉ u ∧
      get_field line i = (true, mid.length, mid.length + u.length) ∧
      (get_field line j).2.1 = mid.length + u.length + 1 + x.length ∧
      (get_field line j).2.2 = findFrom [','] rest (mid.length + u.length + 1 + x.length) := by
  rcases get_field_cases line j hlen with ⟨h1, _⟩ | ⟨midj, restj, toksj, hj1, hj2, hj3, _, _, _, _⟩
  · rw [h1] at hj; cases hj
  · rcases get_field_cases line i hlen with ⟨h1, _⟩ | ⟨midi, resti, toksi, hi1, hi2, hi3, _, _, _, _⟩
    · rw [h1] at hi; cases hi
    · -- the prefix of the field `i` is a proper prefix of the one of the field `j`
      have hpi : midi <+: line := ⟨resti, hi1.symm⟩
      have hpj : midj <+: line := ⟨restj, hj1.symm⟩
      have hlt : midi.length < midj.length := by
        by_contra hge
        have := count_le_of_prefix _ _ (List.prefix_of_prefix_length_le hpj hpi (by omega))
        omega
      obtain ⟨y, hy⟩ := List.prefix_of_prefix_length_le hpi hpj (by omega)
      -- `y` lies between the two starts and holds a delimiter
      have hline : line = midi ++ (y ++ restj) := by rw [hj1, ← hy, List.append_assoc]
      have hresti : resti = y ++ restj := by
        have := hi1.symm.trans hline
        exact List.append_cancel_left this
      have hycount : 0 < y.count ',' := by
        have : midj.count ',' = midi.count ',' + y.count ',' := by
          rw [← hy, List.count_append]
        omega
      rcases first_comma y with hn | ⟨u, w, hyw, hu⟩
      · rw [List.count_eq_zero_of_not_mem hn] at hycount
        omega
      · subst hyw
        refine ⟨midi, u, w, restj, ?_, hu, ?_, ?_, ?_⟩
        · rw [hline]; simp
        · rw [hi2, hresti]
          have hlen2 : midi.length < line.length := by
            rw [hline]; simp
          simp only [List.append_assoc, List.cons_append, findFrom_some u _ _ hu, decide_eq_true hlen2]
        · rw [hj2, ← hy]
          simp
          omega
        · rw [hj2, ← hy]
          simp only [List.length_append, List.length_cons]
          congr 1
          omega

theorem size_sub_eq (a b : Nat) (hba : b ≤ a) (ha : a < 2 ^ 64) : size_sub a b = a - b := by
  unfold size_sub
  have hb : b % 2 ^ 64 = b := Nat.mod_eq_of_lt (by omega)
  rw [hb]
  have : a + 2 ^ 64 - b = (a - b) + 2 ^ 64 := by omega
  rw [this, Nat.add_mod_right]
  exact Nat.mod_eq_of_lt (by omega)

/-- The pieces that the rewrite copies from a line with two delimited fields. -/
theorem splice_pieces (mid u x u2 w2 : Str)
    (hlen : (mid ++ (u ++ ',' :: (x ++ (u2 ++ ',' :: w2)))).length < npos) :
    substr (mid ++ (u ++ ',' :: (x ++ (u2 ++ ',' :: w2)))) 0 mid.length = .ok mid ∧
    substr (mid ++ (u ++ ',' :: (x ++ (u2 ++ ',' :: w2)))) (mid.length + u.length)
      (size_sub (mid.length + u.length + 1 + x.length) (mid.length + u.length))
      = .ok (',' :: x) ∧
    substr (mid ++ (u ++ ',' :: (x ++ (u2 ++ ',' :: w2))))
      (mid.length + u.length + 1 + x.length + u2.length) = .ok (',' :: w2) ∧
    (mid ++ (u ++ ',' :: (x ++ (u2 ++ ',' :: w2)))).take mid.length = mid ∧
    ((mid ++ (u ++ ',' :: (x ++ (u2 ++ ',' :: w2)))).drop (mid.length + u.length)).take
      (mid.length + u.length + 1 + x.length - (mid.length + u.length)) = ',' :: x ∧
    (mid ++ (u ++ ',' :: (x ++ (u2 ++ ',' :: w2)))).drop
      (mid.length + u.length + 1 + x.length + u2.length) = ',' :: w2 := by
  have hnpos : npos = 2 ^ 64 - 1 := rfl
  simp only [List.length_append, List.length_cons] at hlen
  have h4 : (mid ++ (u ++ ',' :: (x ++ (u2 ++ ',' :: w2)))).take mid.length = mid := by
    simp
  have hd1 : (mid ++ (u ++ ',' :: (x ++ (u2 ++ ',' :: w2)))).drop (mid.length + u.length)
      = ',' :: (x ++ (u2 ++ ',' :: w2)) := by
    rw [← List.append_assoc, ← List.length_append, List.drop_left]
  have h5 : ((mid ++ (u ++ ',' :: (x ++ (u2 ++ ',' :: w2)))).drop (mid.length + u.length)).take
      (mid.length + u.length + 1 + x.length - (mid.length + u.length)) = ',' :: x := by
    rw [hd1]
    have : mid.length + u.length + 1 + x.length - (mid.length + u.length) = x.length + 1 := by
      omega
    rw [this, List.take_succ_cons]
    simp
  have h6 : (mid ++ (u ++ ',' :: (x ++ (u2 ++ ',' :: w2)))).drop
      (mid.length + u.length + 1 + x.length + u2.length) = ',' :: w2 := by
    have e : mid ++ (u ++ ',' :: (x ++ (u2 ++ ',' :: w2)))
        = (mid ++ u ++ [','] ++ x ++ u2) ++ ',' :: w2 := by simp
    have l : mid.length + u.length + 1 + x.length + u2.length
        = (mid ++ u ++ [','] ++ x ++ u2).length := by
      simp only [List.length_append, List.length_cons, List.length_nil]
    rw [e, l, List.drop_left]
  refine ⟨?_, ?_, ?_, h4, h5, h6⟩
  · unfold substr
    rw [if_neg (by simp)]
    simp
  · unfold substr
    rw [if_neg (by simp only [List.length_append, List.length_cons]; omega)]
    rw [size_sub_eq _ _ (by omega) (by omega), h5]
  · unfold substr
    rw [if_neg (by simp only [List.length_append, List.length_cons]; omega), h6]
    congr 1
    apply List.take_of_length_le
    simp only [List.length_cons]
    omega

theorem count_splice (mid u x u2 w2 t1 t2 : Str) (hu : ',' ∉ u) (hu2 : ',' ∉ u2)
    (ht1 : ',' ∉ t1) (ht2 : ',' ∉ t2) :
    (mid ++ t1 ++ (',' :: x) ++ t2 ++ (',' :: w2)).count ','
      = (mid ++ (u ++ ',' :: (x ++ (u2 ++ ',' :: w2)))).count ',' := by
  simp only [List.count_append, List.count_cons_self,
    List.count_eq_zero_of_not_mem hu, List.count_eq_zero_of_not_mem hu2,
    List.count_eq_zero_of_not_mem ht1, List.count_eq_zero_of_not_mem ht2]
  omega

/-- The rewrite of a line in which the field `i` comes before the field `j` and both are
followed by a delimiter: `t1` replaces the span of `i` and `t2` the span of `j`. -/
theorem event_data_ordered (line : Str) (i j : Nat) (t1 t2 : Str) (hlen : line.length < npos)
    (hij : i < j) (hi : (get_field line i).1 = true) (hj : (get_field line j).1 = true)
    (hje : (get_field line j).2.2 ≠ npos) :
    (get_field line i).2.1 < (get_field line j).2.1 ∧
    event_data line (get_field line i).2.1 (get_field line i).2.2 (get_field line j).2.1
      (get_field line j).2.2 t1 t2
      = .ok (replace_two line (get_field line i).2.1 (get_field line i).2.2
          (get_field line j).2.1 (get_field line j).2.2 t1 t2) ∧
    event_data line (get_field line j).2.1 (get_field line j).2.2 (get_field line i).2.1
      (get_field line i).2.2 t2 t1
      = .ok (replace_two line (get_field line i).2.1 (get_field line i).2.2
          (get_field line j).2.1 (get_field line j).2.2 t1 t2) ∧
    (',' ∉ t1 → ',' ∉ t2 →
      (replace_two line (get_field line i).2.1 (get_field line i).2.2
          (get_field line j).2.1 (get_field line j).2.2 t1 t2).count ',' = line.count ',') := by
  obtain ⟨mid, u, x, rest, hline, hu, hgi, hgj1, hgj2⟩ := get_field_two line i j hlen hij hi hj
  rw [hgj2] at hje
  rcases first_comma rest with hn | ⟨u2, w2, hr, hu2⟩
  · rw [findFrom_none rest _ hn] at hje
    exact absurd rfl hje
  · subst hr
    rw [findFrom_some u2 w2 _ hu2] at hgj2
    subst hline
    obtain ⟨p1, p2, p3, p4, p5, p6⟩ := splice_pieces mid u x u2 w2 hlen
    rw [hgi, hgj1, hgj2]
    dsimp only
    have hlt : mid.length < mid.length + u.length + 1 + x.length := by omega
    have hnlt : ¬ mid.length + u.length + 1 + x.length < mid.length := by omega
    refine ⟨hlt, ?_, ?_, ?_⟩
    · unfold event_data
      rw [if_pos hlt, p1, p2, p3]
      simp only [replace_two, p4, p5, p6]
    · unfold event_data
      rw [if_neg hnlt, if_pos hlt, p1, p2, p3]
      simp only [replace_two, p4, p5, p6]
    · intro ht1 ht2
      simp only [replace_two, p4, p5, p6]
      exact count_splice mid u x u2 w2 t1 t2 hu hu2 ht1 ht2

theorem digitChar_ne_comma : ∀ d, d < 10 → digitChar d ≠ ',' := by decide

/-- A text written by `format_time` holds no field delimiter. -/
theorem format_time_no_comma (n : Nat) (s : Str) (h : format_time n = .ok s) : ',' ∉ s := by
  by_cases hn : n < 3600000
  · rw [format_time_ok n hn] at h
    simp only [Except.ok.injEq] at h
    subst h
    have a1 := digitChar_ne_comma (n / 360000) (by omega)
    have a2 := digitChar_ne_comma (n % 360000 / 6000 / 10) (by omega)
    have a3 := digitChar_ne_comma (n % 360000 / 6000 % 10) (by omega)
    have a4 := digitChar_ne_comma (n % 6000 / 100 / 10) (by omega)
    have a5 := digitChar_ne_comma (n % 6000 / 100 % 10) (by omega)
    have a6 := digitChar_ne_comma (n % 100 / 10) (by omega)
    have a7 := digitChar_ne_comma (n % 100 % 10) (by omega)
    simp only [List.mem_cons, List.mem_singleton, List.not_mem_nil, or_false, not_or]
    exact ⟨fun e => a1 e.symm, by decide, fun e => a2 e.symm, fun e => a3 e.symm, by decide,
      fun e => a4 e.symm, fun e => a5 e.symm, by decide, fun e => a6 e.symm, fun e => a7 e.symm⟩
  · unfold format_time at h
    rw [if_pos (by omega)] at h
    cases h

/-- The rewrite of a line whose `Start` and `End` fields are found and are each followed
by a delimiter. -/
theorem event_data_frame (line : Str) (start_idx end_idx : Nat) (start_str end_str : Str)
    (hlen : line.length < npos) (hne : start_idx ≠ end_idx)
    (hs : (get_field line start_idx).1 = true) (he : (get_field line end_idx).1 = true)
    (hse : (get_field line start_idx).2.2 ≠ npos) (hee : (get_field line end_idx).2.2 ≠ npos) :
    event_data line (get_field line start_idx).2.1 (get_field line start_idx).2.2
        (get_field line end_idx).2.1 (get_field line end_idx).2.2 start_str end_str
      = .ok (if (get_field line start_idx).2.1 < (get_field line end_idx).2.1 then
          replace_two line (get_field line start_idx).2.1 (get_field line start_idx).2.2
            (get_field line end_idx).2.1 (get_field line end_idx).2.2 start_str end_str
        else
          replace_two line (get_field line end_idx).2.1 (get_field line end_idx).2.2
            (get_field line start_idx).2.1 (get_field line start_idx).2.2 end_str start_str) ∧
    (',' ∉ start_str → ',' ∉ end_str →
      (if (get_field line start_idx).2.1 < (get_field line end_idx).2.1 then
          replace_two line (get_field line start_idx).2.1 (get_field line start_idx).2.2
            (get_field line end_idx).2.1 (get_field line end_idx).2.2 start_str end_str
        else
          replace_two line (get_field line end_idx).2.1 (get_field line end_idx).2.2
            (get_field line start_idx).2.1 (get_field line start_idx).2.2 end_str
            start_str).count ',' = line.count ',') := by
  rcases Nat.lt_or_gt_of_ne hne with hlt | hgt
  · obtain ⟨h1, h2, _, h4⟩ := event_data_ordered line start_idx end_idx start_str end_str hlen
      hlt hs he hee
    rw [if_pos h1]
    exact ⟨h2, h4⟩
  · obtain ⟨h1, _, h3, h4⟩ := event_data_ordered line end_idx start_idx end_str start_str hlen
      hgt he hs hse
    rw [if_neg (by omega)]
    exact ⟨h3, fun a b => h4 b a⟩

theorem map_at_erase_self (m : SectionsMap) (key : Str) :
    map_at (map_erase m key) key = .error .out_of_range := by
  induction m with
  | nil => rfl
  | cons e rest ih =>
    obtain ⟨k, l⟩ := e
    by_cases hk : k = key
    · simpa [map_erase, List.filter_cons, hk] using ih
    · have : map_erase ((k, l) :: rest) key = (k, l) :: map_erase rest key := by
        simp [map_erase, List.filter_cons, hk]
      rw [this, map_at_cons, if_neg hk]
      exact ih

/-- `remove_line` of the only record of a section removes the section from `sections_`
and from `sections_map_`. -/
theorem remove_line_last (d : ASSFile) (key : Str) (r : Str × Str)
    (h : d.Section key = .ok [r]) :
    ∃ d2, d.remove_line key 0 = .ok d2 ∧ key ∉ d2.sections_ ∧
      d2.Section key = .error .out_of_range := by
  simp only [ASSFile.Section] at h
  have hr : d.remove_line key 0
      = .ok (({ d with sections_map_ := map_assign d.sections_map_ key [] } : ASSFile).remove_section
          key) := by
    unfold ASSFile.remove_line
    rw [h]
    simp only [List.eraseIdx_cons_zero, List.isEmpty_nil, if_true]
  refine ⟨_, hr, ?_, ?_⟩
  · simp [ASSFile.remove_section, set_erase]
  · simp only [ASSFile.remove_section, ASSFile.Section]
    exact map_at_erase_self _ _

theorem operator_lshift_text (d : ASSFile) (hinfo : recordsOf d SCRIPT_INFO ≠ [])
    (hat : ∀ s ∈ [STYLES, FONTS, GRAPHICS, EVENTS], s ∈ d.sections_ →
      d.Section s ≠ .error .out_of_range) :
    operator_lshift d = (documentText d, none) :=
  operator_lshift_ok d hinfo (fun s hs hm => Section_ok_of_ne d s (hat s hs hm))

theorem split_records_ne (ass : ASSFile) (t : Nat) (second_ : Bool) (key : Str)
    (h : key ≠ EVENTS) : split_records ass t second_ key = map_get ass.sections_map_ key := by
  simp [split_records, h]

theorem transform_records_ne (ass_in : ASSFile) (offset : Int) (scale : Double) (key : Str)
    (h : key ≠ EVENTS) :
    transform_records ass_in offset scale key = map_get ass_in.sections_map_ key := by
  simp [transform_records, h]

/-! ## The document model, the serializer and the rewrite of the events -/

/-- C11 (the code at the failing inputs, and what holds beside them): `load` of a file
that holds only the line `[Script Info]` returns a document that lists `[Script Info]` in
`sections_` without a record list in `sections_map_`, so that `Section` and `HasSection`
throw `std::out_of_range` for a listed name; `insert` with an empty list leaves a
document in the same state.  `remove_line` of the only record of a section removes the
section from both containers. -/
theorem load_lists_section_without_records :
    ((ASSFile.new).load (ifstream.of "[Script Info]\n".toList) = .ok header_only ∧
      SCRIPT_INFO ∈ header_only.sections_ ∧
      header_only.Section SCRIPT_INFO = .error .out_of_range ∧
      header_only.HasSection SCRIPT_INFO = .error .out_of_range ∧
      STYLES ∈ ((ASSFile.new).insert STYLES []).sections_ ∧
      ((ASSFile.new).insert STYLES []).Section STYLES = .error .out_of_range) ∧
    ∀ (d : ASSFile) (key : Str) (r : Str × Str), d.Section key = .ok [r] →
      ∃ d2, d.remove_line key 0 = .ok d2 ∧ key ∉ d2.sections_ ∧
        d2.Section key = .error .out_of_range :=
  ⟨by decide, remove_line_last⟩

/-- C12 (the code at the failing input, and what holds beside it): for the document
`styles_without_records`, in which `[Script Info]` is present and `[V4+ Styles]` is
listed without a record list, `operator<<` writes the `[Script Info]` section and then
throws `std::out_of_range`, where the text of the claim goes on with `[Events]`.  For
every document in which `[Script Info]` is present and no other canonical section is
listed without a record list, the characters written are the text of the claim and
nothing is thrown. -/
theorem serializer_throws_on_listed_section :
    (styles_without_records.sections_ = [SCRIPT_INFO, STYLES, EVENTS] ∧
      recordsOf styles_without_records SCRIPT_INFO = [("Title".toList, " x".toList)] ∧
      recordsOf styles_without_records STYLES = [] ∧
      documentText styles_without_records
        = "[Script Info]\nTitle: x\n\n[Events]\nFormat: Start,End,Text\n".toList ∧
      operator_lshift styles_without_records
        = ("[Script Info]\nTitle: x\n".toList, some .out_of_range)) ∧
    ∀ d : ASSFile, recordsOf d SCRIPT_INFO ≠ [] →
      (∀ s ∈ [STYLES, FONTS, GRAPHICS, EVENTS], s ∈ d.sections_ →
        d.Section s ≠ .error .out_of_range) →
      operator_lshift d = (documentText d, none) :=
  ⟨by decide, fun d hinfo hat => operator_lshift_text d hinfo hat⟩

/-- C13 (the code at the failing input, and what holds beside it): for the document
that `load` returns for a file with the line `[Script Info]` only, `operator<<` throws
`std::out_of_range`, not the format error.  For every document whose look-up of
`[Script Info]` does not throw, serialization throws the format error
`missing 'ScriptInfo' section` exactly when `[Script Info]` has no records. -/
theorem serializer_header_only_out_of_range :
    ((ASSFile.new).load (ifstream.of "[Script Info]\n".toList) = .ok header_only ∧
      recordsOf header_only SCRIPT_INFO = [] ∧
      operator_lshift header_only = ([], some .out_of_range)) ∧
    ∀ d : ASSFile, (SCRIPT_INFO ∈ d.sections_ → d.Section SCRIPT_INFO ≠ .error .out_of_range) →
      ((operator_lshift d).2 = some (.io_error "missing 'ScriptInfo' section")
        ↔ recordsOf d SCRIPT_INFO = []) :=
  ⟨by decide, fun d h => operator_lshift_missing_iff d h⟩

/-- C14 (the code at the failing input): the file with three `fontname` lines is
accepted and yields `three_fonts`, with `[Script Info]` present and two `[Fonts]`
records; its serialization succeeds, and parsing the serialized text again yields a
document with one `[Fonts]` record: the line `fontname: c.ttf` ends the record of
`a.ttf` and is dropped. -/
theorem round_trip_loses_record_after_multiline :
    (ASSFile.new).load (ifstream.of
      "[Script Info]\nTitle: x\n[Fonts]\nfontname: a.ttf\nfontname: b.ttf\nfontname: c.ttf\n".toList)
      = .ok three_fonts ∧
    recordsOf three_fonts SCRIPT_INFO = [("Title".toList, " x".toList)] ∧
    recordsOf three_fonts FONTS = [(FONT_LINE, " a.ttf".toList), (FONT_LINE, " c.ttf".toList)] ∧
    three_fonts.script_comment_ = [] ∧
    operator_lshift three_fonts
      = ("[Script Info]\nTitle: x\n\n[Fonts]\nfontname: a.ttf\nfontname: c.ttf\n".toList, none) ∧
    (ASSFile.new).load (ifstream.of
      "[Script Info]\nTitle: x\n\n[Fonts]\nfontname: a.ttf\nfontname: c.ttf\n".toList)
      = .ok ⟨false, LINE_SEPARATOR, [], [SCRIPT_INFO, FONTS],
          [(SCRIPT_INFO, [("Title".toList, " x".toList)]),
           (FONTS, [(FONT_LINE, " a.ttf".toList)])]⟩ := by
  decide

/-- C15: for a document whose `[Events]` list starts with the record `format_line`, the
rewrite of the events in `split` and in `transform` throws a format error (`io_error`)
when the type of that record is not `Format`, when its declaration has no field `Text`
or `Text` is not its last field, when it has no field `Start`, or when it has no field
`End`; `split` and `transform` then fail, with that format error when every listed
section has a record list; and when they succeed, the record is the first `[Events]`
record of every output. -/
theorem rewrite_format_checks (ass_in first second ass_out : ASSFile) (t : Nat) (offset : Int)
    (scale : Double) (format_line : Str × Str) (lines : List (Str × Str))
    (hmem : EVENTS ∈ ass_in.sections_)
    (hev : ass_in.Section EVENTS = .ok (format_line :: lines)) :
    ((format_line.1 ≠ "Format".toList ∨ "Text".toList ∉ fieldNames format_line.2 ∨
        (fieldNames format_line.2).getLast? ≠ some "Text".toList ∨
        "Start".toList ∉ fieldNames format_line.2 ∨ "End".toList ∉ fieldNames format_line.2) →
      (∃ msg, split_events ass_in t first second = .error (.io_error msg)) ∧
      (∃ msg, transform_events ass_in offset scale ass_out = .error (.io_error msg)) ∧
      (∃ e, split ass_in t first second = .error e) ∧
      (∃ e, transform ass_in offset scale ass_out = .error e) ∧
      ((∀ s ∈ ass_in.sections_, ass_in.Section s ≠ .error .out_of_range) →
        (∃ msg, split ass_in t first second = .error (.io_error msg)) ∧
        (∃ msg, transform ass_in offset scale ass_out = .error (.io_error msg)))) ∧
    (∀ a b, split ass_in t first second = .ok (a, b) →
      ∃ l1 l2, a.Section EVENTS = .ok (format_line :: l1) ∧
        b.Section EVENTS = .ok (format_line :: l2)) ∧
    (∀ a, transform ass_in offset scale ass_out = .ok a →
      ∃ l, a.Section EVENTS = .ok (format_line :: l)) := by
  refine ⟨fun hbad => ?_, fun a b h => split_format_first ass_in t first second a b format_line
    lines hmem hev h, fun a h => transform_format_first ass_in offset scale ass_out a format_line
    lines hmem hev h⟩
  have hbad2 : format_line.1 ≠ "Format".toList ∨
      (fieldNames format_line.2).getLast? ≠ some "Text".toList ∨
      "Start".toList ∉ fieldNames format_line.2 ∨ "End".toList ∉ fieldNames format_line.2 := by
    rcases hbad with h1 | h1 | h1 | h1 | h1
    · exact Or.inl h1
    · refine Or.inr (Or.inl (fun hl => h1 ?_))
      exact List.mem_of_mem_getLast? hl
    · exact Or.inr (Or.inl h1)
    · exact Or.inr (Or.inr (Or.inl h1))
    · exact Or.inr (Or.inr (Or.inr h1))
  have hs : ∀ f s, ∃ msg, split_events ass_in t f s = .error (.io_error msg) :=
    fun f s => split_events_error ass_in f s t format_line lines hev hbad2
  have ht : ∀ f, ∃ msg, transform_events ass_in offset scale f = .error (.io_error msg) :=
    fun f => transform_events_error ass_in f offset scale format_line lines hev hbad2
  refine ⟨hs first second, ht ass_out, ?_, ?_, fun hwf => ⟨?_, ?_⟩⟩
  · exact split_sections_error ass_in t (fun f s => let ⟨_, hm⟩ := hs f s; ⟨_, hm⟩) _ hmem _ _
  · exact transform_sections_error ass_in offset scale (fun f => let ⟨_, hm⟩ := ht f; ⟨_, hm⟩) _
      hmem _
  · exact split_sections_io_error ass_in t hs _ hmem hwf _ _
  · exact transform_sections_io_error ass_in offset scale ht _ hmem hwf _

/-- C15 on a document whose format line is `Start,Text`, where the rewrite fails, and on
the example document `two_events`, where it succeeds. -/
theorem rewrite_format_checks_witness :
    (EVENTS ∈ no_end_field.sections_ ∧
      no_end_field.Section EVENTS = .ok (("Format".toList, "Start,Text".toList) ::
        [("Dialogue".toList, "0:00:05.00,Hi".toList)]) ∧
      "End".toList ∉ fieldNames "Start,Text".toList ∧
      (∀ s ∈ no_end_field.sections_, no_end_field.Section s ≠ .error .out_of_range) ∧
      (∃ msg, split_events no_end_field 1000 (ASSFile.new) (ASSFile.new)
        = .error (.io_error msg)) ∧
      (∃ msg, transform_events no_end_field 0 (.finite false 1 0) (ASSFile.new)
        = .error (.io_error msg)) ∧
      (∃ msg, split no_end_field 1000 (ASSFile.new) (ASSFile.new) = .error (.io_error msg)) ∧
      (∃ msg, transform no_end_field 0 (.finite false 1 0) (ASSFile.new)
        = .error (.io_error msg))) ∧
    (EVENTS ∈ two_events.sections_ ∧
      two_events.Section EVENTS = .ok (two_events_format :: two_events_lines) ∧
      split two_events 1000 (ASSFile.new) (ASSFile.new)
        = .ok (two_events_first, two_events_second) ∧
      ∃ l1 l2, two_events_first.Section EVENTS = .ok (two_events_format :: l1) ∧
        two_events_second.Section EVENTS = .ok (two_events_format :: l2)) :=
  have h := (rewrite_format_checks no_end_field (ASSFile.new) (ASSFile.new) (ASSFile.new) 1000 0
    (.finite false 1 0) ("Format".toList, "Start,Text".toList)
    [("Dialogue".toList, "0:00:05.00,Hi".toList)] (by decide) (by decide)).1
      (Or.inr (Or.inr (Or.inr (Or.inr (by decide)))))
  ⟨⟨by decide, by decide, by decide, by decide, h.1, h.2.1, (h.2.2.2.2 (by decide)).1,
      (h.2.2.2.2 (by decide)).2⟩,
    by decide, by decide, by decide,
    (rewrite_format_checks two_events (ASSFile.new) (ASSFile.new) (ASSFile.new) 1000 0
      (.finite false 1 0) two_events_format two_events_lines (by decide) (by decide)).2.1
      two_events_first two_events_second (by decide)⟩

/-- C16 (the code at the failing input, and what holds beside it): in the event data
`0:00:05.00,0:00:15.00`, under the declaration `Start,End,Text`, `get_field` locates
`Start` at `[0, 10)` and `End`, the last field present, at `[11, npos)`; the rewrite of
the event throws `std::out_of_range` in `split` and in `transform`, from
`line_data.substr(end_end)`.  When the two fields are found and each is followed by a
delimiter, the text written for the event is the data with the two spans replaced by the
new texts, the other bytes kept, whichever field comes first, and it has as many
delimiters as the data when the new texts hold none, as is the case of the empty text
and of every text that `format_time` writes. -/
theorem rewrite_last_field_out_of_range :
    (get_field_index "Start,End,Text".toList "Start".toList = some 0 ∧
      get_field_index "Start,End,Text".toList "End".toList = some 1 ∧
      get_field "0:00:05.00,0:00:15.00".toList 0 = (true, 0, 10) ∧
      get_field "0:00:05.00,0:00:15.00".toList 1 = (true, 11, npos) ∧
      substr "0:00:05.00,0:00:15.00".toList npos = .error .out_of_range ∧
      split_event 1000 0 1 "Dialogue".toList "0:00:05.00,0:00:15.00".toList
        = .error .out_of_range ∧
      transform_event 0 (.finite false 1 0) 0 1 "Dialogue".toList
        "0:00:05.00,0:00:15.00".toList = .error .out_of_range) ∧
    (∀ (line : Str) (start_idx end_idx : Nat) (start_str end_str : Str),
      line.length < npos → start_idx < 2 ^ 32 → end_idx < 2 ^ 32 → start_idx ≠ end_idx →
      (get_field line start_idx).1 = true → (get_field line end_idx).1 = true →
      (get_field line start_idx).2.2 ≠ npos → (get_field line end_idx).2.2 ≠ npos →
      event_data line (get_field line start_idx).2.1 (get_field line start_idx).2.2
          (get_field line end_idx).2.1 (get_field line end_idx).2.2 start_str end_str
        = .ok (if (get_field line start_idx).2.1 < (get_field line end_idx).2.1 then
            replace_two line (get_field line start_idx).2.1 (get_field line start_idx).2.2
              (get_field line end_idx).2.1 (get_field line end_idx).2.2 start_str end_str
          else
            replace_two line (get_field line end_idx).2.1 (get_field line end_idx).2.2
              (get_field line start_idx).2.1 (get_field line start_idx).2.2 end_str
              start_str) ∧
      (',' ∉ start_str → ',' ∉ end_str →
        (if (get_field line start_idx).2.1 < (get_field line end_idx).2.1 then
            replace_two line (get_field line start_idx).2.1 (get_field line start_idx).2.2
              (get_field line end_idx).2.1 (get_field line end_idx).2.2 start_str end_str
          else
            replace_two line (get_field line end_idx).2.1 (get_field line end_idx).2.2
              (get_field line start_idx).2.1 (get_field line start_idx).2.2 end_str
              start_str).count ',' = line.count ',')) ∧
    (∀ (n : Nat) (s : Str), format_time n = .ok s → ',' ∉ s) :=
  ⟨by decide,
    fun line start_idx end_idx start_str end_str hlen _ _ hne hs he hse hee =>
      event_data_frame line start_idx end_idx start_str end_str hlen hne hs he hse hee,
    format_time_no_comma⟩

/-- C18 (counterexample): the scenario file is parsed into `scenario_blank`, where the
data of the event is ` 0:00:05.00,0:00:15.00,Hi` with the blank that follows the colon;
`parse_time` rejects the `Start` text ` 0:00:05.00` and `split` at `1000` throws the
format error, in whichever order the two sections are visited. -/
theorem split_scenario_blank_fails :
    (ASSFile.new).load (ifstream.of
      "[Script Info]\nTitle: x\n[Events]\nFormat: Start,End,Text\nDialogue: 0:00:05.00,0:00:15.00,Hi\n".toList)
      = .ok scenario_blank ∧
    parse_time " 0:00:05.00".toList = .error (.io_error "invalid timestamp format") ∧
    split scenario_blank 1000 (ASSFile.new) (ASSFile.new)
      = .error (.io_error "invalid timestamp format") ∧
    split { scenario_blank with sections_ := [EVENTS, SCRIPT_INFO] } 1000 (ASSFile.new)
      (ASSFile.new) = .error (.io_error "invalid timestamp format") := by
  decide

/-- C18 (as amended): the scenario file without the blank after the colon of the event
line is parsed into `scenario_doc`, and `split` at `1000` succeeds: the `[Events]`
section of the first output holds the format line and the event with the data
`0:00:05.00,0:00:15.00,Hi`, the one of the second output holds the format line only. -/
theorem split_scenario_without_blank :
    (ASSFile.new).load (ifstream.of
      "[Script Info]\nTitle: x\n[Events]\nFormat: Start,End,Text\nDialogue:0:00:05.00,0:00:15.00,Hi\n".toList)
      = .ok scenario_doc ∧
    split scenario_doc 1000 (ASSFile.new) (ASSFile.new) = .ok
      (⟨false, LINE_SEPARATOR, [], [SCRIPT_INFO, EVENTS],
        [(SCRIPT_INFO, [("Title".toList, " x".toList)]),
         (EVENTS, [("Format".toList, " Start,End,Text".toList),
                   ("Dialogue".toList, "0:00:05.00,0:00:15.00,Hi".toList)])]⟩,
       ⟨false, LINE_SEPARATOR, [], [SCRIPT_INFO, EVENTS],
        [(SCRIPT_INFO, [("Title".toList, " x".toList)]),
         (EVENTS, [("Format".toList, " Start,End,Text".toList)])]⟩) ∧
    split { scenario_doc with sections_ := [EVENTS, SCRIPT_INFO] } 1000 (ASSFile.new)
      (ASSFile.new) = .ok
      (⟨false, LINE_SEPARATOR, [], [EVENTS, SCRIPT_INFO],
        [(EVENTS, [("Format".toList, " Start,End,Text".toList),
                   ("Dialogue".toList, "0:00:05.00,0:00:15.00,Hi".toList)]),
         (SCRIPT_INFO, [("Title".toList, " x".toList)])]⟩,
       ⟨false, LINE_SEPARATOR, [], [EVENTS, SCRIPT_INFO],
        [(EVENTS, [("Format".toList, " Start,End,Text".toList)]),
         (SCRIPT_INFO, [("Title".toList, " x".toList)])]⟩) := by
  decide

/-- C19 (the code at the failing input, and what holds beside it): the scenario file
written with `\r\n` is parsed into a document whose line break is `\r\n`; the outputs of
`split` and of `transform` into freshly constructed documents have the line break `\n`,
and the first output is written with `\n`.  In general the outputs have the BOM flag and
the header comment of the input and, for every listed section other than `[Events]`,
the record list of the input, but the line break of the objects passed in. -/
theorem outputs_keep_default_line_break :
    ((ASSFile.new).load (ifstream.of
      "[Script Info]\r\nTitle: x\r\n[Events]\r\nFormat: Start,End,Text\r\nDialogue:0:00:05.00,0:00:15.00,Hi\r\n".toList)
      = .ok scenario_crlf ∧
    scenario_crlf.line_break_ = ['\r', '\n'] ∧
    split scenario_crlf 1000 (ASSFile.new) (ASSFile.new) = .ok
      (scenario_doc,
       ⟨false, LINE_SEPARATOR, [], [SCRIPT_INFO, EVENTS],
        [(SCRIPT_INFO, [("Title".toList, " x".toList)]),
         (EVENTS, [("Format".toList, " Start,End,Text".toList)])]⟩) ∧
    transform scenario_crlf 0 (.finite false 1 0) (ASSFile.new) = .ok scenario_doc ∧
    scenario_doc.line_break_ = ['\n'] ∧
    operator_lshift scenario_doc
      = ("[Script Info]\nTitle: x\n\n[Events]\nFormat: Start,End,Text\nDialogue:0:00:05.00,0:00:15.00,Hi\n".toList,
         none)) ∧
    (∀ (ass first second a b : ASSFile) (t : Nat), ass.sections_.Nodup →
      split ass t first second = .ok (a, b) →
      (a.has_bom_ = ass.has_bom_ ∧ a.script_comment_ = ass.script_comment_ ∧
        a.line_break_ = first.line_break_) ∧
      (b.has_bom_ = ass.has_bom_ ∧ b.script_comment_ = ass.script_comment_ ∧
        b.line_break_ = second.line_break_) ∧
      ∀ key ∈ ass.sections_, key ≠ EVENTS →
        map_get a.sections_map_ key = map_get ass.sections_map_ key ∧
        map_get b.sections_map_ key = map_get ass.sections_map_ key) ∧
    (∀ (ass_in ass_out a : ASSFile) (offset : Int) (scale : Double), ass_in.sections_.Nodup →
      transform ass_in offset scale ass_out = .ok a →
      (a.has_bom_ = ass_in.has_bom_ ∧ a.script_comment_ = ass_in.script_comment_ ∧
        a.line_break_ = ass_out.line_break_) ∧
      ∀ key ∈ ass_in.sections_, key ≠ EVENTS →
        map_get a.sections_map_ key = map_get ass_in.sections_map_ key) := by
  refine ⟨by decide, ?_, ?_⟩
  · intro ass first second a b t hn h
    obtain ⟨ha, hb, hk⟩ := split_spec ass t first second a b hn h
    refine ⟨⟨ha.1, ha.2.2, ha.2.1⟩, ⟨hb.1, hb.2.2, hb.2.1⟩, fun key hkey hne => ?_⟩
    simp only [(hk key).1, (hk key).2, if_pos hkey, split_records_ne _ _ _ _ hne, and_self]
  · intro ass_in ass_out a offset scale hn h
    obtain ⟨ha, hk⟩ := transform_spec ass_in offset scale ass_out a hn h
    refine ⟨⟨ha.1, ha.2.2, ha.2.1⟩, fun key hkey hne => ?_⟩
    rw [hk key, if_pos hkey, transform_records_ne _ _ _ _ hne]

/-- C20 (counterexample): with `scale` the `double` nearest to one third, read by
`std::stod` from `0.333333333333333314829616256247`, and `offset = -1`, the event that
starts at 0.03 s has `start * scale + offset < 0`, yet `transform` succeeds and writes the
start `0:00:00.00`: the product is rounded to `1.0` before the offset is added.  With
`scale = -0.5` and `offset = 0`, the event that starts at 0.01 s has
`start * scale + offset = -0.5 < 0`, and `transform` succeeds as well: the product is
truncated to `0`. -/
theorem transform_accepts_negative_exact_value :
    stod "0.333333333333333314829616256247".toList = .ok (.finite false 6004799503160661 54) ∧
    field_time "0:00:00.03,0:00:09.00,Hi".toList 0 = some 3 ∧
    (3 : ℚ) * (Double.finite false 6004799503160661 54).toRat + (-1 : Int) < 0 ∧
    transform early_event (-1) (.finite false 6004799503160661 54) (ASSFile.new) = .ok
      ⟨false, LINE_SEPARATOR, [], [SCRIPT_INFO, EVENTS],
        [(SCRIPT_INFO, [("Title".toList, " x".toList)]),
         (EVENTS, [("Format".toList, "Start,End,Text".toList),
                   ("Dialogue".toList, "0:00:00.00,0:00:02.99,Hi".toList)])]⟩ ∧
    field_time "0:00:00.01,0:00:00.01,Hi".toList 0 = some 1 ∧
    (1 : ℚ) * (Double.finite true 1 1).toRat + (0 : Int) < 0 ∧
    transform first_centisecond 0 (.finite true 1 1) (ASSFile.new) = .ok
      ⟨false, LINE_SEPARATOR, [], [SCRIPT_INFO, EVENTS],
        [(SCRIPT_INFO, [("Title".toList, " x".toList)]),
         (EVENTS, [("Format".toList, "Start,End,Text".toList),
                   ("Dialogue".toList, "0:00:00.00,0:00:00.00,Hi".toList)])]⟩ :=
  ⟨by decide, by decide, by norm_num [Double.toRat], by decide, by decide,
    by norm_num [Double.toRat], by decide⟩

/-- C20 (as amended): `transform` fails whenever some event with a defined `Start` has a
negative computed start, or a defined `End` with a negative computed end, the computed
value being the one of `ts *= scale; ts += offset` (`scale_offset`: the product rounded
to `double` and truncated, plus the offset); and when it throws the exception of the sign
check there is such an event.  The declaration has fewer than `2 ^ 32` characters, so
that the 32-bit counter of `get_field` reaches the indices of its fields. -/
theorem transform_rejects_negative (ass_in ass_out : ASSFile) (offset : Int) (scale : Double)
    (format_line : Str × Str) (lines : List (Str × Str)) (start_idx end_idx : Nat)
    (hmem : EVENTS ∈ ass_in.sections_)
    (hev : ass_in.Section EVENTS = .ok (format_line :: lines))
    (_hfmt : format_line.2.length < 2 ^ 32)
    (hs : get_field_index format_line.2 "Start".toList = some start_idx)
    (he : get_field_index format_line.2 "End".toList = some end_idx) :
    (∀ r ∈ lines, ∀ start, field_time r.2 start_idx = some start →
      ((∃ v, scale_offset (to_signed start) scale offset = .ok v ∧ v < 0) ∨
        (¬ (r.1 = COMMAND_EVENT ∨ r.1 = SOUND_EVENT) ∧
          ∃ end_ v, field_time r.2 end_idx = some end_ ∧
            scale_offset (to_signed end_) scale offset = .ok v ∧ v < 0)) →
      ∃ e, transform ass_in offset scale ass_out = .error e) ∧
    (∀ m, transform ass_in offset scale ass_out = .error (.runtime_error m) →
      ∃ r ∈ lines, ∃ start, field_time r.2 start_idx = some start ∧
        ((∃ v, scale_offset (to_signed start) scale offset = .ok v ∧ v < 0) ∨
          (¬ (r.1 = COMMAND_EVENT ∨ r.1 = SOUND_EVENT) ∧
            ∃ end_ v, field_time r.2 end_idx = some end_ ∧
              scale_offset (to_signed end_) scale offset = .ok v ∧ v < 0))) := by
  constructor
  · intro r hr start hstart hneg
    have hevent := transform_event_negative offset scale start_idx end_idx r.1 r.2 start hstart hneg
    exact transform_sections_error ass_in offset scale
      (fun f => transform_events_fail ass_in offset scale format_line lines start_idx end_idx
        hev hs he r hr hevent f) _ hmem _
  · intro m h
    unfold transform at h
    obtain ⟨f, hf⟩ := transform_sections_runtime ass_in offset scale _ _ m h
    obtain ⟨si, ei, hi, r, hr, hre⟩ :=
      transform_events_runtime ass_in offset scale f format_line lines m hev hf
    obtain ⟨h1, h2⟩ := format_indices_ok _ _ _ hi
    rw [hs] at h1
    rw [he] at h2
    simp only [Option.some.injEq] at h1 h2
    subst h1 h2
    obtain ⟨start, hstart, hneg⟩ := transform_event_runtime offset scale _ _ r.1 r.2 m hre
    exact ⟨r, hr, start, hstart, hneg⟩

/-- C20 (as amended) on the claim's witness: `offset = -1000`, `scale = 1` and an event
that starts at `0:00:05.00`. -/
theorem transform_rejects_negative_witness :
    EVENTS ∈ two_events.sections_ ∧
    two_events.Section EVENTS = .ok (two_events_format :: two_events_lines) ∧
    two_events_format.2.length < 2 ^ 32 ∧
    get_field_index two_events_format.2 "Start".toList = some 0 ∧
    get_field_index two_events_format.2 "End".toList = some 1 ∧
    field_time "0:00:05.00,0:00:15.00,Hi".toList 0 = some 500 ∧
    scale_offset (to_signed 500) (.finite false 1 0) (-1000) = .ok (-500) ∧
    (∃ e, transform two_events (-1000) (.finite false 1 0) (ASSFile.new) = .error e) ∧
    transform two_events (-1000) (.finite false 1 0) (ASSFile.new)
      = .error (.runtime_error "Transformation yields negative timestamps!") :=
  ⟨by decide, by decide, by decide, by decide, by decide, by decide, by decide,
    (transform_rejects_negative two_events (ASSFile.new) (-1000) (.finite false 1 0)
      two_events_format two_events_lines 0 1 (by decide) (by decide) (by decide) (by decide)
      (by decide)).1
      ("Dialogue".toList, "0:00:05.00,0:00:15.00,Hi".toList) (by decide) 500 (by decide)
      (Or.inl ⟨-500, by decide, by decide⟩),
    by decide⟩

/-! ## Lemmas: the line reader -/

/-- The loop of `getline` over characters that differ from the first character of the
delimiter and from the byte `0xFF`, before any character of the delimiter is matched:
they go to `output`. -/
theorem getline_loop_skip (delim : Str) (hd : delim ≠ []) (pre rest output : Str)
    (h : ∀ c ∈ pre, delim.head? ≠ some c) (hff : '\xff' ∉ pre) :
    getline_loop delim (pre ++ rest) output [] 0 = getline_loop delim rest (output ++ pre) [] 0 := by
  induction pre generalizing output with
  | nil => simp
  | cons c cs ih =>
    have hlen : 0 < delim.length := List.length_pos.mpr hd
    have hc : delim.get? 0 ≠ some c := by
      have := h c (List.mem_cons_self _ _)
      cases delim with
      | nil => exact absurd rfl hd
      | cons a as => simpa using this
    have hcff : c ≠ '\xff' := fun he => hff (he ▸ List.mem_cons_self _ _)
    rw [List.cons_append, getline_loop, if_pos hlen, if_neg hcff, if_neg hc]
    simp only [List.isEmpty_nil, Bool.not_true, Bool.false_eq_true, if_false]
    rw [ih (output ++ [c]) (fun x hx => h x (List.mem_cons_of_mem _ hx))
      (fun hx => hff (List.mem_cons_of_mem _ hx))]
    simp

/-- The loop of `getline` over the characters of a delimiter without the byte `0xFF`,
once its first `k` characters are matched: the line ends after the delimiter. -/
theorem getline_loop_match (delim rest output : Str) (k : Nat) (hk : k ≤ delim.length)
    (hff : '\xff' ∉ delim) :
    getline_loop delim (delim.drop k ++ rest) output (delim.take k) k
      = (true, output, rest, true) := by
  generalize hn : delim.length - k = n
  induction n generalizing k with
  | zero =>
    have hnot : ¬ k < delim.length := by omega
    rw [List.drop_eq_nil_of_le (by omega), List.nil_append]
    cases rest with
    | nil => rw [getline_loop, if_neg hnot]
    | cons c cs => rw [getline_loop, if_neg hnot]
  | succ n ih =>
    have hlt : k < delim.length := by omega
    have hcff : delim[k] ≠ '\xff' := fun he => hff (he ▸ List.getElem_mem hlt)
    rw [List.drop_eq_getElem_cons hlt, List.cons_append, getline_loop, if_pos hlt, if_neg hcff]
    have hget : delim.get? k = some delim[k] := by simp [hlt]
    rw [if_pos hget]
    have htake : delim.take k ++ [delim[k]] = delim.take (k + 1) := by
      rw [List.take_succ]
      simp [hlt]
    rw [htake]
    exact ih (k + 1) (by omega) (by omega)

/-- The loop of `getline` at the end of the input, before any character of the delimiter
is matched. -/
theorem getline_loop_end (delim : Str) (hd : delim ≠ []) (output : Str) :
    getline_loop delim [] output [] 0 = (!output.isEmpty, output, [], false) := by
  have hlen : 0 < delim.length := List.length_pos.mpr hd
  rw [getline_loop, if_pos hlen]
  simp

/-- The loop of `getline` at the byte `0xFF`, before any character of the delimiter is
matched: the line ends there, as at the end of the file, and the stream stays good. -/
theorem getline_loop_ff (delim : Str) (hd : delim ≠ []) (rest output : Str) :
    getline_loop delim ('\xff' :: rest) output [] 0 = (!output.isEmpty, output, rest, true) := by
  have hlen : 0 < delim.length := List.length_pos.mpr hd
  rw [getline_loop, if_pos hlen, if_pos rfl]
  simp

/-- `getline` on an input in which neither the first character of the delimiter nor the
byte `0xFF` occurs before the first occurrence of the delimiter, for a delimiter without
that byte: the line is the text before the delimiter, and the text after it is left in
the stream. -/
theorem getline_delimited (input : ifstream) (delim pre post : Str) (hg : input.good = true)
    (hd : delim ≠ []) (hrest : input.rest = pre ++ delim ++ post)
    (h : ∀ c ∈ pre, delim.head? ≠ some c) (hpre : '\xff' ∉ pre) (hdelim : '\xff' ∉ delim) :
    getline input delim = (true, pre, { input with good := true, rest := post }) := by
  have hde : delim.isEmpty = false := by
    cases delim with
    | nil => exact absurd rfl hd
    | cons a as => rfl
  unfold getline
  rw [hg, hde, hrest, List.append_assoc, getline_loop_skip delim hd pre _ [] h hpre]
  have := getline_loop_match delim post ([] ++ pre) 0 (Nat.zero_le _) hdelim
  simp only [List.drop_zero, List.take_zero] at this
  rw [this]
  simp

/-- `getline` on an input in which neither the first character of the delimiter nor the
byte `0xFF` occurs: the line is the whole input, and the call succeeds when the input is
not empty. -/
theorem getline_undelimited (input : ifstream) (delim : Str) (hg : input.good = true)
    (hd : delim ≠ []) (h : ∀ c ∈ input.rest, delim.head? ≠ some c) (hff : '\xff' ∉ input.rest) :
    getline input delim
      = (!input.rest.isEmpty, input.rest, { input with good := false, rest := [] }) := by
  have hde : delim.isEmpty = false := by
    cases delim with
    | nil => exact absurd rfl hd
    | cons a as => rfl
  unfold getline
  rw [hg, hde]
  have := getline_loop_skip delim hd input.rest [] [] h hff
  rw [List.append_nil] at this
  rw [this, getline_loop_end delim hd]
  simp

/-- `getline` on an input with the byte `0xFF`, when neither that byte nor the first
character of the delimiter occurs before it: the line is the text before the byte, the
byte is consumed, the stream stays good, and the call fails when the line is empty. -/
theorem getline_at_ff (input : ifstream) (delim pre post : Str) (hg : input.good = true)
    (hd : delim ≠ []) (hrest : input.rest = pre ++ '\xff' :: post)
    (h : ∀ c ∈ pre, delim.head? ≠ some c) (hpre : '\xff' ∉ pre) :
    getline input delim = (!pre.isEmpty, pre, { input with good := true, rest := post }) := by
  have hde : delim.isEmpty = false := by
    cases delim with
    | nil => exact absurd rfl hd
    | cons a as => rfl
  unfold getline
  rw [hg, hde, hrest, getline_loop_skip delim hd pre _ [] h hpre, getline_loop_ff delim hd]
  simp

/-! ## Lemmas: the order of the spans and the branch `unexpected error` -/

/-- Two different names have different indices in a format declaration. -/
theorem get_field_index_ne (format n1 n2 : Str) (a b : Nat) (hn : n1 ≠ n2)
    (ha : get_field_index format n1 = some a) (hb : get_field_index format n2 = some b) :
    a ≠ b := by
  unfold get_field_index at ha hb
  obtain ⟨j1, tok1, h1, hg1, ht1⟩ := get_field_index_loop_some _ _ _ _ ha
  obtain ⟨j2, tok2, h2, hg2, ht2⟩ := get_field_index_loop_some _ _ _ _ hb
  intro hab
  have hj : j1 = j2 := by omega
  subst hj
  rw [hg1] at hg2
  simp only [Option.some.injEq] at hg2
  subst hg2
  exact hn (ht1.symm.trans ht2)

/-- The spans of two fields that `get_field` finds: the end of the first one is the
position of a delimiter, and the second span starts after it. -/
theorem get_field_ordered (line : Str) (i j : Nat) (hlen : line.length < npos) (hij : i < j)
    (hi : (get_field line i).1 = true) (hj : (get_field line j).1 = true) :
    (get_field line i).2.2 ≠ npos ∧
    (get_field line i).2.2 = find line [','] (get_field line i).2.1 ∧
    line.get? (get_field line i).2.2 = some ',' ∧
    (get_field line i).2.1 ≤ (get_field line i).2.2 ∧
    (get_field line i).2.2 < (get_field line j).2.1 ∧
    (get_field line j).2.1 < line.length := by
  obtain ⟨mid, u, x, rest, hline, hu, hgi, hgj1, hgj2⟩ := get_field_two line i j hlen hij hi hj
  have hjl : (get_field line j).2.1 < line.length := by
    rcases hg : get_field line j with ⟨f, b, e⟩
    rw [hg] at hj
    dsimp only at hj
    subst hj
    exact get_field_true_lt line j b e hg
  have hlen2 : mid.length + u.length < line.length := by
    rw [hline]; simp
  refine ⟨?_, ?_, ?_, ?_, ?_, hjl⟩
  · rw [hgi]
    dsimp only
    unfold npos at hlen ⊢
    omega
  · rw [hgi]
    dsimp only
    rw [hline, find_append, findFrom_some u _ _ hu]
  · rw [hgi]
    dsimp only
    rw [hline, ← List.append_assoc]
    rw [List.get?_eq_getElem?, List.getElem?_append_right (by simp)]
    simp
  · rw [hgi]
    dsimp only
    omega
  · rw [hgi, hgj1]
    dsimp only
    omega

/-- `toDouble` throws no `io_error`. -/
theorem toDouble_ne_io (neg : Bool) (p q : Nat) (m : String) :
    toDouble neg p q ≠ .error (.io_error m) := by
  unfold toDouble
  intro h
  dsimp only at h
  split at h <;> simp at h

/-- `std::stoul` throws no `io_error`. -/
theorem stoul_ne_io (v : Str) (m : String) : stoul v ≠ .error (.io_error m) := by
  unfold stoul
  intro h
  dsimp only at h
  repeat' split at h
  all_goals simp at h

/-- `std::stod` throws no `io_error`. -/
theorem stod_ne_io (v : Str) (m : String) : stod v ≠ .error (.io_error m) := by
  unfold stod
  intro h
  dsimp only at h
  repeat' split at h
  all_goals first | exact toDouble_ne_io _ _ _ _ h | simp at h

/-- The conversion to `time_t` throws no `io_error`. -/
theorem toTime_ne_io (x : Double) (m : String) : x.toTime ≠ .error (.io_error m) := by
  intro h
  cases x with
  | inf neg => simp [Double.toTime] at h
  | nan => simp [Double.toTime] at h
  | finite neg n d =>
    simp only [Double.toTime] at h
    repeat' split at h
    all_goals simp at h

/-- The only `io_error` that `parse_time` throws is `invalid timestamp format`. -/
theorem parse_time_io (s : Str) (m : String) (h : parse_time s = .error (.io_error m)) :
    m = "invalid timestamp format" := by
  unfold parse_time at h
  dsimp only at h
  split at h
  · split at h
    · simp only [Except.error.injEq, Error.io_error.injEq] at h; exact h.symm
    · split at h
      · rename_i e he
        simp only [Except.error.injEq] at h
        subst h
        exact absurd he (stoul_ne_io _ _)
      · split at h
        · simp only [Except.error.injEq, Error.io_error.injEq] at h; exact h.symm
        · split at h
          · rename_i e he
            simp only [Except.error.injEq] at h
            subst h
            exact absurd he (stoul_ne_io _ _)
          · split at h
            · simp only [Except.error.injEq, Error.io_error.injEq] at h; exact h.symm
            · split at h
              · rename_i e he
                simp only [Except.error.injEq] at h
                subst h
                exact absurd he (stod_ne_io _ _)
              · split at h
                · simp only [Except.error.injEq, Error.io_error.injEq] at h; exact h.symm
                · split at h
                  · rename_i e he
                    simp only [Except.error.injEq] at h
                    subst h
                    exact absurd he (toTime_ne_io _ _)
                  · cases h
  · simp only [Except.error.injEq, Error.io_error.injEq] at h; exact h.symm

/-- The only `io_error` that `format_time` throws is `invalid timestamp value`. -/
theorem format_time_io (n : Nat) (m : String) (h : format_time n = .error (.io_error m)) :
    m = "invalid timestamp value" := by
  unfold format_time at h
  split at h
  · simp only [Except.error.injEq, Error.io_error.injEq] at h; exact h.symm
  · simp at h

/-- The `io_error` exceptions of the block that locates a timestamp field. -/
theorem locate_time_io (data : Str) (idx u : Nat) (msg m : String)
    (h : locate_time data idx u msg = .error (.io_error m)) :
    m = msg ∨ m = "invalid timestamp format" := by
  rw [locate_time_eq] at h
  split at h
  · split at h
    · split at h
      · cases h
      · rename_i e he
        simp only [Except.error.injEq] at h
        subst h
        exact Or.inr (parse_time_io _ _ he)
    · cases h
  · simp only [Except.error.injEq, Error.io_error.injEq] at h
    exact Or.inl h.symm

/-- `ts *= scale; ts += offset` throws no `io_error`. -/
theorem scale_offset_ne_io (ts : Int) (scale : Double) (offset : Int) (m : String) :
    scale_offset ts scale offset ≠ .error (.io_error m) := by
  intro h
  unfold scale_offset at h
  split at h
  · rename_i e he
    simp only [Except.error.injEq] at h
    subst h
    cases hx : scale.mulInt ts with
    | inf neg => rw [hx] at he; simp [Double.toSigned] at he
    | nan => rw [hx] at he; simp [Double.toSigned] at he
    | finite neg n d =>
      rw [hx] at he
      simp only [Double.toSigned] at he
      repeat' split at he
      all_goals simp at he
  · split at h <;> simp at h

/-- The statement that writes `event_data_stream` throws `unexpected error` only when
the two spans start at the same position. -/
theorem event_data_unexpected (line_data : Str) (sb se eb ee : Nat) (s1 s2 : Str) (m : String)
    (h : event_data line_data sb se eb ee s1 s2 = .error (.io_error m)) :
    m = "unexpected error" ∧ sb = eb := by
  unfold event_data at h
  split at h
  · rcases h1 : substr line_data 0 sb with e1 | a <;>
    rcases h2 : substr line_data se (size_sub eb se) with e2 | b <;>
    rcases h3 : substr line_data ee with e3 | c <;>
    rw [h1, h2, h3] at h <;> simp at h
    all_goals
      subst h
      first
        | cases (substr_error _ _ _ _ h1)
        | cases (substr_error _ _ _ _ h2)
        | cases (substr_error _ _ _ _ h3)
  · split at h
    · rcases h1 : substr line_data 0 eb with e1 | a <;>
      rcases h2 : substr line_data ee (size_sub sb ee) with e2 | b <;>
      rcases h3 : substr line_data se with e3 | c <;>
      rw [h1, h2, h3] at h <;> simp at h
      all_goals
        subst h
        first
          | cases (substr_error _ _ _ _ h1)
          | cases (substr_error _ _ _ _ h2)
          | cases (substr_error _ _ _ _ h3)
    · simp only [Except.error.injEq, Error.io_error.injEq] at h
      exact ⟨h.symm, by omega⟩

/-- Two different fields that `get_field` finds start at different positions. -/
theorem get_field_start_ne (line : Str) (i j : Nat) (hlen : line.length < npos) (hne : i ≠ j)
    (hi : (get_field line i).1 = true) (hj : (get_field line j).1 = true) :
    (get_field line i).2.1 ≠ (get_field line j).2.1 := by
  rcases Nat.lt_or_gt_of_ne hne with hlt | hlt
  · have := get_field_ordered line i j hlen hlt hi hj
    omega
  · have := get_field_ordered line j i hlen hlt hj hi
    omega

/-- The only `io_error` of the optional call of `format_time` in the event loops. -/
theorem ite_format_time_io (c : Prop) [Decidable c] (n : Nat) (m : String)
    (h : (if c then format_time n else .ok []) = .error (.io_error m)) :
    m = "invalid timestamp value" := by
  split at h
  · exact format_time_io _ _ h
  · cases h

/-- The event loop of `split` does not reach the branch `unexpected error` when the two
indices differ. -/
theorem split_event_ne_unexpected (t start_idx end_idx : Nat) (line_type line_data : Str)
    (hlen : line_data.length < npos) (hne : start_idx ≠ end_idx) :
    split_event t start_idx end_idx line_type line_data
      ≠ .error (.io_error "unexpected error") := by
  intro h
  unfold split_event at h
  rcases hs : locate_time line_data start_idx (2 ^ 32 - 1) "'Start' field cannot be retrieved"
    with e | ⟨sb, se, sts, sdef⟩
  · rw [hs] at h
    simp only [Except.error.injEq] at h
    subst h
    rcases locate_time_io _ _ _ _ _ hs with h1 | h1 <;> revert h1 <;> decide
  · rw [hs] at h
    dsimp only at h
    rcases he : locate_time line_data end_idx (2 ^ 32 - 1) "'End' field cannot be retrieved"
      with e | ⟨eb, ee, ets, edef⟩
    · rw [he] at h
      simp only [Except.error.injEq] at h
      subst h
      rcases locate_time_io _ _ _ _ _ he with h1 | h1 <;> revert h1 <;> decide
    · rw [he] at h
      dsimp only at h
      obtain ⟨hgs, _, _⟩ := locate_time_ok_cases _ _ _ _ _ _ _ _ hs
      obtain ⟨hge, _, _⟩ := locate_time_ok_cases _ _ _ _ _ _ _ _ he
      have hstart := get_field_start_ne line_data start_idx end_idx hlen hne
        (by rw [hgs]) (by rw [hge])
      rw [hgs, hge] at hstart
      dsimp only at hstart
      repeat' split at h
      all_goals first
        | (cases h; done)
        | (rename_i hx
           simp only [Except.error.injEq] at h
           subst h
           first
             | exact hstart (event_data_unexpected _ _ _ _ _ _ _ _ hx).2
             | exact absurd (ite_format_time_io _ _ _ hx) (by decide))

/-- The event loop of `transform` does not reach the branch `unexpected error` when the
two indices differ. -/
theorem transform_event_ne_unexpected (offset : Int) (scale : Double) (start_idx end_idx : Nat)
    (line_type line_data : Str) (hlen : line_data.length < npos) (hne : start_idx ≠ end_idx) :
    transform_event offset scale start_idx end_idx line_type line_data
      ≠ .error (.io_error "unexpected error") := by
  intro h
  unfold transform_event at h
  rcases hs : locate_time line_data start_idx (2 ^ 31 - 1) "'Start' field cannot be retrieved"
    with e | ⟨sb, se, sts, sdef⟩
  · rw [hs] at h
    simp only [Except.error.injEq] at h
    subst h
    rcases locate_time_io _ _ _ _ _ hs with h1 | h1 <;> revert h1 <;> decide
  · rw [hs] at h
    dsimp only at h
    rcases he : locate_time line_data end_idx (2 ^ 31 - 1) "'End' field cannot be retrieved"
      with e | ⟨eb, ee, ets, edef⟩
    · rw [he] at h
      simp only [Except.error.injEq] at h
      subst h
      rcases locate_time_io _ _ _ _ _ he with h1 | h1 <;> revert h1 <;> decide
    · rw [he] at h
      dsimp only at h
      obtain ⟨hgs, _, _⟩ := locate_time_ok_cases _ _ _ _ _ _ _ _ hs
      obtain ⟨hge, _, _⟩ := locate_time_ok_cases _ _ _ _ _ _ _ _ he
      have hstart := get_field_start_ne line_data start_idx end_idx hlen hne
        (by rw [hgs]) (by rw [hge])
      rw [hgs, hge] at hstart
      dsimp only at hstart
      rcases htt : transform_times offset scale (to_signed sts) (to_signed ets) sdef
        (if line_type = COMMAND_EVENT ∨ line_type = SOUND_EVENT then false else edef)
        with e | ⟨s2, e2, d2⟩
      · rw [htt] at h
        simp only [Except.error.injEq] at h
        subst h
        unfold transform_times at htt
        repeat' split at htt
        all_goals first
          | (cases htt; done)
          | (rename_i hx
             simp only [Except.error.injEq] at htt
             subst htt
             exact scale_offset_ne_io _ _ _ _ hx)
      · rw [htt] at h
        dsimp only at h
        repeat' split at h
        all_goals first
          | exact hstart (event_data_unexpected _ _ _ _ _ _ _ _ h).2
          | (cases h; done)
          | (rename_i hx
             simp only [Except.error.injEq] at h
             subst h
             have := ite_format_time_io _ _ _ hx
             revert this
             decide)

/-- An exception of the event loop of `split` is the exception of one of its events. -/
theorem split_loop_error_mem (t start_idx end_idx : Nat) (lines : List (Str × Str))
    (first second : ASSFile) (e : Error)
    (h : split_loop t start_idx end_idx lines first second = .error e) :
    ∃ r ∈ lines, split_event t start_idx end_idx r.1 r.2 = .error e := by
  induction lines generalizing first second with
  | nil => simp [split_loop] at h
  | cons r0 rest ih =>
    obtain ⟨line_type, line_data⟩ := r0
    unfold split_loop at h
    cases hev : split_event t start_idx end_idx line_type line_data with
    | error e2 =>
      rw [hev] at h
      simp only [Except.error.injEq] at h
      subst h
      exact ⟨(line_type, line_data), by simp, hev⟩
    | ok res =>
      obtain ⟨add1, add2, data⟩ := res
      rw [hev] at h
      obtain ⟨r, hr, hre⟩ := ih _ _ h
      exact ⟨r, List.mem_cons_of_mem _ hr, hre⟩

/-- An exception of the event loop of `transform` is the exception of one of its events. -/
theorem transform_loop_error_mem (offset : Int) (scale : Double) (start_idx end_idx : Nat)
    (lines : List (Str × Str)) (ass_out : ASSFile) (e : Error)
    (h : transform_loop offset scale start_idx end_idx lines ass_out = .error e) :
    ∃ r ∈ lines, transform_event offset scale start_idx end_idx r.1 r.2 = .error e := by
  induction lines generalizing ass_out with
  | nil => simp [transform_loop] at h
  | cons r0 rest ih =>
    obtain ⟨line_type, line_data⟩ := r0
    unfold transform_loop at h
    cases hev : transform_event offset scale start_idx end_idx line_type line_data with
    | error e2 =>
      rw [hev] at h
      simp only [Except.error.injEq] at h
      subst h
      exact ⟨(line_type, line_data), by simp, hev⟩
    | ok data =>
      rw [hev] at h
      obtain ⟨r, hr, hre⟩ := ih _ h
      exact ⟨r, List.mem_cons_of_mem _ hr, hre⟩

/-- The checks of the format line do not throw `unexpected error`. -/
theorem format_indices_ne_unexpected (format : Str) :
    format_indices format ≠ .error (.io_error "unexpected error") := by
  intro h
  unfold format_indices at h
  repeat' split at h
  all_goals first
    | cases h
    | (simp only [Except.error.injEq, Error.io_error.injEq] at h; revert h; decide)

/-- The indices of `Start` and `End` that the checks of the format line return differ. -/
theorem format_indices_ne (format : Str) (start_idx end_idx : Nat)
    (h : format_indices format = .ok (start_idx, end_idx)) : start_idx ≠ end_idx := by
  obtain ⟨hs, he⟩ := format_indices_ok _ _ _ h
  exact get_field_index_ne format "Start".toList "End".toList _ _ (by decide) hs he

/-- `Section` throws nothing but `std::out_of_range`. -/
theorem Section_error (d : ASSFile) (key : Str) (e : Error) (h : d.Section key = .error e) :
    e = .out_of_range := by
  unfold ASSFile.Section map_at at h
  split at h
  · cases h
  · simp only [Except.error.injEq] at h; exact h.symm

/-- The branch of `split` for `[Events]` does not throw `unexpected error`. -/
theorem split_events_ne_unexpected (ass : ASSFile) (t : Nat) (first second : ASSFile)
    (hlen : ∀ l, ass.Section EVENTS = .ok l → ∀ r ∈ l, r.2.length < npos) :
    split_events ass t first second ≠ .error (.io_error "unexpected error") := by
  intro h
  unfold split_events at h
  rcases hsec : ass.Section EVENTS with e | l
  · rw [hsec] at h
    simp only [Except.error.injEq] at h
    subst h
    cases Section_error _ _ _ hsec
  · rw [hsec] at h
    cases l with
    | nil => cases h
    | cons format_line lines =>
      dsimp only at h
      split at h
      · simp only [Except.error.injEq, Error.io_error.injEq] at h; revert h; decide
      · rcases hi : format_indices format_line.2 with e | ⟨si, ei⟩
        · rw [hi] at h
          simp only [Except.error.injEq] at h
          subst h
          exact format_indices_ne_unexpected _ hi
        · rw [hi] at h
          dsimp only at h
          obtain ⟨r, hr, hre⟩ := split_loop_error_mem _ _ _ _ _ _ _ h
          exact split_event_ne_unexpected t si ei r.1 r.2
            (hlen _ hsec r (List.mem_cons_of_mem _ hr)) (format_indices_ne _ _ _ hi) hre

/-- The branch of `transform` for `[Events]` does not throw `unexpected error`. -/
theorem transform_events_ne_unexpected (ass_in : ASSFile) (offset : Int) (scale : Double)
    (ass_out : ASSFile)
    (hlen : ∀ l, ass_in.Section EVENTS = .ok l → ∀ r ∈ l, r.2.length < npos) :
    transform_events ass_in offset scale ass_out ≠ .error (.io_error "unexpected error") := by
  intro h
  unfold transform_events at h
  rcases hsec : ass_in.Section EVENTS with e | l
  · rw [hsec] at h
    simp only [Except.error.injEq] at h
    subst h
    cases Section_error _ _ _ hsec
  · rw [hsec] at h
    cases l with
    | nil => cases h
    | cons format_line lines =>
      dsimp only at h
      split at h
      · simp only [Except.error.injEq, Error.io_error.injEq] at h; revert h; decide
      · rcases hi : format_indices format_line.2 with e | ⟨si, ei⟩
        · rw [hi] at h
          simp only [Except.error.injEq] at h
          subst h
          exact format_indices_ne_unexpected _ hi
        · rw [hi] at h
          dsimp only at h
          obtain ⟨r, hr, hre⟩ := transform_loop_error_mem _ _ _ _ _ _ _ h
          exact transform_event_ne_unexpected offset scale si ei r.1 r.2
            (hlen _ hsec r (List.mem_cons_of_mem _ hr)) (format_indices_ne _ _ _ hi) hre

/-- The loop of `split` over the sections does not throw `unexpected error`. -/
theorem split_sections_ne_unexpected (ass : ASSFile) (t : Nat) (secs : List Str)
    (first second : ASSFile)
    (hlen : ∀ l, ass.Section EVENTS = .ok l → ∀ r ∈ l, r.2.length < npos) :
    split_sections ass t secs first second ≠ .error (.io_error "unexpected error") := by
  induction secs generalizing first second with
  | nil => simp [split_sections]
  | cons s rest ih =>
    intro h
    unfold split_sections at h
    by_cases hs : s = EVENTS
    · rw [if_pos hs] at h
      rcases hev : split_events ass t first second with e | ⟨f1, s1⟩
      · rw [hev] at h
        simp only [Except.error.injEq] at h
        subst h
        exact split_events_ne_unexpected ass t first second hlen hev
      · rw [hev] at h
        exact ih _ _ h
    · rw [if_neg hs] at h
      rcases hsec : ass.Section s with e | data
      · rw [hsec] at h
        simp only [Except.error.injEq] at h
        subst h
        cases Section_error _ _ _ hsec
      · rw [hsec] at h
        exact ih _ _ h

/-- The loop of `transform` over the sections does not throw `unexpected error`. -/
theorem transform_sections_ne_unexpected (ass_in : ASSFile) (offset : Int) (scale : Double)
    (secs : List Str) (ass_out : ASSFile)
    (hlen : ∀ l, ass_in.Section EVENTS = .ok l → ∀ r ∈ l, r.2.length < npos) :
    transform_sections ass_in offset scale secs ass_out
      ≠ .error (.io_error "unexpected error") := by
  induction secs generalizing ass_out with
  | nil => simp [transform_sections]
  | cons s rest ih =>
    intro h
    unfold transform_sections at h
    by_cases hs : s = EVENTS
    · rw [if_pos hs] at h
      rcases hev : transform_events ass_in offset scale ass_out with e | f1
      · rw [hev] at h
        simp only [Except.error.injEq] at h
        subst h
        exact transform_events_ne_unexpected ass_in offset scale ass_out hlen hev
      · rw [hev] at h
        exact ih _ h
    · rw [if_neg hs] at h
      rcases hsec : ass_in.Section s with e | data
      · rw [hsec] at h
        simp only [Except.error.injEq] at h
        subst h
        cases Section_error _ _ _ hsec
      · rw [hsec] at h
        exact ih _ h

/-- The middle segment that the rewrite copies, between the end of the first span and
the start of the second one: its length is computed without wrapping. -/
theorem middle_segment (line : Str) (i j : Nat) (hlen : line.length < npos) (hne : i ≠ j)
    (hi : (get_field line i).1 = true) (hj : (get_field line j).1 = true)
    (hlt : (get_field line i).2.1 < (get_field line j).2.1) :
    (get_field line i).2.2 ≤ (get_field line j).2.1 ∧
    size_sub (get_field line j).2.1 (get_field line i).2.2
      = (get_field line j).2.1 - (get_field line i).2.2 := by
  have hij : i < j := by
    rcases Nat.lt_or_gt_of_ne hne with h | h
    · exact h
    · have := get_field_ordered line j i hlen h hj hi
      omega
  obtain ⟨h1, h2, h3, h4, h5, h6⟩ := get_field_ordered line i j hlen hij hi hj
  refine ⟨by omega, size_sub_eq _ _ (by omega) ?_⟩
  unfold npos at hlen
  omega

/-! ## Lemmas: trimmed lines and bracketed headers -/

/-- `StringTrim` in terms of `List.rdropWhile`. -/
theorem StringTrim_eq (s : Str) : StringTrim s = (s.dropWhile isspace).rdropWhile isspace := rfl

/-- A trimmed text is empty or starts with a character that is not whitespace. -/
theorem StringTrim_head (s : Str) :
    StringTrim s = [] ∨ ∃ c tl, StringTrim s = c :: tl ∧ isspace c = false := by
  rw [StringTrim_eq]
  cases hd : s.dropWhile isspace with
  | nil => left; simp [List.rdropWhile]
  | cons c cs =>
    have hc : isspace c = false := by
      have := List.dropWhile_get_zero_not isspace s (by rw [hd]; simp)
      simpa [hd] using this
    cases hr : (c :: cs).rdropWhile isspace with
    | nil => left; rfl
    | cons c2 tl =>
      right
      have hp : (c2 :: tl) <+: (c :: cs) := by
        rw [← hr]; exact List.rdropWhile_prefix _ _
      obtain ⟨t, ht⟩ := hp
      simp only [List.cons_append, List.cons.injEq] at ht
      exact ⟨c2, tl, rfl, by rw [ht.1]; exact hc⟩

/-- Trimming a text that starts with a character that is not whitespace keeps this
character. -/
theorem StringTrim_cons (c : Char) (cs : Str) (hc : isspace c = false) :
    ∃ tl, StringTrim (c :: cs) = c :: tl := by
  rw [StringTrim_eq]
  have hd : (c :: cs).dropWhile isspace = c :: cs := by
    simp [List.dropWhile, hc]
  rw [hd]
  cases hr : (c :: cs).rdropWhile isspace with
  | nil =>
    rw [List.rdropWhile_eq_nil_iff] at hr
    have := hr c (List.mem_cons_self _ _)
    rw [hc] at this
    cases this
  | cons c2 tl =>
    have hp : (c2 :: tl) <+: (c :: cs) := by
      rw [← hr]; exact List.rdropWhile_prefix _ _
    obtain ⟨t, ht⟩ := hp
    simp only [List.cons_append, List.cons.injEq] at ht
    exact ⟨tl, by rw [ht.1]⟩

/-- Trimming twice is trimming once. -/
theorem StringTrim_idem (s : Str) : StringTrim (StringTrim s) = StringTrim s := by
  rcases StringTrim_head s with h | ⟨c, tl, h, hc⟩
  · rw [h]; rfl
  · have h1 : StringTrim (StringTrim s)
        = ((StringTrim s).dropWhile isspace).rdropWhile isspace := rfl
    have h2 : (StringTrim s).dropWhile isspace = StringTrim s := by
      rw [h]; simp [List.dropWhile, hc]
    rw [h1, h2, StringTrim_eq, List.rdropWhile_idempotent]

/-- The test of a bracketed header sees the trimmed line. -/
theorem defines_section_trim (line : Str) :
    defines_section (StringTrim line) = defines_section line := by
  unfold defines_section
  rw [StringTrim_idem]

/-- A line that is a bracketed header does not start with `;` and is not blank. -/
theorem defines_section_head (line : Str) (h : defines_section line = true) :
    line.head? ≠ some ';' ∧ ∃ tl, StringTrim line = '[' :: tl := by
  unfold defines_section StringStartsWith at h
  simp only [Bool.and_eq_true] at h
  obtain ⟨h1, _⟩ := h
  have htl : ∃ tl, StringTrim line = '[' :: tl := by
    cases ht : StringTrim line with
    | nil => rw [ht] at h1; simp [startsWith] at h1
    | cons c tl =>
      rw [ht] at h1
      simp [startsWith] at h1
      exact ⟨tl, by rw [h1]⟩
  refine ⟨?_, htl⟩
  intro hsemi
  cases line with
  | nil => cases hsemi
  | cons c cs =>
    simp only [List.head?_cons, Option.some.injEq] at hsemi
    subst hsemi
    obtain ⟨tl, ht⟩ := StringTrim_cons ';' cs (by decide)
    obtain ⟨tl2, ht2⟩ := htl
    rw [ht] at ht2
    cases ht2

/-- The body of the loop of `load` on a bracketed header: a field in progress is flushed
to the current section, and the flag and the current section are set from the header. -/
theorem load_line_header (line : Str) (s : LoadState) (h : defines_section line = true) :
    load_line line s = .ok
      { file := if s.current_type = [] then s.file
          else s.file.add_line s.current_section s.current_type s.current_data
        skip_section := !(SECTIONS.contains (StringTrim line))
        current_type := []
        current_data := if s.current_type = [] then s.current_data else []
        current_section :=
          if SECTIONS.contains (StringTrim line) then StringTrim line else s.current_section } := by
  obtain ⟨hsemi, tl, ht⟩ := defines_section_head line h
  have hd : defines_section ('[' :: tl) = true := by
    rw [← ht, defines_section_trim, h]
  unfold load_line
  rw [if_neg hsemi, ht]
  dsimp only
  rw [if_pos hd]
  cases hct : s.current_type with
  | nil =>
    cases hc : SECTIONS.contains ('[' :: tl) <;> simp [hc, hct]
  | cons c cs =>
    cases hc : SECTIONS.contains ('[' :: tl) <;> simp [hc, hct]

/-- The body of the loop of `load` in a skipped section: a line that is not a bracketed
header leaves the state as it is. -/
theorem load_line_skip (line : Str) (s : LoadState) (hskip : s.skip_section = true)
    (h : defines_section line = false) : load_line line s = .ok s := by
  unfold load_line
  split
  · rfl
  · split
    · rfl
    · rename_i front trimmed_tail ht
      have hd : defines_section (front :: trimmed_tail) = false := by
        rw [← ht, defines_section_trim, h]
      dsimp only
      rw [if_neg (by rw [hd]; simp)]
      simp [hskip]

/-- The body of the loop of `load` on a comment line or on a blank line. -/
theorem load_line_ignored (line : Str) (s : LoadState)
    (h : line.head? = some ';' ∨ StringTrim line = []) : load_line line s = .ok s := by
  unfold load_line
  split
  · rfl
  · rcases h with h | h
    · contradiction
    · rw [h]

/-- The body of the loop of `load` while a multi-line field is in progress in a section
that is not skipped, on a line that is not a comment, not blank and not a bracketed
header. -/
theorem load_line_continue (line : Str) (s : LoadState) (c : Char) (tl : Str)
    (hskip : s.skip_section = false) (hprog : s.current_type ≠ [])
    (hcomment : line.head? ≠ some ';') (hL : StringTrim line = c :: tl)
    (hhead : defines_section line = false) :
    load_line line s = .ok
      (if islower c then
        { s with
          file := s.file.add_line s.current_section s.current_type s.current_data
          current_type := []
          current_data := [] }
      else if (c :: tl).length < 80 then
        { s with
          file := s.file.add_line s.current_section s.current_type
            (s.current_data ++ (s.file.line_break_ ++ c :: tl))
          current_type := []
          current_data := [] }
      else { s with current_data := s.current_data ++ (s.file.line_break_ ++ c :: tl) }) := by
  have hd : defines_section (c :: tl) = false := by
    rw [← hL, defines_section_trim, hhead]
  have hne : s.current_type.isEmpty = false := by
    cases hct : s.current_type with
    | nil => exact absurd hct hprog
    | cons a as => rfl
  unfold load_line
  rw [if_neg hcomment, hL]
  dsimp only
  rw [if_neg (by rw [hd]; simp)]
  simp only [hskip, hne, Bool.not_false, Bool.and_self, if_true]
  cases hl : islower c
  · simp only [Bool.not_false, if_true, Bool.false_or, decide_eq_true_eq, Bool.false_eq_true,
      if_false]
    split_ifs <;> rfl
  · simp [hskip]

/-! ## Lemmas: the body and the loop of `load` -/

/-- An element of a set after `insert`. -/
theorem mem_set_insert (l : List Str) (x key : Str) (h : key ∈ set_insert l x) :
    key ∈ l ∨ key = x := by
  unfold set_insert at h
  split at h
  · exact Or.inl h
  · simpa using h

/-- The key of an entry of the map after `m[key].push_back(value)`. -/
theorem mem_map_push_back (m : SectionsMap) (key : Str) (value : Str × Str)
    (e : Str × List (Str × Str)) (h : e ∈ map_push_back m key value) :
    e.1 = key ∨ ∃ e2 ∈ m, e2.1 = e.1 := by
  induction m with
  | nil =>
    simp only [map_push_back, List.mem_singleton] at h
    left; rw [h]
  | cons kl rest ih =>
    obtain ⟨k, l⟩ := kl
    simp only [map_push_back] at h
    split at h
    · rename_i hk
      rcases List.mem_cons.mp h with h1 | h1
      · left; rw [h1]; exact hk
      · right; exact ⟨e, List.mem_cons_of_mem _ h1, rfl⟩
    · rcases List.mem_cons.mp h with h1 | h1
      · right; exact ⟨(k, l), List.mem_cons_self _ _, by rw [h1]⟩
      · rcases ih h1 with h2 | ⟨e2, he2, h2⟩
        · left; exact h2
        · right; exact ⟨e2, List.mem_cons_of_mem _ he2, h2⟩

/-- `add_line` to a canonical section keeps the sections canonical. -/
theorem add_line_canonical (d : ASSFile) (section_ type data : Str) (hs : section_ ∈ SECTIONS)
    (h1 : ∀ key ∈ d.sections_, key ∈ SECTIONS) (h2 : ∀ e ∈ d.sections_map_, e.1 ∈ SECTIONS) :
    (∀ key ∈ (d.add_line section_ type data).sections_, key ∈ SECTIONS) ∧
    ∀ e ∈ (d.add_line section_ type data).sections_map_, e.1 ∈ SECTIONS := by
  constructor
  · intro key hk
    rcases mem_set_insert _ _ _ hk with h | h
    · exact h1 key h
    · rw [h]; exact hs
  · intro e he
    rcases mem_map_push_back _ _ _ _ he with h | ⟨e2, he2, h⟩
    · rw [h]; exact hs
    · rw [← h]; exact h2 e2 he2

/-- The body of the loop of `load` when no multi-line field is in progress in a section
that is not skipped, on a line that is not a comment, not blank and not a bracketed
header: the line is cut at its first `:`. -/
theorem load_line_record (line : Str) (s : LoadState) (c : Char) (tl : Str)
    (hskip : s.skip_section = false) (hempty : s.current_type = [])
    (hcomment : line.head? ≠ some ';') (hL : StringTrim line = c :: tl)
    (hhead : defines_section line = false) :
    load_line line s =
      if find line [':'] 0 = npos then .error (.io_error "line type delimiter not found")
      else
        match substr line 0 (find line [':'] 0), substr line (find line [':'] 0 + 1) with
        | .ok type, .ok data =>
          if MULTILINE_FIELDS.contains (StringTrim type) then
            .ok { s with current_type := StringTrim type, current_data := data }
          else .ok { s with file := s.file.add_line s.current_section (StringTrim type) data }
        | .error e, _ => .error e
        | _, .error e => .error e := by
  have hd : defines_section (c :: tl) = false := by
    rw [← hL, defines_section_trim, hhead]
  unfold load_line
  rw [if_neg hcomment, hL]
  dsimp only
  rw [if_neg (by rw [hd]; simp)]
  simp only [hskip, hempty, List.isEmpty_nil, Bool.not_true, Bool.not_false, Bool.and_false,
    Bool.and_self, Bool.false_eq_true, if_false, if_true]

/-- What the body of the loop of `load` does to the document and to the current section:
it adds at most one record, to the current section, and a new current section is a
canonical one. -/
theorem load_line_file (line : Str) (s s2 : LoadState) (h : load_line line s = .ok s2) :
    (s2.file = s.file ∨
      ∃ type data, s2.file = s.file.add_line s.current_section type data) ∧
    (s2.current_section = s.current_section ∨ s2.current_section ∈ SECTIONS) := by
  by_cases hcomment : line.head? = some ';'
  · rw [load_line_ignored line s (Or.inl hcomment)] at h
    cases h
    exact ⟨Or.inl rfl, Or.inl rfl⟩
  · rcases StringTrim_head line with hL | ⟨c, tl, hL, _⟩
    · rw [load_line_ignored line s (Or.inr hL)] at h
      cases h
      exact ⟨Or.inl rfl, Or.inl rfl⟩
    · cases hhead : defines_section line
      · cases hskip : s.skip_section
        · by_cases hprog : s.current_type = []
          · rw [load_line_record line s c tl hskip hprog hcomment hL hhead] at h
            split at h
            · cases h
            · split at h
              · split at h
                · cases h
                  exact ⟨Or.inl rfl, Or.inl rfl⟩
                · cases h
                  exact ⟨Or.inr ⟨_, _, rfl⟩, Or.inl rfl⟩
              · cases h
              · cases h
          · rw [load_line_continue line s c tl hskip hprog hcomment hL hhead] at h
            simp only [Except.ok.injEq] at h
            subst h
            split_ifs
            · exact ⟨Or.inr ⟨_, _, rfl⟩, Or.inl rfl⟩
            · exact ⟨Or.inr ⟨_, _, rfl⟩, Or.inl rfl⟩
            · exact ⟨Or.inl rfl, Or.inl rfl⟩
        · rw [load_line_skip line s hskip hhead] at h
          cases h
          exact ⟨Or.inl rfl, Or.inl rfl⟩
      · rw [load_line_header line s hhead] at h
        simp only [Except.ok.injEq] at h
        subst h
        dsimp only
        constructor
        · split_ifs
          · exact Or.inl rfl
          · exact Or.inr ⟨_, _, rfl⟩
        · split_ifs with hc
          · right
            simpa using hc
          · exact Or.inl rfl

/-- The body of the loop of `load` keeps the line break, the BOM flag and the header
comment of the document. -/
theorem load_line_sameHeader (line : Str) (s s2 : LoadState) (h : load_line line s = .ok s2) :
    sameHeader s2.file s.file := by
  rcases (load_line_file line s s2 h).1 with h1 | ⟨type, data, h1⟩
  · rw [h1]; exact sameHeader_refl _
  · rw [h1]; exact sameHeader_add_line _ _ _ _

/-- The body of the loop of `load` keeps the sections canonical. -/
theorem load_line_canonical (line : Str) (s s2 : LoadState) (hs : s.canonical)
    (h : load_line line s = .ok s2) : s2.canonical := by
  obtain ⟨hc, h1, h2⟩ := hs
  obtain ⟨hf, hcs⟩ := load_line_file line s s2 h
  refine ⟨?_, ?_⟩
  · rcases hcs with h3 | h3
    · rw [h3]; exact hc
    · exact h3
  · rcases hf with h3 | ⟨type, data, h3⟩
    · rw [h3]; exact ⟨h1, h2⟩
    · rw [h3]; exact add_line_canonical _ _ _ _ hc h1 h2

/-- The loop body applied to a list of lines keeps the sections canonical and the line
break. -/
theorem load_lines_canonical (lines : List Str) (s s2 : LoadState) (hs : s.canonical)
    (h : load_lines lines s = .ok s2) :
    s2.canonical ∧ s2.file.line_break_ = s.file.line_break_ := by
  induction lines generalizing s with
  | nil =>
    simp only [load_lines, Except.ok.injEq] at h
    subst h
    exact ⟨hs, rfl⟩
  | cons line rest ih =>
    unfold load_lines at h
    rcases hl : load_line line s with e | s1
    · rw [hl] at h; cases h
    · rw [hl] at h
      obtain ⟨h1, h2⟩ := ih s1 (load_line_canonical line s s1 hs hl) h
      exact ⟨h1, h2.trans (load_line_sameHeader line s s1 hl).2.1⟩

/-- The loop of `load` is its body applied in turn to the lines that `getline` returns. -/
theorem load_loop_lines (fuel : Nat) (input : ifstream) (s : LoadState) :
    load_loop fuel input s = load_lines (read_lines s.file.line_break_ fuel input) s := by
  induction fuel generalizing input s with
  | zero => rfl
  | succ n ih =>
    unfold load_loop read_lines
    rcases hg : getline input s.file.line_break_ with ⟨flag, line, input2⟩
    cases flag with
    | false => rfl
    | true =>
      dsimp only
      unfold load_lines
      rcases hl : load_line line s with e | s1
      · rfl
      · dsimp only
        rw [ih input2 s1, (load_line_sameHeader line s s1 hl).2.1]

/-- The lines read do not depend on the bound once it exceeds the number of characters
left: the reading ends by a failing `getline`. -/
theorem read_lines_fuel (delim : Str) (fuel : Nat) (input : ifstream)
    (h : input.rest.length < fuel) :
    read_lines delim (fuel + 1) input = read_lines delim fuel input := by
  induction fuel generalizing input with
  | zero => omega
  | succ n ih =>
    rw [read_lines]
    conv_rhs => rw [read_lines]
    rcases hg : getline input delim with ⟨flag, line, input2⟩
    cases flag with
    | false => rfl
    | true =>
      dsimp only
      have := getline_rest_lt input delim line input2 hg
      rw [ih input2 (by omega)]

/-- The loop body over two lists of lines in sequence. -/
theorem load_lines_append (l1 l2 : List Str) (s : LoadState) :
    load_lines (l1 ++ l2) s =
      match load_lines l1 s with
      | .error e => .error e
      | .ok s1 => load_lines l2 s1 := by
  induction l1 generalizing s with
  | nil => rfl
  | cons line rest ih =>
    rw [List.cons_append, load_lines]
    conv_rhs => rw [load_lines]
    rcases hl : load_line line s with e | s1
    · rfl
    · exact ih s1

/-- The lines of a skipped section leave the state as it is. -/
theorem load_lines_skip (ls : List Str) (s : LoadState) (hskip : s.skip_section = true)
    (h : ∀ l ∈ ls, defines_section l = false) : load_lines ls s = .ok s := by
  induction ls with
  | nil => rfl
  | cons line rest ih =>
    rw [load_lines, load_line_skip line s hskip (h line (List.mem_cons_self _ _))]
    exact ih (fun l hl => h l (List.mem_cons_of_mem _ hl))

/-- The lines between an unrecognized bracketed header and the next bracketed header can
be removed from the input of the loop. -/
theorem load_lines_skipped (pre ls post : List Str) (header : Str) (s : LoadState)
    (hh : defines_section header = true) (hu : StringTrim header ∉ SECTIONS)
    (h : ∀ l ∈ ls, defines_section l = false) :
    load_lines (pre ++ header :: (ls ++ post)) s = load_lines (pre ++ header :: post) s := by
  rw [load_lines_append, load_lines_append]
  rcases load_lines pre s with e | s1
  · rfl
  · dsimp only
    rw [load_lines, load_lines, load_line_header header s1 hh]
    dsimp only
    rw [load_lines_append, load_lines_skip ls _ _ h]
    simpa using hu

/-- The document with which the loop of `load` starts. -/
theorem load_eq (this : ASSFile) (input : ifstream) :
    this.load input =
      if !input.is_open then .error (.io_error "can't open input file")
      else
        match getline input LINE_SEPARATOR with
        | (false, _, _) => .error (.io_error "can't read input file")
        | (true, line, input2) =>
          if StringTrim (if StringStartsWith line BOM then StringGetAfter line BOM else line)
              ≠ SCRIPT_INFO then
            .error (.io_error "input file isn't a valid V4 Script")
          else
            match load_loop (input2.rest.length + 1) input2
              ⟨⟨StringStartsWith line BOM,
                if (if StringStartsWith line BOM then StringGetAfter line BOM else line).getLast?
                    = some '\r' then ['\r', '\n'] else this.line_break_,
                [], [SCRIPT_INFO], []⟩, false, [], [], SCRIPT_INFO⟩ with
            | .error e => .error e
            | .ok s =>
              if s.current_type = [] then .ok s.file
              else .ok (s.file.add_line s.current_section s.current_type s.current_data) := by
  unfold ASSFile.load
  by_cases ho : (!input.is_open) = true
  · simp only [ho, if_true]
  · simp only [ho, if_false, Bool.false_eq_true]
    rcases getline input LINE_SEPARATOR with ⟨flag, line, input2⟩
    cases flag with
    | false => rfl
    | true =>
      dsimp only
      by_cases hb : StringStartsWith line BOM = true <;>
      by_cases hsi : StringTrim (StringGetAfter line BOM) = SCRIPT_INFO <;>
      by_cases hsi2 : StringTrim line = SCRIPT_INFO <;>
      by_cases hcr : (StringGetAfter line BOM).getLast? = some '\r' <;>
      by_cases hcr2 : line.getLast? = some '\r' <;>
      simp only [hb, hsi, hsi2, hcr, hcr2, ASSFile.clear, set_insert, if_true, if_false,
        Bool.false_eq_true, ne_eq, not_true_eq_false, not_false_eq_true, List.not_mem_nil,
        List.nil_append] <;>
      first
        | rfl
        | (generalize load_loop (input2.rest.length + 1) input2 _ = r
           rcases r with e | s
           · rfl
           · cases hct : s.current_type <;> simp [hct])

/-- A successful `load`: the first line is read with the default line break, the loop
body is applied to the lines that follow, read with the line break of the document, and
a field still in progress after the last line is added as a record. -/
theorem load_ok (this : ASSFile) (input : ifstream) (d : ASSFile)
    (h : this.load input = .ok d) :
    ∃ line input2 line_break s,
      getline input LINE_SEPARATOR = (true, line, input2) ∧
      load_lines (read_lines line_break (input2.rest.length + 1) input2)
        ⟨⟨StringStartsWith line BOM, line_break, [], [SCRIPT_INFO], []⟩, false, [], [],
          SCRIPT_INFO⟩ = .ok s ∧
      d = (if s.current_type = [] then s.file
        else s.file.add_line s.current_section s.current_type s.current_data) := by
  rw [load_eq] at h
  by_cases ho : (!input.is_open) = true
  · rw [if_pos ho] at h; cases h
  · rw [if_neg ho] at h
    rcases hg : getline input LINE_SEPARATOR with ⟨flag, line, input2⟩
    rw [hg] at h
    cases flag with
    | false => cases h
    | true =>
      dsimp only at h
      by_cases hsi : StringTrim (if StringStartsWith line BOM then StringGetAfter line BOM
          else line) ≠ SCRIPT_INFO
      · rw [if_pos hsi] at h; cases h
      · rw [if_neg hsi] at h
        generalize (if (if StringStartsWith line BOM then StringGetAfter line BOM
          else line).getLast? = some '\r' then ['\r', '\n'] else this.line_break_) = lb at h
        rw [load_loop_lines] at h
        dsimp only at h
        rcases hs : load_lines (read_lines lb (input2.rest.length + 1) input2)
          ⟨⟨StringStartsWith line BOM, lb, [], [SCRIPT_INFO], []⟩, false, [], [], SCRIPT_INFO⟩
          with e | s
        · rw [hs] at h; cases h
        · rw [hs] at h
          dsimp only at h
          refine ⟨line, input2, lb, s, rfl, hs, ?_⟩
          by_cases hct : s.current_type = []
          · rw [if_pos hct] at h ⊢
            cases h
            rfl
          · rw [if_neg hct] at h ⊢
            cases h
            rfl

/-- The sections of a loaded document are canonical. -/
theorem load_canonical (this : ASSFile) (input : ifstream) (d : ASSFile)
    (h : this.load input = .ok d) :
    (∀ key ∈ d.sections_, key ∈ SECTIONS) ∧ ∀ e ∈ d.sections_map_, e.1 ∈ SECTIONS := by
  obtain ⟨line, input2, lb, s, _, hs, hd⟩ := load_ok this input d h
  have h0 : LoadState.canonical ⟨⟨StringStartsWith line BOM, lb, [], [SCRIPT_INFO], []⟩, false,
      [], [], SCRIPT_INFO⟩ := by
    refine ⟨(by decide : SCRIPT_INFO ∈ SECTIONS), ?_, ?_⟩
    · intro key hk
      simp only [List.mem_singleton] at hk
      rw [hk]; exact (by decide : SCRIPT_INFO ∈ SECTIONS)
    · intro e he
      cases he
  obtain ⟨⟨hc, h1, h2⟩, _⟩ := load_lines_canonical _ _ _ h0 hs
  rw [hd]
  split
  · exact ⟨h1, h2⟩
  · exact add_line_canonical _ _ _ _ hc h1 h2

/-! ## Lemmas: the fields of a rewritten event -/

/-- The loop of `get_field` over a prefix that holds `n` delimiters and ends with one. -/
theorem get_field_loop_at (n : Nat) (a pre rest : Str) (hlen : (a ++ (pre ++ rest)).length < npos)
    (hc : pre.count ',' = n) (hl : pre = [] ∨ pre.getLast? = some ',') :
    get_field_loop (a ++ (pre ++ rest)) [','] n a.length = (true, a.length + pre.length) := by
  induction n generalizing a pre with
  | zero =>
    have hp : pre = [] := by
      rcases hl with h | h
      · exact h
      · have := mem_of_getLast? pre ',' h
        have := List.count_pos_iff.mpr this
        omega
    subst hp
    simp [get_field_loop]
  | succ n ih =>
    rcases first_comma pre with hn | ⟨p, w, hp, hpn⟩
    · rw [List.count_eq_zero_of_not_mem hn] at hc
      omega
    · subst hp
      have hfind : find (a ++ (p ++ ',' :: w ++ rest)) [','] a.length = a.length + p.length := by
        rw [find_append]
        simp only [List.append_assoc, List.cons_append]
        exact findFrom_some p _ _ hpn
      have hne : a.length + p.length ≠ npos := by
        simp only [List.length_append, List.length_cons] at hlen
        omega
      rw [get_field_loop]
      simp only [hfind, if_neg hne]
      have hcw : w.count ',' = n := by
        simp only [List.count_append, List.count_cons_self,
          List.count_eq_zero_of_not_mem hpn] at hc
        omega
      have hlw : w = [] ∨ w.getLast? = some ',' := by
        by_cases hw : w = []
        · exact Or.inl hw
        · right
          rcases hl with h | h
          · simp at h
          · rw [show p ++ ',' :: w = (p ++ [',']) ++ w by simp,
              getLast?_append_ne _ _ hw] at h
            exact h
      have := ih (a ++ (p ++ [','])) w (by simpa using hlen) hcw hlw
      simp only [List.append_assoc, List.singleton_append, List.length_append,
        List.length_cons, List.length_nil] at this
      simp only [List.append_assoc, List.cons_append, List.length_append, List.length_cons]
      have e1 : a.length + (p.length + (0 + 1)) = a.length + p.length + 1 := by omega
      rw [e1] at this
      rw [this]
      congr 1
      omega

/-- The span of a field that is followed by a delimiter, read off a line cut after a
prefix with `idx` delimiters. -/
theorem get_field_at (idx : Nat) (pre u w : Str) (hlen : (pre ++ (u ++ ',' :: w)).length < npos)
    (hc : pre.count ',' = idx) (hl : pre = [] ∨ pre.getLast? = some ',') (hu : ',' ∉ u) :
    get_field (pre ++ (u ++ ',' :: w)) idx = (true, pre.length, pre.length + u.length) := by
  have h := get_field_loop_at idx [] pre (u ++ ',' :: w) (by simpa using hlen) hc hl
  simp only [List.nil_append, List.length_nil, Nat.zero_add] at h
  unfold get_field
  have hd : FIELD_DELIMITER = [','] := rfl
  rw [hd, h]
  dsimp only
  rw [find_append, findFrom_some u w _ hu]
  simp

/-- The line of an event in which `get_field` finds two fields, each followed by a
delimiter, cut at the two spans. -/
theorem get_field_two_full (line : Str) (i j : Nat) (hlen : line.length < npos) (hij : i < j)
    (hi : (get_field line i).1 = true) (hj : (get_field line j).1 = true)
    (hje : (get_field line j).2.2 ≠ npos) :
    ∃ mid u x u2 w2, line = mid ++ (u ++ ',' :: (x ++ (u2 ++ ',' :: w2))) ∧
      ',' ∉ u ∧ ',' ∉ u2 ∧ mid.count ',' = i ∧ (mid = [] ∨ mid.getLast? = some ',') ∧
      (mid ++ (u ++ ',' :: x)).count ',' = j ∧ (x = [] ∨ x.getLast? = some ',') ∧
      get_field line i = (true, mid.length, mid.length + u.length) ∧
      get_field line j = (true, mid.length + u.length + 1 + x.length,
        mid.length + u.length + 1 + x.length + u2.length) := by
  rcases get_field_cases line j hlen with ⟨h1, _⟩ | ⟨midj, restj, toksj, hj1, hj2, hj3, _, hj5, _, _⟩
  · rw [h1] at hj; cases hj
  · rcases get_field_cases line i hlen with
      ⟨h1, _⟩ | ⟨midi, resti, toksi, hi1, hi2, hi3, hi4, hi5, _, _⟩
    · rw [h1] at hi; cases hi
    · have hpi : midi <+: line := ⟨resti, hi1.symm⟩
      have hpj : midj <+: line := ⟨restj, hj1.symm⟩
      have hlt : midi.length < midj.length := by
        by_contra hge
        have := count_le_of_prefix _ _ (List.prefix_of_prefix_length_le hpj hpi (by omega))
        omega
      obtain ⟨y, hy⟩ := List.prefix_of_prefix_length_le hpi hpj (by omega)
      have hline : line = midi ++ (y ++ restj) := by rw [hj1, ← hy, List.append_assoc]
      have hresti : resti = y ++ restj := by
        have := hi1.symm.trans hline
        exact List.append_cancel_left this
      have hycount : 0 < y.count ',' := by
        have : midj.count ',' = midi.count ',' + y.count ',' := by
          rw [← hy, List.count_append]
        omega
      have hmid : midi = [] ∨ midi.getLast? = some ',' := by
        by_cases h0 : i = 0
        · exact Or.inl (hi4 h0)
        · exact Or.inr (hi5 h0)
      rw [hj2] at hje hj
      dsimp only at hje hj
      rcases first_comma restj with hn | ⟨u2, w2, hr, hu2⟩
      · rw [findFrom_none restj _ hn] at hje
        exact absurd rfl hje
      · rcases first_comma y with hn | ⟨u, w, hyw, hu⟩
        · rw [List.count_eq_zero_of_not_mem hn] at hycount
          omega
        · subst hyw
          subst hr
          have hjl : midj.getLast? = some ',' := hj5 (by omega)
          have hx : w = [] ∨ w.getLast? = some ',' := by
            by_cases hw : w = []
            · exact Or.inl hw
            · right
              rw [← hy, show midi ++ (u ++ ',' :: w) = (midi ++ (u ++ [','])) ++ w by simp,
                getLast?_append_ne _ _ hw] at hjl
              exact hjl
          refine ⟨midi, u, w, u2, w2, ?_, hu, hu2, hi3, hmid, ?_, hx, ?_, ?_⟩
          · rw [hline]; simp
          · rw [hy]; exact hj3
          · rw [hi2, hresti]
            have hlen2 : midi.length < line.length := by
              rw [hline]; simp
            simp only [List.append_assoc, List.cons_append, findFrom_some u _ _ hu,
              decide_eq_true hlen2]
          · rw [hj2, findFrom_some u2 w2 _ hu2, hj, ← hy]
            simp only [List.length_append, List.length_cons, Prod.mk.injEq, true_and]
            omega

/-- The fields of a line in which the texts of two delimited fields are replaced by
texts without delimiter: the two fields of the new line are the new texts. -/
theorem field_text_replaced (mid u x w2 t1 t2 : Str) (i j : Nat)
    (hlen : (mid ++ (t1 ++ ',' :: (x ++ (t2 ++ ',' :: w2)))).length < npos)
    (hu : ',' ∉ u) (ht1 : ',' ∉ t1) (ht2 : ',' ∉ t2)
    (hi : mid.count ',' = i) (hmid : mid = [] ∨ mid.getLast? = some ',')
    (hj : (mid ++ (u ++ ',' :: x)).count ',' = j) (hx : x = [] ∨ x.getLast? = some ',') :
    field_text (mid ++ (t1 ++ ',' :: (x ++ (t2 ++ ',' :: w2)))) i = some t1 ∧
    field_text (mid ++ (t1 ++ ',' :: (x ++ (t2 ++ ',' :: w2)))) j = some t2 := by
  constructor
  · unfold field_text
    rw [get_field_at i mid t1 _ hlen hi hmid ht1]
    simp
  · have hc : (mid ++ (t1 ++ ',' :: x)).count ',' = j := by
      rw [← hj]
      simp only [List.count_append, List.count_cons_self, List.count_eq_zero_of_not_mem hu,
        List.count_eq_zero_of_not_mem ht1]
    have hl : (mid ++ (t1 ++ ',' :: x)) = [] ∨ (mid ++ (t1 ++ ',' :: x)).getLast? = some ',' := by
      right
      rcases hx with h | h
      · subst h
        simp
      · have hxn : x ≠ [] := by
          intro h0; rw [h0] at h; cases h
        rw [show mid ++ (t1 ++ ',' :: x) = (mid ++ (t1 ++ [','])) ++ x by simp,
          getLast?_append_ne _ _ hxn]
        exact h
    have e : mid ++ (t1 ++ ',' :: (x ++ (t2 ++ ',' :: w2)))
        = (mid ++ (t1 ++ ',' :: x)) ++ (t2 ++ ',' :: w2) := by simp
    unfold field_text
    rw [e, get_field_at j _ t2 w2 (by rw [← e]; exact hlen) hc hl ht2]
    simp

/-- A text written by `format_time` has ten characters. -/
theorem format_time_length (n : Nat) (s : Str) (h : format_time n = .ok s) : s.length = 10 := by
  by_cases hn : n < 3600000
  · rw [format_time_ok n hn] at h
    cases h
    rfl
  · unfold format_time at h
    rw [if_pos (by omega)] at h
    cases h

/-- A successful rewrite has copied the text after the later span, whose end is
therefore a position of the line. -/
theorem event_data_ok_end (line : Str) (sb se eb ee : Nat) (s1 s2 out : Str)
    (h : event_data line sb se eb ee s1 s2 = .ok out) :
    (sb < eb → ee ≤ line.length) ∧ (¬ sb < eb → se ≤ line.length) := by
  unfold event_data at h
  constructor
  · intro hlt
    rw [if_pos hlt] at h
    by_contra hgt
    have h3 : substr line ee = .error .out_of_range := by
      unfold substr
      rw [if_pos (by omega)]
    rcases h1 : substr line 0 sb with e1 | a <;>
    rcases h2 : substr line se (size_sub eb se) with e2 | b <;>
    rw [h1, h2, h3] at h <;> simp at h
  · intro hlt
    rw [if_neg hlt] at h
    by_contra hgt
    have h3 : substr line se = .error .out_of_range := by
      unfold substr
      rw [if_pos (by omega)]
    split at h
    · rcases h1 : substr line 0 eb with e1 | a <;>
      rcases h2 : substr line ee (size_sub sb ee) with e2 | b <;>
      rw [h1, h2, h3] at h <;> simp at h
    · cases h

/-- The fields of a rewritten event: the texts written for `Start` and `End` are the
fields of the new data at the indices of `Start` and `End`. -/
theorem event_data_fields (line : Str) (start_idx end_idx : Nat) (start_str end_str out : Str)
    (hlen : line.length + start_str.length + end_str.length < npos)
    (hne : start_idx ≠ end_idx)
    (hs : (get_field line start_idx).1 = true) (he : (get_field line end_idx).1 = true)
    (hns : ',' ∉ start_str) (hne2 : ',' ∉ end_str)
    (h : event_data line (get_field line start_idx).2.1 (get_field line start_idx).2.2
        (get_field line end_idx).2.1 (get_field line end_idx).2.2 start_str end_str = .ok out) :
    field_text out start_idx = some start_str ∧ field_text out end_idx = some end_str := by
  have hlen1 : line.length < npos := by omega
  obtain ⟨hend1, hend2⟩ := event_data_ok_end _ _ _ _ _ _ _ _ h
  rcases Nat.lt_or_gt_of_ne hne with hlt | hlt
  · have hord := get_field_ordered line start_idx end_idx hlen1 hlt hs he
    have hee : (get_field line end_idx).2.2 ≠ npos := by
      have := hend1 (by omega)
      omega
    obtain ⟨mid, u, x, u2, w2, hline, hu, hu2, hi, hmid, hj, hx, hgi, hgj⟩ :=
      get_field_two_full line start_idx end_idx hlen1 hlt hs he hee
    obtain ⟨_, h2, _, _⟩ := event_data_ordered line start_idx end_idx start_str end_str hlen1 hlt
      hs he hee
    rw [h2] at h
    simp only [Except.ok.injEq] at h
    subst h
    subst hline
    obtain ⟨_, _, _, p4, p5, p6⟩ := splice_pieces mid u x u2 w2 hlen1
    rw [hgi, hgj]
    simp only [replace_two, p4, p5, p6]
    have e : mid ++ start_str ++ ',' :: x ++ end_str ++ ',' :: w2
        = mid ++ (start_str ++ ',' :: (x ++ (end_str ++ ',' :: w2))) := by simp
    rw [e]
    refine field_text_replaced mid u x w2 start_str end_str start_idx end_idx ?_ hu hns hne2 hi
      hmid hj hx
    simp only [List.length_append, List.length_cons] at hlen ⊢
    omega
  · have hord := get_field_ordered line end_idx start_idx hlen1 hlt he hs
    have hse : (get_field line start_idx).2.2 ≠ npos := by
      have := hend2 (by omega)
      omega
    obtain ⟨mid, u, x, u2, w2, hline, hu, hu2, hi, hmid, hj, hx, hgi, hgj⟩ :=
      get_field_two_full line end_idx start_idx hlen1 hlt he hs hse
    obtain ⟨_, _, h3, _⟩ := event_data_ordered line end_idx start_idx end_str start_str hlen1 hlt
      he hs hse
    rw [h3] at h
    simp only [Except.ok.injEq] at h
    subst h
    subst hline
    obtain ⟨_, _, _, p4, p5, p6⟩ := splice_pieces mid u x u2 w2 hlen1
    rw [hgi, hgj]
    simp only [replace_two, p4, p5, p6]
    have e : mid ++ end_str ++ ',' :: x ++ start_str ++ ',' :: w2
        = mid ++ (end_str ++ ',' :: (x ++ (start_str ++ ',' :: w2))) := by simp
    rw [e]
    refine (field_text_replaced mid u x w2 end_str start_str end_idx start_idx ?_ hu hne2 hns hi
      hmid hj hx).symm
    simp only [List.length_append, List.length_cons] at hlen ⊢
    omega

/-- The value of a defined timestamp field is its own conversion to `time_signed_t`. -/
theorem to_signed_field_time (data : Str) (idx v : Nat) (h : field_time data idx = some v) :
    to_signed v = (v : Int) := by
  unfold to_signed
  rw [if_pos (field_time_lt data idx v h)]

/-- One iteration of the event loop of `transform` for an event whose `Start` is not
defined: the two texts written are empty. -/
theorem transform_event_undefined (offset : Int) (scale : Double) (start_idx end_idx : Nat)
    (line_type line_data : Str) (sb se start eb ee end_ts : Nat) (end_span : Bool)
    (hs : locate_time line_data start_idx (2 ^ 31 - 1) "'Start' field cannot be retrieved"
      = .ok (sb, se, start, false))
    (he : locate_time line_data end_idx (2 ^ 31 - 1) "'End' field cannot be retrieved"
      = .ok (eb, ee, end_ts, end_span)) :
    transform_event offset scale start_idx end_idx line_type line_data
      = event_data line_data sb se eb ee [] [] := by
  obtain ⟨_, _, hst⟩ := locate_time_ok_cases _ _ _ _ _ _ _ _ hs
  obtain ⟨_, hfe, het⟩ := locate_time_ok_cases _ _ _ _ _ _ _ _ he
  have h1 : start = 2 ^ 31 - 1 := hst rfl
  have h2 : 0 ≤ to_signed end_ts := by
    cases end_span with
    | false =>
      rw [het rfl]
      decide
    | true =>
      rw [if_pos rfl] at hfe
      exact to_signed_nonneg _ (field_time_lt _ _ _ hfe)
  have h3 : ¬ (to_signed start < 0 ∨ to_signed end_ts < 0) := by
    rw [h1]
    have : (0 : Int) ≤ to_signed (2 ^ 31 - 1) := by decide
    omega
  unfold transform_event
  rw [hs, he]
  simp only [transform_times, Bool.not_false, if_true, h3, if_false, Bool.false_eq_true]

/-- The two fields of a successfully rewritten event of `transform`: whether they are
defined, and the texts that the new data holds at the indices of `Start` and `End`. -/
theorem transform_event_fields (offset : Int) (scale : Double) (start_idx end_idx : Nat)
    (line_type line_data out : Str) (hlen : line_data.length + 20 < npos)
    (hne : start_idx ≠ end_idx)
    (h : transform_event offset scale start_idx end_idx line_type line_data = .ok out) :
    (field_time line_data start_idx = none ↔
      (get_field line_data start_idx).2.2 ≤ (get_field line_data start_idx).2.1) ∧
    (field_time line_data end_idx = none ↔
      (get_field line_data end_idx).2.2 ≤ (get_field line_data end_idx).2.1) ∧
    (∀ start, field_time line_data start_idx = some start →
      (∃ v text, scale_offset (start : Int) scale offset = .ok v ∧ 0 ≤ v ∧
        format_time v.toNat = .ok text ∧ field_text out start_idx = some text) ∧
      (∀ end_, field_time line_data end_idx = some end_ →
        ¬ (line_type = COMMAND_EVENT ∨ line_type = SOUND_EVENT) →
        ∃ w text, scale_offset (end_ : Int) scale offset = .ok w ∧ 0 ≤ w ∧
          format_time w.toNat = .ok text ∧ field_text out end_idx = some text) ∧
      (field_time line_data end_idx = none ∨ line_type = COMMAND_EVENT ∨
          line_type = SOUND_EVENT → field_text out end_idx = some [])) ∧
    (field_time line_data start_idx = none →
      field_text out start_idx = some [] ∧ field_text out end_idx = some []) := by
  rcases hs : locate_time line_data start_idx (2 ^ 31 - 1) "'Start' field cannot be retrieved"
    with e | ⟨sb, se, sts, sdef⟩
  · unfold transform_event at h
    rw [hs] at h
    cases h
  rcases he : locate_time line_data end_idx (2 ^ 31 - 1) "'End' field cannot be retrieved"
    with e | ⟨eb, ee, ets, edef⟩
  · unfold transform_event at h
    rw [hs, he] at h
    cases h
  obtain ⟨hgs, hfs, _⟩ := locate_time_ok_cases _ _ _ _ _ _ _ _ hs
  obtain ⟨hge, hfe, _⟩ := locate_time_ok_cases _ _ _ _ _ _ _ _ he
  have hspan_s : sdef = decide (sb < se) := by
    rw [locate_time_eq, hgs] at hs
    dsimp only at hs
    split at hs
    · rename_i hlt
      split at hs
      · simp only [Except.ok.injEq, Prod.mk.injEq] at hs
        rw [← hs.2.2.2]; simp [hlt]
      · cases hs
    · rename_i hlt
      simp only [Except.ok.injEq, Prod.mk.injEq] at hs
      rw [← hs.2.2.2]; simp [hlt]
  have hspan_e : edef = decide (eb < ee) := by
    rw [locate_time_eq, hge] at he
    dsimp only at he
    split at he
    · rename_i hlt
      split at he
      · simp only [Except.ok.injEq, Prod.mk.injEq] at he
        rw [← he.2.2.2]; simp [hlt]
      · cases he
    · rename_i hlt
      simp only [Except.ok.injEq, Prod.mk.injEq] at he
      rw [← he.2.2.2]; simp [hlt]
  have hflag_s : (get_field line_data start_idx).1 = true := by rw [hgs]
  have hflag_e : (get_field line_data end_idx).1 = true := by rw [hge]
  have hfields : ∀ s1 s2 : Str, s1.length ≤ 10 → s2.length ≤ 10 → ',' ∉ s1 → ',' ∉ s2 →
      event_data line_data sb se eb ee s1 s2 = .ok out →
      field_text out start_idx = some s1 ∧ field_text out end_idx = some s2 := by
    intro s1 s2 hl1 hl2 hn1 hn2 hev
    refine event_data_fields line_data start_idx end_idx s1 s2 out (by omega) hne hflag_s
      hflag_e hn1 hn2 ?_
    rw [hgs, hge]
    exact hev
  refine ⟨?_, ?_, ?_, ?_⟩
  · rw [hfs, hgs, hspan_s]
    by_cases hlt : sb < se <;> simp [hlt]
    omega
  · rw [hfe, hge, hspan_e]
    by_cases hlt : eb < ee <;> simp [hlt]
    omega
  · intro start hstart
    rw [hfs] at hstart
    cases sdef with
    | false => simp at hstart
    | true =>
      simp only [if_true, Option.some.injEq] at hstart
      subst hstart
      have hst : to_signed sts = (sts : Int) := to_signed_field_time _ _ _ (by rw [hfs]; rfl)
      rw [transform_event_located offset scale start_idx end_idx line_type line_data sb se sts
        eb ee ets edef hs he, hst] at h
      rcases hv : scale_offset (sts : Int) scale offset with e | v
      · rw [hv] at h; cases h
      rw [hv] at h
      dsimp only at h
      by_cases huse : (if line_type = COMMAND_EVENT ∨ line_type = SOUND_EVENT then false
          else edef) = true
      · -- the End field is used
        have hnt : ¬ (line_type = COMMAND_EVENT ∨ line_type = SOUND_EVENT) := by
          intro hc; rw [if_pos hc] at huse; cases huse
        rw [if_neg hnt] at huse
        subst huse
        have het : to_signed ets = (ets : Int) := to_signed_field_time _ _ _ (by rw [hfe]; rfl)
        simp only [if_neg hnt, if_true, het] at h
        rcases hw : scale_offset (ets : Int) scale offset with e | w
        · rw [hw] at h; cases h
        rw [hw] at h
        dsimp only at h
        split at h
        · cases h
        · rename_i hneg
          rcases ht1 : format_time v.toNat with e | t1
          · rw [ht1] at h; cases h
          rw [ht1] at h
          dsimp only at h
          rcases ht2 : format_time w.toNat with e | t2
          · rw [ht2] at h; cases h
          rw [ht2] at h
          dsimp only at h
          obtain ⟨hf1, hf2⟩ := hfields t1 t2 (by rw [format_time_length _ _ ht1])
            (by rw [format_time_length _ _ ht2]) (format_time_no_comma _ _ ht1)
            (format_time_no_comma _ _ ht2) h
          refine ⟨⟨v, t1, rfl, by omega, ht1, hf1⟩, ?_, ?_⟩
          · intro end_ hend _
            rw [hfe] at hend
            simp only [if_true, Option.some.injEq] at hend
            subst hend
            exact ⟨w, t2, hw, by omega, ht2, hf2⟩
          · intro hor
            rcases hor with h1 | h1 | h1
            · rw [hfe] at h1; simp at h1
            · exact absurd (Or.inl h1) hnt
            · exact absurd (Or.inr h1) hnt
      · -- the End field is not used
        simp only [huse, if_false, Bool.false_eq_true] at h
        split at h
        · cases h
        · rename_i hneg
          rcases ht1 : format_time v.toNat with e | t1
          · rw [ht1] at h; cases h
          rw [ht1] at h
          dsimp only at h
          obtain ⟨hf1, hf2⟩ := hfields t1 [] (by rw [format_time_length _ _ ht1])
            (by simp) (format_time_no_comma _ _ ht1) (by simp) h
          refine ⟨⟨v, t1, rfl, by omega, ht1, hf1⟩, ?_, ?_⟩
          · intro end_ hend hnt
            rw [hfe] at hend
            cases edef with
            | false => simp at hend
            | true => rw [if_neg hnt] at huse; exact absurd rfl huse
          · intro _
            exact hf2
  · intro hnone
    rw [hfs] at hnone
    cases sdef with
    | true => simp at hnone
    | false =>
      rw [transform_event_undefined offset scale start_idx end_idx line_type line_data sb se sts
        eb ee ets edef hs he] at h
      exact hfields [] [] (by simp) (by simp) (by simp) (by simp) h

/-- A quotient without remainder is not changed by the rounding to an integer. -/
theorem roundHalfEven_exact (k q : Nat) (hq : 0 < q) : roundHalfEven (k * q) q = k := by
  unfold roundHalfEven
  simp only [Nat.mul_mod_left, Nat.mul_div_cancel _ hq]
  simp [hq]

/-- A whole number below `2 ^ 31` is a `double`: `round64` returns it unchanged. -/
theorem round64_whole (k q : Nat) (hq : 0 < q) (hk : k < 2 ^ 31) :
    ∃ S, (round64 (k * q) q).n = k * 2 ^ S ∧ (round64 (k * q) q).d = S ∧
      (round64 (k * q) q).overflow = false := by
  rcases Nat.eq_zero_or_pos k with h0 | hpos
  · subst h0
    refine ⟨0, ?_⟩
    simp [round64_zero]
  · have hp : 0 < k * q := Nat.mul_pos hpos hq
    have hle := ilog2_le (k * q) q hp hq
    have hval : ((k * q : Nat) : ℚ) / q = k := by
      have hq' : (q : ℚ) ≠ 0 := by exact_mod_cast (by omega : q ≠ 0)
      push_cast
      field_simp
    rw [hval] at hle
    have hk' : (k : ℚ) < 2 ^ (31 : Int) := by
      have h31 : (2 : ℚ) ^ (31 : Int) = ((2 ^ 31 : Nat) : ℚ) := by norm_num
      rw [h31]
      exact_mod_cast hk
    have he : ilog2 (k * q) q < 31 := by
      have hlt : (2 : ℚ) ^ ilog2 (k * q) q < 2 ^ (31 : Int) := lt_of_le_of_lt hle hk'
      exact (zpow_lt_zpow_iff_right₀ (by norm_num : (1 : ℚ) < 2)).mp hlt
    have hup := lt_ilog2 (k * q) q hp hq
    rw [hval] at hup
    have he0 : 0 ≤ ilog2 (k * q) q := by
      by_contra hneg
      have h1 : ilog2 (k * q) q + 1 ≤ 0 := by omega
      have h2 : (2 : ℚ) ^ (ilog2 (k * q) q + 1) ≤ 2 ^ (0 : Int) :=
        zpow_le_zpow_right₀ (by norm_num) h1
      have h3 : (1 : ℚ) ≤ k := by exact_mod_cast hpos
      simp only [zpow_zero] at h2
      linarith
    obtain ⟨S, hS⟩ : ∃ S : Nat, min (52 - ilog2 (k * q) q) 1074 = (S : Int) :=
      ⟨(min (52 - ilog2 (k * q) q) 1074).toNat, by
        rw [Int.toNat_of_nonneg]
        omega⟩
    obtain ⟨h1, h2, h3⟩ := round64_fine (k * q) q S hp hS
    refine ⟨S, ?_, h2, h3⟩
    rw [h1, show k * q * 2 ^ S = (k * 2 ^ S) * q by ring]
    exact roundHalfEven_exact _ _ hq

/-- The statements `ts *= scale; ts += offset` when the product is a whole number `k`:
the result is `k + offset`, or `-k + offset` for a negative `scale`. -/
theorem scale_offset_whole (x n d k : Nat) (neg : Bool) (offset : Int)
    (hprod : x * n = k * 2 ^ d) (hk : k < 2 ^ 31)
    (hsum : -(2 ^ 31) ≤ (if neg then -(k : Int) else k) + offset ∧
      (if neg then -(k : Int) else k) + offset < 2 ^ 31) :
    scale_offset (x : Int) (.finite neg n d) offset
      = .ok ((if neg then -(k : Int) else k) + offset) := by
  obtain ⟨S, h1, h2, h3⟩ := round64_whole k (2 ^ d) (by positivity) hk
  have hm : Double.mulInt (.finite neg n d) (x : Int) = .finite neg (k * 2 ^ S) S := by
    unfold Double.mulInt
    have hx : ¬ ((x : Int) < 0) := by omega
    simp only [Int.natAbs_ofNat, hprod, h3, Bool.false_eq_true, if_false, h1, h2, hx,
      decide_False, Bool.false_xor]
  have hdiv : k * 2 ^ S / 2 ^ S = k := Nat.mul_div_cancel _ (by positivity)
  unfold scale_offset
  rw [hm]
  cases neg with
  | false =>
    simp only [Double.toSigned, hdiv, Bool.false_eq_true, if_false, hk, if_true]
    simp only [Bool.false_eq_true, if_false] at hsum
    rw [if_pos hsum]
  | true =>
    have hk2 : k ≤ 2 ^ 31 := by omega
    simp only [Double.toSigned, hdiv, if_true, hk2]
    simp only [if_true] at hsum
    rw [if_pos hsum]

/-- The records that a partial map keeps when it is defined on every element. -/
theorem forall₂_filterMap {α β : Type} (f : α → Option β) (R : α → β → Prop) (l : List α)
    (h : ∀ x ∈ l, ∃ y, f x = some y ∧ R x y) : List.Forall₂ R l (l.filterMap f) := by
  induction l with
  | nil => exact List.Forall₂.nil
  | cons x xs ih =>
    obtain ⟨y, hy, hr⟩ := h x (List.mem_cons_self _ _)
    rw [List.filterMap_cons, hy]
    exact List.Forall₂.cons hr (ih (fun z hz => h z (List.mem_cons_of_mem _ hz)))

/-! ## The parser, the line reader, the affine shift and the order of the spans -/

/-- C21 (counterexample): three runs of `transform` that succeed and write a `Start`
that is not the text of `start * scale + offset`.  With `scale` the `double` nearest to
one third and `offset = 0`, the event that starts at 0.03 s has
`start * scale + offset < 1`, and `0:00:00.01`, the text of `1`, is written: the product
is rounded to the `double` `1.0`.  With `scale` the `double` next below one and
`offset = 100`, the event that starts at 0.01 s has `start * scale + offset > 100.5`,
the `double` nearest to this sum is `101`, and `0:00:01.00`, the text of `100`, is
written: the product is converted to the integer `0` before the offset is added.  With
`scale = -0.75` and `offset = 1`, the event that starts at 0.01 s has
`start * scale + offset = 0.25`, and `0:00:00.01` is written. -/
theorem transform_adds_offset_after_truncation :
    (stod "0.333333333333333314829616256247".toList = .ok (.finite false 6004799503160661 54) ∧
      field_time "0:00:00.03,0:00:09.00,Hi".toList 0 = some 3 ∧
      (3 : ℚ) * (Double.finite false 6004799503160661 54).toRat + (0 : Int) < 1 ∧
      scale_offset 3 (.finite false 6004799503160661 54) 0 = .ok 1 ∧
      transform early_event 0 (.finite false 6004799503160661 54) (ASSFile.new) = .ok
        ⟨false, LINE_SEPARATOR, [], [SCRIPT_INFO, EVENTS],
          [(SCRIPT_INFO, [("Title".toList, " x".toList)]),
           (EVENTS, [("Format".toList, "Start,End,Text".toList),
                     ("Dialogue".toList, "0:00:00.01,0:00:03.00,Hi".toList)])]⟩) ∧
    (stod "0.99999999999999988897769753748".toList = .ok (.finite false 9007199254740991 53) ∧
      field_time "0:00:00.01,0:00:00.01,Hi".toList 0 = some 1 ∧
      (100 : ℚ) + 1 / 2 < (1 : ℚ) * (Double.finite false 9007199254740991 53).toRat + (100 : Int) ∧
      round64 (9007199254740991 + 100 * 2 ^ 53) (2 ^ 53) = ⟨101 * 2 ^ 46, 46, false, false⟩ ∧
      scale_offset 1 (.finite false 9007199254740991 53) 100 = .ok 100 ∧
      transform first_centisecond 100 (.finite false 9007199254740991 53) (ASSFile.new) = .ok
        ⟨false, LINE_SEPARATOR, [], [SCRIPT_INFO, EVENTS],
          [(SCRIPT_INFO, [("Title".toList, " x".toList)]),
           (EVENTS, [("Format".toList, "Start,End,Text".toList),
                     ("Dialogue".toList, "0:00:01.00,0:00:01.00,Hi".toList)])]⟩) ∧
    ((1 : ℚ) * (Double.finite true 3 2).toRat + (1 : Int) = 1 / 4 ∧
      scale_offset 1 (.finite true 3 2) 1 = .ok 1 ∧
      transform first_centisecond 1 (.finite true 3 2) (ASSFile.new) = .ok
        ⟨false, LINE_SEPARATOR, [], [SCRIPT_INFO, EVENTS],
          [(SCRIPT_INFO, [("Title".toList, " x".toList)]),
           (EVENTS, [("Format".toList, "Start,End,Text".toList),
                     ("Dialogue".toList, "0:00:00.01,0:00:00.01,Hi".toList)])]⟩) ∧
    format_time 0 = .ok "0:00:00.00".toList ∧ format_time 1 = .ok "0:00:00.01".toList ∧
    format_time 100 = .ok "0:00:01.00".toList ∧ format_time 101 = .ok "0:00:01.01".toList :=
  ⟨⟨by decide, by decide, by norm_num [Double.toRat], by decide, by decide⟩,
    ⟨by decide, by decide, by norm_num [Double.toRat], by decide, by decide, by decide⟩,
    ⟨by norm_num [Double.toRat], by decide, by decide⟩,
    by decide, by decide, by decide, by decide⟩

/-- C21 (as amended): in the output of a successful `transform`, the `[Events]` records
are the format line followed by one record for every event, in order and with the type
of the event.  For an event whose `Start` is defined, with the value `start`, the
`Start` field of the new data is `format_time v`, where `v` is the value of
`ts *= scale; ts += offset` (`scale_offset`: the product is rounded to `double` and
converted to an integer, its fractional part discarded, and then the offset is added);
its `End` field is `format_time w`, with `w` computed from the value of `End` in the
same way, when `End` is defined and the type is neither `Command` nor `Sound`, and it is
empty when `End` is not defined or the type is `Command` or `Sound`.  For an event whose
`Start` is not defined both fields are empty.  A field of such an event is not defined
exactly when its span is empty.  When the product of a value and `scale` is a whole
number `k` (below `2 ^ 31`), the value computed is `k + offset`, or `-k + offset` for a
negative `scale`.  The declaration has fewer than `2 ^ 32` characters, so
that the 32-bit counter of `get_field` reaches the indices of its fields, and the data
of an event, a `std::string`, has fewer than `npos - 20` characters. -/
theorem transform_event_result (ass_in ass_out a : ASSFile) (offset : Int) (scale : Double)
    (format_line : Str × Str) (lines : List (Str × Str)) (hn : ass_in.sections_.Nodup)
    (hmem : EVENTS ∈ ass_in.sections_)
    (hev : ass_in.Section EVENTS = .ok (format_line :: lines))
    (_hfmt : format_line.2.length < 2 ^ 32)
    (hlen : ∀ r ∈ lines, r.2.length + 20 < npos)
    (h : transform ass_in offset scale ass_out = .ok a) :
    (∃ start_idx end_idx outs,
      get_field_index format_line.2 "Start".toList = some start_idx ∧
      get_field_index format_line.2 "End".toList = some end_idx ∧
      a.Section EVENTS = .ok (format_line :: outs) ∧
      List.Forall₂ (fun r o =>
        o.1 = r.1 ∧
        (field_time r.2 start_idx = none ↔
          (get_field r.2 start_idx).2.2 ≤ (get_field r.2 start_idx).2.1) ∧
        (field_time r.2 end_idx = none ↔
          (get_field r.2 end_idx).2.2 ≤ (get_field r.2 end_idx).2.1) ∧
        (∀ start, field_time r.2 start_idx = some start →
          (∃ v text, scale_offset (start : Int) scale offset = .ok v ∧ 0 ≤ v ∧
            format_time v.toNat = .ok text ∧ field_text o.2 start_idx = some text) ∧
          (∀ end_, field_time r.2 end_idx = some end_ →
            ¬ (r.1 = COMMAND_EVENT ∨ r.1 = SOUND_EVENT) →
            ∃ w text, scale_offset (end_ : Int) scale offset = .ok w ∧ 0 ≤ w ∧
              format_time w.toNat = .ok text ∧ field_text o.2 end_idx = some text) ∧
          (field_time r.2 end_idx = none ∨ r.1 = COMMAND_EVENT ∨ r.1 = SOUND_EVENT →
            field_text o.2 end_idx = some [])) ∧
        (field_time r.2 start_idx = none →
          field_text o.2 start_idx = some [] ∧ field_text o.2 end_idx = some [])) lines outs) ∧
    (∀ (x n d k : Nat) (neg : Bool), scale = .finite neg n d → x * n = k * 2 ^ d → k < 2 ^ 31 →
      -(2 ^ 31) ≤ (if neg then -(k : Int) else k) + offset →
      (if neg then -(k : Int) else k) + offset < 2 ^ 31 →
      scale_offset (x : Int) scale offset = .ok ((if neg then -(k : Int) else k) + offset)) := by
  refine ⟨?_, fun x n d k neg hsc hprod hk h1 h2 => by
    rw [hsc]; exact scale_offset_whole x n d k neg offset hprod hk ⟨h1, h2⟩⟩
  obtain ⟨_, si, ei, hi, hall⟩ :=
    transform_ok_format ass_in offset scale ass_out a format_line lines hmem hev h
  obtain ⟨_, hk⟩ := transform_spec ass_in offset scale ass_out a hn h
  obtain ⟨hs, he⟩ := format_indices_ok _ _ _ hi
  have hne : si ≠ ei := format_indices_ne _ _ _ hi
  refine ⟨si, ei, lines.filterMap (fun r =>
    match transform_event offset scale si ei r.1 r.2 with
    | .ok data => some (r.1, data)
    | .error _ => none), hs, he, ?_, ?_⟩
  · apply map_at_of_map_get
    rw [hk EVENTS, if_pos hmem]
    simp [transform_records, hev, hi]
  · apply forall₂_filterMap
    intro r hr
    obtain ⟨data, hd⟩ := hall r hr
    refine ⟨(r.1, data), by rw [hd], rfl, ?_⟩
    exact transform_event_fields offset scale si ei r.1 r.2 data (hlen r hr) hne hd

set_option maxRecDepth 100000 in
/-- C21 (as amended) on the claim's witness, `offset = 200` and `scale = 2`: the event
that starts at `0:00:01.00` and has no `End` is written with `0:00:04.00` and an empty
`End`; so is the `Sound` event with a timestamp in `End`; the event without `Start` is
written with two empty fields.  A `Sound` event whose `End` holds a text that
`parse_time` rejects makes the rewrite fail. -/
theorem transform_event_result_witness :
    shift_events.sections_.Nodup ∧ EVENTS ∈ shift_events.sections_ ∧
    shift_events.Section EVENTS = .ok (two_events_format :: shift_events_lines) ∧
    two_events_format.2.length < 2 ^ 32 ∧
    (∀ r ∈ shift_events_lines, r.2.length + 20 < npos) ∧
    transform shift_events 200 (.finite false 2 0) (ASSFile.new) = .ok shifted_events ∧
    shifted_events.Section EVENTS = .ok (two_events_format :: shifted_events_lines) ∧
    scale_offset 100 (.finite false 2 0) 200 = .ok 400 ∧
    format_time 400 = .ok "0:00:04.00".toList ∧
    field_text "0:00:04.00,,Hi".toList 0 = some "0:00:04.00".toList ∧
    field_text "0:00:04.00,,Hi".toList 1 = some [] ∧
    field_text ",,Hi".toList 0 = some [] ∧ field_text ",,Hi".toList 1 = some [] ∧
    transform_event 200 (.finite false 2 0) 0 1 "Sound".toList "0:00:01.00,abc,Hi".toList
      = .error (.io_error "invalid timestamp format") ∧
    ∃ start_idx end_idx outs,
      get_field_index two_events_format.2 "Start".toList = some start_idx ∧
      get_field_index two_events_format.2 "End".toList = some end_idx ∧
      shifted_events.Section EVENTS = .ok (two_events_format :: outs) ∧
      outs.length = shift_events_lines.length :=
  ⟨by decide, by decide, by decide, by decide, by decide, by decide, by decide, by decide,
    by decide, by decide, by decide, by decide, by decide, by decide,
    let ⟨si, ei, outs, h1, h2, h3, h4⟩ :=
      (transform_event_result shift_events (ASSFile.new) shifted_events 200 (.finite false 2 0)
        two_events_format shift_events_lines (by decide) (by decide) (by decide) (by decide)
        (by decide) (by decide)).1
    ⟨si, ei, outs, h1, h2, h3, h4.length_eq.symm⟩⟩

/-- C22: the records of a loaded document belong to the five canonical sections; the
loop of `load` is its body applied in turn to the lines read; on a bracketed header,
recognised or not, the body adds a field in progress as a record of the section that
was current before the header, and sets `skip_section` when the header is not
canonical, keeping the current section; in a skipped section a line that is not a
bracketed header leaves the state as it is, so that it adds no record and throws
nothing, with or without a `:`; and the lines `ls` between an unrecognised header and
the next header can be removed from the lines without changing the result of the loop. -/
theorem load_section_handling (pre ls post : List Str) (header : Str) (s : LoadState)
    (hh : defines_section header = true) (hu : StringTrim header ∉ SECTIONS)
    (h : ∀ l ∈ ls, defines_section l = false) :
    load_lines (pre ++ header :: (ls ++ post)) s = load_lines (pre ++ header :: post) s ∧
    (∀ (this : ASSFile) (input : ifstream) (d : ASSFile), this.load input = .ok d →
      (∀ key ∈ d.sections_, key ∈ SECTIONS) ∧ ∀ e ∈ d.sections_map_, e.1 ∈ SECTIONS) ∧
    (∀ (fuel : Nat) (input : ifstream) (s1 : LoadState),
      load_loop fuel input s1 = load_lines (read_lines s1.file.line_break_ fuel input) s1) ∧
    (∀ (line : Str) (s1 : LoadState), defines_section line = true →
      load_line line s1 = .ok
        { file := if s1.current_type = [] then s1.file
            else s1.file.add_line s1.current_section s1.current_type s1.current_data
          skip_section := !(SECTIONS.contains (StringTrim line))
          current_type := []
          current_data := if s1.current_type = [] then s1.current_data else []
          current_section :=
            if SECTIONS.contains (StringTrim line) then StringTrim line
            else s1.current_section }) ∧
    (∀ (line : Str) (s1 : LoadState), s1.skip_section = true → defines_section line = false →
      load_line line s1 = .ok s1) := by
  exact ⟨load_lines_skipped pre ls post header s hh hu h, load_canonical, load_loop_lines,
    load_line_header, load_line_skip⟩

set_option maxRecDepth 100000 in
/-- C22 on the example file `skipped_section_file`: the field `fontname` is flushed to
`[Fonts]` at the header `[Aegisub Project Garbage]`, and the two lines of this section
add nothing. -/
theorem load_section_handling_witness :
    defines_section "[Aegisub Project Garbage]".toList = true ∧
    StringTrim "[Aegisub Project Garbage]".toList ∉ SECTIONS ∧
    (∀ l ∈ ["no delimiter here".toList, "Active Line: 3".toList], defines_section l = false) ∧
    load_lines (["Title: x".toList, "[Fonts]".toList, "fontname: a.ttf".toList] ++
        "[Aegisub Project Garbage]".toList ::
          (["no delimiter here".toList, "Active Line: 3".toList] ++
            ["[Events]".toList, "Format: Start,End,Text".toList])) load_start
      = load_lines (["Title: x".toList, "[Fonts]".toList, "fontname: a.ttf".toList] ++
          "[Aegisub Project Garbage]".toList ::
            ["[Events]".toList, "Format: Start,End,Text".toList]) load_start ∧
    load_lines (["Title: x".toList, "[Fonts]".toList, "fontname: a.ttf".toList] ++
        "[Aegisub Project Garbage]".toList ::
          ["[Events]".toList, "Format: Start,End,Text".toList]) load_start
      = .ok ⟨skipped_section_doc, false, [], [], EVENTS⟩ ∧
    load_line "[Aegisub Project Garbage]".toList font_in_progress
      = .ok ⟨⟨false, LINE_SEPARATOR, [], [SCRIPT_INFO, FONTS],
          [(SCRIPT_INFO, [("Title".toList, " x".toList)]),
           (FONTS, [(FONT_LINE, " a.ttf".toList)])]⟩, true, [], [], FONTS⟩ ∧
    (ASSFile.new).load (ifstream.of skipped_section_file) = .ok skipped_section_doc :=
  ⟨by decide, by decide, by decide,
    (load_section_handling ["Title: x".toList, "[Fonts]".toList, "fontname: a.ttf".toList]
      ["no delimiter here".toList, "Active Line: 3".toList]
      ["[Events]".toList, "Format: Start,End,Text".toList] "[Aegisub Project Garbage]".toList
      load_start (by decide) (by decide) (by decide)).1,
    by decide, by decide, by decide⟩

/-- C23: while a multi-line field is in progress (`current_type` is not empty) in a
section that is not skipped, the body of the loop of `load` on a line that is not a
comment, not blank and not a bracketed header, with the trimmed text `c :: tl`: when `c`
is not a lower-case letter, the line break and the trimmed text are appended to the
data, the field stays in progress when the trimmed text has 80 characters or more, and
it is added as one record, with the data so extended, when the text has fewer; when `c`
is a lower-case letter the field is added as one record with the data as it was.  In the
two cases that end the field the record lists change by this one record only, so that
the line itself yields no record.  After the last line of the input, `load` adds a field
that is still in progress as the last record of the current section. -/
theorem load_multiline_continuation (line : Str) (s : LoadState) (c : Char) (tl : Str)
    (hskip : s.skip_section = false) (hprog : s.current_type ≠ [])
    (hcomment : line.head? ≠ some ';') (hL : StringTrim line = c :: tl)
    (hhead : defines_section line = false) :
    (islower c = false → 80 ≤ (c :: tl).length →
      load_line line s
        = .ok { s with current_data := s.current_data ++ (s.file.line_break_ ++ c :: tl) }) ∧
    (islower c = false → (c :: tl).length < 80 →
      load_line line s = .ok
        { s with
          file := s.file.add_line s.current_section s.current_type
            (s.current_data ++ (s.file.line_break_ ++ c :: tl))
          current_type := []
          current_data := [] }) ∧
    (islower c = true →
      load_line line s = .ok
        { s with
          file := s.file.add_line s.current_section s.current_type s.current_data
          current_type := []
          current_data := [] }) ∧
    (∀ s2, load_line line s = .ok s2 → s2.current_type = [] →
      ∀ key, map_get s2.file.sections_map_ key = map_get s.file.sections_map_ key ++
        (if s.current_section = key then
          [(s.current_type, if islower c then s.current_data
            else s.current_data ++ (s.file.line_break_ ++ c :: tl))]
        else [])) ∧
    (∀ (this : ASSFile) (input : ifstream) (d : ASSFile), this.load input = .ok d →
      ∃ first_line input2 line_break last,
        getline input LINE_SEPARATOR = (true, first_line, input2) ∧
        load_lines (read_lines line_break (input2.rest.length + 1) input2)
          ⟨⟨StringStartsWith first_line BOM, line_break, [], [SCRIPT_INFO], []⟩, false, [], [],
            SCRIPT_INFO⟩ = .ok last ∧
        (last.current_type = [] → d = last.file) ∧
        (last.current_type ≠ [] →
          d = last.file.add_line last.current_section last.current_type last.current_data ∧
          d.Section last.current_section
            = .ok (map_get last.file.sections_map_ last.current_section ++
                [(last.current_type, last.current_data)]))) := by
  have hl := load_line_continue line s c tl hskip hprog hcomment hL hhead
  refine ⟨?_, ?_, ?_, ?_, ?_⟩
  · intro h1 h2
    rw [hl, h1]
    have : ¬ (c :: tl).length < 80 := by omega
    simp only [Bool.false_eq_true, if_false, this]
  · intro h1 h2
    rw [hl, h1]
    simp only [Bool.false_eq_true, if_false, h2, if_true]
  · intro h1
    rw [hl, h1]
    simp only [if_true]
  · intro s2 h2 hct key
    rw [hl] at h2
    simp only [Except.ok.injEq] at h2
    subst h2
    cases h1 : islower c
    · simp only [h1, Bool.false_eq_true, if_false] at hct ⊢
      by_cases hlen : (c :: tl).length < 80
      · simp only [hlen, if_true]
        exact map_get_add_line _ _ _ _ _
      · simp only [hlen, if_false] at hct
        exact absurd hct hprog
    · simp only [if_true]
      exact map_get_add_line _ _ _ _ _
  · intro this input d h
    obtain ⟨first_line, input2, lb, last, h1, h2, h3⟩ := load_ok this input d h
    refine ⟨first_line, input2, lb, last, h1, h2, ?_, ?_⟩
    · intro hct
      rw [h3, if_pos hct]
    · intro hct
      rw [h3, if_neg hct]
      refine ⟨rfl, ?_⟩
      rw [Section_add_line, if_pos rfl]

set_option maxRecDepth 100000 in
/-- C23 on the line `fontname: b.ttf` read while the field `fontname` of `a.ttf` is in
progress: the field is added to `[Fonts]` and the line yields no record; and on the
example file `unfinished_font_file`, which ends while the field is in progress. -/
theorem load_multiline_continuation_witness :
    font_in_progress.skip_section = false ∧ font_in_progress.current_type ≠ [] ∧
    "fontname: b.ttf".toList.head? ≠ some ';' ∧
    StringTrim "fontname: b.ttf".toList = 'f' :: "ontname: b.ttf".toList ∧
    defines_section "fontname: b.ttf".toList = false ∧
    islower 'f' = true ∧
    load_line "fontname: b.ttf".toList font_in_progress
      = .ok ⟨⟨false, LINE_SEPARATOR, [], [SCRIPT_INFO, FONTS],
          [(SCRIPT_INFO, [("Title".toList, " x".toList)]),
           (FONTS, [(FONT_LINE, " a.ttf".toList)])]⟩, false, [], [], FONTS⟩ ∧
    load_line "fontname: b.ttf".toList font_in_progress = .ok
      { font_in_progress with
        file := font_in_progress.file.add_line font_in_progress.current_section
          font_in_progress.current_type font_in_progress.current_data
        current_type := []
        current_data := [] } ∧
    (ASSFile.new).load (ifstream.of unfinished_font_file) = .ok unfinished_font_doc :=
  ⟨by decide, by decide, by decide, by decide, by decide, by decide, by decide,
    (load_multiline_continuation "fontname: b.ttf".toList font_in_progress 'f'
      "ontname: b.ttf".toList (by decide) (by decide) (by decide) (by decide)
      (by decide)).2.2.1 (by decide),
    by decide⟩

/-- C24 (the code at the failing inputs, and what holds beside them): with the delimiter
`\r\n`, `getline` on the remaining input `a\r\r\nb` returns the line `a\r\r` instead of
`a\r`, the text before the first `\r\n`: after the first `\r` is matched, the second `\r`
is compared with `\n` only, is written to the line together with the matched `\r`, and
`idx` keeps its value; on `x\ry\nz`, which does not contain `\r\n`, it returns the line
`x\ry` and leaves `z`, and on `\r\r\n` the line `\r\r`.  A second defect: the byte `0xFF`
is taken for the end of the file, because `input.get()` is stored in a `char` before it is
compared with `eof()`; with the delimiter `\n`, `getline` on `a`, `0xFF`, `b\nc` returns
the line `a` instead of `a`, `0xFF`, `b`, leaves `b\nc` and a stream that is still good, and
on `0xFF`, `b\nc` it returns false with an empty line; in general the line ends before the
first `0xFF` when the first character of the delimiter does not occur before it.  Beside
the two defects: when neither the first character of the delimiter nor the byte `0xFF`
occurs before the first occurrence of the delimiter, and the delimiter has no `0xFF`,
`getline` returns true, the line is the text before the delimiter and the text after the
delimiter is left in the stream; when neither occurs in the input at all, the line is the
whole input and the result is true exactly when the input is not empty. -/
theorem getline_continues_match_after_mismatch :
    (getline (ifstream.of "a\r\r\nb".toList) "\r\n".toList
        = (true, "a\r\r".toList, ⟨true, true, "b".toList⟩) ∧
      getline (ifstream.of "x\ry\nz".toList) "\r\n".toList
        = (true, "x\ry".toList, ⟨true, true, "z".toList⟩) ∧
      getline (ifstream.of "\r\r\n".toList) "\r\n".toList
        = (true, "\r\r".toList, ⟨true, true, []⟩)) ∧
    (getline (ifstream.of ['a', '\xff', 'b', '\n', 'c']) "\n".toList
        = (true, "a".toList, ⟨true, true, "b\nc".toList⟩) ∧
      getline (ifstream.of ['\xff', 'b', '\n', 'c']) "\n".toList
        = (false, [], ⟨true, true, "b\nc".toList⟩)) ∧
    (∀ (input : ifstream) (delim pre post : Str), input.good = true → delim ≠ [] →
      input.rest = pre ++ '\xff' :: post → (∀ c ∈ pre, delim.head? ≠ some c) →
      '\xff' ∉ pre →
      getline input delim = (!pre.isEmpty, pre, { input with good := true, rest := post })) ∧
    (∀ (input : ifstream) (delim pre post : Str), input.good = true → delim ≠ [] →
      input.rest = pre ++ delim ++ post → (∀ c ∈ pre, delim.head? ≠ some c) →
      '\xff' ∉ pre → '\xff' ∉ delim →
      getline input delim = (true, pre, { input with good := true, rest := post })) ∧
    (∀ (input : ifstream) (delim : Str), input.good = true → delim ≠ [] →
      (∀ c ∈ input.rest, delim.head? ≠ some c) → '\xff' ∉ input.rest →
      getline input delim
        = (!input.rest.isEmpty, input.rest, { input with good := false, rest := [] })) :=
  ⟨by decide, by decide,
    fun input delim pre post hg hd hrest h hpre =>
      getline_at_ff input delim pre post hg hd hrest h hpre,
    fun input delim pre post hg hd hrest h hpre hdelim =>
      getline_delimited input delim pre post hg hd hrest h hpre hdelim,
    fun input delim hg hd h hff => getline_undelimited input delim hg hd h hff⟩

/-- C25: for a line and two indices `i < j` on which `get_field` succeeds, the end of the
span of `i` is the position that `find` returns for the delimiter after the start of the
span, it is not `npos`, the line holds a delimiter there, and
`start_i <= end_i < start_j`; the length `start_j - end_i` of the middle segment is
computed without wrapping.  The indices that `get_field_index` returns for `Start` and
`End` in a format declaration differ, an event of `split` or `transform` with two
different indices, in either order, does not throw `unexpected error`, and neither do
`split` and `transform` on a document.  A `std::string` has fewer than `npos`
characters, and the 32-bit counter of `get_field` reaches every index below `2 ^ 32`,
hence the indices of a format declaration with fewer than `2 ^ 32` characters. -/
theorem field_spans_ordered (line : Str) (i j : Nat) (hlen : line.length < npos) (hij : i < j)
    (_hj32 : j < 2 ^ 32)
    (hi : (get_field line i).1 = true) (hj : (get_field line j).1 = true) :
    ((get_field line i).2.2 ≠ npos ∧
      (get_field line i).2.2 = find line FIELD_DELIMITER (get_field line i).2.1 ∧
      line.get? (get_field line i).2.2 = some ',' ∧
      (get_field line i).2.1 ≤ (get_field line i).2.2 ∧
      (get_field line i).2.2 < (get_field line j).2.1) ∧
    size_sub (get_field line j).2.1 (get_field line i).2.2
      = (get_field line j).2.1 - (get_field line i).2.2 ∧
    (∀ (format : Str) (start_idx end_idx : Nat),
      get_field_index format "Start".toList = some start_idx →
      get_field_index format "End".toList = some end_idx → start_idx ≠ end_idx) ∧
    (∀ (t : Nat) (offset : Int) (scale : Double) (line_type : Str),
      split_event t i j line_type line ≠ .error (.io_error "unexpected error") ∧
      split_event t j i line_type line ≠ .error (.io_error "unexpected error") ∧
      transform_event offset scale i j line_type line ≠ .error (.io_error "unexpected error") ∧
      transform_event offset scale j i line_type line
        ≠ .error (.io_error "unexpected error")) ∧
    (∀ (ass first second ass_out : ASSFile) (t : Nat) (offset : Int) (scale : Double),
      (∀ r ∈ map_get ass.sections_map_ EVENTS, r.2.length < npos) →
      (∀ r ∈ (map_get ass.sections_map_ EVENTS).head?, r.2.length < 2 ^ 32) →
      split ass t first second ≠ .error (.io_error "unexpected error") ∧
      transform ass offset scale ass_out ≠ .error (.io_error "unexpected error")) := by
  obtain ⟨h1, h2, h3, h4, h5, _⟩ := get_field_ordered line i j hlen hij hi hj
  have hne : i ≠ j := by omega
  refine ⟨⟨h1, h2, h3, h4, h5⟩, ?_, ?_, ?_, ?_⟩
  · exact (middle_segment line i j hlen hne hi hj (by omega)).2
  · intro format start_idx end_idx hs he
    exact get_field_index_ne format "Start".toList "End".toList _ _ (by decide) hs he
  · intro t offset scale line_type
    exact ⟨split_event_ne_unexpected t i j line_type line hlen hne,
      split_event_ne_unexpected t j i line_type line hlen hne.symm,
      transform_event_ne_unexpected offset scale i j line_type line hlen hne,
      transform_event_ne_unexpected offset scale j i line_type line hlen hne.symm⟩
  · intro ass first second ass_out t offset scale hl0 _
    have hl : ∀ l, ass.Section EVENTS = .ok l → ∀ r ∈ l, r.2.length < npos := by
      intro l hsec r hr
      apply hl0 r
      rw [map_get_of_at _ _ _ hsec]
      exact hr
    exact ⟨split_sections_ne_unexpected ass t _ _ _ hl,
      transform_sections_ne_unexpected ass offset scale _ _ hl⟩

/-- C25 on the event data `0:00:05.00,0:00:15.00,Hi`, with `Start` at `[0, 10)` and `End`
at `[11, 21)`. -/
theorem field_spans_ordered_witness :
    "0:00:05.00,0:00:15.00,Hi".toList.length < npos ∧ (0 : Nat) < 1 ∧ (1 : Nat) < 2 ^ 32 ∧
    get_field "0:00:05.00,0:00:15.00,Hi".toList 0 = (true, 0, 10) ∧
    get_field "0:00:05.00,0:00:15.00,Hi".toList 1 = (true, 11, 21) ∧
    ((get_field "0:00:05.00,0:00:15.00,Hi".toList 0).2.2 ≠ npos ∧
      (get_field "0:00:05.00,0:00:15.00,Hi".toList 0).2.2
        = find "0:00:05.00,0:00:15.00,Hi".toList FIELD_DELIMITER
            (get_field "0:00:05.00,0:00:15.00,Hi".toList 0).2.1 ∧
      "0:00:05.00,0:00:15.00,Hi".toList.get?
        (get_field "0:00:05.00,0:00:15.00,Hi".toList 0).2.2 = some ',' ∧
      (get_field "0:00:05.00,0:00:15.00,Hi".toList 0).2.1
        ≤ (get_field "0:00:05.00,0:00:15.00,Hi".toList 0).2.2 ∧
      (get_field "0:00:05.00,0:00:15.00,Hi".toList 0).2.2
        < (get_field "0:00:05.00,0:00:15.00,Hi".toList 1).2.1) ∧
    split two_events 1000 (ASSFile.new) (ASSFile.new) ≠ .error (.io_error "unexpected error") :=
  ⟨by decide, by decide, by decide, by decide, by decide,
    (field_spans_ordered "0:00:05.00,0:00:15.00,Hi".toList 0 1 (by decide) (by decide)
      (by decide) (by decide) (by decide)).1,
    ((field_spans_ordered "0:00:05.00,0:00:15.00,Hi".toList 0 1 (by decide) (by decide)
      (by decide) (by decide) (by decide)).2.2.2.2 two_events (ASSFile.new) (ASSFile.new)
      (ASSFile.new) 1000 0 (.finite false 1 0) (by decide) (by decide)).1⟩

end ass
